import Mathlib

/-!
# JSON subsystem of the transport catalogue

A shallow embedding of `json.h`, `json.cpp`, `json_builder.h` and
`json_builder.cpp`: the `Node` value model, the Builder state machine, the
recursive-descent parser over an explicit input-stream state, and the printer.

Conventions of the embedding.
* `std::string` is a `List Char`; a `char` is a `Char`.
* `int` is an `Int` kept in the 32-bit range by `wrapInt` wherever the source does
  arithmetic on it.
* `std::map<std::string, Node>` is an association list kept in strictly increasing
  key order; `std::vector` is a `List` (for the two Builder stacks the head of the
  list is `back()`).
* `double` is the exact decimal number `mant * 10 ^ exp10` (structure `Double`);
  binary rounding, infinities and NaN are outside the embedding.
* A C++ exception is a value: the parser returns `ParseResult`, a Builder call
  returns `Outcome`, which keeps the Builder as the call left it.
-/

namespace json

/-- The C++ `double`, as the exact decimal value `mant * 10 ^ exp10`, kept normalised:
`mant` is not a multiple of ten unless the value is zero, and zero is `⟨0, 0⟩`. -/
structure Double where
  mant : Int
  exp10 : Int
deriving DecidableEq, Repr

/-- The variant `json::Value` held by a `json::Node`. -/
inductive Node where
  | null
  | bool (value : Bool)
  | double (value : Double)
  | int (value : Int)
  | array (value : List Node)
  | dict (value : List (List Char × Node))
  | string (value : List Char)
deriving Repr

/-- A `json::Dict`: the entries of a `std::map<std::string, Node>` in iteration order. -/
abbrev Dict := List (List Char × Node)

/-- A `json::Array`. -/
abbrev Array := List Node

/-- The order of `std::less<std::string>`: lexicographic on the character codes. -/
def strLt : List Char → List Char → Bool
  | [], [] => false
  | [], _ :: _ => true
  | _ :: _, [] => false
  | a :: as, b :: bs =>
    if a.toNat < b.toNat then true
    else if b.toNat < a.toNat then false
    else strLt as bs

/-- The representation invariant of `std::map`: keys strictly increasing. -/
def Dict.sorted : Dict → Bool
  | [] => true
  | [_] => true
  | (k₁, _) :: (k₂, v₂) :: rest => strLt k₁ k₂ && Dict.sorted ((k₂, v₂) :: rest)

/-- `std::map::insert`: adds the entry unless the key is already present. -/
def Dict.insert : Dict → List Char → Node → Dict
  | [], k, v => [(k, v)]
  | (k', v') :: rest, k, v =>
    if strLt k k' then (k, v) :: (k', v') :: rest
    else if strLt k' k then (k', v') :: Dict.insert rest k v
    else (k', v') :: rest

/-- The statement `map[key] = value`: adds the entry or overwrites the value. -/
def Dict.assign : Dict → List Char → Node → Dict
  | [], k, v => [(k, v)]
  | (k', v') :: rest, k, v =>
    if strLt k k' then (k, v) :: (k', v') :: rest
    else if strLt k' k then (k', v') :: Dict.assign rest k v
    else (k', v) :: rest

/-- `std::map::find`, as an optional value. -/
def Dict.find : Dict → List Char → Option Node
  | [], _ => none
  | (k', v') :: rest, k => if k' = k then some v' else Dict.find rest k

/-- Number of entries stored under a key. -/
def Dict.count (m : Dict) (k : List Char) : Nat :=
  (m.filter (fun e => decide (e.1 = k))).length

mutual
/-- Decision procedure for equality of nodes (`operator==` on the variant). -/
def Node.decEq : (a b : Node) → Decidable (a = b)
  | .null, .null => isTrue rfl
  | .null, .bool _ => isFalse nofun
  | .null, .double _ => isFalse nofun
  | .null, .int _ => isFalse nofun
  | .null, .array _ => isFalse nofun
  | .null, .dict _ => isFalse nofun
  | .null, .string _ => isFalse nofun
  | .bool _, .null => isFalse nofun
  | .bool x, .bool y =>
    if h : x = y then isTrue (congrArg Node.bool h) else isFalse (fun e => h (Node.bool.inj e))
  | .bool _, .double _ => isFalse nofun
  | .bool _, .int _ => isFalse nofun
  | .bool _, .array _ => isFalse nofun
  | .bool _, .dict _ => isFalse nofun
  | .bool _, .string _ => isFalse nofun
  | .double _, .null => isFalse nofun
  | .double _, .bool _ => isFalse nofun
  | .double x, .double y =>
    if h : x = y then isTrue (congrArg Node.double h) else isFalse (fun e => h (Node.double.inj e))
  | .double _, .int _ => isFalse nofun
  | .double _, .array _ => isFalse nofun
  | .double _, .dict _ => isFalse nofun
  | .double _, .string _ => isFalse nofun
  | .int _, .null => isFalse nofun
  | .int _, .bool _ => isFalse nofun
  | .int _, .double _ => isFalse nofun
  | .int x, .int y =>
    if h : x = y then isTrue (congrArg Node.int h) else isFalse (fun e => h (Node.int.inj e))
  | .int _, .array _ => isFalse nofun
  | .int _, .dict _ => isFalse nofun
  | .int _, .string _ => isFalse nofun
  | .array _, .null => isFalse nofun
  | .array _, .bool _ => isFalse nofun
  | .array _, .double _ => isFalse nofun
  | .array _, .int _ => isFalse nofun
  | .array x, .array y =>
    match Node.decEqArray x y with
    | isTrue h => isTrue (congrArg Node.array h)
    | isFalse h => isFalse (fun e => h (Node.array.inj e))
  | .array _, .dict _ => isFalse nofun
  | .array _, .string _ => isFalse nofun
  | .dict _, .null => isFalse nofun
  | .dict _, .bool _ => isFalse nofun
  | .dict _, .double _ => isFalse nofun
  | .dict _, .int _ => isFalse nofun
  | .dict _, .array _ => isFalse nofun
  | .dict x, .dict y =>
    match Node.decEqDict x y with
    | isTrue h => isTrue (congrArg Node.dict h)
    | isFalse h => isFalse (fun e => h (Node.dict.inj e))
  | .dict _, .string _ => isFalse nofun
  | .string _, .null => isFalse nofun
  | .string _, .bool _ => isFalse nofun
  | .string _, .double _ => isFalse nofun
  | .string _, .int _ => isFalse nofun
  | .string _, .array _ => isFalse nofun
  | .string _, .dict _ => isFalse nofun
  | .string x, .string y =>
    if h : x = y then isTrue (congrArg Node.string h) else isFalse (fun e => h (Node.string.inj e))
/-- Decision procedure for equality of arrays. -/
def Node.decEqArray : (a b : List Node) → Decidable (a = b)
  | [], [] => isTrue rfl
  | [], _ :: _ => isFalse nofun
  | _ :: _, [] => isFalse nofun
  | x :: xs, y :: ys =>
    match Node.decEq x y, Node.decEqArray xs ys with
    | isTrue h₁, isTrue h₂ => isTrue (by rw [h₁, h₂])
    | isFalse h₁, _ => isFalse (fun e => h₁ (List.cons.inj e).1)
    | _, isFalse h₂ => isFalse (fun e => h₂ (List.cons.inj e).2)
/-- Decision procedure for equality of maps. -/
def Node.decEqDict : (a b : List (List Char × Node)) → Decidable (a = b)
  | [], [] => isTrue rfl
  | [], _ :: _ => isFalse nofun
  | _ :: _, [] => isFalse nofun
  | (k, x) :: xs, (l, y) :: ys =>
    if hk : k = l then
      match Node.decEq x y, Node.decEqDict xs ys with
      | isTrue h₁, isTrue h₂ => isTrue (by rw [hk, h₁, h₂])
      | isFalse h₁, _ => isFalse (fun e => h₁ (Prod.mk.inj (List.cons.inj e).1).2)
      | _, isFalse h₂ => isFalse (fun e => h₂ (List.cons.inj e).2)
    else isFalse (fun e => hk (Prod.mk.inj (List.cons.inj e).1).1)
end

instance : DecidableEq Node := Node.decEq

mutual
/-- Every map inside the node satisfies the `std::map` invariant. -/
def Node.WF : Node → Bool
  | .array a => Node.WFArray a
  | .dict m => Dict.sorted m && Node.WFDict m
  | _ => true
/-- Every element is well formed. -/
def Node.WFArray : List Node → Bool
  | [] => true
  | x :: xs => Node.WF x && Node.WFArray xs
/-- Every mapped value is well formed. -/
def Node.WFDict : List (List Char × Node) → Bool
  | [] => true
  | (_, x) :: xs => Node.WF x && Node.WFDict xs
end


/-! ## Machine numbers -/

/-- Two's-complement wraparound of a 32-bit `int`. -/
def wrapInt (x : Int) : Int := (x + 2147483648) % 4294967296 - 2147483648

/-- The decimal digits of a number, most significant first, by repeated division;
`fuel` bounds the number of digits. -/
def natDigitsAux : Nat → Nat → List Nat → List Nat
  | 0, _, acc => acc
  | fuel + 1, n, acc =>
    if n < 10 then n :: acc else natDigitsAux fuel (n / 10) (n % 10 :: acc)

/-- The decimal digits of `n`, most significant first; `[0]` for zero. -/
def natDigits (n : Nat) : List Nat := natDigitsAux (n + 1) n []

/-- The number written by a list of decimal digits. -/
def digitsValue (ds : List Nat) : Nat := ds.foldl (fun a d => a * 10 + d) 0

/-- The character of a decimal digit. -/
def digitChar (d : Nat) : Char := Char.ofNat (48 + d)

/-- The decimal text of a natural number. -/
def natText (n : Nat) : List Char := (natDigits n).map digitChar

/-- The text `os << value` writes for an `int`. -/
def intText (i : Int) : List Char :=
  if i < 0 then '-' :: natText i.natAbs else natText i.natAbs

/-- Removes the factors of ten from a non-zero mantissa. -/
def Double.stripZeros : Nat → Int → Int → Double
  | 0, mant, exp10 => ⟨mant, exp10⟩
  | fuel + 1, mant, exp10 =>
    if mant % 10 = 0 then Double.stripZeros fuel (mant / 10) (exp10 + 1) else ⟨mant, exp10⟩

/-- The normalised representation of `mant * 10 ^ exp10`. -/
def Double.make (mant exp10 : Int) : Double :=
  if mant = 0 then ⟨0, 0⟩ else Double.stripZeros mant.natAbs mant exp10

/-- Conversion of an `int` to `double`. -/
def Double.ofInt (i : Int) : Double := Double.make i 0

/-- The sum of two doubles. -/
def Double.add (a b : Double) : Double :=
  let e := min a.exp10 b.exp10
  Double.make (a.mant * 10 ^ (a.exp10 - e).toNat + b.mant * 10 ^ (b.exp10 - e).toNat) e

/-- The difference of two doubles. -/
def Double.sub (a b : Double) : Double := Double.add a ⟨-b.mant, b.exp10⟩

/-- The product `a * std::pow(10.0, n)`. -/
def Double.mulPow10 (a : Double) (n : Int) : Double := Double.make a.mant (a.exp10 + n)

/-- The number that a run of decimal digits writes. -/
def fractionNumerator (digits : List Char) : Nat :=
  digitsValue (digits.map (fun c => c.toNat - 48))

/-- The value of the text `"0." + digits` for a run of decimal digits, as an exact
decimal. -/
def fractionValue (digits : List Char) : Double :=
  Double.make (fractionNumerator digits) (-(digits.length : Int))

/-- `strtod` reports a range error (`errno == ERANGE`) on the text `"0." + digits`: the
value `N / 10^n` of the text is not zero, it is below `DBL_MIN` = 2^-1022 even after it
has been rounded to the 53 bits of a `double` (that is, it is below
2^-1022 - 2^-1076), and it is not a multiple of 2^-1074, so that no subnormal `double`
holds it exactly. No text of this form overflows. -/
def strtodRangeError (digits : List Char) : Bool :=
  decide (0 < fractionNumerator digits) &&
  decide (fractionNumerator digits * 2 ^ 1076 < 10 ^ digits.length * (2 ^ 54 - 1)) &&
  decide (fractionNumerator digits * 2 ^ 1074 % 10 ^ digits.length ≠ 0)

/-- Drops the zeros at the end of a digit list. -/
def dropTrailingZeros (ds : List Nat) : List Nat :=
  (ds.reverse.dropWhile (fun d => d == 0)).reverse

/-- Rounds a digit list whose leading digit has decimal exponent `x` to six significant
digits, to nearest, ties to even. -/
def roundSix (ds : List Nat) (x : Int) : List Nat × Int :=
  if ds.length ≤ 6 then (ds, x)
  else
    let q := digitsValue (ds.take 6)
    let r := digitsValue (ds.drop 6)
    let half := 5 * 10 ^ (ds.length - 7)
    let q' := if r > half ∨ (r = half ∧ q % 2 = 1) then q + 1 else q
    if q' = 1000000 then ([1], x + 1) else (natDigits q', x)

/-- The `%e`-style text of the significant digits `ds` with decimal exponent `x`. -/
def sciText (ds : List Nat) (x : Int) : List Char :=
  let mantissa :=
    match ds with
    | [] => ['0']
    | [d] => [digitChar d]
    | d :: rest => digitChar d :: '.' :: rest.map digitChar
  let e := natText x.natAbs
  mantissa ++ 'e' :: (if x < 0 then '-' else '+') :: (if e.length < 2 then '0' :: e else e)

/-- The `%f`-style text of the significant digits `ds` with decimal exponent `x`, no
trailing zeros. -/
def fixedText (ds : List Nat) (x : Int) : List Char :=
  if x < 0 then
    '0' :: '.' :: (List.replicate (-x - 1).toNat '0' ++ ds.map digitChar)
  else
    let n := x.toNat + 1
    let whole := (ds.take n ++ List.replicate (n - ds.length) 0).map digitChar
    let frac := ds.drop n
    if frac.isEmpty then whole else whole ++ '.' :: frac.map digitChar

/-- The text `os << value` writes for a `double` on a stream with its default format
(`%g` with precision 6). -/
def Double.toText (d : Double) : List Char :=
  if d.mant = 0 then ['0']
  else
    let ds := natDigits d.mant.natAbs
    let (ds₆, x) := roundSix ds (d.exp10 + ds.length - 1)
    let body := if x < -4 ∨ x ≥ 6 then sciText (dropTrailingZeros ds₆) x
      else fixedText (dropTrailingZeros ds₆) x
    if d.mant < 0 then '-' :: body else body

/-- The value the digit loop of `LoadNumber` accumulates from `result` over a run of
digits: `result *= 10; result += digit` for each, in 32-bit arithmetic. -/
def accumulate (result : Int) (ds : List Nat) : Int :=
  List.foldl (fun (a : Int) (d : Nat) => wrapInt (wrapInt (a * 10) + (d : Int))) result ds

/-! ## Builder (`json_builder.h`, `json_builder.cpp`) -/

/-- The four state classes derived from `BuilderState` (`BuilderInitState`, ...), each with the inherited field
`node_`; `BuilderDictState` also has `current_key`. -/
inductive BuilderState where
  | InitState (node_ : Node)
  | ValueState (node_ : Node)
  | DictState (node_ : Node) (current_key : Option (List Char))
  | ArrayState (node_ : Node)
deriving DecidableEq, Repr

/-- The fields of `class Builder`. The head of each stack is its `back()`. -/
structure Builder where
  root_ : Option Node
  nodes_stack_ : List Node
  state_stack : List BuilderState
deriving DecidableEq, Repr

/-- How a Builder call ends: it returns, it throws `std::logic_error`, or it reads
`back()` of an empty vector (undefined behaviour). The Builder is kept as the call
left it. -/
inductive Outcome (α : Type) where
  | ok (value : α) (b : Builder)
  | thrown (what : String) (b : Builder)
  | undefined
deriving DecidableEq, Repr

/-- The call returned normally. -/
def Outcome.succeeds {α : Type} : Outcome α → Bool
  | .ok _ _ => true
  | _ => false

/-- The call threw an exception. -/
def Outcome.fails {α : Type} : Outcome α → Bool
  | .thrown _ _ => true
  | _ => false

/-- The Builder after the call, when the call is defined. -/
def Outcome.builder? {α : Type} : Outcome α → Option Builder
  | .ok _ b => some b
  | .thrown _ b => some b
  | .undefined => none

/-- The value left in a node by `std::move`: scalars are copied, a moved-from string,
vector or map is empty. -/
def Node.movedFrom : Node → Node
  | .array _ => .array []
  | .dict _ => .dict []
  | .string _ => .string []
  | n => n

/-- `Builder::Builder()`: the state stack holds one `BuilderInitState`, whose `node_`
is a default-constructed (null) node. -/
def Builder.new : Builder :=
  { root_ := none, nodes_stack_ := [], state_stack := [BuilderState.InitState Node.null] }

/-- `Builder::GetState`: `*state_stack.back()`. -/
def Builder.GetState (b : Builder) : Option BuilderState := b.state_stack.head?

/-- `Builder::PushBackState`. -/
def Builder.PushBackState (b : Builder) (state : BuilderState) : Builder :=
  { b with state_stack := state :: b.state_stack }

/-- `Builder::PopBackState`. -/
def Builder.PopBackState (b : Builder) : Builder :=
  { b with state_stack := b.state_stack.tail }

/-- `Builder::GetBackNode`: `nodes_stack_.back()`. -/
def Builder.GetBackNode (b : Builder) : Option Node := b.nodes_stack_.head?

/-- `Builder::PushNode`. -/
def Builder.PushNode (b : Builder) (node : Node) : Builder :=
  { b with nodes_stack_ := node :: b.nodes_stack_ }

/-- `Builder::PopNode`. -/
def Builder.PopNode (b : Builder) : Builder :=
  { b with nodes_stack_ := b.nodes_stack_.tail }

/-- `Builder::GetNodeStackSize`. -/
def Builder.GetNodeStackSize (b : Builder) : Nat := b.nodes_stack_.length

/-- Writes the fields of the state object on top of the state stack (the `this` of the
state method that is running). -/
def Builder.setState (b : Builder) (state : BuilderState) : Builder :=
  { b with state_stack := state :: b.state_stack.tail }

/-- `BuilderInitState::Value`, `BuilderValueState::Value`, `BuilderDictState::Value`
and `BuilderArrayState::Value`, run on the state on top of the stack. -/
def BuilderState.Value (self : BuilderState) (b : Builder) (node : Node) : Outcome Unit :=
  match self with
  | .InitState _ => .ok () (b.PushBackState (.ValueState node))
  | .ValueState _ => .thrown "Value called in Value state" b
  | .DictState node_ current_key =>
    match current_key with
    | some key =>
      match node_ with
      | .dict m => .ok () (b.setState (.DictState (.dict (Dict.assign m key node)) none))
      | _ => .thrown "Value is type is not Map" b
    | none => .thrown "Value called without Key in Dict state" b
  | .ArrayState node_ =>
    match node_ with
    | .array a => .ok () (b.setState (.ArrayState (.array (a ++ [node]))))
    | _ => .thrown "Value is type is not Array" b

/-- The four overrides of `StartDict`. A `BuilderDictState` is constructed with
`node_ = Dict()`. -/
def BuilderState.StartDict (self : BuilderState) (b : Builder) : Outcome Unit :=
  match self with
  | .InitState _ => .ok () (b.PushBackState (.DictState (.dict []) none))
  | .ValueState _ => .thrown "StartDict called in Value state" b
  | .DictState _ current_key =>
    match current_key with
    | some _ => .ok () (b.PushBackState (.DictState (.dict []) none))
    | none => .thrown "Key value not assigned. Unexpected call StartDict" b
  | .ArrayState _ => .ok () (b.PushBackState (.DictState (.dict []) none))

/-- The four overrides of `StartArray`. A `BuilderArrayState` is constructed with
`node_ = Array()`. -/
def BuilderState.StartArray (self : BuilderState) (b : Builder) : Outcome Unit :=
  match self with
  | .InitState _ => .ok () (b.PushBackState (.ArrayState (.array [])))
  | .ValueState _ => .thrown "StartArray called in Value state" b
  | .DictState _ current_key =>
    match current_key with
    | some _ => .ok () (b.PushBackState (.ArrayState (.array [])))
    | none => .thrown "Key value not assigned. Unexpected call StartArray" b
  | .ArrayState _ => .ok () (b.PushBackState (.ArrayState (.array [])))

/-- The four overrides of `EndDict`. `BuilderDictState::EndDict` moves `node_` onto the
node stack and tests nothing. -/
def BuilderState.EndDict (self : BuilderState) (b : Builder) : Outcome Unit :=
  match self with
  | .InitState _ => .thrown "EndDict called in Init state" b
  | .ValueState _ => .thrown "EndDict called in Value state" b
  | .DictState node_ current_key =>
    .ok () ((b.setState (.DictState node_.movedFrom current_key)).PushNode node_)
  | .ArrayState _ => .thrown "Unexpected call EndDict for Array state" b

/-- The four overrides of `EndArray`. -/
def BuilderState.EndArray (self : BuilderState) (b : Builder) : Outcome Unit :=
  match self with
  | .InitState _ => .thrown "EndArray called in Init state" b
  | .ValueState _ => .thrown "EndArray called in Value state" b
  | .DictState _ _ => .thrown "Unexpected call EndArray for Dict state" b
  | .ArrayState node_ => .ok () ((b.setState (.ArrayState node_.movedFrom)).PushNode node_)

/-- The four overrides of `Key`. -/
def BuilderState.Key (self : BuilderState) (b : Builder) (key : List Char) : Outcome Unit :=
  match self with
  | .InitState _ => .thrown "Key called in Init state" b
  | .ValueState _ => .thrown "Key called in Value state" b
  | .DictState node_ current_key =>
    match current_key with
    | none => .ok () (b.setState (.DictState node_ (some key)))
    | some _ => .thrown "secondary Key call in Dict state" b
  | .ArrayState _ => .thrown "Unexpected call Key for Array state" b

/-- The four overrides of `Build`. -/
def BuilderState.Build (self : BuilderState) (b : Builder) : Outcome Unit :=
  match self with
  | .InitState _ =>
    if b.GetNodeStackSize ≠ 1 then .thrown "Build called in Init state" b
    else
      match b.GetBackNode with
      | some node => .ok () ({ b with root_ := some node }.PopNode)
      | none => .undefined
  | .ValueState node_ =>
    .ok () ({ b with root_ := some node_ }.setState (.ValueState node_.movedFrom))
  | .DictState _ _ => .thrown "Unexpected Build call" b
  | .ArrayState _ => .thrown "Unexpected Build call" b

/-- `ProcessBackNode`: empty in `BuilderState` (inherited by the Init and Value states),
overridden by the Dict and Array states. -/
def BuilderState.ProcessBackNode (self : BuilderState) (b : Builder) : Outcome Unit :=
  match self with
  | .InitState _ => .ok () b
  | .ValueState _ => .ok () b
  | .DictState node_ current_key =>
    match current_key with
    | some key =>
      match node_ with
      | .dict m =>
        match b.GetBackNode with
        | some back =>
          .ok () ((b.setState (.DictState (.dict (Dict.assign m key back)) none)).PopNode)
        | none => .undefined
      | _ => .thrown "Value is type is not Map" b
    | none => .thrown "Key not ready for value placement in Dict state" b
  | .ArrayState node_ =>
    match node_ with
    | .array a =>
      match b.GetBackNode with
      | some back => .ok () ((b.setState (.ArrayState (.array (a ++ [back])))).PopNode)
      | none => .undefined
    | _ => .thrown "Value is type is not Array" b

/-- `Builder::Value`. -/
def Builder.Value (b : Builder) (node : Node) : Outcome Unit :=
  match b.GetState with
  | some state => state.Value b node
  | none => .undefined

/-- `Builder::StartDict`. -/
def Builder.StartDict (b : Builder) : Outcome Unit :=
  match b.GetState with
  | some state => state.StartDict b
  | none => .undefined

/-- `Builder::StartArray`. -/
def Builder.StartArray (b : Builder) : Outcome Unit :=
  match b.GetState with
  | some state => state.StartArray b
  | none => .undefined

/-- `Builder::EndDict`: the state's `EndDict`, then `PopBackState`, then
`ProcessBackNode` of the state that is now on top. -/
def Builder.EndDict (b : Builder) : Outcome Unit :=
  match b.GetState with
  | some state =>
    match state.EndDict b with
    | .ok _ b₁ =>
      match b₁.PopBackState.GetState with
      | some below => below.ProcessBackNode b₁.PopBackState
      | none => .undefined
    | other => other
  | none => .undefined

/-- `Builder::EndArray`: the state's `EndArray`, then `PopBackState`, then
`ProcessBackNode` of the state that is now on top. -/
def Builder.EndArray (b : Builder) : Outcome Unit :=
  match b.GetState with
  | some state =>
    match state.EndArray b with
    | .ok _ b₁ =>
      match b₁.PopBackState.GetState with
      | some below => below.ProcessBackNode b₁.PopBackState
      | none => .undefined
    | other => other
  | none => .undefined

/-- `Builder::Key` (through `Builder::KeyPrimary`). -/
def Builder.Key (b : Builder) (key : List Char) : Outcome Unit :=
  match b.GetState with
  | some state => state.Key b key
  | none => .undefined

/-- `Builder::Build`: the state's `Build`, then `return root_.value()`. -/
def Builder.Build (b : Builder) : Outcome Node :=
  match b.GetState with
  | some state =>
    match state.Build b with
    | .ok _ b₁ =>
      match b₁.root_ with
      | some root => .ok root b₁
      | none => .thrown "bad optional access" b₁
    | .thrown what b₁ => .thrown what b₁
    | .undefined => .undefined
  | none => .undefined

/-- One call of the public Builder interface other than `Build`. -/
inductive Call where
  | Value (node : Node)
  | StartDict
  | StartArray
  | EndDict
  | EndArray
  | Key (key : List Char)
deriving DecidableEq, Repr

/-- Performs one call. -/
def Builder.call (b : Builder) : Call → Outcome Unit
  | .Value node => b.Value node
  | .StartDict => b.StartDict
  | .StartArray => b.StartArray
  | .EndDict => b.EndDict
  | .EndArray => b.EndArray
  | .Key key => b.Key key

/-- Performs the calls of a chained expression in order; the first exception ends it. -/
def Builder.run (b : Builder) : List Call → Outcome Unit
  | [] => .ok () b
  | c :: cs =>
    match b.call c with
    | .ok _ b₁ => Builder.run b₁ cs
    | other => other

/-- The chained expression `calls` followed by `.Build()`. -/
def Builder.runBuild (b : Builder) (calls : List Call) : Outcome Node :=
  match b.run calls with
  | .ok _ b₁ => b₁.Build
  | .thrown what b₁ => .thrown what b₁
  | .undefined => .undefined

mutual
/-- The call sequence that rebuilds a node: `Value` for a scalar, `StartArray`, the
elements, `EndArray` for an array, and `StartDict`, `Key` and value for each entry,
`EndDict` for a dict. -/
def emit : Node → List Call
  | .array a => Call.StartArray :: (emitArray a ++ [Call.EndArray])
  | .dict m => Call.StartDict :: (emitDict m ++ [Call.EndDict])
  | n => [Call.Value n]
/-- The calls for the elements of an array, in order. -/
def emitArray : List Node → List Call
  | [] => []
  | x :: xs => emit x ++ emitArray xs
/-- The calls for the entries of a dict, in iteration order. -/
def emitDict : List (List Char × Node) → List Call
  | [] => []
  | (k, x) :: xs => Call.Key k :: (emit x ++ emitDict xs)
end

/-- A Builder that some sequence of public calls (returning or throwing, `Build`
included) produces from a fresh Builder. -/
inductive Reachable : Builder → Prop where
  | new : Reachable Builder.new
  | call (b b₁ : Builder) (c : Call) :
      Reachable b → (b.call c).builder? = some b₁ → Reachable b₁
  | build (b b₁ : Builder) :
      Reachable b → b.Build.builder? = some b₁ → Reachable b₁

/-- The Builder expects a value inside an open container: the state on top is a Dict
state with a pending key or an Array state. -/
def Builder.insideContainer (b : Builder) : Bool :=
  match b.state_stack with
  | .DictState (.dict _) (some _) :: _ => true
  | .ArrayState (.array _) :: _ => true
  | _ => false

/-- All the entries assigned in order, `map[key] = value` for each. -/
def Dict.assignAll (m : Dict) (entries : List (List Char × Node)) : Dict :=
  entries.foldl (fun acc e => Dict.assign acc e.1 e.2) m

/-- The state on top of the stack is a `BuilderDictState`. -/
def Builder.topIsDict (b : Builder) : Bool :=
  match b.state_stack with
  | .DictState _ _ :: _ => true
  | _ => false

/-- The state on top of the stack is a `BuilderArrayState`. -/
def Builder.topIsArray (b : Builder) : Bool :=
  match b.state_stack with
  | .ArrayState _ :: _ => true
  | _ => false

/-- The state on top of the stack is a `BuilderDictState` with this pending key. -/
def Builder.topIsDictWith (b : Builder) (current_key : Option (List Char)) : Bool :=
  match b.state_stack with
  | .DictState _ key :: _ => decide (key = current_key)
  | _ => false

/-- The node of a Dict state holds a `Dict` and the node of an Array state an `Array`,
as their constructors set them. -/
def BuilderState.typed : BuilderState → Bool
  | .DictState (.dict _) _ => true
  | .DictState _ _ => false
  | .ArrayState (.array _) => true
  | .ArrayState _ => false
  | _ => true

/-- The state stack is not empty and every state on it is typed. -/
def Builder.typed (b : Builder) : Bool :=
  !b.state_stack.isEmpty && b.state_stack.all BuilderState.typed

/-- The two ways a value reaches an open container: as the argument of `Value`, or as
the container closed by the `End` call of a nested `Start ... End` sequence. -/
inductive Supply where
  | direct (v : Node)
  | nested (v : Node)
deriving DecidableEq, Repr

/-- The value supplied. -/
def Supply.node : Supply → Node
  | .direct v => v
  | .nested v => v

/-- The calls that supply it. -/
def Supply.calls : Supply → List Call
  | .direct v => [Call.Value v]
  | .nested v => emit v

/-- A nested sequence builds a node whose maps satisfy the `std::map` invariant. -/
def Supply.valid : Supply → Bool
  | .direct _ => true
  | .nested v => v.WF

/-! ## Input stream (`std::istream`) -/

/-- The state of the `std::istream` the parser reads: the characters not yet read and
the `eofbit` and `failbit` flags. -/
structure IStream where
  buf : List Char
  eofbit : Bool
  failbit : Bool
deriving DecidableEq, Repr

/-- A stream over a text, as `std::istringstream` constructs it. -/
def IStream.ofText (text : List Char) : IStream := ⟨text, false, false⟩

/-- `input.good()`. -/
def IStream.good (s : IStream) : Bool := !s.eofbit && !s.failbit

/-- `input.eof()`. -/
def IStream.eof (s : IStream) : Bool := s.eofbit

/-- `input.fail()`; the conversion of a stream to `bool` is its negation. -/
def IStream.fail (s : IStream) : Bool := s.failbit

/-- `std::isspace` in the "C" locale. -/
def isspace (c : Char) : Bool :=
  c = ' ' || c = '\t' || c = '\n' || c = '\x0b' || c = '\x0c' || c = '\r'

/-- `std::isdigit` of a `char`. -/
def isdigit (c : Char) : Bool := 48 ≤ c.toNat && c.toNat ≤ 57

/-- `std::isdigit` of the `int` returned by `peek()`; `none` is `EOF`. -/
def isdigitInt : Option Char → Bool
  | some c => isdigit c
  | none => false

/-- The conversion to `char` of the `int` returned by `get()` or `peek()`: `EOF` (-1)
becomes the character with code 255. -/
def toChar : Option Char → Char
  | some c => c
  | none => Char.ofNat 255

/-- The whitespace skipped by a formatted extraction. -/
def skipws : List Char → List Char
  | [] => []
  | c :: cs => if isspace c then skipws cs else c :: cs

/-- `input.get()`: `none` is `EOF`. A stream that is not good sets `failbit`; at the end
of the text the call sets `eofbit` and `failbit`. -/
def IStream.get (s : IStream) : Option Char × IStream :=
  if s.good then
    match s.buf with
    | [] => (none, { s with eofbit := true, failbit := true })
    | c :: cs => (some c, { s with buf := cs })
  else (none, { s with failbit := true })

/-- `input.peek()`: `none` is `EOF`. A stream that is not good sets `failbit`; at the
end of the text the call sets `eofbit`. -/
def IStream.peek (s : IStream) : Option Char × IStream :=
  if s.good then
    match s.buf with
    | [] => (none, { s with eofbit := true })
    | c :: _ => (some c, s)
  else (none, { s with failbit := true })

/-- `input >> c` for a `char`: skips whitespace, then extracts one character. `none`
means that nothing was extracted and `c` keeps its value; the stream then has `failbit`
set, and `eofbit` too when the end of the text was reached. -/
def IStream.extract (s : IStream) : Option Char × IStream :=
  if s.good then
    match skipws s.buf with
    | [] => (none, { buf := [], eofbit := true, failbit := true })
    | c :: cs => (some c, { s with buf := cs })
  else (none, { s with failbit := true })

/-- `input.putback(c)`: clears `eofbit`, then returns `c` to a stream that is good.
Every `putback` of `json.cpp` returns the character the preceding extraction removed. -/
def IStream.putback (s : IStream) (c : Char) : IStream :=
  if s.failbit then { s with eofbit := false }
  else { s with buf := c :: s.buf, eofbit := false }

/-! ## Parser (`json.cpp`) -/

/-- The exceptions thrown while parsing. -/
inductive Error where
  | ParsingError (what : String)
  | logic_error (what : String)
  | out_of_range (what : String)
deriving DecidableEq, Repr

/-- `std::stod("0." + digits)` for a run of decimal digits: it throws
`std::out_of_range("stod")` when `strtod` reports a range error, and returns the value
of the text otherwise. -/
def stodFraction (digits : List Char) : Except Error Double :=
  if strtodRangeError digits then .error (.out_of_range "stod")
  else .ok (fractionValue digits)

/-- How a parsing function ends: it returns a value and leaves the stream in a state,
it throws, or the recursion budget of the embedding ran out. -/
inductive ParseResult (α : Type) where
  | ok (value : α) (input : IStream)
  | error (e : Error)
  | outOfFuel
deriving DecidableEq, Repr

/-- `Node::AsString`. -/
def Node.AsString : Node → Except Error (List Char)
  | .string s => .ok s
  | _ => .error (.logic_error "Value is type is not string")

/-- The escape `switch` of `LoadString`, entered when `ch` is a backslash: `next_ch` is
the character seen by `peek()`; a recognized escape replaces `ch` and is consumed by
`get()`, anything else leaves `ch` and the stream alone. -/
def LoadString.escape (ch : Char) (input : IStream) : Char × IStream :=
  let (p, input₁) := input.peek
  let next_ch := toChar p
  if next_ch = 'r' then ('\r', input₁.get.2)
  else if next_ch = 'n' then ('\n', input₁.get.2)
  else if next_ch = '\\' then ('\\', input₁.get.2)
  else if next_ch = 't' then ('\t', input₁.get.2)
  else if next_ch = '"' then ('"', input₁.get.2)
  else (ch, input₁)

/-- The `while (input.good() && ch != '"')` loop of `LoadString`, and the statements
after it. -/
def LoadString.loop : Nat → List Char → Char → IStream → ParseResult Node
  | 0, _, _, _ => .outOfFuel
  | fuel + 1, line, ch, input =>
    if input.good && ch ≠ '"' then
      let (ch₁, input₁) := if ch = '\\' then LoadString.escape ch input else (ch, input)
      let (g, input₂) := input₁.get
      LoadString.loop fuel (line ++ [ch₁]) (toChar g) input₂
    else if ch ≠ '"' then
      .error (.ParsingError "string parsing error : ending '\"' required but not found")
    else .ok (.string line) input

/-- `LoadString`. -/
def LoadString (fuel : Nat) (input : IStream) : ParseResult Node :=
  let (g, input₁) := input.get
  LoadString.loop fuel [] (toChar g) input₁

/-- The loop `for (i = 0; i < size && (input >> ch); ++i) line += ch` of `LoadNull`,
`LoadBoolTrue` and `LoadBoolFalse`. -/
def readWord : Nat → List Char → IStream → List Char × IStream
  | 0, line, input => (line, input)
  | n + 1, line, input =>
    match input.extract with
    | (some ch, input₁) => readWord n (line ++ [ch]) input₁
    | (none, input₁) => (line, input₁)

/-- `LoadNull`. -/
def LoadNull (input : IStream) : ParseResult Node :=
  let (line, input₁) := readWord 4 [] input
  if line ≠ ['n', 'u', 'l', 'l'] ∨ !input₁.good then
    .error (.ParsingError "n char is not null Node")
  else .ok .null input₁

/-- `LoadBoolTrue`. -/
def LoadBoolTrue (input : IStream) : ParseResult Node :=
  let (line, input₁) := readWord 4 [] input
  if line ≠ ['t', 'r', 'u', 'e'] ∨ !input₁.good then
    .error (.ParsingError "t char is not true bool Node")
  else .ok (.bool true) input₁

/-- `LoadBoolFalse`. -/
def LoadBoolFalse (input : IStream) : ParseResult Node :=
  let (line, input₁) := readWord 5 [] input
  if line ≠ ['f', 'a', 'l', 's', 'e'] ∨ !input₁.good then
    .error (.ParsingError "f char is not false bool Node")
  else .ok (.bool false) input₁

/-- The loop `while (isdigit(input.peek())) { result *= 10; result += input.get() - '0'; }`
of `LoadNumber`; `none` when the recursion budget ran out. -/
def LoadNumber.digits : Nat → Int → IStream → Option (Int × IStream)
  | 0, _, _ => none
  | fuel + 1, result, input =>
    let (p, input₁) := input.peek
    if isdigitInt p then
      let (g, input₂) := input₁.get
      LoadNumber.digits fuel
        (wrapInt (wrapInt (result * 10) + ((toChar g).toNat - 48 : Int))) input₂
    else some (result, input₁)

/-- The loop `while (isdigit(input.peek())) { line += input.get(); }` of `LoadNumber`,
collecting the digits after `"0."`; `none` when the recursion budget ran out. -/
def LoadNumber.fraction : Nat → List Char → IStream → Option (List Char × IStream)
  | 0, _, _ => none
  | fuel + 1, digits, input =>
    let (p, input₁) := input.peek
    if isdigitInt p then
      let (g, input₂) := input₁.get
      LoadNumber.fraction fuel (digits ++ [toChar g]) input₂
    else some (digits, input₁)

/-- The block `if (ch == 'e' || ch == 'E') { ... }` of `LoadNumber` and the `return`
after it. -/
def LoadNumber.exponent (fuel : Nat) (result_double : Double) (ch : Char) (input : IStream) :
    ParseResult Node :=
  if ch = 'e' ∨ ch = 'E' then
    let input₁ := input.get.2
    let (p, input₂) := input₁.peek
    let ch₁ := toChar p
    let (sign, input₃) : Int × IStream :=
      if ch₁ = '+' ∨ ch₁ = '-' then
        let (g, input₃) := input₂.get
        (if g = some '-' then -1 else 1, input₃)
      else (1, input₂)
    match LoadNumber.digits fuel 0 input₃ with
    | none => .outOfFuel
    | some (result, input₄) =>
      .ok (.double (result_double.mulPow10 (wrapInt (result * sign)))) input₄
  else .ok (.double result_double) input

/-- `LoadNumber`. -/
def LoadNumber (fuel : Nat) (input : IStream) : ParseResult Node :=
  let (p, input₁) := input.peek
  let (sign, input₂) : Int × IStream :=
    if p = some '-' then (-1, input₁.get.2) else (1, input₁)
  match LoadNumber.digits fuel 0 input₂ with
  | none => .outOfFuel
  | some (result, input₃) =>
    let (p₁, input₄) := input₃.peek
    let ch := toChar p₁
    if ch = '.' ∨ ch = 'e' ∨ ch = 'E' then
      let result_double := Double.ofInt (sign * result)
      if ch = '.' then
        let input₅ := input₄.get.2
        match LoadNumber.fraction fuel [] input₅ with
        | none => .outOfFuel
        | some (digits, input₆) =>
          if digits.length > 0 then
            match stodFraction digits with
            | .error e => .error e
            | .ok fraction =>
              let result_double₁ :=
                if sign > 0 then result_double.add fraction
                else result_double.sub fraction
              let (p₂, input₇) := input₆.peek
              LoadNumber.exponent fuel result_double₁ (toChar p₂) input₇
          else
            .error (.ParsingError
              " number parsing error : empty fractional part in number  after '.' ")
      else LoadNumber.exponent fuel result_double ch input₄
    else .ok (.int (wrapInt (sign * result))) input₄

mutual
/-- `LoadNode`. -/
def LoadNode : Nat → IStream → ParseResult Node
  | 0, _ => .outOfFuel
  | fuel + 1, input =>
    let (r, input₁) := input.extract
    let c := r.getD (Char.ofNat 0)
    if input₁.eof then
      .error (.ParsingError "unexpected input end or input stream error")
    else if c = '[' then LoadArray fuel input₁
    else if c = '{' then LoadDict.loop fuel [] input₁
    else if c = '"' then LoadString fuel input₁
    else if c = 'n' then LoadNull (input₁.putback c)
    else if c = 't' then LoadBoolTrue (input₁.putback c)
    else if c = 'f' then LoadBoolFalse (input₁.putback c)
    else if c = '-' ∨ isdigit c then LoadNumber fuel (input₁.putback c)
    else .error (.ParsingError "Wrong input")
/-- `LoadArray`, up to its loop. -/
def LoadArray : Nat → IStream → ParseResult Node
  | 0, _ => .outOfFuel
  | fuel + 1, input =>
    let (p, input₁) := input.peek
    let ch := toChar p
    if ch = ',' then
      .error (.ParsingError "array parsing error : unexpected ',' after '['")
    else
      let (r, input₂) := input₁.extract
      LoadArray.loop fuel [] (r.getD ch) input₂
/-- The `while (input.good() && ch != ']')` loop of `LoadArray`, and the statements
after it. -/
def LoadArray.loop : Nat → List Node → Char → IStream → ParseResult Node
  | 0, _, _, _ => .outOfFuel
  | fuel + 1, result, ch, input =>
    if input.good && ch ≠ ']' then
      let input₁ := if ch ≠ ',' then input.putback ch else input
      match LoadNode fuel input₁ with
      | .ok node input₂ =>
        let (r, input₃) := input₂.extract
        LoadArray.loop fuel (result ++ [node]) (r.getD ch) input₃
      | .error e => .error e
      | .outOfFuel => .outOfFuel
    else if ch ≠ ']' then
      .error (.ParsingError "array parsing error : end ']' required but not found")
    else .ok (.array result) input
/-- `LoadDict`: the loop `for (; input >> c && c != '}';)`, entered with `c == 0`, and
the statements after it. -/
def LoadDict.loop : Nat → Dict → IStream → ParseResult Node
  | 0, _, _ => .outOfFuel
  | fuel + 1, result, input =>
    let (r, input₁) := input.extract
    let c := r.getD (Char.ofNat 0)
    if !input₁.fail && c ≠ '}' then
      let (c₁, input₂) : Char × IStream :=
        if c = ',' then
          let (r₁, input₂) := input₁.extract
          (r₁.getD c, input₂)
        else (c, input₁)
      match LoadString fuel input₂ with
      | .ok keyNode input₃ =>
        match keyNode.AsString with
        | .ok key =>
          let (r₂, input₄) := input₃.extract
          let c₂ := r₂.getD c₁
          if c₂ ≠ ':' then
            .error (.ParsingError "Map parsing error : ':' required but not found")
          else
            match LoadNode fuel input₄ with
            | .ok node input₅ => LoadDict.loop fuel (Dict.insert result key node) input₅
            | .error e => .error e
            | .outOfFuel => .outOfFuel
        | .error e => .error e
      | .error e => .error e
      | .outOfFuel => .outOfFuel
    else if c ≠ '}' then
      .error (.ParsingError "Map parsing error : '\x7d' required but not found")
    else .ok (.dict result) input₁
end

/-- `Load`: the root of the `Document` parsed from the stream. The budget covers three
levels of recursion for each character of the text, the most a text uses (`[[[...`). -/
def Load (input : IStream) : ParseResult Node :=
  LoadNode (3 * input.buf.length + 4) input

/-- `Load` on a stream over the text. -/
def LoadText (text : List Char) : ParseResult Node := Load (IStream.ofText text)

/-! ## Printer (`json.h`, `json.cpp`) -/

/-- `struct PrintContext`, without the output stream. -/
structure PrintContext where
  indent_step : Int
  indent : Int
deriving DecidableEq, Repr

/-- `PrintContext::PrintIndent`: `indent` spaces. -/
def PrintContext.PrintIndent (context : PrintContext) : List Char :=
  List.replicate context.indent.toNat ' '

/-- `PrintContext::Indented`. -/
def PrintContext.Indented (context : PrintContext) : PrintContext :=
  { context with indent := wrapInt (context.indent + context.indent_step) }

/-- The characters `PrintValue(const std::string&)` writes for one character. -/
def escapeChar (ch : Char) : List Char :=
  if ch = '\r' then ['\\', 'r']
  else if ch = '\\' then ['\\', '\\']
  else if ch = '\n' then ['\\', 'n']
  else if ch = '"' then ['\\', '"']
  else [ch]

/-- The `for` loop of `PrintValue(const std::string&)`. -/
def PrintString.loop : List Char → List Char
  | [] => []
  | ch :: rest => escapeChar ch ++ PrintString.loop rest

/-- `PrintValue(const std::string&)`. -/
def PrintString (value : List Char) : List Char :=
  '"' :: (PrintString.loop value ++ ['"'])

mutual
/-- `PrintNode`, with the overloads of `PrintValue` it selects. -/
def PrintNode : Node → PrintContext → List Char
  | .null, _ => ['n', 'u', 'l', 'l']
  | .bool value, _ => if value then ['t', 'r', 'u', 'e'] else ['f', 'a', 'l', 's', 'e']
  | .double value, _ => value.toText
  | .int value, _ => intText value
  | .string value, _ => PrintString value
  | .array value, context =>
    '[' :: '\n' :: (PrintArrayLoop value context.Indented true
      ++ '\n' :: (context.PrintIndent ++ [']']))
  | .dict value, context =>
    '{' :: '\n' :: (PrintDictLoop value context.Indented true
      ++ '\n' :: (context.PrintIndent ++ ['}']))
/-- The `for` loop of `PrintValue(const Array&)`; `context` is `newContext`. -/
def PrintArrayLoop : List Node → PrintContext → Bool → List Char
  | [], _, _ => []
  | node :: rest, context, first =>
    (if first then [] else [',', '\n'])
      ++ (context.PrintIndent ++ (PrintNode node context ++ PrintArrayLoop rest context false))
/-- The `for` loop of `PrintValue(const Map&)`; `context` is `newContext`. -/
def PrintDictLoop : List (List Char × Node) → PrintContext → Bool → List Char
  | [], _, _ => []
  | (key, node) :: rest, context, first =>
    (if first then [] else [',', '\n'])
      ++ (context.PrintIndent ++ ('"' :: (key ++ ('"' :: ':' :: ' ' ::
        (PrintNode node context ++ PrintDictLoop rest context false)))))
end

/-- `Print`: the text written for a document, with the default `PrintContext`. -/
def Print (doc : Node) : List Char := PrintNode doc ⟨4, 0⟩

/-! ## Nodes whose printed text is read back -/

/-- All the characters are whitespace for `std::isspace`. -/
def allSpace (ws : List Char) : Bool := ws.all isspace

/-- The text after a number does not continue it: it is empty or starts with a character
that is neither a digit nor one of `.`, `e`, `E`. -/
def endsNumber : List Char → Bool
  | [] => true
  | c :: _ => !isdigit c && c != '.' && c != 'e' && c != 'E'

/-- A key that `PrintValue(const Map&)` writes in a form `LoadString` reads back: no
double quote and no backslash. -/
def plainKey (key : List Char) : Bool := key.all (fun c => c != '"' && c != '\\')

/-- A string without the characters `PrintValue(const std::string&)` escapes (CR, LF,
backslash, double quote). -/
def plainString (s : List Char) : Bool :=
  s.all (fun c => c != '\r' && c != '\n' && c != '\\' && c != '"')

/-- All the entries inserted in order with `std::map::insert`. -/
def Dict.insertAll (m : Dict) (entries : List (List Char × Node)) : Dict :=
  entries.foldl (fun acc e => Dict.insert acc e.1 e.2) m

mutual
/-- No `Double` node, every `Int` within `-INT_MAX .. INT_MAX`, every key of every map
plain. -/
def Node.plain : Node → Bool
  | .double _ => false
  | .int value => decide (-2147483647 ≤ value ∧ value ≤ 2147483647)
  | .array a => Node.plainArray a
  | .dict m => Node.plainDict m
  | _ => true
/-- Every element is plain. -/
def Node.plainArray : List Node → Bool
  | [] => true
  | x :: xs => Node.plain x && Node.plainArray xs
/-- Every key and every mapped value is plain. -/
def Node.plainDict : List (List Char × Node) → Bool
  | [] => true
  | (k, x) :: xs => plainKey k && Node.plain x && Node.plainDict xs
end

mutual
/-- Every string in the node, keys included, is without the characters that need
escaping. -/
def Node.plainStrings : Node → Bool
  | .string s => plainString s
  | .array a => Node.plainStringsArray a
  | .dict m => Node.plainStringsDict m
  | _ => true
/-- Every element has plain strings. -/
def Node.plainStringsArray : List Node → Bool
  | [] => true
  | x :: xs => Node.plainStrings x && Node.plainStringsArray xs
/-- Every key is plain and every mapped value has plain strings. -/
def Node.plainStringsDict : List (List Char × Node) → Bool
  | [] => true
  | (k, x) :: xs => plainString k && Node.plainStrings x && Node.plainStringsDict xs
end

/-! ## Texts and documents of the examples -/

/-- The text `{"a": [1, 2, 3], "b": "x"}` of the end-to-end example. -/
def exampleText : List Char :=
  ['{', '"', 'a', '"', ':', ' ', '[', '1', ',', ' ', '2', ',', ' ', '3', ']', ',', ' ',
    '"', 'b', '"', ':', ' ', '"', 'x', '"', '}']

/-- The document the example text parses to. -/
def exampleNode : Node :=
  .dict [(['a'], .array [.int 1, .int 2, .int 3]), (['b'], .string ['x'])]

/-- The text `{"a":1,"a":2}`. -/
def duplicateKeyText : List Char :=
  ['{', '"', 'a', '"', ':', '1', ',', '"', 'a', '"', ':', '2', '}']

/-! ## Accessors of `Node` used by the claims (`json.cpp`) -/

/-- `Node::IsInt`. -/
def Node.IsInt : Node → Bool
  | .int _ => true
  | _ => false

/-- `Node::IsPureDouble`. -/
def Node.IsPureDouble : Node → Bool
  | .double _ => true
  | _ => false

/-- `Node::IsDouble`: an `int` or a `double` is held. -/
def Node.IsDouble (node : Node) : Bool := node.IsInt || node.IsPureDouble

/-- `Node::AsInt`. -/
def Node.AsInt (node : Node) : Except Error Int :=
  match node with
  | .int value => .ok value
  | _ => .error (.logic_error "Value type is not int")

/-! ## Texts the claims speak of -/

/-- A number text up to the end of its integer digits: an optional `-`, then the
digits. -/
def numText (negative : Bool) (ds : List Nat) : List Char :=
  if negative then '-' :: ds.map digitChar else ds.map digitChar

/-- The sign `LoadNumber` takes from the text. -/
def signOf (negative : Bool) : Int := if negative then -1 else 1

/-- The character `LoadString` substitutes for the escape letter `e`, when the letter is
one of the five of its `switch`. -/
def escapeValue (e : Char) : Option Char :=
  if e = 'r' then some '\r'
  else if e = 'n' then some '\n'
  else if e = '\\' then some '\\'
  else if e = 't' then some '\t'
  else if e = '"' then some '"'
  else none

/-- A unit of the text between the quotes of a string literal: a character that is
neither a backslash nor a double quote, or a backslash followed by a character. -/
inductive StringItem where
  | char (c : Char)
  | escaped (e : Char)
deriving DecidableEq, Repr

/-- The text of the unit. -/
def StringItem.text : StringItem → List Char
  | .char c => [c]
  | .escaped e => ['\\', e]

/-- The unit is well formed: a `char` is neither a backslash nor a double quote. -/
def StringItem.valid : StringItem → Bool
  | .char c => c != '\\' && c != '"'
  | .escaped _ => true

/-- The backslash of the unit is followed by one of `r`, `n`, backslash, `t`, `"`. -/
def StringItem.recognized : StringItem → Bool
  | .char _ => true
  | .escaped e => (escapeValue e).isSome

/-- The characters `LoadString` stores for the unit. -/
def StringItem.decoded : StringItem → List Char
  | .char c => [c]
  | .escaped e =>
    match escapeValue e with
    | some v => [v]
    | none => ['\\', e]

/-- The text of a sequence of units. -/
def itemsText : List StringItem → List Char
  | [] => []
  | i :: rest => i.text ++ itemsText rest

/-- The characters `LoadString` stores for a sequence of units. -/
def itemsDecoded : List StringItem → List Char
  | [] => []
  | i :: rest => i.decoded ++ itemsDecoded rest

/-- From the claim's words: the characters printed for one character of a String node. -/
def specEscape (c : Char) : List Char :=
  match c with
  | '\r' => ['\\', 'r']
  | '\\' => ['\\', '\\']
  | '\n' => ['\\', 'n']
  | '"' => ['\\', '"']
  | other => [other]

/-- From the claim's words: the text printed for a String node. -/
def specStringText : List Char → List Char
  | [] => ['"']
  | c :: rest => specEscape c ++ specStringText rest

/-- The text between two consecutive elements of an array text or pairs of a dict text:
whitespace, possibly with one comma in it. -/
structure Separator where
  before : List Char
  comma : Bool
  after : List Char
deriving DecidableEq, Repr

/-- The text of a separator. -/
def Separator.text (sep : Separator) : List Char :=
  sep.before ++ (if sep.comma then ',' :: sep.after else sep.after)

/-- Whitespace around the optional comma. -/
def Separator.spaces (sep : Separator) : Bool := allSpace sep.before && allSpace sep.after

/-- A separator that separates: it has a comma or at least one whitespace character. -/
def Separator.valid (sep : Separator) : Bool :=
  sep.spaces && (sep.comma || !(sep.before ++ sep.after).isEmpty)

/-- The elements of an array text, each printed as `Print` prints it and preceded by
its separator. -/
def arrayItemsText : List (Separator × Node) → List Char
  | [] => []
  | (sep, x) :: rest => sep.text ++ (PrintNode x ⟨4, 0⟩ ++ arrayItemsText rest)

/-- An array text: `[`, the elements with their separators, whitespace, `]`. -/
def arrayText (items : List (Separator × Node)) (close : List Char) : List Char :=
  '[' :: (arrayItemsText items ++ (close ++ [']']))

/-- The pairs of a dict text, each written `"key": value` with the value as `Print`
prints it, and preceded by its separator. -/
def dictItemsText : List (Separator × List Char × Node) → List Char
  | [] => []
  | (sep, key, x) :: rest =>
    sep.text ++ ('"' :: (key ++ ('"' :: ':' :: ' ' :: (PrintNode x ⟨4, 0⟩ ++ dictItemsText rest))))

/-- A dict text: an opening brace, the pairs with their separators, whitespace, a
closing brace. -/
def dictText (items : List (Separator × List Char × Node)) (close : List Char) : List Char :=
  '{' :: (dictItemsText items ++ (close ++ ['}']))

/-- The separators of the items after the first are valid, the first is whitespace
without a comma. -/
def separatorsValid {α : Type} : List (Separator × α) → Bool
  | [] => true
  | (sep, _) :: rest => sep.spaces && !sep.comma && rest.all (fun i => i.1.valid)

/-! ## The other accessors of `Node` (`json.cpp`) -/

/-- `Node::IsNull`. -/
def Node.IsNull : Node → Bool
  | .null => true
  | _ => false

/-- `Node::IsBool`. -/
def Node.IsBool : Node → Bool
  | .bool _ => true
  | _ => false

/-- `Node::IsString`. -/
def Node.IsString : Node → Bool
  | .string _ => true
  | _ => false

/-- `Node::IsArray`. -/
def Node.IsArray : Node → Bool
  | .array _ => true
  | _ => false

/-- `Node::IsDict` (and `Node::IsMap`). -/
def Node.IsDict : Node → Bool
  | .dict _ => true
  | _ => false

/-- `Node::AsBool`. -/
def Node.AsBool (node : Node) : Except Error Bool :=
  match node with
  | .bool value => .ok value
  | _ => .error (.logic_error "Value is type is not bool")

/-- `Node::AsDouble`: the `double` held, or the `int` held converted to `double`. -/
def Node.AsDouble (node : Node) : Except Error Double :=
  match node with
  | .double value => .ok value
  | .int value => .ok (Double.ofInt value)
  | _ => .error (.logic_error "Value is type is not double or int")

/-- `Node::AsArray`. -/
def Node.AsArray (node : Node) : Except Error (List Node) :=
  match node with
  | .array value => .ok value
  | _ => .error (.logic_error "Value is type is not Array")

/-- `Node::AsDict` (and `Node::AsMap`). -/
def Node.AsDict (node : Node) : Except Error Dict :=
  match node with
  | .dict value => .ok value
  | _ => .error (.logic_error "Value is type is not Map")

/-- The accessor threw `std::logic_error`. -/
def threwLogicError {α : Type} : Except Error α → Bool
  | .error (.logic_error _) => true
  | _ => false

/-! ## The layout of containers, from the words of the claims -/

/-- From the claim's words: the lines of a container, consecutive lines separated by `,`
and a newline. -/
def specJoin : List (List Char) → List Char
  | [] => []
  | [line] => line
  | line :: next :: rest => line ++ ',' :: '\n' :: specJoin (next :: rest)

/-- From the claim's words: the text of an Array printed at indentation `i` with step
`s`. -/
def specArrayText (elements : List Node) (i s : Nat) : List Char :=
  '[' :: '\n' ::
    (specJoin (elements.map (fun x =>
        List.replicate (i + s) ' ' ++ PrintNode x ⟨(s : Int), ((i + s : Nat) : Int)⟩))
      ++ '\n' :: (List.replicate i ' ' ++ [']']))

/-- From the claim's words: the text of a Dict printed at indentation `i` with step `s`,
its entries taken in the order of the map. -/
def specDictText (entries : List (List Char × Node)) (i s : Nat) : List Char :=
  '{' :: '\n' ::
    (specJoin (entries.map (fun e =>
        List.replicate (i + s) ' ' ++ '"' :: (e.1 ++ '"' :: ':' :: ' ' ::
          PrintNode e.2 ⟨(s : Int), ((i + s : Nat) : Int)⟩)))
      ++ '\n' :: (List.replicate i ' ' ++ ['}']))

/-- The keys are in strictly ascending order. -/
def keysAscending : List (List Char) → Bool
  | [] => true
  | [_] => true
  | k₁ :: k₂ :: rest => strLt k₁ k₂ && keysAscending (k₂ :: rest)

/-! ## Call sequences that fill a Dict -/

/-- The calls that store entries in an open Dict: for each entry `Key`, then the calls
that supply its value. -/
def dictCalls : List (List Char × Supply) → List Call
  | [] => []
  | (key, s) :: rest => Call.Key key :: (s.calls ++ dictCalls rest)

/-- The entries the calls of `dictCalls` store, in the order of the calls. -/
def suppliedEntries (entries : List (List Char × Supply)) : List (List Char × Node) :=
  entries.map (fun e => (e.1, e.2.node))

/-! ## The wrapper classes of `json_builder.h` -/

/-- The classes a Builder call returns to narrow the calls that can follow. -/
inductive Wrapper where
  | DictKeyValueResult
  | DictKeyResult
  | StartDictResult
  | StartArrayResult
  | ArrayValueResult
deriving DecidableEq, Repr

/-- The static type of the object a chained call is made on: `Builder&` or a wrapper. -/
inductive Receiver where
  | builder
  | wrapper (w : Wrapper)
deriving DecidableEq, Repr

/-- The declared return type of the methods of `class Builder`. -/
def Builder.returns : Call → Receiver
  | .Value _ => .builder
  | .StartDict => .wrapper .StartDictResult
  | .StartArray => .wrapper .StartArrayResult
  | .EndDict => .builder
  | .EndArray => .builder
  | .Key _ => .wrapper .DictKeyResult

/-- The methods each wrapper class declares, with their return types; `none` when the
class has no such method. Each of them forwards to the method of `builder_` of the same
name. -/
def Wrapper.returns : Wrapper → Call → Option Receiver
  | .DictKeyValueResult, .Key _ => some (.wrapper .DictKeyResult)
  | .DictKeyValueResult, .EndDict => some .builder
  | .DictKeyResult, .Value _ => some (.wrapper .DictKeyValueResult)
  | .DictKeyResult, .StartDict => some (.wrapper .StartDictResult)
  | .DictKeyResult, .StartArray => some (.wrapper .StartArrayResult)
  | .StartDictResult, .Key _ => some (.wrapper .DictKeyResult)
  | .StartDictResult, .EndDict => some .builder
  | .StartArrayResult, .Value _ => some (.wrapper .ArrayValueResult)
  | .StartArrayResult, .StartDict => some (.wrapper .StartDictResult)
  | .StartArrayResult, .StartArray => some (.wrapper .StartArrayResult)
  | .StartArrayResult, .EndArray => some .builder
  | .ArrayValueResult, .Value _ => some (.wrapper .ArrayValueResult)
  | .ArrayValueResult, .StartDict => some (.wrapper .StartDictResult)
  | .ArrayValueResult, .StartArray => some (.wrapper .StartArrayResult)
  | .ArrayValueResult, .EndArray => some .builder
  | _, _ => none

/-- The return type of a call made on a receiver, when its class has the method. -/
def Receiver.returns : Receiver → Call → Option Receiver
  | .builder, c => some (Builder.returns c)
  | .wrapper w, c => w.returns c

/-- A chained expression that compiles and whose calls all return: each call is made on
the object the previous one returned. The result is the static type of the last object
and the Builder; `none` when a class lacks the method called or a call throws. -/
def chain : Receiver → Builder → List Call → Option (Receiver × Builder)
  | r, b, [] => some (r, b)
  | r, b, c :: cs =>
    match r.returns c with
    | none => none
    | some r₁ =>
      match b.call c with
      | .ok _ b₁ => chain r₁ b₁ cs
      | _ => none

/-- The state on top of the stack when a wrapper has just been returned: a Dict state
without pending key for `StartDictResult` and `DictKeyValueResult`, a Dict state with a
pending key for `DictKeyResult`, an Array state for `StartArrayResult` and
`ArrayValueResult`. -/
def Wrapper.stateOf (w : Wrapper) (b : Builder) : Bool :=
  match w, b.state_stack with
  | .DictKeyValueResult, .DictState _ none :: _ => true
  | .StartDictResult, .DictState _ none :: _ => true
  | .DictKeyResult, .DictState _ (some _) :: _ => true
  | .StartArrayResult, .ArrayState _ :: _ => true
  | .ArrayValueResult, .ArrayState _ :: _ => true
  | _, _ => false

/-- The state takes the container closed by the state above it: the Init state, an
Array state, a Dict state with a pending key. -/
def BuilderState.awaitsValue : BuilderState → Bool
  | .InitState _ => true
  | .ValueState _ => false
  | .DictState _ current_key => current_key.isSome
  | .ArrayState _ => true

/-- The shape of the state stack: the Init state at the bottom and nowhere else, a Value
state only on the Init state, and under every Dict or Array state a state that awaits
its value. -/
def stackNested : List BuilderState → Bool
  | [] => false
  | top :: below =>
    match top with
    | .InitState _ => below.isEmpty
    | .ValueState _ =>
      match below with
      | [.InitState _] => true
      | _ => false
    | _ =>
      (match below with
        | [] => false
        | parent :: _ => parent.awaitsValue) && stackNested below

/-! ## A measure of what a stream can still deliver -/

/-- The number of characters left, plus one, in a stream that is good; zero in a stream
that is not: no call of the parser reads from such a stream. -/
def IStream.size (s : IStream) : Nat := if s.good then s.buf.length + 1 else 0

/-! ## The statements of `LoadNumber`, one by one -/

/-- The statement `int sign = input.peek() == '-' ? (input.get(), -1) : 1;`. -/
def LoadNumber.sign (input : IStream) : Int × IStream :=
  if input.peek.1 = some '-' then (-1, input.peek.2.get.2) else (1, input.peek.2)

/-- The statements of the exponent block from `input.get(); // read e or E` to the sign
of the exponent. -/
def LoadNumber.exponentSign (input : IStream) : Int × IStream :=
  if toChar input.get.2.peek.1 = '+' ∨ toChar input.get.2.peek.1 = '-' then
    (if input.get.2.peek.2.get.1 = some '-' then -1 else 1, input.get.2.peek.2.get.2)
  else (1, input.get.2.peek.2)

/-- The statements of `LoadNumber` after the loop of the integer digits. -/
def LoadNumber.afterDigits (fuel : Nat) (sign result : Int) (input₃ : IStream) :
    ParseResult Node :=
  if toChar input₃.peek.1 = '.' ∨ toChar input₃.peek.1 = 'e' ∨ toChar input₃.peek.1 = 'E' then
    if toChar input₃.peek.1 = '.' then
      match LoadNumber.fraction fuel [] input₃.peek.2.get.2 with
      | none => .outOfFuel
      | some (digits, input₆) =>
        if digits.length > 0 then
          match stodFraction digits with
          | .error e => .error e
          | .ok fraction =>
            LoadNumber.exponent fuel
              (if sign > 0 then (Double.ofInt (sign * result)).add fraction
                else (Double.ofInt (sign * result)).sub fraction)
              (toChar input₆.peek.1) input₆.peek.2
        else
          .error (.ParsingError
            " number parsing error : empty fractional part in number  after '.' ")
    else LoadNumber.exponent fuel (Double.ofInt (sign * result)) (toChar input₃.peek.1)
      input₃.peek.2
  else .ok (.int (wrapInt (sign * result))) input₃.peek.2

/-! ## What the four mutually recursive loaders guarantee under a budget -/

/-- The exceptions that leave the parser: a ParsingError, or the `std::out_of_range`
that `std::stod` throws in `LoadNumber`. -/
def Error.fromLoad : Error → Bool
  | .ParsingError _ => true
  | .out_of_range what => decide (what = "stod")
  | .logic_error _ => false

/-- `LoadNode` under the budget `fuel`: a node is returned only from a good stream, of
which at least one character is consumed, and when the stream left is good the same
node is returned on every extension of the text; an exception is a ParsingError or the
`std::out_of_range` of `std::stod`. -/
def LoadNode.Spec (fuel : Nat) : Prop :=
  ∀ s : IStream,
    (∀ x s', LoadNode fuel s = .ok x s' →
      s.good = true ∧ s'.size + 1 ≤ s.size ∧
      (s'.good = true → ∀ q, LoadNode fuel ⟨s.buf ++ q, false, false⟩
        = .ok x ⟨s'.buf ++ q, false, false⟩)) ∧
    (∀ e, LoadNode fuel s = .error e → e.fromLoad = true)

/-- `LoadArray` under the budget `fuel`: an Array node is returned only from a good
stream, the stream left is good, and the same node is returned on every extension of
the text; an exception is a ParsingError or the `std::out_of_range` of
`std::stod`. -/
def LoadArray.Spec (fuel : Nat) : Prop :=
  ∀ s : IStream,
    (∀ x s', LoadArray fuel s = .ok x s' →
      s.good = true ∧ s'.good = true ∧ x.IsArray = true ∧ s'.size ≤ s.size ∧
      ∀ q, LoadArray fuel ⟨s.buf ++ q, false, false⟩ = .ok x ⟨s'.buf ++ q, false, false⟩) ∧
    (∀ e, LoadArray fuel s = .error e → e.fromLoad = true)

/-- The loop of `LoadArray` under the budget `fuel`, entered with a character that is
`]` only if it was extracted from the stream. -/
def LoadArray.loop.Spec (fuel : Nat) : Prop :=
  ∀ (result : List Node) (ch : Char) (s : IStream), (ch = ']' → s.good = true) →
    (∀ x s', LoadArray.loop fuel result ch s = .ok x s' →
      s.good = true ∧ s'.good = true ∧ x.IsArray = true ∧ s'.size ≤ s.size ∧
      ∀ q, LoadArray.loop fuel result ch ⟨s.buf ++ q, false, false⟩
        = .ok x ⟨s'.buf ++ q, false, false⟩) ∧
    (∀ e, LoadArray.loop fuel result ch s = .error e → e.fromLoad = true)

/-- The loop of `LoadDict` under the budget `fuel`: a Dict node is returned only from a
good stream, the stream left is good, and the same node is returned on every extension
of the text; an exception is a ParsingError or the `std::out_of_range` of
`std::stod`. -/
def LoadDict.loop.Spec (fuel : Nat) : Prop :=
  ∀ (result : Dict) (s : IStream),
    (∀ x s', LoadDict.loop fuel result s = .ok x s' →
      s.good = true ∧ s'.good = true ∧ x.IsDict = true ∧ s'.size + 1 ≤ s.size ∧
      ∀ q, LoadDict.loop fuel result ⟨s.buf ++ q, false, false⟩
        = .ok x ⟨s'.buf ++ q, false, false⟩) ∧
    (∀ e, LoadDict.loop fuel result s = .error e → e.fromLoad = true)

/-! ## Kinds of Builder states -/

/-- The state is a `BuilderInitState`. -/
def BuilderState.isInit : BuilderState → Bool
  | .InitState _ => true
  | _ => false

/-- The state is a `BuilderValueState`. -/
def BuilderState.isValue : BuilderState → Bool
  | .ValueState _ => true
  | _ => false

/-- The state is a `BuilderDictState` whose `current_key` is empty. -/
def BuilderState.isDictWithoutKey : BuilderState → Bool
  | .DictState _ none => true
  | _ => false

/-- The message of the `std::logic_error` that `BuilderDictState::ProcessBackNode`
throws when `current_key` is empty. -/
def keyNotReady : String := "Key not ready for value placement in Dict state"

/-! ## The key order and the map operations -/

theorem strLt_irrefl (a : List Char) : strLt a a = false := by
  induction a with
  | nil => rfl
  | cons c cs ih => simp [strLt, ih]

theorem strLt_asymm : ∀ a b : List Char, strLt a b = true → strLt b a = false
  | [], [], h => by simp [strLt] at h
  | [], _ :: _, _ => by simp [strLt]
  | _ :: _, [], h => by simp [strLt] at h
  | a :: as, b :: bs, h => by
    simp only [strLt] at h ⊢
    by_cases h₁ : a.toNat < b.toNat
    · have h₂ : ¬ b.toNat < a.toNat := by omega
      simp [h₂, h₁]
    · by_cases h₂ : b.toNat < a.toNat
      · simp [h₁, h₂] at h
      · simp only [h₁, h₂, if_false] at h ⊢
        exact strLt_asymm as bs h

theorem strLt_trans : ∀ a b c : List Char, strLt a b = true → strLt b c = true → strLt a c = true
  | [], [], _, h, _ => by simp [strLt] at h
  | [], _ :: _, [], _, h => by simp [strLt] at h
  | [], _ :: _, _ :: _, _, _ => by simp [strLt]
  | _ :: _, [], _, h, _ => by simp [strLt] at h
  | _ :: _, _ :: _, [], _, h => by simp [strLt] at h
  | a :: as, b :: bs, c :: cs, h₁, h₂ => by
    simp only [strLt] at h₁ h₂ ⊢
    by_cases hab : a.toNat < b.toNat
    · by_cases hbc : b.toNat < c.toNat
      · have : a.toNat < c.toNat := by omega
        simp [this]
      · by_cases hcb : c.toNat < b.toNat
        · simp [hbc, hcb] at h₂
        · have : a.toNat < c.toNat := by omega
          simp [this]
    · by_cases hba : b.toNat < a.toNat
      · simp [hab, hba] at h₁
      · simp only [hab, hba, if_false] at h₁
        by_cases hbc : b.toNat < c.toNat
        · have : a.toNat < c.toNat := by omega
          simp [this]
        · by_cases hcb : c.toNat < b.toNat
          · simp [hbc, hcb] at h₂
          · simp only [hbc, hcb, if_false] at h₂
            have h₃ : ¬ a.toNat < c.toNat := by omega
            have h₄ : ¬ c.toNat < a.toNat := by omega
            simp only [h₃, h₄, if_false]
            exact strLt_trans as bs cs h₁ h₂

theorem strLt_total : ∀ a b : List Char, strLt a b = false → strLt b a = false → a = b
  | [], [], _, _ => rfl
  | [], _ :: _, h, _ => by simp [strLt] at h
  | _ :: _, [], _, h => by simp [strLt] at h
  | a :: as, b :: bs, h₁, h₂ => by
    simp only [strLt] at h₁ h₂
    by_cases hab : a.toNat < b.toNat
    · simp [hab] at h₁
    · by_cases hba : b.toNat < a.toNat
      · simp [hba] at h₂
      · simp only [hab, hba, if_false] at h₁ h₂
        have hc : a = b := by
          have : a.toNat = b.toNat := by omega
          have e := congrArg Char.ofNat this
          simpa using e
        rw [hc, strLt_total as bs h₁ h₂]

theorem Dict.sorted_tail (e : List Char × Node) (m : Dict) (h : Dict.sorted (e :: m) = true) :
    Dict.sorted m = true := by
  cases m with
  | nil => rfl
  | cons e₂ rest =>
    obtain ⟨k₁, v₁⟩ := e
    obtain ⟨k₂, v₂⟩ := e₂
    simp [Dict.sorted] at h
    exact h.2

theorem Dict.sorted_append_left : ∀ (m₁ m₂ : Dict), Dict.sorted (m₁ ++ m₂) = true → Dict.sorted m₁ = true
  | [], _, _ => rfl
  | [_], _, _ => by simp [Dict.sorted]
  | (k₁, v₁) :: (k₂, v₂) :: rest, m₂, h => by
    simp only [List.cons_append, Dict.sorted, Bool.and_eq_true] at h ⊢
    exact ⟨h.1, Dict.sorted_append_left ((k₂, v₂) :: rest) m₂ h.2⟩

theorem Dict.below_of_sorted_snoc : ∀ (m : Dict) (k : List Char) (v : Node),
    Dict.sorted (m ++ [(k, v)]) = true → ∀ e ∈ m, strLt e.1 k = true
  | [], _, _, _ => by intro e he; cases he
  | [(k₁, v₁)], k, v, h => by
    simp [Dict.sorted] at h
    intro e he
    simp at he
    subst he
    exact h
  | (k₁, v₁) :: (k₂, v₂) :: rest, k, v, h => by
    simp only [List.cons_append, Dict.sorted, Bool.and_eq_true] at h
    have ih := Dict.below_of_sorted_snoc ((k₂, v₂) :: rest) k v h.2
    intro e he
    rcases List.mem_cons.1 he with rfl | he'
    · exact strLt_trans _ _ _ h.1 (ih (k₂, v₂) (List.mem_cons_self _ _))
    · exact ih e he'

theorem Dict.assign_of_below : ∀ (m : Dict) (k : List Char) (v : Node),
    (∀ e ∈ m, strLt e.1 k = true) → Dict.assign m k v = m ++ [(k, v)]
  | [], _, _, _ => rfl
  | (k', v') :: rest, k, v, h => by
    have h₁ : strLt k' k = true := h (k', v') (List.mem_cons_self _ _)
    have h₂ : strLt k k' = false := strLt_asymm _ _ h₁
    have ih := Dict.assign_of_below rest k v (fun e he => h e (List.mem_cons_of_mem _ he))
    simp [Dict.assign, h₁, h₂, ih]

theorem Dict.insert_of_below : ∀ (m : Dict) (k : List Char) (v : Node),
    (∀ e ∈ m, strLt e.1 k = true) → Dict.insert m k v = m ++ [(k, v)]
  | [], _, _, _ => rfl
  | (k', v') :: rest, k, v, h => by
    have h₁ : strLt k' k = true := h (k', v') (List.mem_cons_self _ _)
    have h₂ : strLt k k' = false := strLt_asymm _ _ h₁
    have ih := Dict.insert_of_below rest k v (fun e he => h e (List.mem_cons_of_mem _ he))
    simp [Dict.insert, h₁, h₂, ih]

theorem Dict.insertAll_sorted : ∀ (entries pre : Dict),
    Dict.sorted (pre ++ entries) = true → Dict.insertAll pre entries = pre ++ entries
  | [], pre, _ => by simp [Dict.insertAll]
  | (k, v) :: rest, pre, h => by
    have h₁ : Dict.sorted ((pre ++ [(k, v)]) ++ rest) = true := by simpa using h
    have h₂ := Dict.sorted_append_left _ _ h₁
    have h₃ := Dict.insert_of_below pre k v (Dict.below_of_sorted_snoc pre k v h₂)
    have ih := Dict.insertAll_sorted rest (pre ++ [(k, v)]) h₁
    simp only [Dict.insertAll, List.foldl_cons] at ih ⊢
    rw [h₃, ih]
    simp

/-! ## Builder: running call sequences -/

theorem Builder.run_append (cs ds : List Call) : ∀ b : Builder,
    b.run (cs ++ ds) = match b.run cs with
      | .ok _ b₁ => b₁.run ds
      | other => other := by
  induction cs with
  | nil => intro b; rfl
  | cons c cs ih =>
    intro b
    simp only [List.cons_append, Builder.run]
    cases h : b.call c with
    | ok u b₁ => simp [ih b₁]
    | thrown w b₁ => rfl
    | undefined => rfl

theorem Dict.assignAll_sorted : ∀ (entries pre : Dict),
    Dict.sorted (pre ++ entries) = true → Dict.assignAll pre entries = pre ++ entries
  | [], pre, _ => by simp [Dict.assignAll]
  | (k, v) :: rest, pre, h => by
    have h₁ : Dict.sorted ((pre ++ [(k, v)]) ++ rest) = true := by simpa using h
    have h₂ := Dict.sorted_append_left _ _ h₁
    have h₃ := Dict.assign_of_below pre k v (Dict.below_of_sorted_snoc pre k v h₂)
    have ih := Dict.assignAll_sorted rest (pre ++ [(k, v)]) h₁
    simp only [Dict.assignAll, List.foldl_cons] at ih ⊢
    rw [h₃, ih]
    simp

theorem Builder.insideContainer_cases (b : Builder) (h : b.insideContainer = true) :
    (∃ m k below, b.state_stack = .DictState (.dict m) (some k) :: below) ∨
    (∃ a below, b.state_stack = .ArrayState (.array a) :: below) := by
  unfold Builder.insideContainer at h
  split at h
  · exact Or.inl ⟨_, _, _, by assumption⟩
  · exact Or.inr ⟨_, _, by assumption⟩
  · cases h

mutual
theorem Builder.run_emit : ∀ (x : Node), x.WF = true → ∀ b : Builder,
    b.insideContainer = true → b.run (emit x) = b.Value x
  | .null, _, b, _ => by
    simp only [emit, Builder.run, Builder.call]; cases b.Value .null <;> rfl
  | .bool v, _, b, _ => by
    simp only [emit, Builder.run, Builder.call]; cases b.Value (.bool v) <;> rfl
  | .double v, _, b, _ => by
    simp only [emit, Builder.run, Builder.call]; cases b.Value (.double v) <;> rfl
  | .int v, _, b, _ => by
    simp only [emit, Builder.run, Builder.call]; cases b.Value (.int v) <;> rfl
  | .string v, _, b, _ => by
    simp only [emit, Builder.run, Builder.call]; cases b.Value (.string v) <;> rfl
  | .array a, hx, b, hb => by
    obtain ⟨root, nodes, stack⟩ := b
    have ha : Node.WFArray a = true := by simpa [Node.WF] using hx
    rcases Builder.insideContainer_cases _ hb with ⟨m, k, below, hs⟩ | ⟨a₀, below, hs⟩
    · simp only at hs
      subst hs
      have h₁ := Builder.run_emitArray a ha root nodes []
        (.DictState (.dict m) (some k) :: below)
      simp only [emit, Builder.run, Builder.call, Builder.StartArray, Builder.GetState,
        List.head?, BuilderState.StartArray, Builder.PushBackState, Builder.run_append,
        h₁, List.nil_append]
      rfl
    · simp only at hs
      subst hs
      have h₁ := Builder.run_emitArray a ha root nodes []
        (.ArrayState (.array a₀) :: below)
      simp only [emit, Builder.run, Builder.call, Builder.StartArray, Builder.GetState,
        List.head?, BuilderState.StartArray, Builder.PushBackState, Builder.run_append,
        h₁, List.nil_append]
      rfl
  | .dict d, hx, b, hb => by
    obtain ⟨root, nodes, stack⟩ := b
    have hd : Dict.sorted d = true ∧ Node.WFDict d = true := by simpa [Node.WF] using hx
    have hall : Dict.assignAll [] d = d := by
      simpa using Dict.assignAll_sorted d [] (by simpa using hd.1)
    rcases Builder.insideContainer_cases _ hb with ⟨m, k, below, hs⟩ | ⟨a₀, below, hs⟩
    · simp only at hs
      subst hs
      have h₁ := Builder.run_emitDict d hd.2 root nodes []
        (.DictState (.dict m) (some k) :: below)
      simp only [emit, Builder.run, Builder.call, Builder.StartDict, Builder.GetState,
        List.head?, BuilderState.StartDict, Builder.PushBackState, Builder.run_append,
        h₁, hall]
      rfl
    · simp only at hs
      subst hs
      have h₁ := Builder.run_emitDict d hd.2 root nodes []
        (.ArrayState (.array a₀) :: below)
      simp only [emit, Builder.run, Builder.call, Builder.StartDict, Builder.GetState,
        List.head?, BuilderState.StartDict, Builder.PushBackState, Builder.run_append,
        h₁, hall]
      rfl
theorem Builder.run_emitArray : ∀ (a : List Node), Node.WFArray a = true →
    ∀ (root : Option Node) (nodes : List Node) (pre : List Node) (below : List BuilderState),
    Builder.run ⟨root, nodes, .ArrayState (.array pre) :: below⟩ (emitArray a)
      = .ok () ⟨root, nodes, .ArrayState (.array (pre ++ a)) :: below⟩
  | [], _, root, nodes, pre, below => by simp [emitArray, Builder.run]
  | x :: xs, h, root, nodes, pre, below => by
    have hx : x.WF = true ∧ Node.WFArray xs = true := by simpa [Node.WFArray] using h
    have h₁ := Builder.run_emit x hx.1 ⟨root, nodes, .ArrayState (.array pre) :: below⟩ rfl
    have h₂ := Builder.run_emitArray xs hx.2 root nodes (pre ++ [x]) below
    simp only [emitArray, Builder.run_append, h₁]
    simp only [Builder.Value, Builder.GetState, List.head?, BuilderState.Value,
      Builder.setState, List.tail, h₂]
    simp
theorem Builder.run_emitDict : ∀ (d : List (List Char × Node)), Node.WFDict d = true →
    ∀ (root : Option Node) (nodes : List Node) (pre : Dict) (below : List BuilderState),
    Builder.run ⟨root, nodes, .DictState (.dict pre) none :: below⟩ (emitDict d)
      = .ok () ⟨root, nodes, .DictState (.dict (Dict.assignAll pre d)) none :: below⟩
  | [], _, root, nodes, pre, below => by simp [emitDict, Builder.run, Dict.assignAll]
  | (k, x) :: xs, h, root, nodes, pre, below => by
    have hx : x.WF = true ∧ Node.WFDict xs = true := by simpa [Node.WFDict] using h
    have h₁ := Builder.run_emit x hx.1
      ⟨root, nodes, .DictState (.dict pre) (some k) :: below⟩ rfl
    have h₂ := Builder.run_emitDict xs hx.2 root nodes (Dict.assign pre k x) below
    simp only [emitDict, Builder.run, Builder.call, Builder.Key, Builder.GetState, List.head?,
      BuilderState.Key, Builder.setState, List.tail, Builder.run_append, h₁]
    simp only [Builder.Value, Builder.GetState, List.head?, BuilderState.Value,
      Builder.setState, List.tail, h₂]
    simp [Dict.assignAll]
end

/-! ## Builder: what every reachable Builder satisfies -/

theorem Builder.typed_iff (root : Option Node) (nodes : List Node) (top : BuilderState)
    (below : List BuilderState) :
    Builder.typed ⟨root, nodes, top :: below⟩ = true ↔
      top.typed = true ∧ below.all BuilderState.typed = true := by
  simp [Builder.typed]

theorem BuilderState.typed_ProcessBackNode (root : Option Node) (nodes : List Node)
    (top : BuilderState) (below : List BuilderState) (b₁ : Builder)
    (h : Builder.typed ⟨root, nodes, top :: below⟩ = true)
    (hc : (top.ProcessBackNode ⟨root, nodes, top :: below⟩).builder? = some b₁) :
    b₁.typed = true := by
  have h' := (Builder.typed_iff _ _ _ _).1 h
  cases top with
  | InitState n =>
    simp only [BuilderState.ProcessBackNode, Outcome.builder?, Option.some.injEq] at hc
    subst hc; exact h
  | ValueState n =>
    simp only [BuilderState.ProcessBackNode, Outcome.builder?, Option.some.injEq] at hc
    subst hc; exact h
  | DictState n key =>
    cases key with
    | none =>
      simp only [BuilderState.ProcessBackNode, Outcome.builder?, Option.some.injEq] at hc
      subst hc; exact h
    | some k =>
      cases n <;> simp only [BuilderState.typed, Bool.false_eq_true, false_and] at h'
      cases nodes with
      | nil => simp [BuilderState.ProcessBackNode, Builder.GetBackNode, Outcome.builder?] at hc
      | cons back rest =>
        simp only [BuilderState.ProcessBackNode, Builder.GetBackNode, List.head?,
          Outcome.builder?, Option.some.injEq] at hc
        subst hc
        exact (Builder.typed_iff _ _ _ _).2 ⟨rfl, h'.2⟩
  | ArrayState n =>
    cases n <;> simp only [BuilderState.typed, Bool.false_eq_true, false_and] at h'
    cases nodes with
    | nil => simp [BuilderState.ProcessBackNode, Builder.GetBackNode, Outcome.builder?] at hc
    | cons back rest =>
      simp only [BuilderState.ProcessBackNode, Builder.GetBackNode, List.head?,
        Outcome.builder?, Option.some.injEq] at hc
      subst hc
      exact (Builder.typed_iff _ _ _ _).2 ⟨rfl, h'.2⟩

theorem Builder.typed_after_pop (root : Option Node) (nodes : List Node)
    (top : BuilderState) (below : List BuilderState) (b₁ : Builder)
    (h : below.all BuilderState.typed = true)
    (hc : (match Builder.GetState (Builder.PopBackState ⟨root, nodes, top :: below⟩) with
      | some st => st.ProcessBackNode (Builder.PopBackState ⟨root, nodes, top :: below⟩)
      | none => Outcome.undefined).builder? = some b₁) :
    b₁.typed = true := by
  cases below with
  | nil => simp [Builder.PopBackState, Builder.GetState, Outcome.builder?] at hc
  | cons st rest =>
    simp only [Builder.PopBackState, List.tail, Builder.GetState, List.head?] at hc
    refine BuilderState.typed_ProcessBackNode root nodes st rest b₁ ?_ hc
    rw [Builder.typed_iff]
    simpa using h

theorem Builder.typed_call (b b₁ : Builder) (c : Call) (h : b.typed = true)
    (hc : (b.call c).builder? = some b₁) : b₁.typed = true := by
  obtain ⟨root, nodes, stack⟩ := b
  cases stack with
  | nil => simp [Builder.typed] at h
  | cons top below =>
    have h' := (Builder.typed_iff _ _ _ _).1 h
    cases c with
    | Value node =>
      cases top with
      | InitState n =>
        simp only [Builder.call, Builder.Value, Builder.GetState, List.head?,
          BuilderState.Value, Outcome.builder?, Option.some.injEq] at hc
        subst hc
        exact (Builder.typed_iff _ _ _ _).2 ⟨rfl, by simpa using h'⟩
      | ValueState n =>
        simp only [Builder.call, Builder.Value, Builder.GetState, List.head?,
          BuilderState.Value, Outcome.builder?, Option.some.injEq] at hc
        subst hc; exact h
      | DictState n key =>
        cases key with
        | none =>
          simp only [Builder.call, Builder.Value, Builder.GetState, List.head?,
            BuilderState.Value, Outcome.builder?, Option.some.injEq] at hc
          subst hc; exact h
        | some k =>
          cases n <;> simp only [BuilderState.typed, Bool.false_eq_true, false_and] at h'
          simp only [Builder.call, Builder.Value, Builder.GetState, List.head?,
            BuilderState.Value, Outcome.builder?, Option.some.injEq] at hc
          subst hc
          exact (Builder.typed_iff _ _ _ _).2 ⟨rfl, h'.2⟩
      | ArrayState n =>
        cases n <;> simp only [BuilderState.typed, Bool.false_eq_true, false_and] at h'
        simp only [Builder.call, Builder.Value, Builder.GetState, List.head?,
          BuilderState.Value, Outcome.builder?, Option.some.injEq] at hc
        subst hc
        exact (Builder.typed_iff _ _ _ _).2 ⟨rfl, h'.2⟩
    | StartDict =>
      cases top with
      | DictState n key =>
        cases key <;>
        · simp only [Builder.call, Builder.StartDict, Builder.GetState, List.head?,
            BuilderState.StartDict, Outcome.builder?, Option.some.injEq] at hc
          subst hc
          exact h
      | _ =>
        simp only [Builder.call, Builder.StartDict, Builder.GetState, List.head?,
          BuilderState.StartDict, Outcome.builder?, Option.some.injEq] at hc
        subst hc
        exact h
    | StartArray =>
      cases top with
      | DictState n key =>
        cases key <;>
        · simp only [Builder.call, Builder.StartArray, Builder.GetState, List.head?,
            BuilderState.StartArray, Outcome.builder?, Option.some.injEq] at hc
          subst hc
          exact h
      | _ =>
        simp only [Builder.call, Builder.StartArray, Builder.GetState, List.head?,
          BuilderState.StartArray, Outcome.builder?, Option.some.injEq] at hc
        subst hc
        exact h
    | EndDict =>
      cases top with
      | DictState n key =>
        simp only [Builder.call, Builder.EndDict, Builder.GetState, List.head?,
          BuilderState.EndDict, Builder.setState, Builder.PushNode, List.tail] at hc
        exact Builder.typed_after_pop _ _ _ _ _ h'.2 hc
      | _ =>
        simp only [Builder.call, Builder.EndDict, Builder.GetState, List.head?,
          BuilderState.EndDict, Outcome.builder?, Option.some.injEq] at hc
        subst hc; exact h
    | EndArray =>
      cases top with
      | ArrayState n =>
        simp only [Builder.call, Builder.EndArray, Builder.GetState, List.head?,
          BuilderState.EndArray, Builder.setState, Builder.PushNode, List.tail] at hc
        exact Builder.typed_after_pop _ _ _ _ _ h'.2 hc
      | _ =>
        simp only [Builder.call, Builder.EndArray, Builder.GetState, List.head?,
          BuilderState.EndArray, Outcome.builder?, Option.some.injEq] at hc
        subst hc; exact h
    | Key key =>
      cases top with
      | DictState n ck =>
        cases ck <;>
        · simp only [Builder.call, Builder.Key, Builder.GetState, List.head?,
            BuilderState.Key, Outcome.builder?, Option.some.injEq] at hc
          subst hc
          first
            | exact h
            | (cases n <;> simp only [BuilderState.typed, Bool.false_eq_true, false_and] at h'
               exact (Builder.typed_iff _ _ _ _).2 ⟨rfl, h'.2⟩)
      | _ =>
        simp only [Builder.call, Builder.Key, Builder.GetState, List.head?,
          BuilderState.Key, Outcome.builder?, Option.some.injEq] at hc
        subst hc; exact h

theorem Builder.typed_Build (b b₁ : Builder) (h : b.typed = true)
    (hc : b.Build.builder? = some b₁) : b₁.typed = true := by
  obtain ⟨root, nodes, stack⟩ := b
  cases stack with
  | nil => simp [Builder.typed] at h
  | cons top below =>
    cases top with
    | InitState n =>
      cases nodes with
      | nil =>
        simp only [Builder.Build, Builder.GetState, List.head?, BuilderState.Build,
          Builder.GetNodeStackSize, List.length, ne_eq, Nat.zero_ne_one, not_false_eq_true,
          if_true, Outcome.builder?, Option.some.injEq] at hc
        subst hc; exact h
      | cons back rest =>
        by_cases hlen : (back :: rest).length = 1
        · simp only [Builder.Build, Builder.GetState, List.head?, BuilderState.Build,
            Builder.GetNodeStackSize, hlen, ne_eq, not_true_eq_false, if_false,
            Builder.GetBackNode, Builder.PopNode, Outcome.builder?, Option.some.injEq] at hc
          subst hc; exact h
        · simp only [Builder.Build, Builder.GetState, List.head?, BuilderState.Build,
            Builder.GetNodeStackSize, hlen, ne_eq, not_false_eq_true, if_true,
            Outcome.builder?, Option.some.injEq] at hc
          subst hc; exact h
    | ValueState n =>
      simp only [Builder.Build, Builder.GetState, List.head?, BuilderState.Build,
        Builder.setState, Outcome.builder?, Option.some.injEq] at hc
      subst hc; exact h
    | DictState n key =>
      simp only [Builder.Build, Builder.GetState, List.head?, BuilderState.Build,
        Outcome.builder?, Option.some.injEq] at hc
      subst hc; exact h
    | ArrayState n =>
      simp only [Builder.Build, Builder.GetState, List.head?, BuilderState.Build,
        Outcome.builder?, Option.some.injEq] at hc
      subst hc; exact h

theorem Reachable.typed {b : Builder} (h : Reachable b) : b.typed = true := by
  induction h with
  | new => rfl
  | call b b₁ c _ hc ih => exact Builder.typed_call b b₁ c ih hc
  | build b b₁ _ hc ih => exact Builder.typed_Build b b₁ ih hc

theorem Reachable.stack {b : Builder} (h : Reachable b) :
    ∃ top below, b.state_stack = top :: below ∧ top.typed = true := by
  have ht := h.typed
  obtain ⟨root, nodes, stack⟩ := b
  cases stack with
  | nil => simp [Builder.typed] at ht
  | cons top below => exact ⟨top, below, rfl, ((Builder.typed_iff _ _ _ _).1 ht).1⟩

theorem Reachable.run {b : Builder} (h : Reachable b) : ∀ (cs : List Call) (b₁ : Builder),
    (b.run cs).builder? = some b₁ → Reachable b₁ := by
  intro cs
  induction cs generalizing b with
  | nil =>
    intro b₁ hb
    simp only [Builder.run, Outcome.builder?, Option.some.injEq] at hb
    subst hb; exact h
  | cons c cs ih =>
    intro b₁ hb
    simp only [Builder.run] at hb
    cases hc : b.call c with
    | ok u b₂ =>
      rw [hc] at hb
      exact ih (Reachable.call b b₂ c h (by rw [hc]; rfl)) b₁ hb
    | thrown w b₂ =>
      rw [hc] at hb
      simp only [Outcome.builder?, Option.some.injEq] at hb
      subst hb
      exact Reachable.call b b₂ c h (by rw [hc]; rfl)
    | undefined =>
      rw [hc] at hb
      simp [Outcome.builder?] at hb

/-! ## Map lookups after `map[key] = value` -/

theorem Dict.assign_assign : ∀ (m : Dict) (k : List Char) (v₁ v₂ : Node),
    Dict.assign (Dict.assign m k v₁) k v₂ = Dict.assign m k v₂
  | [], k, v₁, v₂ => by simp [Dict.assign, strLt_irrefl]
  | (k', v') :: rest, k, v₁, v₂ => by
    by_cases h₁ : strLt k k' = true
    · simp [Dict.assign, h₁, strLt_irrefl]
    · by_cases h₂ : strLt k' k = true
      · simp [Dict.assign, h₁, h₂, Dict.assign_assign rest k v₁ v₂]
      · simp [Dict.assign, h₁, h₂]

theorem Dict.find_assign : ∀ (m : Dict) (k : List Char) (v : Node),
    Dict.find (Dict.assign m k v) k = some v
  | [], k, v => by simp [Dict.assign, Dict.find]
  | (k', v') :: rest, k, v => by
    by_cases h₁ : strLt k k' = true
    · simp [Dict.assign, h₁, Dict.find]
    · by_cases h₂ : strLt k' k = true
      · have hne : k' ≠ k := by
          intro e; rw [e, strLt_irrefl] at h₂; cases h₂
        simp [Dict.assign, h₁, h₂, Dict.find, hne, Dict.find_assign rest k v]
      · have he : k' = k :=
          strLt_total _ _ (by simpa using h₂) (by simpa using h₁)
        subst he
        simp [Dict.assign, strLt_irrefl, Dict.find]

theorem Dict.find_assign_ne : ∀ (m : Dict) (k k₀ : List Char) (v : Node), k₀ ≠ k →
    Dict.find (Dict.assign m k v) k₀ = Dict.find m k₀
  | [], k, k₀, v, hne => by simp [Dict.assign, Dict.find, Ne.symm hne]
  | (k', v') :: rest, k, k₀, v, hne => by
    by_cases h₁ : strLt k k' = true
    · simp [Dict.assign, h₁, Dict.find, Ne.symm hne]
    · by_cases h₂ : strLt k' k = true
      · simp [Dict.assign, h₁, h₂, Dict.find, Dict.find_assign_ne rest k k₀ v hne]
      · have he : k' = k :=
          strLt_total _ _ (by simpa using h₂) (by simpa using h₁)
        subst he
        simp [Dict.assign, strLt_irrefl, Dict.find, Ne.symm hne]

theorem Dict.above_of_sorted : ∀ (m : Dict) (k : List Char) (v : Node),
    Dict.sorted ((k, v) :: m) = true → ∀ e ∈ m, strLt k e.1 = true
  | [], _, _, _ => by intro e he; cases he
  | (k₂, v₂) :: rest, k, v, h => by
    simp only [Dict.sorted, Bool.and_eq_true] at h
    have ih := Dict.above_of_sorted rest k₂ v₂ h.2
    intro e he
    rcases List.mem_cons.1 he with rfl | he'
    · exact h.1
    · exact strLt_trans _ _ _ h.1 (ih e he')

theorem Dict.count_eq_zero (m : Dict) (k : List Char) (h : ∀ e ∈ m, strLt k e.1 = true) :
    Dict.count m k = 0 := by
  simp only [Dict.count, List.length_eq_zero, List.filter_eq_nil_iff, decide_eq_true_eq]
  intro e he heq
  have := h e he
  rw [heq, strLt_irrefl] at this
  cases this

theorem Dict.count_cons (e : List Char × Node) (m : Dict) (k : List Char) :
    Dict.count (e :: m) k = (if e.1 = k then 1 else 0) + Dict.count m k := by
  by_cases h : e.1 = k
  · simp [Dict.count, List.filter_cons, h, Nat.add_comm]
  · simp [Dict.count, List.filter_cons, h]

theorem Dict.count_assign : ∀ (m : Dict) (k : List Char) (v : Node),
    Dict.sorted m = true → Dict.count (Dict.assign m k v) k = 1
  | [], k, v, _ => by simp [Dict.assign, Dict.count]
  | (k', v') :: rest, k, v, hs => by
    have habove := Dict.above_of_sorted rest k' v' hs
    by_cases h₁ : strLt k k' = true
    · have hz : Dict.count ((k', v') :: rest) k = 0 := by
        apply Dict.count_eq_zero
        intro e he
        rcases List.mem_cons.1 he with rfl | he'
        · exact h₁
        · exact strLt_trans _ _ _ h₁ (habove e he')
      simp [Dict.assign, h₁, Dict.count_cons, hz]
    · by_cases h₂ : strLt k' k = true
      · have hne : k' ≠ k := by
          intro e; rw [e, strLt_irrefl] at h₂; cases h₂
        have ih := Dict.count_assign rest k v (Dict.sorted_tail _ _ hs)
        simp [Dict.assign, h₁, h₂, Dict.count_cons, hne, ih]
      · have he : k' = k :=
          strLt_total _ _ (by simpa using h₂) (by simpa using h₁)
        have hz : Dict.count rest k = 0 :=
          Dict.count_eq_zero rest k (by rw [← he]; exact habove)
        subst he
        simp [Dict.assign, strLt_irrefl, Dict.count_cons, hz]

/-! ## Map lookups after `std::map::insert` -/

theorem Dict.sorted_cons (k : List Char) (v : Node) (m : Dict) :
    Dict.sorted ((k, v) :: m) = true ↔
      (∀ e ∈ m.head?, strLt k e.1 = true) ∧ Dict.sorted m = true := by
  cases m with
  | nil => simp [Dict.sorted]
  | cons e rest =>
    obtain ⟨k₂, v₂⟩ := e
    simp [Dict.sorted]

theorem Dict.insert_head (m : Dict) (k : List Char) (v : Node) :
    ∀ e ∈ (Dict.insert m k v).head?, e.1 = k ∨ e ∈ m.head? := by
  cases m with
  | nil => simp [Dict.insert]
  | cons e₀ rest =>
    obtain ⟨k', v'⟩ := e₀
    by_cases h₁ : strLt k k' = true
    · simp [Dict.insert, h₁]
    · by_cases h₂ : strLt k' k = true
      · simp [Dict.insert, h₁, h₂]
      · simp [Dict.insert, h₁, h₂]

theorem Dict.insert_sorted : ∀ (m : Dict) (k : List Char) (v : Node),
    Dict.sorted m = true → Dict.sorted (Dict.insert m k v) = true
  | [], _, _, _ => rfl
  | (k', v') :: rest, k, v, hs => by
    have hs' := (Dict.sorted_cons k' v' rest).1 hs
    by_cases h₁ : strLt k k' = true
    · have : Dict.insert ((k', v') :: rest) k v = (k, v) :: (k', v') :: rest := by
        simp [Dict.insert, h₁]
      rw [this, Dict.sorted_cons]
      exact ⟨by simpa using h₁, hs⟩
    · by_cases h₂ : strLt k' k = true
      · have : Dict.insert ((k', v') :: rest) k v = (k', v') :: Dict.insert rest k v := by
          simp [Dict.insert, h₁, h₂]
        rw [this, Dict.sorted_cons]
        refine ⟨?_, Dict.insert_sorted rest k v hs'.2⟩
        intro e he
        rcases Dict.insert_head rest k v e he with h | h
        · rw [h]; exact h₂
        · exact hs'.1 e h
      · have : Dict.insert ((k', v') :: rest) k v = (k', v') :: rest := by
          simp [Dict.insert, h₁, h₂]
        rw [this]; exact hs

theorem Dict.find_none_of_above (m : Dict) (k : List Char)
    (h : ∀ e ∈ m, strLt k e.1 = true) : Dict.find m k = none := by
  induction m with
  | nil => rfl
  | cons e rest ih =>
    obtain ⟨k', v'⟩ := e
    have hk : strLt k k' = true := h (k', v') (List.mem_cons_self _ _)
    have hne : k' ≠ k := by
      intro e; rw [e, strLt_irrefl] at hk; cases hk
    simp only [Dict.find, hne, if_false]
    exact ih (fun e he => h e (List.mem_cons_of_mem _ he))

theorem Dict.find_insert : ∀ (m : Dict) (k k₀ : List Char) (v : Node),
    Dict.sorted m = true →
    Dict.find (Dict.insert m k v) k₀ =
      match Dict.find m k₀ with
      | some x => some x
      | none => if k = k₀ then some v else none
  | [], k, k₀, v, _ => by simp [Dict.insert, Dict.find]
  | (k', v') :: rest, k, k₀, v, hs => by
    have habove := Dict.above_of_sorted rest k' v' hs
    by_cases h₁ : strLt k k' = true
    · have hins : Dict.insert ((k', v') :: rest) k v = (k, v) :: (k', v') :: rest := by
        simp [Dict.insert, h₁]
      rw [hins]
      by_cases hk : k = k₀
      · subst hk
        have hnone : Dict.find ((k', v') :: rest) k = none := by
          apply Dict.find_none_of_above
          intro e he
          rcases List.mem_cons.1 he with rfl | he'
          · exact h₁
          · exact strLt_trans _ _ _ h₁ (habove e he')
        rw [hnone]
        simp [Dict.find]
      · have : Dict.find ((k, v) :: (k', v') :: rest) k₀ = Dict.find ((k', v') :: rest) k₀ := by
          simp [Dict.find, hk]
        rw [this]
        cases Dict.find ((k', v') :: rest) k₀ <;> simp [hk]
    · by_cases h₂ : strLt k' k = true
      · have hins : Dict.insert ((k', v') :: rest) k v = (k', v') :: Dict.insert rest k v := by
          simp [Dict.insert, h₁, h₂]
        rw [hins]
        by_cases hk : k' = k₀
        · simp [Dict.find, hk]
        · simp only [Dict.find, hk, if_false]
          exact Dict.find_insert rest k k₀ v (Dict.sorted_tail _ _ hs)
      · have he : k' = k := strLt_total _ _ (by simpa using h₂) (by simpa using h₁)
        have hins : Dict.insert ((k', v') :: rest) k v = (k', v') :: rest := by
          simp [Dict.insert, h₁, h₂]
        rw [hins]
        subst he
        by_cases hk : k' = k₀
        · simp [Dict.find, hk]
        · have hz : Dict.find rest k₀ = Dict.find rest k₀ := rfl
          simp only [Dict.find, hk, if_false]
          cases Dict.find rest k₀ <;> rfl

theorem Dict.insertAll_sorted_of_sorted : ∀ (entries m : Dict), Dict.sorted m = true →
    Dict.sorted (Dict.insertAll m entries) = true
  | [], m, h => by simpa [Dict.insertAll] using h
  | (k, v) :: rest, m, h => by
    have := Dict.insertAll_sorted_of_sorted rest (Dict.insert m k v) (Dict.insert_sorted m k v h)
    simpa [Dict.insertAll] using this

theorem Dict.find_insertAll : ∀ (entries m : Dict) (k₀ : List Char), Dict.sorted m = true →
    Dict.find (Dict.insertAll m entries) k₀ =
      match Dict.find m k₀ with
      | some x => some x
      | none => Dict.find entries k₀
  | [], m, k₀, _ => by
    cases h : Dict.find m k₀ <;> simp [Dict.insertAll, Dict.find, h]
  | (k, v) :: rest, m, k₀, hs => by
    have ih := Dict.find_insertAll rest (Dict.insert m k v) k₀ (Dict.insert_sorted m k v hs)
    have hi := Dict.find_insert m k k₀ v hs
    have hall : Dict.insertAll m ((k, v) :: rest) = Dict.insertAll (Dict.insert m k v) rest := by
      simp [Dict.insertAll]
    rw [hall, ih, hi]
    cases Dict.find m k₀ with
    | some x => rfl
    | none =>
      by_cases hk : k = k₀
      · simp [hk, Dict.find]
      · simp [hk, Dict.find]

theorem Dict.count_le_one : ∀ (m : Dict) (k : List Char), Dict.sorted m = true →
    Dict.count m k ≤ 1
  | [], k, _ => by simp [Dict.count]
  | (k', v') :: rest, k, hs => by
    have habove := Dict.above_of_sorted rest k' v' hs
    rw [Dict.count_cons]
    by_cases hk : k' = k
    · have hz : Dict.count rest k = 0 :=
        Dict.count_eq_zero rest k (by rw [← hk]; exact habove)
      simp [hk, hz]
    · have ih := Dict.count_le_one rest k (Dict.sorted_tail _ _ hs)
      simp only [hk, if_false]
      omega

/-! ## Stream steps on a known text -/

theorem skipws_append (ws : List Char) (c : Char) (t : List Char)
    (hws : allSpace ws = true) (hc : isspace c = false) :
    skipws (ws ++ c :: t) = c :: t := by
  induction ws with
  | nil => simp [skipws, hc]
  | cons w ws ih =>
    simp only [allSpace, List.all_cons, Bool.and_eq_true] at hws
    simp only [List.cons_append, skipws, hws.1, if_true]
    exact ih hws.2

theorem IStream.extract_text (ws : List Char) (c : Char) (t : List Char)
    (hws : allSpace ws = true) (hc : isspace c = false) :
    IStream.extract ⟨ws ++ c :: t, false, false⟩ = (some c, ⟨t, false, false⟩) := by
  simp [IStream.extract, IStream.good, skipws_append ws c t hws hc]

theorem IStream.extract_head (c : Char) (t : List Char) (hc : isspace c = false) :
    IStream.extract ⟨c :: t, false, false⟩ = (some c, ⟨t, false, false⟩) :=
  IStream.extract_text [] c t rfl hc

theorem IStream.get_cons (c : Char) (t : List Char) :
    IStream.get ⟨c :: t, false, false⟩ = (some c, ⟨t, false, false⟩) := rfl

theorem IStream.peek_cons (c : Char) (t : List Char) :
    IStream.peek ⟨c :: t, false, false⟩ = (some c, ⟨c :: t, false, false⟩) := rfl

theorem IStream.putback_good (c : Char) (t : List Char) :
    IStream.putback ⟨t, false, false⟩ c = ⟨c :: t, false, false⟩ := rfl

theorem isspace_not_number (c : Char) (h : isspace c = true) :
    isdigit c = false ∧ c ≠ '.' ∧ c ≠ 'e' ∧ c ≠ 'E' ∧ c ≠ ',' ∧ c ≠ ']' ∧ c ≠ '}' := by
  simp only [isspace, Bool.or_eq_true, decide_eq_true_eq] at h
  rcases h with ((((h | h) | h) | h) | h) | h <;> subst h <;> decide

/-! ## Decimal digits -/

theorem natDigitsAux_append : ∀ (fuel n : Nat) (acc : List Nat),
    natDigitsAux fuel n acc = natDigitsAux fuel n [] ++ acc
  | 0, _, _ => by simp [natDigitsAux]
  | fuel + 1, n, acc => by
    by_cases h : n < 10
    · simp [natDigitsAux, h]
    · simp only [natDigitsAux, h, if_false]
      rw [natDigitsAux_append fuel (n / 10) (n % 10 :: acc),
        natDigitsAux_append fuel (n / 10) [n % 10]]
      simp

theorem natDigitsAux_lt : ∀ (fuel n : Nat), n < fuel → ∀ d ∈ natDigitsAux fuel n [], d < 10
  | 0, _, h => by omega
  | fuel + 1, n, h => by
    by_cases h₁ : n < 10
    · simp [natDigitsAux, h₁]
    · simp only [natDigitsAux, h₁, if_false]
      rw [natDigitsAux_append]
      intro d hd
      rcases List.mem_append.1 hd with hd | hd
      · exact natDigitsAux_lt fuel (n / 10) (by omega) d hd
      · simp at hd; omega

theorem natDigitsAux_ne_nil (fuel n : Nat) : natDigitsAux (fuel + 1) n [] ≠ [] := by
  by_cases h₁ : n < 10
  · simp [natDigitsAux, h₁]
  · simp only [natDigitsAux, h₁, if_false]
    rw [natDigitsAux_append]
    simp

theorem accumulate_snoc (result : Int) (ds : List Nat) (d : Nat) :
    accumulate result (ds ++ [d]) = wrapInt (wrapInt (accumulate result ds * 10) + (d : Int)) := by
  unfold accumulate
  rw [List.foldl_append, List.foldl_cons, List.foldl_nil]

theorem accumulate_single (result : Int) (d : Nat) :
    accumulate result [d] = wrapInt (wrapInt (result * 10) + (d : Int)) := by
  unfold accumulate
  rw [List.foldl_cons, List.foldl_nil]

theorem accumulate_cons (result : Int) (d : Nat) (ds : List Nat) :
    accumulate result (d :: ds)
      = accumulate (wrapInt (wrapInt (result * 10) + (d : Int))) ds := by
  unfold accumulate
  rw [List.foldl_cons]

theorem wrapInt_digit (n : Nat) : wrapInt (wrapInt (0 * 10) + (n : Int)) = wrapInt n := by
  simp only [wrapInt]; omega

theorem wrapInt_step (n : Nat) :
    wrapInt (wrapInt (wrapInt ((n / 10 : Nat) : Int) * 10) + ((n % 10 : Nat) : Int))
      = wrapInt n := by
  simp only [wrapInt]; omega

theorem accumulate_natDigitsAux : ∀ (fuel n : Nat), n < fuel →
    accumulate 0 (natDigitsAux fuel n []) = wrapInt n
  | 0, _, h => by omega
  | fuel + 1, n, h => by
    by_cases h₁ : n < 10
    · rw [natDigitsAux, if_pos h₁, accumulate_single, wrapInt_digit]
    · rw [natDigitsAux, if_neg h₁, natDigitsAux_append, accumulate_snoc,
        accumulate_natDigitsAux fuel (n / 10) (by omega), wrapInt_step]

theorem digitChar_toNat (d : Nat) (h : d < 10) : (digitChar d).toNat = 48 + d := by
  interval_cases d <;> rfl

theorem digitChar_isdigit (d : Nat) (h : d < 10) : isdigit (digitChar d) = true := by
  interval_cases d <;> rfl

theorem digitChar_ne (d : Nat) (h : d < 10) :
    isspace (digitChar d) = false ∧ digitChar d ≠ '-' ∧ digitChar d ≠ ',' ∧
      digitChar d ≠ ']' := by
  interval_cases d <;> decide

/-! ## Reading back a printed `int` -/

theorem LoadNumber.digits_text : ∀ (ds : List Nat) (fuel : Nat) (result : Int)
    (rest : List Char), (∀ d ∈ ds, d < 10) → ds.length < fuel →
    isdigitInt rest.head? = false →
    LoadNumber.digits fuel result ⟨ds.map digitChar ++ rest, false, false⟩
      = some (accumulate result ds,
          if rest = [] then ⟨[], true, false⟩ else ⟨rest, false, false⟩)
  | [], 0, _, _, _, h, _ => by simp at h
  | [], fuel + 1, result, rest, _, _, hr => by
    cases rest with
    | nil => rfl
    | cons c t =>
      have hc : isdigit c = false := by simpa [isdigitInt] using hr
      simp [LoadNumber.digits, IStream.peek, IStream.good, isdigitInt, hc, accumulate]
  | d :: ds, 0, _, _, _, h, _ => by simp at h
  | d :: ds, fuel + 1, result, rest, hd, hf, hr => by
    have hd₁ : d < 10 := hd d (List.mem_cons_self _ _)
    have ih := LoadNumber.digits_text ds fuel
      (wrapInt (wrapInt (result * 10) + (d : Int))) rest
      (fun x hx => hd x (List.mem_cons_of_mem _ hx))
      (by simp only [List.length_cons] at hf; omega) hr
    have hval : (((digitChar d).toNat : Int) - 48) = (d : Int) := by
      rw [digitChar_toNat d hd₁]; push_cast; omega
    simp only [List.map_cons, List.cons_append, LoadNumber.digits, IStream.peek_cons,
      isdigitInt, digitChar_isdigit d hd₁, if_true, IStream.get_cons, toChar, hval, ih,
      accumulate, List.foldl_cons]

theorem endsNumber_head (rest : List Char) (h : endsNumber rest = true) :
    isdigitInt rest.head? = false := by
  cases rest with
  | nil => rfl
  | cons c t =>
    simp only [endsNumber, Bool.and_eq_true, Bool.not_eq_true'] at h
    simpa [isdigitInt] using h.1.1.1

theorem natText_digits (n : Nat) :
    ∃ d ds, natDigits n = d :: ds ∧ ∀ x ∈ d :: ds, x < 10 := by
  have h₁ := natDigitsAux_ne_nil n n
  have h₂ := natDigitsAux_lt (n + 1) n (by omega)
  unfold natDigits
  cases h : natDigitsAux (n + 1) n [] with
  | nil => exact absurd h h₁
  | cons d ds => exact ⟨d, ds, rfl, by rw [← h]; exact h₂⟩

theorem wrapInt_of_range (i : Int) (h : -2147483648 ≤ i ∧ i ≤ 2147483647) :
    wrapInt i = i := by
  simp only [wrapInt]; omega

theorem LoadNumber_intText (i : Int) (rest : List Char) (fuel : Nat)
    (hi : -2147483648 ≤ i ∧ i ≤ 2147483647) (hr : endsNumber rest = true)
    (hf : (intText i).length < fuel) :
    LoadNumber fuel ⟨intText i ++ rest, false, false⟩
      = .ok (.int i) (if rest = [] then ⟨[], true, true⟩ else ⟨rest, false, false⟩) := by
  obtain ⟨d, ds, hds, hlt⟩ := natText_digits i.natAbs
  have hacc : accumulate 0 (d :: ds) = wrapInt (i.natAbs : Int) := by
    rw [← hds]; exact accumulate_natDigitsAux _ _ (by omega)
  have hd := digitChar_ne d (hlt d (List.mem_cons_self _ _))
  have hpeek : ∀ (r : List Char), r ≠ [] → endsNumber r = true →
      (toChar (IStream.peek ⟨r, false, false⟩).1 = '.' ∨
        toChar (IStream.peek ⟨r, false, false⟩).1 = 'e' ∨
        toChar (IStream.peek ⟨r, false, false⟩).1 = 'E') = False := by
    intro r hr₁ hr₂
    cases r with
    | nil => exact absurd rfl hr₁
    | cons c t =>
      simp only [endsNumber, Bool.and_eq_true, Bool.not_eq_true', bne_iff_ne, ne_eq] at hr₂
      simp [IStream.peek, IStream.good, toChar, hr₂.1.1.2, hr₂.1.2, hr₂.2]
  by_cases hneg : i < 0
  · have htext : intText i = '-' :: ((d :: ds).map digitChar) := by
      simp [intText, hneg, natText, hds]
    have hlen : (d :: ds).length < fuel := by
      rw [htext] at hf; simp only [List.length_cons, List.length_map] at hf ⊢; omega
    have hdig := LoadNumber.digits_text (d :: ds) fuel 0 rest hlt hlen (endsNumber_head rest hr)
    have hw : wrapInt (-1 * wrapInt (i.natAbs : Int)) = i := by
      simp only [wrapInt]; omega
    rw [htext]
    simp only [List.cons_append, LoadNumber, IStream.peek_cons, if_true, IStream.get_cons, hdig,
      hacc, hw]
    cases rest with
    | nil => rfl
    | cons c t =>
      have := hpeek (c :: t) (by simp) hr
      simp only [List.cons_ne_nil, if_false]
      simp only [IStream.peek_cons, toChar] at this ⊢
      simp [this]
  · have htext : intText i = (d :: ds).map digitChar := by
      simp [intText, hneg, natText, hds]
    have hlen : (d :: ds).length < fuel := by
      rw [htext] at hf; simp only [List.length_cons, List.length_map] at hf ⊢; omega
    have hdig := LoadNumber.digits_text (d :: ds) fuel 0 rest hlt hlen (endsNumber_head rest hr)
    have hw : wrapInt (1 * wrapInt (i.natAbs : Int)) = i := by
      simp only [wrapInt]; omega
    have hne : (some (digitChar d) = some '-') = False := by
      simp [hd.2.1]
    rw [htext]
    rw [htext] at hf
    simp only [List.map_cons, List.cons_append, LoadNumber, IStream.peek_cons, hne, if_false]
    simp only [List.map_cons, List.cons_append] at hdig
    simp only [hdig, hacc, hw]
    cases rest with
    | nil => rfl
    | cons c t =>
      have := hpeek (c :: t) (by simp) hr
      simp only [List.cons_ne_nil, if_false]
      simp only [IStream.peek_cons, toChar] at this ⊢
      simp [this]

/-! ## Reading back a printed string -/

theorem escapeChar_cases (c : Char) :
    (c = '\r' ∧ escapeChar c = ['\\', 'r']) ∨ (c = '\\' ∧ escapeChar c = ['\\', '\\']) ∨
    (c = '\n' ∧ escapeChar c = ['\\', 'n']) ∨ (c = '"' ∧ escapeChar c = ['\\', '"']) ∨
    (c ≠ '\\' ∧ c ≠ '"' ∧ escapeChar c = [c]) := by
  by_cases h₁ : c = '\r'
  · exact Or.inl ⟨h₁, by subst h₁; rfl⟩
  · by_cases h₂ : c = '\\'
    · exact Or.inr (Or.inl ⟨h₂, by subst h₂; rfl⟩)
    · by_cases h₃ : c = '\n'
      · exact Or.inr (Or.inr (Or.inl ⟨h₃, by subst h₃; rfl⟩))
      · by_cases h₄ : c = '"'
        · exact Or.inr (Or.inr (Or.inr (Or.inl ⟨h₄, by subst h₄; rfl⟩)))
        · exact Or.inr (Or.inr (Or.inr (Or.inr ⟨h₂, h₄, by simp [escapeChar, h₁, h₂, h₃, h₄]⟩)))

/-- The loop of `LoadString`, entered on the first character of an escaped string that
is followed by the closing quote, decodes the string and stops after the quote. -/
theorem LoadString.loop_escaped : ∀ (s : List Char) (fuel : Nat) (line : List Char)
    (c₀ : Char) (t₀ more : List Char), s.length < fuel →
    c₀ :: t₀ = PrintString.loop s ++ '"' :: more →
    LoadString.loop fuel line c₀ ⟨t₀, false, false⟩
      = .ok (.string (line ++ s)) ⟨more, false, false⟩
  | _, 0, _, _, _, _, h, _ => by omega
  | [], fuel + 1, line, c₀, t₀, more, _, h => by
    simp only [PrintString.loop, List.nil_append, List.cons.injEq] at h
    obtain ⟨h₁, h₂⟩ := h
    subst h₁ h₂
    simp [LoadString.loop]
  | c :: s, fuel + 1, line, c₀, t₀, more, hf, h => by
    have hlen : s.length < fuel := by simp only [List.length_cons] at hf; omega
    obtain ⟨c₁, t₁, hnext⟩ : ∃ c₁ t₁, c₁ :: t₁ = PrintString.loop s ++ '"' :: more := by
      cases hp : PrintString.loop s ++ '"' :: more with
      | nil => simp at hp
      | cons a b => exact ⟨a, b, rfl⟩
    have ih := LoadString.loop_escaped s fuel (line ++ [c]) c₁ t₁ more hlen hnext
    simp only [List.append_assoc, List.singleton_append] at ih
    simp only [PrintString.loop, List.append_assoc] at h
    rw [← hnext] at h
    rcases escapeChar_cases c with ⟨hc, he⟩ | ⟨hc, he⟩ | ⟨hc, he⟩ | ⟨hc, he⟩ | ⟨hc₁, hc₂, he⟩
    all_goals
      rw [he] at h
      simp only [List.cons_append, List.nil_append, List.cons.injEq] at h
    · obtain ⟨h₁, h₂⟩ := h
      subst h₁ h₂ hc
      simp only [LoadString.loop, IStream.good, LoadString.escape, IStream.peek_cons, toChar,
        IStream.get_cons]
      simpa using ih
    · obtain ⟨h₁, h₂⟩ := h
      subst h₁ h₂ hc
      simp only [LoadString.loop, IStream.good, LoadString.escape, IStream.peek_cons, toChar,
        IStream.get_cons]
      simpa using ih
    · obtain ⟨h₁, h₂⟩ := h
      subst h₁ h₂ hc
      simp only [LoadString.loop, IStream.good, LoadString.escape, IStream.peek_cons, toChar,
        IStream.get_cons]
      simpa using ih
    · obtain ⟨h₁, h₂⟩ := h
      subst h₁ h₂ hc
      simp only [LoadString.loop, IStream.good, LoadString.escape, IStream.peek_cons, toChar,
        IStream.get_cons]
      simpa using ih
    · obtain ⟨h₁, h₂⟩ := h
      subst h₁ h₂
      simp only [LoadString.loop, IStream.good, IStream.get_cons, toChar]
      simpa [hc₁, hc₂] using ih

theorem LoadString_PrintString (s : List Char) (fuel : Nat) (more : List Char)
    (hf : s.length < fuel) :
    LoadString fuel ⟨PrintString.loop s ++ '"' :: more, false, false⟩
      = .ok (.string s) ⟨more, false, false⟩ := by
  cases hp : PrintString.loop s ++ '"' :: more with
  | nil => simp at hp
  | cons c₀ t₀ =>
    have := LoadString.loop_escaped s fuel [] c₀ t₀ more hf hp.symm
    simpa [LoadString, IStream.get_cons, toChar] using this

/-- The loop of `LoadString`, entered on the first character of a key written verbatim
and followed by the closing quote, reads the key and stops after the quote. -/
theorem LoadString.loop_key : ∀ (key : List Char) (fuel : Nat) (line : List Char)
    (c₀ : Char) (t₀ more : List Char), key.length < fuel → plainKey key = true →
    c₀ :: t₀ = key ++ '"' :: more →
    LoadString.loop fuel line c₀ ⟨t₀, false, false⟩
      = .ok (.string (line ++ key)) ⟨more, false, false⟩
  | _, 0, _, _, _, _, h, _, _ => by omega
  | [], fuel + 1, line, c₀, t₀, more, _, _, h => by
    simp only [List.nil_append, List.cons.injEq] at h
    obtain ⟨h₁, h₂⟩ := h
    subst h₁ h₂
    simp [LoadString.loop]
  | c :: key, fuel + 1, line, c₀, t₀, more, hf, hk, h => by
    have hlen : key.length < fuel := by simp only [List.length_cons] at hf; omega
    simp only [plainKey, List.all_cons, Bool.and_eq_true, bne_iff_ne, ne_eq] at hk
    obtain ⟨c₁, t₁, hnext⟩ : ∃ c₁ t₁, c₁ :: t₁ = key ++ '"' :: more := by
      cases hp : key ++ '"' :: more with
      | nil => simp at hp
      | cons a b => exact ⟨a, b, rfl⟩
    have ih := LoadString.loop_key key fuel (line ++ [c]) c₁ t₁ more hlen
      (by simpa [plainKey] using hk.2) hnext
    simp only [List.append_assoc, List.singleton_append] at ih
    simp only [List.cons_append, List.cons.injEq] at h
    rw [← hnext] at h
    obtain ⟨h₁, h₂⟩ := h
    subst h₁ h₂
    simp only [LoadString.loop, IStream.good, IStream.get_cons, toChar]
    simpa [hk.1.1, hk.1.2] using ih

theorem LoadString_key (key : List Char) (fuel : Nat) (more : List Char)
    (hf : key.length < fuel) (hk : plainKey key = true) :
    LoadString fuel ⟨key ++ '"' :: more, false, false⟩
      = .ok (.string key) ⟨more, false, false⟩ := by
  cases hp : key ++ '"' :: more with
  | nil => simp at hp
  | cons c₀ t₀ =>
    have := LoadString.loop_key key fuel [] c₀ t₀ more hf hk hp.symm
    simpa [LoadString, IStream.get_cons, toChar] using this

/-! ## Reading back a printed node -/

theorem PrintString.loop_length : ∀ (s : List Char), s.length ≤ (PrintString.loop s).length
  | [] => by simp [PrintString.loop]
  | c :: s => by
    have ih := PrintString.loop_length s
    have hc : 1 ≤ (escapeChar c).length := by
      rcases escapeChar_cases c with ⟨_, he⟩ | ⟨_, he⟩ | ⟨_, he⟩ | ⟨_, he⟩ | ⟨_, _, he⟩ <;>
        rw [he] <;> simp
    simp only [PrintString.loop, List.length_append, List.length_cons]
    omega

theorem intText_head (i : Int) :
    ∃ c t, intText i = c :: t ∧ isspace c = false ∧ c ≠ ']' ∧ c ≠ ',' ∧
      (c = '-' ∨ isdigit c = true) ∧
      c ≠ '[' ∧ c ≠ '{' ∧ c ≠ '"' ∧ c ≠ 'n' ∧ c ≠ 't' ∧ c ≠ 'f' := by
  obtain ⟨d, ds, hds, hlt⟩ := natText_digits i.natAbs
  have hd : d < 10 := hlt d (List.mem_cons_self _ _)
  have hdc : isspace (digitChar d) = false ∧ digitChar d ≠ ']' ∧ digitChar d ≠ ',' ∧
      isdigit (digitChar d) = true ∧ digitChar d ≠ '[' ∧ digitChar d ≠ '{' ∧
      digitChar d ≠ '"' ∧ digitChar d ≠ 'n' ∧ digitChar d ≠ 't' ∧ digitChar d ≠ 'f' := by
    interval_cases d <;> decide
  by_cases hneg : i < 0
  · refine ⟨'-', (d :: ds).map digitChar, by simp [intText, hneg, natText, hds], ?_⟩
    decide
  · refine ⟨digitChar d, ds.map digitChar, by simp [intText, hneg, natText, hds], ?_⟩
    exact ⟨hdc.1, hdc.2.1, hdc.2.2.1, Or.inr hdc.2.2.2.1, hdc.2.2.2.2⟩

theorem PrintNode_head (x : Node) (context : PrintContext) (hx : x.plain = true) :
    ∃ c t, PrintNode x context = c :: t ∧ isspace c = false ∧ c ≠ ']' ∧ c ≠ ',' := by
  cases x with
  | null => exact ⟨'n', _, rfl, by decide⟩
  | bool v => cases v <;> exact ⟨_, _, rfl, by decide⟩
  | double v => simp [Node.plain] at hx
  | int v =>
    obtain ⟨c, t, h, h₁, h₂, h₃, -⟩ := intText_head v
    exact ⟨c, t, by simpa [PrintNode] using h, h₁, h₂, h₃⟩
  | string v => exact ⟨'"', _, rfl, by decide⟩
  | array v => exact ⟨'[', _, rfl, by decide⟩
  | dict v => exact ⟨'{', _, rfl, by decide⟩

theorem endsNumber_close (text wsc rest : List Char) (close : Char)
    (hw : allSpace wsc = true) (hc : endsNumber (close :: rest) = true)
    (ht : text = [] ∨ ∃ t, text = ',' :: t) :
    endsNumber (text ++ (wsc ++ close :: rest)) = true ∧
    text ++ (wsc ++ close :: rest) ≠ [] := by
  rcases ht with rfl | ⟨t, rfl⟩
  · cases wsc with
    | nil => exact ⟨by simpa using hc, by simp⟩
    | cons w ws =>
      simp only [allSpace, List.all_cons, Bool.and_eq_true] at hw
      have := isspace_not_number w hw.1
      refine ⟨?_, by simp⟩
      simp [endsNumber, this.1, this.2.1, this.2.2.1, this.2.2.2.1]
  · exact ⟨by simp [endsNumber]; decide, by simp⟩

theorem PrintArrayLoop_false (es : List Node) (context : PrintContext) :
    PrintArrayLoop es context false = [] ∨ ∃ t, PrintArrayLoop es context false = ',' :: t := by
  cases es with
  | nil => exact Or.inl rfl
  | cons e es => exact Or.inr ⟨_, rfl⟩

theorem PrintDictLoop_false (es : List (List Char × Node)) (context : PrintContext) :
    PrintDictLoop es context false = [] ∨ ∃ t, PrintDictLoop es context false = ',' :: t := by
  cases es with
  | nil => exact Or.inl rfl
  | cons e es => obtain ⟨k, v⟩ := e; exact Or.inr ⟨_, rfl⟩

theorem allSpace_indent (context : PrintContext) : allSpace context.PrintIndent = true := by
  simp [allSpace, PrintContext.PrintIndent, isspace]

theorem allSpace_append (a b : List Char) (ha : allSpace a = true) (hb : allSpace b = true) :
    allSpace (a ++ b) = true := by
  simp only [allSpace, List.all_append, Bool.and_eq_true] at *
  exact ⟨ha, hb⟩

/-! ## The parser inverts the printer -/

theorem LoadNode_dispatch (fuel : Nat) (ws : List Char) (c : Char) (t : List Char)
    (hws : allSpace ws = true) (hc : isspace c = false) :
    LoadNode (fuel + 1) ⟨ws ++ c :: t, false, false⟩ =
      if c = '[' then LoadArray fuel ⟨t, false, false⟩
      else if c = '{' then LoadDict.loop fuel [] ⟨t, false, false⟩
      else if c = '"' then LoadString fuel ⟨t, false, false⟩
      else if c = 'n' then LoadNull ⟨c :: t, false, false⟩
      else if c = 't' then LoadBoolTrue ⟨c :: t, false, false⟩
      else if c = 'f' then LoadBoolFalse ⟨c :: t, false, false⟩
      else if c = '-' ∨ isdigit c then LoadNumber fuel ⟨c :: t, false, false⟩
      else .error (.ParsingError "Wrong input") := by
  rw [LoadNode, IStream.extract_text ws c t hws hc]
  rfl

theorem LoadNull_text (rest : List Char) :
    LoadNull ⟨'n' :: 'u' :: 'l' :: 'l' :: rest, false, false⟩
      = .ok .null ⟨rest, false, false⟩ := by
  simp [LoadNull, readWord, IStream.extract, IStream.good, skipws, isspace]

theorem LoadBoolTrue_text (rest : List Char) :
    LoadBoolTrue ⟨'t' :: 'r' :: 'u' :: 'e' :: rest, false, false⟩
      = .ok (.bool true) ⟨rest, false, false⟩ := by
  simp [LoadBoolTrue, readWord, IStream.extract, IStream.good, skipws, isspace]

theorem LoadBoolFalse_text (rest : List Char) :
    LoadBoolFalse ⟨'f' :: 'a' :: 'l' :: 's' :: 'e' :: rest, false, false⟩
      = .ok (.bool false) ⟨rest, false, false⟩ := by
  simp [LoadBoolFalse, readWord, IStream.extract, IStream.good, skipws, isspace]

theorem LoadArray_start (fuel : Nat) (c : Char) (t : List Char) (hc : c ≠ ',') :
    LoadArray (fuel + 1) ⟨c :: t, false, false⟩
      = LoadArray.loop fuel [] ((IStream.extract ⟨c :: t, false, false⟩).1.getD c)
          (IStream.extract ⟨c :: t, false, false⟩).2 := by
  rw [LoadArray, IStream.peek_cons]
  simp only [toChar, hc, if_false]

theorem LoadArray_loop_exit (fuel : Nat) (result : List Node) (rest : List Char) :
    LoadArray.loop (fuel + 1) result ']' ⟨rest, false, false⟩
      = .ok (.array result) ⟨rest, false, false⟩ := by
  rw [LoadArray.loop]
  simp

theorem LoadArray_loop_step (fuel : Nat) (result : List Node) (ch : Char) (t : List Char)
    (e : Node) (text more : List Char) (hch : ch ≠ ']')
    (ht : (if ch ≠ ',' then ch :: t else t) = text)
    (hN : LoadNode fuel ⟨text, false, false⟩ = .ok e ⟨more, false, false⟩) :
    LoadArray.loop (fuel + 1) result ch ⟨t, false, false⟩
      = LoadArray.loop fuel (result ++ [e])
          ((IStream.extract ⟨more, false, false⟩).1.getD ch)
          (IStream.extract ⟨more, false, false⟩).2 := by
  have hin : (if ch ≠ ',' then IStream.putback ⟨t, false, false⟩ ch else ⟨t, false, false⟩)
      = (⟨text, false, false⟩ : IStream) := by
    rw [← ht]
    by_cases h : ch = ','
    · simp [h]
    · simp [h, IStream.putback]
  rw [LoadArray.loop]
  simp only [IStream.good, Bool.not_false, Bool.and_self, Bool.true_and, ne_eq, hch,
    not_false_eq_true, decide_True, if_true]
  simp only [ne_eq] at hin
  rw [hin, hN]

theorem LoadDict_loop_exit (fuel : Nat) (result : Dict) (ws rest : List Char)
    (hws : allSpace ws = true) :
    LoadDict.loop (fuel + 1) result ⟨ws ++ '}' :: rest, false, false⟩
      = .ok (.dict result) ⟨rest, false, false⟩ := by
  rw [LoadDict.loop, IStream.extract_text ws '}' rest hws (by decide)]
  simp [IStream.fail]

theorem LoadDict_loop_step (fuel : Nat) (result : Dict) (buf ws ws₁ key text more : List Char)
    (v : Node) (hws : allSpace ws = true) (hws₁ : allSpace ws₁ = true)
    (hb : buf = ws ++ '"' :: (key ++ '"' :: ':' :: text) ∨
      buf = ws ++ ',' :: (ws₁ ++ '"' :: (key ++ '"' :: ':' :: text)))
    (hk : plainKey key = true) (hlen : key.length < fuel)
    (hN : LoadNode fuel ⟨text, false, false⟩ = .ok v ⟨more, false, false⟩) :
    LoadDict.loop (fuel + 1) result ⟨buf, false, false⟩
      = LoadDict.loop fuel (Dict.insert result key v) ⟨more, false, false⟩ := by
  have hS := LoadString_key key fuel (':' :: text) hlen hk
  have hcolon := IStream.extract_head ':' text (by decide)
  rcases hb with rfl | rfl
  · rw [LoadDict.loop, IStream.extract_text ws '"' _ hws (by decide)]
    simp only [IStream.fail, Option.getD, Bool.not_false, Bool.true_and, ne_eq,
      show ¬ ('"' = '}') by decide, not_false_eq_true, decide_True, if_true,
      show ¬ ('"' = ',') by decide, if_false, hS, Node.AsString, hcolon,
      not_true_eq_false, hN]
  · rw [LoadDict.loop, IStream.extract_text ws ',' _ hws (by decide)]
    simp only [IStream.fail, Option.getD, Bool.not_false, Bool.true_and, ne_eq,
      show ¬ (',' = '}') by decide, not_false_eq_true, decide_True, if_true,
      IStream.extract_text ws₁ '"' _ hws₁ (by decide), hS, Node.AsString, hcolon,
      not_true_eq_false, if_false, hN]

theorem endsNumber_bracket (rest : List Char) : endsNumber (']' :: rest) = true := rfl

theorem endsNumber_brace (rest : List Char) : endsNumber ('}' :: rest) = true := rfl

mutual
/-- `LoadNode` reads a printed plain node back, whatever whitespace precedes it, and
stops right after it. -/
theorem LoadNode_PrintNode : ∀ (x : Node), x.plain = true → x.WF = true →
    ∀ (context : PrintContext) (ws rest : List Char) (fuel : Nat),
    allSpace ws = true → endsNumber rest = true →
    2 * (PrintNode x context).length + 2 ≤ fuel →
    ∃ s, LoadNode fuel ⟨ws ++ (PrintNode x context ++ rest), false, false⟩ = .ok x s ∧
      s.buf = rest ∧ (rest ≠ [] → s = ⟨rest, false, false⟩)
  | .null, _, _, context, ws, rest, fuel, hws, _, hf => by
    obtain ⟨f, rfl⟩ : ∃ f, fuel = f + 1 := ⟨fuel - 1, by omega⟩
    refine ⟨⟨rest, false, false⟩, ?_, rfl, fun _ => rfl⟩
    have hb : ws ++ (PrintNode .null context ++ rest)
        = ws ++ 'n' :: ('u' :: 'l' :: 'l' :: rest) := rfl
    rw [hb, LoadNode_dispatch f ws 'n' _ hws (by decide), if_neg (by decide),
      if_neg (by decide), if_neg (by decide), if_pos rfl, LoadNull_text]
  | .bool true, _, _, context, ws, rest, fuel, hws, _, hf => by
    obtain ⟨f, rfl⟩ : ∃ f, fuel = f + 1 := ⟨fuel - 1, by omega⟩
    refine ⟨⟨rest, false, false⟩, ?_, rfl, fun _ => rfl⟩
    have hb : ws ++ (PrintNode (.bool true) context ++ rest)
        = ws ++ 't' :: ('r' :: 'u' :: 'e' :: rest) := rfl
    rw [hb, LoadNode_dispatch f ws 't' _ hws (by decide), if_neg (by decide),
      if_neg (by decide), if_neg (by decide), if_neg (by decide), if_pos rfl,
      LoadBoolTrue_text]
  | .bool false, _, _, context, ws, rest, fuel, hws, _, hf => by
    obtain ⟨f, rfl⟩ : ∃ f, fuel = f + 1 := ⟨fuel - 1, by omega⟩
    refine ⟨⟨rest, false, false⟩, ?_, rfl, fun _ => rfl⟩
    have hb : ws ++ (PrintNode (.bool false) context ++ rest)
        = ws ++ 'f' :: ('a' :: 'l' :: 's' :: 'e' :: rest) := rfl
    rw [hb, LoadNode_dispatch f ws 'f' _ hws (by decide), if_neg (by decide),
      if_neg (by decide), if_neg (by decide), if_neg (by decide), if_neg (by decide),
      if_pos rfl, LoadBoolFalse_text]
  | .double v, hx, _, _, _, _, _, _, _, _ => by simp [Node.plain] at hx
  | .int v, hx, _, context, ws, rest, fuel, hws, hr, hf => by
    obtain ⟨f, rfl⟩ : ∃ f, fuel = f + 1 := ⟨fuel - 1, by omega⟩
    have hv : -2147483648 ≤ v ∧ v ≤ 2147483647 := by
      simp only [Node.plain, decide_eq_true_eq] at hx
      omega
    obtain ⟨c, t, hct, hsp, -, -, hnum, h₁, h₂, h₃, h₄, h₅, h₆⟩ := intText_head v
    have hp : PrintNode (.int v) context = intText v := rfl
    rw [hp] at hf ⊢
    have hN := LoadNumber_intText v rest f hv hr (by omega)
    have hnum' : c = '-' ∨ isdigit c = true := hnum
    refine ⟨if rest = [] then ⟨[], true, true⟩ else ⟨rest, false, false⟩, ?_, ?_, ?_⟩
    · rw [hct, List.cons_append, LoadNode_dispatch f ws c _ hws hsp, if_neg h₁, if_neg h₂,
        if_neg h₃, if_neg h₄, if_neg h₅, if_neg h₆, if_pos hnum', ← List.cons_append, ← hct,
        hN]
    · by_cases h : rest = [] <;> simp [h]
    · intro h; simp [h]
  | .string v, _, _, context, ws, rest, fuel, hws, _, hf => by
    obtain ⟨f, rfl⟩ : ∃ f, fuel = f + 1 := ⟨fuel - 1, by omega⟩
    refine ⟨⟨rest, false, false⟩, ?_, rfl, fun _ => rfl⟩
    have hlen := PrintString.loop_length v
    have hl : (PrintNode (.string v) context).length = (PrintString.loop v).length + 2 := by
      simp [PrintNode, PrintString]
    have hb : ws ++ (PrintNode (.string v) context ++ rest)
        = ws ++ '"' :: (PrintString.loop v ++ '"' :: rest) := by
      simp [PrintNode, PrintString]
    rw [hb, LoadNode_dispatch f ws '"' _ hws (by decide), if_neg (by decide),
      if_neg (by decide), if_pos rfl, LoadString_PrintString v f rest (by omega)]
  | .array es, hx, hwf, context, ws, rest, fuel, hws, hr, hf => by
    have hl : (PrintNode (.array es) context).length
        = (PrintArrayLoop es context.Indented true).length
          + context.PrintIndent.length + 4 := by
      simp [PrintNode]; omega
    obtain ⟨f, rfl⟩ : ∃ f, fuel = f + 2 := ⟨fuel - 2, by omega⟩
    refine ⟨⟨rest, false, false⟩, ?_, rfl, fun _ => rfl⟩
    have hb : ws ++ (PrintNode (.array es) context ++ rest)
        = ws ++ '[' :: ('\n' :: (PrintArrayLoop es context.Indented true
            ++ (('\n' :: context.PrintIndent) ++ ']' :: rest))) := by
      simp [PrintNode]
    have hwsc : allSpace ('\n' :: context.PrintIndent) = true :=
      allSpace_append ['\n'] _ rfl (allSpace_indent context)
    have hL := LoadArray_PrintArrayLoop es (by simpa [Node.plain] using hx)
      (by simpa [Node.WF] using hwf) context.Indented true ['\n']
      ('\n' :: context.PrintIndent) rest [] '\n' f _ _ rfl hwsc (by omega) rfl
    rw [hb, LoadNode_dispatch (f + 1) ws '[' _ hws (by decide), if_pos rfl,
      LoadArray_start f '\n' _ (by decide)]
    simpa using hL
  | .dict es, hx, hwf, context, ws, rest, fuel, hws, hr, hf => by
    have hl : (PrintNode (.dict es) context).length
        = (PrintDictLoop es context.Indented true).length
          + context.PrintIndent.length + 4 := by
      simp [PrintNode]; omega
    obtain ⟨f, rfl⟩ : ∃ f, fuel = f + 1 := ⟨fuel - 1, by omega⟩
    refine ⟨⟨rest, false, false⟩, ?_, rfl, fun _ => rfl⟩
    have hb : ws ++ (PrintNode (.dict es) context ++ rest)
        = ws ++ '{' :: (['\n'] ++ (PrintDictLoop es context.Indented true
            ++ (('\n' :: context.PrintIndent) ++ '}' :: rest))) := by
      simp [PrintNode]
    have hwsc : allSpace ('\n' :: context.PrintIndent) = true :=
      allSpace_append ['\n'] _ rfl (allSpace_indent context)
    have hwf' : Dict.sorted es = true ∧ Node.WFDict es = true := by
      simpa [Node.WF] using hwf
    have hD := LoadDict_PrintDictLoop es (by simpa [Node.plain] using hx) hwf'.2
      context.Indented true ['\n'] ('\n' :: context.PrintIndent) rest [] f rfl hwsc
      (by omega)
    have hall : Dict.insertAll [] es = es := Dict.insertAll_sorted es [] (by simpa using hwf'.1)
    rw [hb, LoadNode_dispatch f ws '{' _ hws (by decide), if_neg (by decide), if_pos rfl, hD,
      hall]
/-- The loop of `LoadArray`, entered after the extraction that precedes an iteration,
reads the printed elements that remain and the closing bracket. -/
theorem LoadArray_PrintArrayLoop : ∀ (es : List Node), Node.plainArray es = true →
    Node.WFArray es = true →
    ∀ (context : PrintContext) (first : Bool) (ws wsc rest : List Char) (result : List Node)
      (ch₀ : Char) (fuel : Nat) (r : Option Char) (input : IStream),
    allSpace ws = true → allSpace wsc = true →
    2 * (PrintArrayLoop es context first).length + 3 ≤ fuel →
    IStream.extract ⟨ws ++ (PrintArrayLoop es context first ++ (wsc ++ ']' :: rest)),
      false, false⟩ = (r, input) →
    LoadArray.loop fuel result (r.getD ch₀) input
      = .ok (.array (result ++ es)) ⟨rest, false, false⟩
  | [], _, _, context, first, ws, wsc, rest, result, ch₀, fuel, r, input, hws, hwsc, hf,
      he => by
    obtain ⟨f, rfl⟩ : ∃ f, fuel = f + 1 := ⟨fuel - 1, by omega⟩
    have hb : ws ++ (PrintArrayLoop [] context first ++ (wsc ++ ']' :: rest))
        = (ws ++ wsc) ++ ']' :: rest := by simp [PrintArrayLoop]
    rw [hb, IStream.extract_text (ws ++ wsc) ']' rest (allSpace_append _ _ hws hwsc)
      (by decide)] at he
    cases he
    simpa using LoadArray_loop_exit f result rest
  | e :: es, hx, hwf, context, first, ws, wsc, rest, result, ch₀, fuel, r, input, hws, hwsc,
      hf, he => by
    have hx' : e.plain = true ∧ Node.plainArray es = true := by
      simpa [Node.plainArray] using hx
    have hwf' : e.WF = true ∧ Node.WFArray es = true := by
      simpa [Node.WFArray] using hwf
    obtain ⟨c, t, hct, hsp, hc₁, hc₂⟩ := PrintNode_head e context hx'.1
    have hlen : (PrintArrayLoop (e :: es) context first).length
        = (if first then 0 else 2) + (context.PrintIndent.length
          + ((PrintNode e context).length + (PrintArrayLoop es context false).length)) := by
      cases first <;> simp [PrintArrayLoop] <;> omega
    have hpos : 1 ≤ (PrintNode e context).length := by rw [hct]; simp
    obtain ⟨f, rfl⟩ : ∃ f, fuel = f + 1 := ⟨fuel - 1, by omega⟩
    obtain ⟨hmore, hne⟩ := endsNumber_close (PrintArrayLoop es context false) wsc rest ']'
      hwsc (endsNumber_bracket rest) (PrintArrayLoop_false es context)
    have hL := LoadArray_PrintArrayLoop es hx'.2 hwf'.2 context false [] wsc rest
      (result ++ [e])
    cases first with
    | true =>
      have hb : ws ++ (PrintArrayLoop (e :: es) context true ++ (wsc ++ ']' :: rest))
          = (ws ++ context.PrintIndent) ++ c :: (t ++ (PrintArrayLoop es context false
              ++ (wsc ++ ']' :: rest))) := by
        simp [PrintArrayLoop, hct]
      rw [hb, IStream.extract_text _ c _ (allSpace_append _ _ hws (allSpace_indent context))
        hsp] at he
      cases he
      obtain ⟨s, hN, -, hs⟩ := LoadNode_PrintNode e hx'.1 hwf'.1 context []
        (PrintArrayLoop es context false ++ (wsc ++ ']' :: rest)) f rfl hmore
        (by simp only [if_true] at hlen; omega)
      rw [hs hne] at hN
      rw [Option.getD_some, LoadArray_loop_step f result c _ e _ _ hc₁
        (by rw [if_pos hc₂, hct]; simp) hN]
      have h := hL c f
        (IStream.extract ⟨PrintArrayLoop es context false ++ (wsc ++ ']' :: rest),
          false, false⟩).1
        (IStream.extract ⟨PrintArrayLoop es context false ++ (wsc ++ ']' :: rest),
          false, false⟩).2 rfl hwsc (by simp only [if_true] at hlen; omega) rfl
      rw [h, List.append_assoc]
      rfl
    | false =>
      have hb : ws ++ (PrintArrayLoop (e :: es) context false ++ (wsc ++ ']' :: rest))
          = ws ++ ',' :: (('\n' :: context.PrintIndent) ++ (PrintNode e context
              ++ (PrintArrayLoop es context false ++ (wsc ++ ']' :: rest)))) := by
        simp [PrintArrayLoop]
      rw [hb, IStream.extract_text ws ',' _ hws (by decide)] at he
      cases he
      obtain ⟨s, hN, -, hs⟩ := LoadNode_PrintNode e hx'.1 hwf'.1 context
        ('\n' :: context.PrintIndent)
        (PrintArrayLoop es context false ++ (wsc ++ ']' :: rest)) f
        (allSpace_append ['\n'] _ rfl (allSpace_indent context)) hmore
        (by simp at hlen; omega)
      rw [hs hne] at hN
      rw [Option.getD_some, LoadArray_loop_step f result ',' _ e _ _ (by decide)
        (by simp) hN]
      have h := hL ',' f
        (IStream.extract ⟨PrintArrayLoop es context false ++ (wsc ++ ']' :: rest),
          false, false⟩).1
        (IStream.extract ⟨PrintArrayLoop es context false ++ (wsc ++ ']' :: rest),
          false, false⟩).2 rfl hwsc (by simp at hlen; omega) rfl
      rw [h, List.append_assoc]
      rfl
/-- The loop of `LoadDict` reads the printed entries that remain and the closing brace,
inserting each entry with `std::map::insert`. -/
theorem LoadDict_PrintDictLoop : ∀ (es : List (List Char × Node)), Node.plainDict es = true →
    Node.WFDict es = true →
    ∀ (context : PrintContext) (first : Bool) (ws wsc rest : List Char) (result : Dict)
      (fuel : Nat),
    allSpace ws = true → allSpace wsc = true →
    2 * (PrintDictLoop es context first).length + 3 ≤ fuel →
    LoadDict.loop fuel result
        ⟨ws ++ (PrintDictLoop es context first ++ (wsc ++ '}' :: rest)), false, false⟩
      = .ok (.dict (Dict.insertAll result es)) ⟨rest, false, false⟩
  | [], _, _, context, first, ws, wsc, rest, result, fuel, hws, hwsc, hf => by
    obtain ⟨f, rfl⟩ : ∃ f, fuel = f + 1 := ⟨fuel - 1, by omega⟩
    have hb : ws ++ (PrintDictLoop [] context first ++ (wsc ++ '}' :: rest))
        = (ws ++ wsc) ++ '}' :: rest := by simp [PrintDictLoop]
    rw [hb, LoadDict_loop_exit f result _ rest (allSpace_append _ _ hws hwsc)]
    rfl
  | (k, v) :: es, hx, hwf, context, first, ws, wsc, rest, result, fuel, hws, hwsc, hf => by
    have hx' : (plainKey k = true ∧ v.plain = true) ∧ Node.plainDict es = true := by
      simpa [Node.plainDict] using hx
    have hwf' : v.WF = true ∧ Node.WFDict es = true := by
      simpa [Node.WFDict] using hwf
    have hlen : (PrintDictLoop ((k, v) :: es) context first).length
        = (if first then 0 else 2) + (context.PrintIndent.length + (k.length + 4
          + ((PrintNode v context).length + (PrintDictLoop es context false).length))) := by
      cases first <;> simp [PrintDictLoop] <;> omega
    obtain ⟨f, rfl⟩ : ∃ f, fuel = f + 1 := ⟨fuel - 1, by omega⟩
    obtain ⟨hmore, hne⟩ := endsNumber_close (PrintDictLoop es context false) wsc rest '}'
      hwsc (endsNumber_brace rest) (PrintDictLoop_false es context)
    have hfirst : (if first then 0 else 2) ≤ 2 := by cases first <;> simp
    obtain ⟨s, hN, -, hs⟩ := LoadNode_PrintNode v hx'.1.2 hwf'.1 context [' ']
      (PrintDictLoop es context false ++ (wsc ++ '}' :: rest)) f rfl hmore (by omega)
    rw [hs hne] at hN
    have hD := LoadDict_PrintDictLoop es hx'.2 hwf'.2 context false [] wsc rest
      (Dict.insert result k v) f rfl hwsc (by omega)
    have hstep := LoadDict_loop_step f result
      (ws ++ (PrintDictLoop ((k, v) :: es) context first ++ (wsc ++ '}' :: rest)))
      (if first then ws ++ context.PrintIndent else ws) ('\n' :: context.PrintIndent) k
      ([' '] ++ (PrintNode v context ++ (PrintDictLoop es context false
        ++ (wsc ++ '}' :: rest))))
      (PrintDictLoop es context false ++ (wsc ++ '}' :: rest)) v
      (by cases first
          · exact hws
          · exact allSpace_append _ _ hws (allSpace_indent context))
      (allSpace_append ['\n'] _ rfl (allSpace_indent context))
      (by cases first
          · exact Or.inr (by simp [PrintDictLoop])
          · exact Or.inl (by simp [PrintDictLoop]))
      hx'.1.1 (by omega) hN
    rw [hstep]
    simpa [Dict.insertAll] using hD
end

/-! ## `LoadNumber` on a number text -/

theorem wrapInt_digits_step (a d : Nat) :
    wrapInt (wrapInt (wrapInt (a : Int) * 10) + (d : Int)) = wrapInt ((a * 10 + d : Nat) : Int) := by
  simp only [wrapInt]; omega

theorem wrapInt_zero : wrapInt ((0 : Nat) : Int) = 0 := by
  simp only [wrapInt]; omega

theorem accumulate_nil (a : Int) : accumulate a [] = a := by
  unfold accumulate
  rw [List.foldl_nil]

theorem accumulate_value : ∀ (ds : List Nat) (a : Nat),
    accumulate (wrapInt (a : Int)) ds
      = wrapInt ((List.foldl (fun x d => x * 10 + d) a ds : Nat) : Int)
  | [], a => by rw [accumulate_nil, List.foldl_nil]
  | d :: ds, a => by
    rw [accumulate_cons, wrapInt_digits_step, accumulate_value ds (a * 10 + d), List.foldl_cons]

theorem accumulate_digitsValue (ds : List Nat) :
    accumulate 0 ds = wrapInt ((digitsValue ds : Nat) : Int) := by
  have h := accumulate_value ds 0
  rw [wrapInt_zero] at h
  rw [h]
  unfold digitsValue
  rfl

theorem map_digitChar_head (ds : List Nat) (rest : List Char) (hd : ∀ d ∈ ds, d < 10)
    (hne : ds ≠ []) :
    ∃ c t, ds.map digitChar ++ rest = c :: t ∧ isdigit c = true ∧ isspace c = false ∧
      c ≠ '-' ∧ c ≠ '[' ∧ c ≠ '{' ∧ c ≠ '"' ∧ c ≠ 'n' ∧ c ≠ 't' ∧ c ≠ 'f' := by
  cases ds with
  | nil => exact absurd rfl hne
  | cons d ds =>
    have h : d < 10 := hd d (List.mem_cons_self _ _)
    refine ⟨digitChar d, ds.map digitChar ++ rest, rfl, ?_⟩
    interval_cases d <;> decide

/-- The sign read by `LoadNumber`, and the stream it leaves at the digits. -/
theorem LoadNumber_sign (negative : Bool) (ds : List Nat) (rest : List Char)
    (hd : ∀ d ∈ ds, d < 10) (hne : negative = true ∨ ds ≠ []) :
    (if (IStream.peek ⟨numText negative ds ++ rest, false, false⟩).1 = some '-' then
        ((-1 : Int), (IStream.get (IStream.peek ⟨numText negative ds ++ rest, false, false⟩).2).2)
      else (1, (IStream.peek ⟨numText negative ds ++ rest, false, false⟩).2))
      = (signOf negative, ⟨ds.map digitChar ++ rest, false, false⟩) := by
  cases negative with
  | true => rfl
  | false =>
    have hne' : ds ≠ [] := by
      rcases hne with h | h
      · cases h
      · exact h
    obtain ⟨c, t, hct, -, -, hc, -⟩ := map_digitChar_head ds rest hd hne'
    have hc' : ¬ (some c = some '-') := by simpa using hc
    simp only [numText, Bool.false_eq_true, if_false, hct, IStream.peek_cons, hc', signOf]

/-- `LoadNumber` in terms of its parts, once the integer digits are read. -/
theorem LoadNumber_after_digits (negative : Bool) (ds : List Nat) (rest : List Char)
    (fuel : Nat) (hd : ∀ d ∈ ds, d < 10) (hne : negative = true ∨ ds ≠ [])
    (hr : isdigitInt rest.head? = false) (hf : ds.length < fuel) :
    LoadNumber fuel ⟨numText negative ds ++ rest, false, false⟩
      = (let input₃ : IStream := if rest = [] then ⟨[], true, false⟩ else ⟨rest, false, false⟩
         let (p₁, input₄) := input₃.peek
         let ch := toChar p₁
         if ch = '.' ∨ ch = 'e' ∨ ch = 'E' then
           let result_double := Double.ofInt (signOf negative * accumulate 0 ds)
           if ch = '.' then
             let input₅ := input₄.get.2
             match LoadNumber.fraction fuel [] input₅ with
             | none => .outOfFuel
             | some (digits, input₆) =>
               if digits.length > 0 then
                 match stodFraction digits with
                 | .error e => .error e
                 | .ok fraction =>
                   let result_double₁ :=
                     if signOf negative > 0 then result_double.add fraction
                     else result_double.sub fraction
                   let (p₂, input₇) := input₆.peek
                   LoadNumber.exponent fuel result_double₁ (toChar p₂) input₇
               else
                 .error (.ParsingError
                   " number parsing error : empty fractional part in number  after '.' ")
           else LoadNumber.exponent fuel result_double ch input₄
         else .ok (.int (wrapInt (signOf negative * accumulate 0 ds))) input₄) := by
  have hdig := LoadNumber.digits_text ds fuel 0 rest hd hf hr
  have hsign := LoadNumber_sign negative ds rest hd hne
  unfold LoadNumber
  simp only []
  rw [hsign]
  simp only [hdig]

/-- `LoadNumber` on an optional `-` and a run of digits that a number does not continue
after: the result is the Int node of the signed value, in 32-bit arithmetic. -/
theorem LoadNumber_int_run (negative : Bool) (ds : List Nat) (rest : List Char) (fuel : Nat)
    (hd : ∀ d ∈ ds, d < 10) (hne : negative = true ∨ ds ≠ [])
    (hr : endsNumber rest = true) (hf : ds.length < fuel) :
    LoadNumber fuel ⟨numText negative ds ++ rest, false, false⟩
      = .ok (.int (wrapInt (signOf negative * accumulate 0 ds)))
          (if rest = [] then ⟨[], true, true⟩ else ⟨rest, false, false⟩) := by
  rw [LoadNumber_after_digits negative ds rest fuel hd hne (endsNumber_head rest hr) hf]
  generalize wrapInt (signOf negative * accumulate 0 ds) = v
  generalize Double.ofInt (signOf negative * accumulate 0 ds) = rd
  cases rest with
  | nil => rfl
  | cons c t =>
    simp only [endsNumber, Bool.and_eq_true, Bool.not_eq_true', bne_iff_ne, ne_eq] at hr
    simp [IStream.peek, IStream.good, toChar, hr.1.1.2, hr.1.2, hr.2]

theorem IStream.get_length (input : IStream) :
    (IStream.get input).2.buf.length ≤ input.buf.length := by
  obtain ⟨buf, e, f⟩ := input
  unfold IStream.get
  split
  · cases buf <;> simp
  · simp

theorem IStream.peek_length (input : IStream) :
    (IStream.peek input).2.buf.length ≤ input.buf.length := by
  obtain ⟨buf, e, f⟩ := input
  unfold IStream.peek
  split
  · cases buf <;> simp
  · simp

theorem IStream.peek_digit (input : IStream) (h : isdigitInt (IStream.peek input).1 = true) :
    ∃ c cs, input = ⟨c :: cs, false, false⟩ ∧ isdigit c = true := by
  obtain ⟨buf, e, f⟩ := input
  unfold IStream.peek at h
  split at h
  · rename_i hg
    cases buf with
    | nil => simp [isdigitInt] at h
    | cons c cs =>
      have hg' : e = false ∧ f = false := by simpa [IStream.good] using hg
      obtain ⟨he, hf⟩ := hg'
      subst he hf
      exact ⟨c, cs, rfl, by simpa [isdigitInt] using h⟩
  · simp [isdigitInt] at h

theorem LoadNumber.digits_total : ∀ (fuel : Nat) (result : Int) (input : IStream),
    input.buf.length < fuel →
    ∃ r s, LoadNumber.digits fuel result input = some (r, s) ∧
      s.buf.length ≤ input.buf.length
  | 0, _, _, h => by omega
  | fuel + 1, result, input, h => by
    by_cases hp : isdigitInt (IStream.peek input).1 = true
    · obtain ⟨c, cs, rfl, hc⟩ := IStream.peek_digit input hp
      obtain ⟨r, s, hrs, hlen⟩ := LoadNumber.digits_total fuel
        (wrapInt (wrapInt (result * 10) + (((toChar (some c)).toNat : Int) - 48)))
        ⟨cs, false, false⟩ (by simp only [List.length_cons] at h ⊢; omega)
      refine ⟨r, s, ?_, by simp only [List.length_cons] at hlen ⊢; omega⟩
      rw [LoadNumber.digits, IStream.peek_cons]
      simp only [isdigitInt, hc, if_true, IStream.get_cons]
      exact hrs
    · refine ⟨result, (IStream.peek input).2, ?_, IStream.peek_length input⟩
      rw [LoadNumber.digits]
      simp only [hp, Bool.false_eq_true, if_false]

theorem LoadNumber.fraction_total : ∀ (fuel : Nat) (digits : List Char) (input : IStream),
    input.buf.length < fuel →
    ∃ r s, LoadNumber.fraction fuel digits input = some (r, s) ∧
      digits.length ≤ r.length ∧ s.buf.length ≤ input.buf.length
  | 0, _, _, h => by omega
  | fuel + 1, digits, input, h => by
    by_cases hp : isdigitInt (IStream.peek input).1 = true
    · obtain ⟨c, cs, rfl, hc⟩ := IStream.peek_digit input hp
      obtain ⟨r, s, hrs, hl, hlen⟩ := LoadNumber.fraction_total fuel
        (digits ++ [toChar (some c)])
        ⟨cs, false, false⟩ (by simp only [List.length_cons] at h ⊢; omega)
      refine ⟨r, s, ?_, ?_, by simp only [List.length_cons] at hlen ⊢; omega⟩
      · rw [LoadNumber.fraction, IStream.peek_cons]
        simp only [isdigitInt, hc, if_true, IStream.get_cons]
        exact hrs
      · simp only [List.length_append, List.length_cons, List.length_nil] at hl
        omega
    · refine ⟨digits, (IStream.peek input).2, ?_, Nat.le_refl _, IStream.peek_length input⟩
      rw [LoadNumber.fraction]
      simp only [hp, Bool.false_eq_true, if_false]

/-- The exponent block of `LoadNumber` returns a Double node. -/
theorem LoadNumber.exponent_double (fuel : Nat) (result_double : Double) (ch : Char)
    (input : IStream) (hf : input.buf.length < fuel) :
    ∃ v s, LoadNumber.exponent fuel result_double ch input = .ok (.double v) s := by
  have key : ∀ (p : Int × IStream), p.2.buf.length < fuel →
      ∃ v s, (match LoadNumber.digits fuel 0 p.2 with
        | none => (ParseResult.outOfFuel : ParseResult Node)
        | some (result, input₄) =>
          .ok (.double (result_double.mulPow10 (wrapInt (result * p.1)))) input₄)
        = .ok (.double v) s := by
    intro p hp
    obtain ⟨r, s, hrs, -⟩ := LoadNumber.digits_total fuel 0 p.2 hp
    rw [hrs]
    exact ⟨_, _, rfl⟩
  unfold LoadNumber.exponent
  by_cases hch : ch = 'e' ∨ ch = 'E'
  · simp only [hch, if_true]
    have h₁ := IStream.get_length input
    have h₂ := IStream.peek_length (IStream.get input).2
    have h₃ := IStream.get_length (IStream.peek (IStream.get input).2).2
    exact key
      (if toChar (IStream.peek (IStream.get input).2).1 = '+' ∨
          toChar (IStream.peek (IStream.get input).2).1 = '-' then
        (if (IStream.get (IStream.peek (IStream.get input).2).2).1 = some '-' then -1 else 1,
          (IStream.get (IStream.peek (IStream.get input).2).2).2)
      else (1, (IStream.peek (IStream.get input).2).2))
      (by split <;> simp only [] <;> omega)
  · simp only [hch, if_false]
    exact ⟨_, _, rfl⟩

theorem numText_head (negative : Bool) (ds : List Nat) (rest : List Char)
    (hd : ∀ d ∈ ds, d < 10) (hne : negative = true ∨ ds ≠ []) :
    ∃ c t, numText negative ds ++ rest = c :: t ∧ (c = '-' ∨ isdigit c = true) ∧
      isspace c = false ∧ c ≠ '[' ∧ c ≠ '{' ∧ c ≠ '"' ∧ c ≠ 'n' ∧ c ≠ 't' ∧ c ≠ 'f' := by
  cases negative with
  | true => exact ⟨'-', ds.map digitChar ++ rest, rfl, Or.inl rfl, by decide⟩
  | false =>
    have hne' : ds ≠ [] := by
      rcases hne with h | h
      · cases h
      · exact h
    obtain ⟨c, t, hct, h₁, h₂, -, h₃⟩ := map_digitChar_head ds rest hd hne'
    exact ⟨c, t, by simpa [numText] using hct, Or.inr h₁, h₂, h₃⟩

/-- `Load` on a text that starts with a number text hands the whole text to
`LoadNumber`. -/
theorem LoadText_number (negative : Bool) (ds : List Nat) (rest : List Char)
    (hd : ∀ d ∈ ds, d < 10) (hne : negative = true ∨ ds ≠ []) :
    LoadText (numText negative ds ++ rest)
      = LoadNumber (3 * (numText negative ds ++ rest).length + 3)
          ⟨numText negative ds ++ rest, false, false⟩ := by
  obtain ⟨c, t, hct, hc, hsp, h₁, h₂, h₃, h₄, h₅, h₆⟩ := numText_head negative ds rest hd hne
  have hc' : c = '-' ∨ isdigit c = true := hc
  unfold LoadText Load IStream.ofText
  simp only []
  rw [hct]
  have := LoadNode_dispatch (3 * (c :: t).length + 3) [] c t rfl hsp
  simp only [List.nil_append] at this
  rw [this, if_neg h₁, if_neg h₂, if_neg h₃, if_neg h₄, if_neg h₅, if_neg h₆, if_pos hc']

theorem numText_length (negative : Bool) (ds : List Nat) :
    ds.length ≤ (numText negative ds).length := by
  cases negative <;> simp [numText]

/-- A `.` that no digit follows: `LoadNumber` throws. -/
theorem LoadNumber_empty_fraction (negative : Bool) (ds : List Nat) (r : List Char)
    (fuel : Nat) (hd : ∀ d ∈ ds, d < 10) (hne : negative = true ∨ ds ≠ [])
    (hr : isdigitInt r.head? = false) (hf : ds.length < fuel) :
    LoadNumber fuel ⟨numText negative ds ++ '.' :: r, false, false⟩
      = .error (.ParsingError
          " number parsing error : empty fractional part in number  after '.' ") := by
  obtain ⟨f, rfl⟩ : ∃ f, fuel = f + 1 := ⟨fuel - 1, by omega⟩
  have hfr : LoadNumber.fraction (f + 1) [] ⟨r, false, false⟩
      = some ([], (IStream.peek ⟨r, false, false⟩).2) := by
    have hp : isdigitInt (IStream.peek ⟨r, false, false⟩).1 = false := by
      cases r with
      | nil => rfl
      | cons c t => simpa [IStream.peek, IStream.good] using hr
    rw [LoadNumber.fraction]
    simp only [hp, Bool.false_eq_true, if_false]
  rw [LoadNumber_after_digits negative ds ('.' :: r) (f + 1) hd hne rfl hf]
  generalize signOf negative * accumulate 0 ds = v
  simp [IStream.peek_cons, toChar, IStream.get_cons, hfr]

/-- What `std::stod` does with a run of digits, by cases. -/
theorem stodFraction_cases (digits : List Char) :
    (strtodRangeError digits = true ∧ stodFraction digits = .error (.out_of_range "stod")) ∨
    (strtodRangeError digits = false ∧ stodFraction digits = .ok (fractionValue digits)) := by
  unfold stodFraction
  cases strtodRangeError digits with
  | true => exact Or.inl ⟨rfl, rfl⟩
  | false => exact Or.inr ⟨rfl, rfl⟩

theorem escapeValue_cases (e : Char) :
    (e = 'r' ∧ escapeValue e = some '\r') ∨ (e = 'n' ∧ escapeValue e = some '\n') ∨
    (e = '\\' ∧ escapeValue e = some '\\') ∨ (e = 't' ∧ escapeValue e = some '\t') ∨
    (e = '"' ∧ escapeValue e = some '"') ∨
    ((e ≠ 'r' ∧ e ≠ 'n' ∧ e ≠ '\\' ∧ e ≠ 't' ∧ e ≠ '"') ∧ escapeValue e = none) := by
  by_cases h₁ : e = 'r'
  · exact Or.inl ⟨h₁, by subst h₁; rfl⟩
  · by_cases h₂ : e = 'n'
    · exact Or.inr (Or.inl ⟨h₂, by subst h₂; rfl⟩)
    · by_cases h₃ : e = '\\'
      · exact Or.inr (Or.inr (Or.inl ⟨h₃, by subst h₃; rfl⟩))
      · by_cases h₄ : e = 't'
        · exact Or.inr (Or.inr (Or.inr (Or.inl ⟨h₄, by subst h₄; rfl⟩)))
        · by_cases h₅ : e = '"'
          · exact Or.inr (Or.inr (Or.inr (Or.inr (Or.inl ⟨h₅, by subst h₅; rfl⟩))))
          · exact Or.inr (Or.inr (Or.inr (Or.inr (Or.inr
              ⟨⟨h₁, h₂, h₃, h₄, h₅⟩, by simp [escapeValue, h₁, h₂, h₃, h₄, h₅]⟩))))

theorem LoadString.escape_unrecognized (e : Char) (t : List Char)
    (h : e ≠ 'r' ∧ e ≠ 'n' ∧ e ≠ '\\' ∧ e ≠ 't' ∧ e ≠ '"') :
    LoadString.escape '\\' ⟨e :: t, false, false⟩ = ('\\', ⟨e :: t, false, false⟩) := by
  simp [LoadString.escape, IStream.peek_cons, toChar, h.1, h.2.1, h.2.2.1, h.2.2.2.1,
    h.2.2.2.2]

/-- The loop of `LoadString`, entered on the first character of a sequence of units that
is followed by the closing quote, stores the decoded units and stops after the quote. -/
theorem LoadString.loop_items : ∀ (items : List StringItem) (fuel : Nat) (line : List Char)
    (c₀ : Char) (t₀ more : List Char), (∀ i ∈ items, i.valid = true) →
    (itemsText items).length < fuel →
    c₀ :: t₀ = itemsText items ++ '"' :: more →
    LoadString.loop fuel line c₀ ⟨t₀, false, false⟩
      = .ok (.string (line ++ itemsDecoded items)) ⟨more, false, false⟩
  | _, 0, _, _, _, _, _, h, _ => by omega
  | [], fuel + 1, line, c₀, t₀, more, _, _, h => by
    simp only [itemsText, List.nil_append, List.cons.injEq] at h
    obtain ⟨h₁, h₂⟩ := h
    subst h₁ h₂
    simp [LoadString.loop, itemsDecoded]
  | .char c :: items, fuel + 1, line, c₀, t₀, more, hv, hf, h => by
    have hc : c ≠ '\\' ∧ c ≠ '"' := by
      have := hv (.char c) (List.mem_cons_self _ _)
      simpa [StringItem.valid] using this
    have hlen : (itemsText items).length < fuel := by
      simp only [itemsText, StringItem.text, List.length_append, List.length_cons,
        List.length_nil] at hf
      omega
    obtain ⟨c₁, t₁, hnext⟩ : ∃ c₁ t₁, c₁ :: t₁ = itemsText items ++ '"' :: more := by
      cases hp : itemsText items ++ '"' :: more with
      | nil => simp at hp
      | cons a b => exact ⟨a, b, rfl⟩
    have ih := LoadString.loop_items items fuel (line ++ [c]) c₁ t₁ more
      (fun i hi => hv i (List.mem_cons_of_mem _ hi)) hlen hnext
    simp only [itemsText, StringItem.text, List.append_assoc, List.cons_append,
      List.nil_append] at h
    rw [← hnext] at h
    simp only [List.cons.injEq] at h
    obtain ⟨h₁, h₂⟩ := h
    subst h₁ h₂
    simp only [LoadString.loop, IStream.good, IStream.get_cons, toChar]
    simpa [hc.1, hc.2, itemsDecoded, StringItem.decoded] using ih
  | .escaped e :: items, fuel + 1, line, c₀, t₀, more, hv, hf, h => by
    have hlen : (itemsText items).length + 1 < fuel := by
      simp only [itemsText, StringItem.text, List.length_append, List.length_cons,
        List.length_nil] at hf
      omega
    obtain ⟨c₁, t₁, hnext⟩ : ∃ c₁ t₁, c₁ :: t₁ = itemsText items ++ '"' :: more := by
      cases hp : itemsText items ++ '"' :: more with
      | nil => simp at hp
      | cons a b => exact ⟨a, b, rfl⟩
    simp only [itemsText, StringItem.text, List.append_assoc, List.cons_append,
      List.nil_append] at h
    rw [← hnext] at h
    simp only [List.cons.injEq] at h
    obtain ⟨h₁, h₂⟩ := h
    subst h₁ h₂
    have hv' : ∀ i ∈ items, i.valid = true := fun i hi => hv i (List.mem_cons_of_mem _ hi)
    rcases escapeValue_cases e with ⟨he, hval⟩ | ⟨he, hval⟩ | ⟨he, hval⟩ | ⟨he, hval⟩ |
      ⟨he, hval⟩ | ⟨he, hval⟩
    · have ih := LoadString.loop_items items fuel (line ++ ['\r']) c₁ t₁ more hv'
        (by omega) hnext
      subst he
      simp only [LoadString.loop, IStream.good, LoadString.escape, IStream.peek_cons, toChar,
        IStream.get_cons]
      simpa [itemsDecoded, StringItem.decoded, hval] using ih
    · have ih := LoadString.loop_items items fuel (line ++ ['\n']) c₁ t₁ more hv'
        (by omega) hnext
      subst he
      simp only [LoadString.loop, IStream.good, LoadString.escape, IStream.peek_cons, toChar,
        IStream.get_cons]
      simpa [itemsDecoded, StringItem.decoded, hval] using ih
    · have ih := LoadString.loop_items items fuel (line ++ ['\\']) c₁ t₁ more hv'
        (by omega) hnext
      subst he
      simp only [LoadString.loop, IStream.good, LoadString.escape, IStream.peek_cons, toChar,
        IStream.get_cons]
      simpa [itemsDecoded, StringItem.decoded, hval] using ih
    · have ih := LoadString.loop_items items fuel (line ++ ['\t']) c₁ t₁ more hv'
        (by omega) hnext
      subst he
      simp only [LoadString.loop, IStream.good, LoadString.escape, IStream.peek_cons, toChar,
        IStream.get_cons]
      simpa [itemsDecoded, StringItem.decoded, hval] using ih
    · have ih := LoadString.loop_items items fuel (line ++ ['"']) c₁ t₁ more hv'
        (by omega) hnext
      subst he
      simp only [LoadString.loop, IStream.good, LoadString.escape, IStream.peek_cons, toChar,
        IStream.get_cons]
      simpa [itemsDecoded, StringItem.decoded, hval] using ih
    · obtain ⟨f, rfl⟩ : ∃ f, fuel = f + 1 := ⟨fuel - 1, by omega⟩
      have ih := LoadString.loop_items items f (line ++ ['\\'] ++ [e]) c₁ t₁ more hv'
        (by omega) hnext
      rw [LoadString.loop]
      simp only [IStream.good, Bool.not_false, Bool.and_self, Bool.true_and, ne_eq,
        show ¬ ('\\' = '"') by decide, not_false_eq_true, decide_True, if_true,
        LoadString.escape_unrecognized e (c₁ :: t₁) he, IStream.get_cons, toChar]
      rw [LoadString.loop]
      simp only [IStream.good, Bool.not_false, Bool.and_self, Bool.true_and, ne_eq,
        he.2.2.2.2, not_false_eq_true, decide_True, if_true, he.2.2.1, if_false,
        IStream.get_cons, toChar]
      simpa [itemsDecoded, StringItem.decoded, hval] using ih

theorem LoadString_items (items : List StringItem) (fuel : Nat) (more : List Char)
    (hv : ∀ i ∈ items, i.valid = true) (hf : (itemsText items).length < fuel) :
    LoadString fuel ⟨itemsText items ++ '"' :: more, false, false⟩
      = .ok (.string (itemsDecoded items)) ⟨more, false, false⟩ := by
  cases hp : itemsText items ++ '"' :: more with
  | nil => simp at hp
  | cons c₀ t₀ =>
    have := LoadString.loop_items items fuel [] c₀ t₀ more hv hf hp.symm
    simpa [LoadString, IStream.get_cons, toChar] using this

/-- `Load` on a text that starts with a double quote hands the rest to `LoadString`. -/
theorem LoadText_string (t : List Char) :
    LoadText ('"' :: t) = LoadString (3 * ('"' :: t).length + 3) ⟨t, false, false⟩ := by
  unfold LoadText Load IStream.ofText
  simp only []
  have := LoadNode_dispatch (3 * ('"' :: t).length + 3) [] '"' t rfl (by decide)
  rw [List.nil_append] at this
  rw [this, if_neg (by decide), if_neg (by decide), if_pos rfl]

theorem PrintString.loop_eq_spec : ∀ (s : List Char),
    PrintString.loop s ++ ['"'] = specStringText s
  | [] => rfl
  | c :: s => by
    have ih := PrintString.loop_eq_spec s
    have hc : escapeChar c = specEscape c := by
      rcases escapeChar_cases c with ⟨hc, he⟩ | ⟨hc, he⟩ | ⟨hc, he⟩ | ⟨hc, he⟩ | ⟨h₁, h₂, he⟩
      · subst hc; rfl
      · subst hc; rfl
      · subst hc; rfl
      · subst hc; rfl
      · rw [he]
        unfold specEscape
        split <;> simp_all [escapeChar]
    simp only [PrintString.loop, specStringText, List.append_assoc, ih, hc]

theorem itemsText_append : ∀ (xs ys : List StringItem),
    itemsText (xs ++ ys) = itemsText xs ++ itemsText ys
  | [], _ => rfl
  | i :: xs, ys => by
    have ih := itemsText_append xs ys
    rw [List.cons_append, itemsText, ih, itemsText, List.append_assoc]

theorem itemsDecoded_append : ∀ (xs ys : List StringItem),
    itemsDecoded (xs ++ ys) = itemsDecoded xs ++ itemsDecoded ys
  | [], _ => rfl
  | i :: xs, ys => by
    have ih := itemsDecoded_append xs ys
    rw [List.cons_append, itemsDecoded, ih, itemsDecoded, List.append_assoc]

theorem itemsDecoded_length : ∀ (items : List StringItem),
    (∀ i ∈ items, i.recognized = true) → (itemsDecoded items).length = items.length
  | [], _ => rfl
  | i :: items, h => by
    have ih := itemsDecoded_length items (fun j hj => h j (List.mem_cons_of_mem _ hj))
    have hi := h i (List.mem_cons_self _ _)
    have h₁ : i.decoded.length = 1 := by
      cases i with
      | char c => rfl
      | escaped e =>
        simp only [StringItem.recognized] at hi
        cases hv : escapeValue e with
        | none => rw [hv] at hi; cases hi
        | some v => simp [StringItem.decoded, hv]
    simp only [itemsDecoded, List.length_append, List.length_cons, h₁, ih]
    omega

/-! ## Arrays and dicts whose separators are whitespace, with or without a comma -/

theorem Separator.text_head (sep : Separator) (tail : List Char) (h : sep.valid = true) :
    endsNumber (sep.text ++ tail) = true ∧ sep.text ++ tail ≠ [] := by
  obtain ⟨before, comma, after⟩ := sep
  simp only [Separator.valid, Separator.spaces, Bool.and_eq_true, Bool.or_eq_true,
    Bool.not_eq_true', List.isEmpty_eq_false] at h
  obtain ⟨⟨hb, ha⟩, hne⟩ := h
  cases before with
  | cons w ws =>
    simp only [allSpace, List.all_cons, Bool.and_eq_true] at hb
    have := isspace_not_number w hb.1
    refine ⟨?_, by simp [Separator.text]⟩
    simp [Separator.text, endsNumber, this.1, this.2.1, this.2.2.1, this.2.2.2.1]
  | nil =>
    cases comma with
    | true => exact ⟨rfl, by simp [Separator.text]⟩
    | false =>
      cases after with
      | nil => simp at hne
      | cons w ws =>
        simp only [allSpace, List.all_cons, Bool.and_eq_true] at ha
        have := isspace_not_number w ha.1
        refine ⟨?_, by simp [Separator.text]⟩
        simp [Separator.text, endsNumber, this.1, this.2.1, this.2.2.1, this.2.2.2.1]

theorem arrayItems_follow (items : List (Separator × Node)) (close rest : List Char)
    (hv : ∀ i ∈ items.head?, i.1.valid = true) (hc : allSpace close = true) :
    endsNumber (arrayItemsText items ++ (close ++ ']' :: rest)) = true ∧
    arrayItemsText items ++ (close ++ ']' :: rest) ≠ [] := by
  cases items with
  | nil =>
    have := endsNumber_close [] close rest ']' hc (endsNumber_bracket rest) (Or.inl rfl)
    simpa [arrayItemsText] using this
  | cons i items =>
    obtain ⟨sep, x⟩ := i
    have h := Separator.text_head sep
      (PrintNode x ⟨4, 0⟩ ++ arrayItemsText items ++ (close ++ ']' :: rest))
      (hv (sep, x) rfl)
    simpa [arrayItemsText] using h

/-- The loop of `LoadArray`, entered after the extraction that precedes an iteration,
reads the elements whatever their separators. -/
theorem LoadArray_items : ∀ (items : List (Separator × Node)),
    (∀ i ∈ items, i.2.plain = true ∧ i.2.WF = true ∧ i.1.spaces = true) →
    (∀ i ∈ items.tail, i.1.valid = true) →
    ∀ (close rest : List Char) (result : List Node) (ch₀ : Char) (fuel : Nat)
      (r : Option Char) (input : IStream),
    allSpace close = true →
    2 * (arrayItemsText items).length + 3 ≤ fuel →
    IStream.extract ⟨arrayItemsText items ++ (close ++ ']' :: rest), false, false⟩
      = (r, input) →
    LoadArray.loop fuel result (r.getD ch₀) input
      = .ok (.array (result ++ items.map (fun i => i.2))) ⟨rest, false, false⟩
  | [], _, _, close, rest, result, ch₀, fuel, r, input, hc, hf, he => by
    obtain ⟨f, rfl⟩ : ∃ f, fuel = f + 1 := ⟨fuel - 1, by omega⟩
    have hb : arrayItemsText [] ++ (close ++ ']' :: rest) = close ++ ']' :: rest := rfl
    rw [hb, IStream.extract_text close ']' rest hc (by decide)] at he
    cases he
    simpa using LoadArray_loop_exit f result rest
  | (sep, x) :: items, hx, hv, close, rest, result, ch₀, fuel, r, input, hc, hf, he => by
    obtain ⟨hxp, hxw, hsp⟩ := hx (sep, x) (List.mem_cons_self _ _)
    simp only [Separator.spaces, Bool.and_eq_true] at hsp
    obtain ⟨c, t, hct, hcs, hc₁, hc₂⟩ := PrintNode_head x ⟨4, 0⟩ hxp
    have hlen : (arrayItemsText ((sep, x) :: items)).length
        = sep.text.length + ((PrintNode x ⟨4, 0⟩).length + (arrayItemsText items).length) := by
      simp [arrayItemsText]
    have hpos : 1 ≤ (PrintNode x ⟨4, 0⟩).length := by rw [hct]; simp
    obtain ⟨f, rfl⟩ : ∃ f, fuel = f + 1 := ⟨fuel - 1, by omega⟩
    obtain ⟨hmore, hne⟩ := arrayItems_follow items close rest
      (fun i hi => hv i (by
        cases items with
        | nil => cases hi
        | cons j js =>
          simp only [List.head?, Option.mem_def, Option.some.injEq] at hi
          subst hi
          exact List.mem_cons_self _ _)) hc
    have hL := LoadArray_items items (fun i hi => hx i (List.mem_cons_of_mem _ hi))
      (fun i hi => hv i (List.mem_of_mem_tail hi)) close rest (result ++ [x])
    obtain ⟨before, comma, after⟩ := sep
    simp only [] at hsp
    cases comma with
    | false =>
      have hb : arrayItemsText ((⟨before, false, after⟩, x) :: items) ++ (close ++ ']' :: rest)
          = (before ++ after) ++ c :: (t ++ (arrayItemsText items ++ (close ++ ']' :: rest))) := by
        simp [arrayItemsText, Separator.text, hct]
      rw [hb, IStream.extract_text _ c _ (allSpace_append _ _ hsp.1 hsp.2) hcs] at he
      cases he
      obtain ⟨s, hN, -, hs⟩ := LoadNode_PrintNode x hxp hxw ⟨4, 0⟩ []
        (arrayItemsText items ++ (close ++ ']' :: rest)) f rfl hmore (by omega)
      rw [hs hne] at hN
      rw [Option.getD_some, LoadArray_loop_step f result c _ x _ _ hc₁
        (by rw [if_pos hc₂, hct]; simp) hN]
      have h := hL c f
        (IStream.extract ⟨arrayItemsText items ++ (close ++ ']' :: rest), false, false⟩).1
        (IStream.extract ⟨arrayItemsText items ++ (close ++ ']' :: rest), false, false⟩).2
        hc (by omega) rfl
      rw [h, List.append_assoc]
      rfl
    | true =>
      have hb : arrayItemsText ((⟨before, true, after⟩, x) :: items) ++ (close ++ ']' :: rest)
          = before ++ ',' :: (after ++ (PrintNode x ⟨4, 0⟩
              ++ (arrayItemsText items ++ (close ++ ']' :: rest)))) := by
        simp [arrayItemsText, Separator.text]
      rw [hb, IStream.extract_text before ',' _ hsp.1 (by decide)] at he
      cases he
      obtain ⟨s, hN, -, hs⟩ := LoadNode_PrintNode x hxp hxw ⟨4, 0⟩ after
        (arrayItemsText items ++ (close ++ ']' :: rest)) f hsp.2 hmore (by omega)
      rw [hs hne] at hN
      rw [Option.getD_some, LoadArray_loop_step f result ',' _ x _ _ (by decide)
        (by simp) hN]
      have h := hL ',' f
        (IStream.extract ⟨arrayItemsText items ++ (close ++ ']' :: rest), false, false⟩).1
        (IStream.extract ⟨arrayItemsText items ++ (close ++ ']' :: rest), false, false⟩).2
        hc (by omega) rfl
      rw [h, List.append_assoc]
      rfl

theorem dictItems_follow (items : List (Separator × List Char × Node)) (close rest : List Char)
    (hv : ∀ i ∈ items, i.1.spaces = true) (hc : allSpace close = true) :
    endsNumber (dictItemsText items ++ (close ++ '}' :: rest)) = true ∧
    dictItemsText items ++ (close ++ '}' :: rest) ≠ [] := by
  have hws : ∀ (ws tail : List Char) (q : Char), allSpace ws = true →
      endsNumber (q :: tail) = true → endsNumber (ws ++ q :: tail) = true := by
    intro ws tail q h hq
    cases ws with
    | nil => exact hq
    | cons w ws =>
      simp only [allSpace, List.all_cons, Bool.and_eq_true] at h
      have := isspace_not_number w h.1
      simp [endsNumber, this.1, this.2.1, this.2.2.1, this.2.2.2.1]
  cases items with
  | nil =>
    exact ⟨by simpa [dictItemsText] using hws close rest '}' hc rfl, by simp [dictItemsText]⟩
  | cons i items =>
    obtain ⟨⟨before, comma, after⟩, key, x⟩ := i
    have hsp := hv _ (List.mem_cons_self _ _)
    simp only [Separator.spaces, Bool.and_eq_true] at hsp
    refine ⟨?_, by cases comma <;> simp [dictItemsText, Separator.text]⟩
    cases comma with
    | true =>
      have := hws before (after ++ '"' :: (key ++ '"' :: ':' :: ' ' :: (PrintNode x ⟨4, 0⟩
        ++ dictItemsText items)) ++ (close ++ '}' :: rest)) ',' hsp.1 rfl
      simpa [dictItemsText, Separator.text] using this
    | false =>
      have := hws (before ++ after) ((key ++ '"' :: ':' :: ' ' :: (PrintNode x ⟨4, 0⟩
        ++ dictItemsText items)) ++ (close ++ '}' :: rest)) '"'
        (allSpace_append _ _ hsp.1 hsp.2) rfl
      simpa [dictItemsText, Separator.text] using this

/-- The loop of `LoadDict` reads the pairs whatever their separators. -/
theorem LoadDict_items : ∀ (items : List (Separator × List Char × Node)),
    (∀ i ∈ items, plainKey i.2.1 = true ∧ i.2.2.plain = true ∧ i.2.2.WF = true ∧
      i.1.spaces = true) →
    ∀ (close rest : List Char) (result : Dict) (fuel : Nat),
    allSpace close = true →
    2 * (dictItemsText items).length + 3 ≤ fuel →
    LoadDict.loop fuel result ⟨dictItemsText items ++ (close ++ '}' :: rest), false, false⟩
      = .ok (.dict (Dict.insertAll result (items.map (fun i => i.2)))) ⟨rest, false, false⟩
  | [], _, close, rest, result, fuel, hc, hf => by
    obtain ⟨f, rfl⟩ : ∃ f, fuel = f + 1 := ⟨fuel - 1, by omega⟩
    have hb : dictItemsText [] ++ (close ++ '}' :: rest) = close ++ '}' :: rest := rfl
    rw [hb, LoadDict_loop_exit f result close rest hc]
    rfl
  | (sep, key, x) :: items, hx, close, rest, result, fuel, hc, hf => by
    obtain ⟨hk, hxp, hxw, hsp⟩ := hx (sep, key, x) (List.mem_cons_self _ _)
    simp only [Separator.spaces, Bool.and_eq_true] at hsp
    have hx' : ∀ i ∈ items, plainKey i.2.1 = true ∧ i.2.2.plain = true ∧ i.2.2.WF = true ∧
        i.1.spaces = true := fun i hi => hx i (List.mem_cons_of_mem _ hi)
    have hlen : (dictItemsText ((sep, key, x) :: items)).length
        = sep.text.length + (key.length + 4
          + ((PrintNode x ⟨4, 0⟩).length + (dictItemsText items).length)) := by
      simp [dictItemsText]; omega
    obtain ⟨f, rfl⟩ : ∃ f, fuel = f + 1 := ⟨fuel - 1, by omega⟩
    obtain ⟨hmore, hne⟩ := dictItems_follow items close rest (fun i hi => (hx' i hi).2.2.2) hc
    obtain ⟨s, hN, -, hs⟩ := LoadNode_PrintNode x hxp hxw ⟨4, 0⟩ [' ']
      (dictItemsText items ++ (close ++ '}' :: rest)) f rfl hmore (by omega)
    rw [hs hne] at hN
    have hD := LoadDict_items items hx' close rest (Dict.insert result key x) f hc (by omega)
    obtain ⟨before, comma, after⟩ := sep
    simp only [] at hsp
    have hstep := LoadDict_loop_step f result
      (dictItemsText ((⟨before, comma, after⟩, key, x) :: items) ++ (close ++ '}' :: rest))
      (if comma then before else before ++ after) after key
      ([' '] ++ (PrintNode x ⟨4, 0⟩ ++ (dictItemsText items ++ (close ++ '}' :: rest))))
      (dictItemsText items ++ (close ++ '}' :: rest)) x
      (by cases comma
          · exact allSpace_append _ _ hsp.1 hsp.2
          · exact hsp.1)
      hsp.2
      (by cases comma
          · exact Or.inl (by simp [dictItemsText, Separator.text])
          · exact Or.inr (by simp [dictItemsText, Separator.text]))
      hk (by omega) hN
    rw [hstep]
    simpa [Dict.insertAll] using hD

/-! ## `Load` on array and dict texts with general separators -/

theorem arrayItems_first (items : List (Separator × Node)) (close : List Char)
    (hx : ∀ i ∈ items, i.2.plain = true) (hs : separatorsValid items = true)
    (hc : allSpace close = true) :
    ∃ c t, arrayItemsText items ++ (close ++ [']']) = c :: t ∧ c ≠ ',' := by
  have hws : ∀ (ws tail : List Char) (q : Char), allSpace ws = true → q ≠ ',' →
      ∃ c t, ws ++ q :: tail = c :: t ∧ c ≠ ',' := by
    intro ws tail q h hq
    cases ws with
    | nil => exact ⟨q, tail, rfl, hq⟩
    | cons w ws =>
      simp only [allSpace, List.all_cons, Bool.and_eq_true] at h
      exact ⟨w, ws ++ q :: tail, rfl, (isspace_not_number w h.1).2.2.2.2.1⟩
  cases items with
  | nil => exact hws close [] ']' hc (by decide)
  | cons i items =>
    obtain ⟨⟨before, comma, after⟩, x⟩ := i
    simp only [separatorsValid, Separator.spaces, Bool.and_eq_true, Bool.not_eq_true'] at hs
    obtain ⟨⟨⟨hb, ha⟩, hcomma⟩, -⟩ := hs
    have hcomma' : comma = false := hcomma
    subst hcomma'
    have hb' : allSpace before = true := hb
    have ha' : allSpace after = true := ha
    obtain ⟨c, t, hct, -, -, hne⟩ := PrintNode_head x ⟨4, 0⟩ (hx _ (List.mem_cons_self _ _))
    have := hws (before ++ after) (t ++ (arrayItemsText items ++ (close ++ [']']))) c
      (allSpace_append _ _ hb' ha') hne
    simpa [arrayItemsText, Separator.text, hct] using this

/-- `Load` on an array text whose elements are separated by whitespace, with or without
a comma: the Array of the elements. -/
theorem LoadText_arrayText (items : List (Separator × Node)) (close : List Char)
    (hx : ∀ i ∈ items, i.2.plain = true ∧ i.2.WF = true)
    (hs : separatorsValid items = true) (hc : allSpace close = true) :
    LoadText (arrayText items close)
      = .ok (.array (items.map (fun i => i.2))) ⟨[], false, false⟩ := by
  obtain ⟨c, t, hct, hne⟩ := arrayItems_first items close (fun i hi => (hx i hi).1) hs hc
  have hsp : ∀ i ∈ items, i.2.plain = true ∧ i.2.WF = true ∧ i.1.spaces = true := by
    intro i hi
    refine ⟨(hx i hi).1, (hx i hi).2, ?_⟩
    cases items with
    | nil => cases hi
    | cons j js =>
      simp only [separatorsValid, Bool.and_eq_true, List.all_eq_true] at hs
      rcases List.mem_cons.1 hi with rfl | h
      · exact hs.1.1
      · have := hs.2 i h
        simp only [Separator.valid, Bool.and_eq_true] at this
        exact this.1
  have hv : ∀ i ∈ items.tail, i.1.valid = true := by
    intro i hi
    cases items with
    | nil => cases hi
    | cons j js =>
      simp only [separatorsValid, Bool.and_eq_true, List.all_eq_true] at hs
      exact hs.2 i hi
  have hlen : (arrayText items close).length
      = (arrayItemsText items).length + close.length + 2 := by
    simp [arrayText]; omega
  have hL := LoadArray_items items hsp hv close [] [] c
    (3 * (arrayItemsText items).length + 3 * close.length + 8)
    (IStream.extract ⟨arrayItemsText items ++ (close ++ [']']), false, false⟩).1
    (IStream.extract ⟨arrayItemsText items ++ (close ++ [']']), false, false⟩).2
    hc (by omega) rfl
  have hfuel : 3 * (arrayText items close).length + 4
      = ((3 * (arrayItemsText items).length + 3 * close.length + 8) + 1) + 1 := by omega
  unfold LoadText Load IStream.ofText
  simp only []
  rw [hfuel]
  generalize 3 * (arrayItemsText items).length + 3 * close.length + 8 = f at hL ⊢
  have hd := LoadNode_dispatch (f + 1) [] '[' (arrayItemsText items ++ (close ++ [']'])) rfl
    (by decide)
  rw [List.nil_append] at hd
  rw [arrayText, hd, if_pos rfl]
  rw [hct] at hL ⊢
  rw [LoadArray_start f c t hne, hL, List.nil_append]

/-- `Load` on a dict text whose pairs are separated by whitespace, with or without a
comma: the Dict of the pairs, each stored with `insert`. -/
theorem LoadText_dictText (items : List (Separator × List Char × Node)) (close : List Char)
    (hx : ∀ i ∈ items, plainKey i.2.1 = true ∧ i.2.2.plain = true ∧ i.2.2.WF = true ∧
      i.1.spaces = true)
    (hc : allSpace close = true) :
    LoadText (dictText items close)
      = .ok (.dict (Dict.insertAll [] (items.map (fun i => i.2)))) ⟨[], false, false⟩ := by
  have hlen : (dictText items close).length
      = (dictItemsText items).length + close.length + 2 := by
    simp [dictText]; omega
  have hL := LoadDict_items items hx close [] []
    (3 * (dictItemsText items).length + 3 * close.length + 9) hc (by omega)
  have hfuel : 3 * (dictText items close).length + 4
      = (3 * (dictItemsText items).length + 3 * close.length + 9) + 1 := by omega
  unfold LoadText Load IStream.ofText
  simp only []
  rw [hfuel]
  generalize 3 * (dictItemsText items).length + 3 * close.length + 9 = f at hL ⊢
  have hd := LoadNode_dispatch f [] '{' (dictItemsText items ++ (close ++ ['}'])) rfl
    (by decide)
  rw [List.nil_append] at hd
  rw [dictText, hd, if_neg (by decide), if_pos rfl, hL]

/-! ## Texts `LoadNode` and the loops reject -/

theorem skipws_allSpace : ∀ (ws : List Char), allSpace ws = true → skipws ws = []
  | [], _ => rfl
  | w :: ws, h => by
    simp only [allSpace, List.all_cons, Bool.and_eq_true] at h
    simp only [skipws, h.1, if_true]
    exact skipws_allSpace ws h.2

theorem IStream.extract_allSpace (ws : List Char) (hws : allSpace ws = true) :
    IStream.extract ⟨ws, false, false⟩ = (none, ⟨[], true, true⟩) := by
  simp [IStream.extract, IStream.good, skipws_allSpace ws hws]

theorem LoadNode_allSpace (fuel : Nat) (ws : List Char) (hws : allSpace ws = true) :
    LoadNode (fuel + 1) ⟨ws, false, false⟩
      = .error (.ParsingError "unexpected input end or input stream error") := by
  rw [LoadNode, IStream.extract_allSpace ws hws]
  rfl

theorem LoadArray_comma (fuel : Nat) (r : List Char) :
    LoadArray (fuel + 1) ⟨',' :: r, false, false⟩
      = .error (.ParsingError "array parsing error : unexpected ',' after '['") := by
  rw [LoadArray, IStream.peek_cons]
  rfl

/-- The iteration of the loop of `LoadDict` on a key that is not followed by `:`. -/
theorem LoadDict_loop_no_colon (fuel : Nat) (result : Dict) (ws ws₁ ws₂ : List Char)
    (comma : Bool) (key : List StringItem) (x : Char) (rest : List Char)
    (hws : allSpace ws = true) (hws₁ : allSpace ws₁ = true) (hws₂ : allSpace ws₂ = true)
    (hk : ∀ i ∈ key, i.valid = true) (hx : isspace x = false) (hne : x ≠ ':')
    (hf : (itemsText key).length + 1 < fuel) :
    LoadDict.loop fuel result
        ⟨ws ++ ((if comma then ',' :: ws₁ else []) ++
          '"' :: (itemsText key ++ '"' :: (ws₂ ++ x :: rest))), false, false⟩
      = .error (.ParsingError "Map parsing error : ':' required but not found") := by
  obtain ⟨f, rfl⟩ : ∃ f, fuel = f + 1 := ⟨fuel - 1, by omega⟩
  have hS := LoadString_items key f (ws₂ ++ x :: rest) hk (by omega)
  have hX := IStream.extract_text ws₂ x rest hws₂ hx
  cases comma with
  | false =>
    simp only [Bool.false_eq_true, if_false, List.nil_append]
    rw [LoadDict.loop, IStream.extract_text ws '"' _ hws (by decide)]
    simp only [IStream.fail, Option.getD, Bool.not_false, Bool.true_and, ne_eq,
      show ¬ ('"' = '}') by decide, not_false_eq_true, decide_True, if_true,
      show ¬ ('"' = ',') by decide, if_false, hS, Node.AsString, hX, hne]
  | true =>
    simp only [if_true, List.cons_append]
    rw [LoadDict.loop, IStream.extract_text ws ',' _ hws (by decide)]
    simp only [IStream.fail, Option.getD, Bool.not_false, Bool.true_and, ne_eq,
      show ¬ (',' = '}') by decide, not_false_eq_true, decide_True, if_true,
      IStream.extract_text ws₁ '"' _ hws₁ (by decide), hS, Node.AsString, hX, hne]

/-! ## The layout written by `PrintValue` for arrays and maps -/

theorem PrintArrayLoop_eq_specJoin (context : PrintContext) : ∀ (xs : List Node) (x : Node)
    (first : Bool),
    PrintArrayLoop (x :: xs) context first
      = (if first then [] else [',', '\n'])
        ++ specJoin ((x :: xs).map (fun y => context.PrintIndent ++ PrintNode y context))
  | [], x, first => by
    simp [PrintArrayLoop, specJoin]
  | y :: ys, x, first => by
    have ih := PrintArrayLoop_eq_specJoin context ys y false
    rw [PrintArrayLoop, ih]
    simp [specJoin]

theorem PrintDictLoop_eq_specJoin (context : PrintContext) :
    ∀ (es : List (List Char × Node)) (e : List Char × Node) (first : Bool),
    PrintDictLoop (e :: es) context first
      = (if first then [] else [',', '\n'])
        ++ specJoin ((e :: es).map (fun y => context.PrintIndent ++
            '"' :: (y.1 ++ '"' :: ':' :: ' ' :: PrintNode y.2 context)))
  | [], (k, x), first => by
    simp [PrintDictLoop, specJoin]
  | y :: ys, (k, x), first => by
    have ih := PrintDictLoop_eq_specJoin context ys y false
    rw [PrintDictLoop, ih]
    simp [specJoin]

theorem PrintContext.Indented_nat (i s : Nat) (h : i + s ≤ 2147483647) :
    PrintContext.Indented ⟨(s : Int), (i : Int)⟩ = ⟨(s : Int), ((i + s : Nat) : Int)⟩ := by
  have hw : wrapInt ((i : Int) + (s : Int)) = ((i + s : Nat) : Int) := by
    rw [wrapInt_of_range _ ⟨by omega, by omega⟩]
    omega
  unfold PrintContext.Indented
  rw [hw]

theorem PrintContext.PrintIndent_nat (s : Int) (n : Nat) :
    PrintContext.PrintIndent ⟨s, (n : Int)⟩ = List.replicate n ' ' := by
  simp [PrintContext.PrintIndent]

theorem Dict.assign_head (m : Dict) (k k₀ : List Char) (v : Node)
    (hk : strLt k₀ k = true) (hm : ∀ e ∈ m.head?, strLt k₀ e.1 = true) :
    ∀ e ∈ (Dict.assign m k v).head?, strLt k₀ e.1 = true := by
  cases m with
  | nil =>
    intro e he
    simp only [Dict.assign, List.head?, Option.mem_def, Option.some.injEq] at he
    subst he
    exact hk
  | cons e₀ rest =>
    obtain ⟨k', v'⟩ := e₀
    have hk' : strLt k₀ k' = true := hm (k', v') rfl
    intro e he
    by_cases h₁ : strLt k k' = true
    · have : Dict.assign ((k', v') :: rest) k v = (k, v) :: (k', v') :: rest := by
        simp [Dict.assign, h₁]
      rw [this] at he
      simp only [List.head?, Option.mem_def, Option.some.injEq] at he
      subst he
      exact hk
    · by_cases h₂ : strLt k' k = true
      · have : Dict.assign ((k', v') :: rest) k v = (k', v') :: Dict.assign rest k v := by
          simp [Dict.assign, h₁, h₂]
        rw [this] at he
        simp only [List.head?, Option.mem_def, Option.some.injEq] at he
        subst he
        exact hk'
      · have : Dict.assign ((k', v') :: rest) k v = (k', v) :: rest := by
          simp [Dict.assign, h₁, h₂]
        rw [this] at he
        simp only [List.head?, Option.mem_def, Option.some.injEq] at he
        subst he
        exact hk'

theorem Dict.assign_sorted : ∀ (m : Dict) (k : List Char) (v : Node),
    Dict.sorted m = true → Dict.sorted (Dict.assign m k v) = true
  | [], _, _, _ => rfl
  | (k', v') :: rest, k, v, hs => by
    have hs' := (Dict.sorted_cons k' v' rest).1 hs
    by_cases h₁ : strLt k k' = true
    · have : Dict.assign ((k', v') :: rest) k v = (k, v) :: (k', v') :: rest := by
        simp [Dict.assign, h₁]
      rw [this, Dict.sorted_cons]
      exact ⟨by simpa using h₁, hs⟩
    · by_cases h₂ : strLt k' k = true
      · have : Dict.assign ((k', v') :: rest) k v = (k', v') :: Dict.assign rest k v := by
          simp [Dict.assign, h₁, h₂]
        rw [this, Dict.sorted_cons]
        refine ⟨?_, Dict.assign_sorted rest k v hs'.2⟩
        exact Dict.assign_head rest k k' v h₂ hs'.1
      · have : Dict.assign ((k', v') :: rest) k v = (k', v) :: rest := by
          simp [Dict.assign, h₁, h₂]
        rw [this, Dict.sorted_cons]
        exact ⟨hs'.1, hs'.2⟩

theorem Dict.assignAll_sorted_of_sorted : ∀ (entries m : Dict), Dict.sorted m = true →
    Dict.sorted (Dict.assignAll m entries) = true
  | [], m, h => by simpa [Dict.assignAll] using h
  | (k, v) :: rest, m, h => by
    have := Dict.assignAll_sorted_of_sorted rest (Dict.assign m k v)
      (Dict.assign_sorted m k v h)
    simpa [Dict.assignAll] using this

theorem keysAscending_of_sorted : ∀ (m : Dict), Dict.sorted m = true →
    keysAscending (m.map (fun e => e.1)) = true
  | [], _ => rfl
  | [_], _ => rfl
  | (k₁, v₁) :: (k₂, v₂) :: rest, h => by
    simp only [Dict.sorted, Bool.and_eq_true] at h
    simp only [List.map, keysAscending, Bool.and_eq_true]
    exact ⟨h.1, keysAscending_of_sorted ((k₂, v₂) :: rest) h.2⟩

/-! ## Assignments under distinct keys commute -/

theorem strLt_tri (a b : List Char) : strLt a b = true ∨ a = b ∨ strLt b a = true := by
  cases h₁ : strLt a b with
  | true => exact Or.inl rfl
  | false =>
    cases h₂ : strLt b a with
    | true => exact Or.inr (Or.inr rfl)
    | false => exact Or.inr (Or.inl (strLt_total a b h₁ h₂))

theorem Dict.assign_lt (k k' : List Char) (v v' : Node) (rest : Dict)
    (h : strLt k k' = true) :
    Dict.assign ((k', v') :: rest) k v = (k, v) :: (k', v') :: rest := by
  simp [Dict.assign, h]

theorem Dict.assign_gt (k k' : List Char) (v v' : Node) (rest : Dict)
    (h : strLt k' k = true) :
    Dict.assign ((k', v') :: rest) k v = (k', v') :: Dict.assign rest k v := by
  simp [Dict.assign, h, strLt_asymm k' k h]

theorem Dict.assign_eq (k : List Char) (v v' : Node) (rest : Dict) :
    Dict.assign ((k, v') :: rest) k v = (k, v) :: rest := by
  simp [Dict.assign, strLt_irrefl]

theorem Dict.assign_comm : ∀ (m : Dict) (k₁ k₂ : List Char) (v₁ v₂ : Node), k₁ ≠ k₂ →
    Dict.assign (Dict.assign m k₁ v₁) k₂ v₂ = Dict.assign (Dict.assign m k₂ v₂) k₁ v₁
  | [], k₁, k₂, v₁, v₂, hne => by
    have e₁ : Dict.assign [] k₁ v₁ = [(k₁, v₁)] := rfl
    have e₂ : Dict.assign [] k₂ v₂ = [(k₂, v₂)] := rfl
    rw [e₁, e₂]
    rcases strLt_tri k₁ k₂ with h | h | h
    · rw [Dict.assign_gt k₂ k₁ v₂ v₁ [] h, Dict.assign_lt k₁ k₂ v₁ v₂ [] h]
      rfl
    · exact absurd h hne
    · rw [Dict.assign_lt k₂ k₁ v₂ v₁ [] h, Dict.assign_gt k₁ k₂ v₁ v₂ [] h]
      rfl
  | (k', v') :: rest, k₁, k₂, v₁, v₂, hne => by
    have ih := Dict.assign_comm rest k₁ k₂ v₁ v₂ hne
    rcases strLt_tri k₁ k' with a | a | a <;> rcases strLt_tri k₂ k' with b | b | b
    · rw [Dict.assign_lt k₁ k' v₁ v' rest a, Dict.assign_lt k₂ k' v₂ v' rest b]
      rcases strLt_tri k₁ k₂ with h | h | h
      · rw [Dict.assign_gt k₂ k₁ v₂ v₁ _ h, Dict.assign_lt k₂ k' v₂ v' rest b,
          Dict.assign_lt k₁ k₂ v₁ v₂ _ h]
      · exact absurd h hne
      · rw [Dict.assign_lt k₂ k₁ v₂ v₁ _ h, Dict.assign_gt k₁ k₂ v₁ v₂ _ h,
          Dict.assign_lt k₁ k' v₁ v' rest a]
    · subst b
      rw [Dict.assign_lt k₁ k₂ v₁ v' rest a, Dict.assign_gt k₂ k₁ v₂ v₁ _ a,
        Dict.assign_eq, Dict.assign_lt k₁ k₂ v₁ v₂ rest a]
    · have h : strLt k₁ k₂ = true := strLt_trans k₁ k' k₂ a b
      rw [Dict.assign_lt k₁ k' v₁ v' rest a, Dict.assign_gt k₂ k₁ v₂ v₁ _ h,
        Dict.assign_gt k₂ k' v₂ v' rest b, Dict.assign_lt k₁ k' v₁ v' _ a]
    · subst a
      rw [Dict.assign_eq, Dict.assign_lt k₂ k₁ v₂ v' rest b, Dict.assign_lt k₂ k₁ v₂ v₁ rest b,
        Dict.assign_gt k₁ k₂ v₁ v₂ _ b, Dict.assign_eq]
    · exact absurd (a.trans b.symm) hne
    · subst a
      rw [Dict.assign_eq, Dict.assign_gt k₂ k₁ v₂ v' rest b, Dict.assign_gt k₂ k₁ v₂ v₁ rest b,
        Dict.assign_eq]
    · have h : strLt k₂ k₁ = true := strLt_trans k₂ k' k₁ b a
      rw [Dict.assign_gt k₁ k' v₁ v' rest a, Dict.assign_lt k₂ k' v₂ v' rest b,
        Dict.assign_lt k₂ k' v₂ v' _ b, Dict.assign_gt k₁ k₂ v₁ v₂ _ h,
        Dict.assign_gt k₁ k' v₁ v' rest a]
    · subst b
      rw [Dict.assign_gt k₁ k₂ v₁ v' rest a, Dict.assign_eq, Dict.assign_eq,
        Dict.assign_gt k₁ k₂ v₁ v₂ rest a]
    · rw [Dict.assign_gt k₁ k' v₁ v' rest a, Dict.assign_gt k₂ k' v₂ v' rest b,
        Dict.assign_gt k₂ k' v₂ v' _ b, Dict.assign_gt k₁ k' v₁ v' _ a, ih]

/-- Entries with distinct keys assigned in two orders give the same map. -/
theorem Dict.assignAll_perm (m : Dict) (e₁ e₂ : List (List Char × Node))
    (hp : e₁.Perm e₂) (hn : (e₁.map (fun e => e.1)).Nodup) :
    Dict.assignAll m e₁ = Dict.assignAll m e₂ := by
  unfold Dict.assignAll
  refine List.Perm.foldl_eq' hp ?_ m
  intro x hx y hy z
  by_cases hxy : x = y
  · rw [hxy]
  · have hk : x.1 ≠ y.1 := by
      intro hk
      exact hxy (List.inj_on_of_nodup_map hn hx hy hk)
    exact Dict.assign_comm z x.1 y.1 x.2 y.2 hk

/-! ## Builder: filling a Dict -/

theorem Builder.run_supply (root : Option Node) (nodes : List Node) (below : List BuilderState)
    (k : List Char) (s : Supply) (hs : s.valid = true) (m : Dict) (cs : List Call) :
    Builder.run ⟨root, nodes, .DictState (.dict m) none :: below⟩
        (Call.Key k :: (s.calls ++ cs))
      = Builder.run ⟨root, nodes, .DictState (.dict (Dict.assign m k s.node)) none :: below⟩
          cs := by
  have hv : Builder.run ⟨root, nodes, .DictState (.dict m) (some k) :: below⟩ s.calls
      = Outcome.ok ()
          ⟨root, nodes, .DictState (.dict (Dict.assign m k s.node)) none :: below⟩ := by
    cases s with
    | direct v => rfl
    | nested v =>
      have := Builder.run_emit v hs
        ⟨root, nodes, .DictState (.dict m) (some k) :: below⟩ rfl
      simpa [Supply.calls, Supply.node] using this
  have hk : Builder.run ⟨root, nodes, .DictState (.dict m) none :: below⟩
        (Call.Key k :: (s.calls ++ cs))
      = Builder.run ⟨root, nodes, .DictState (.dict m) (some k) :: below⟩
          (s.calls ++ cs) := rfl
  rw [hk, Builder.run_append, hv]

theorem Builder.run_dictCalls (root : Option Node) (nodes : List Node)
    (below : List BuilderState) : ∀ (entries : List (List Char × Supply)),
    (∀ e ∈ entries, e.2.valid = true) → ∀ (m : Dict) (cs : List Call),
    Builder.run ⟨root, nodes, .DictState (.dict m) none :: below⟩ (dictCalls entries ++ cs)
      = Builder.run
          ⟨root, nodes,
            .DictState (.dict (Dict.assignAll m (suppliedEntries entries))) none :: below⟩ cs
  | [], _, m, cs => rfl
  | (k, s) :: rest, h, m, cs => by
    have ih := Builder.run_dictCalls root nodes below rest
      (fun e he => h e (List.mem_cons_of_mem _ he)) (Dict.assign m k s.node) cs
    have hs := h (k, s) (List.mem_cons_self _ _)
    rw [dictCalls, List.cons_append, List.append_assoc,
      Builder.run_supply root nodes below k s hs m, ih]
    rfl

/-- `StartDict`, the entries, `EndDict`, `Build` on a fresh Builder. -/
theorem Builder.runBuild_dictCalls (entries : List (List Char × Supply))
    (h : ∀ e ∈ entries, e.2.valid = true) :
    Builder.new.runBuild (Call.StartDict :: (dictCalls entries ++ [Call.EndDict]))
      = .ok (.dict (Dict.assignAll [] (suppliedEntries entries)))
          ⟨some (.dict (Dict.assignAll [] (suppliedEntries entries))), [],
            [.InitState .null]⟩ := by
  have hstart : Builder.run Builder.new
        (Call.StartDict :: (dictCalls entries ++ [Call.EndDict]))
      = Builder.run ⟨none, [], [.DictState (.dict []) none, .InitState .null]⟩
          (dictCalls entries ++ [Call.EndDict]) := rfl
  unfold Builder.runBuild
  rw [hstart, Builder.run_dictCalls none [] [.InitState .null] entries h [] [Call.EndDict]]
  rfl

/-! ## Builder: the shape of the state stack -/

theorem stackNested_dict (n n' : Node) (k k' : Option (List Char)) (below : List BuilderState) :
    stackNested (.DictState n k :: below) = stackNested (.DictState n' k' :: below) := rfl

theorem stackNested_array (n n' : Node) (below : List BuilderState) :
    stackNested (.ArrayState n :: below) = stackNested (.ArrayState n' :: below) := rfl

theorem stackNested_value (n n' : Node) (below : List BuilderState) :
    stackNested (.ValueState n :: below) = stackNested (.ValueState n' :: below) := rfl

theorem stackNested_cons_dict (n : Node) (k : Option (List Char)) (parent : BuilderState)
    (rest : List BuilderState) :
    stackNested (.DictState n k :: parent :: rest)
      = (parent.awaitsValue && stackNested (parent :: rest)) := rfl

theorem stackNested_cons_array (n : Node) (parent : BuilderState)
    (rest : List BuilderState) :
    stackNested (.ArrayState n :: parent :: rest)
      = (parent.awaitsValue && stackNested (parent :: rest)) := rfl

/-- Under an open container there is a state, it awaits a value, and the stack below
the container is well shaped. -/
theorem stackNested_pop (top : BuilderState) (below : List BuilderState)
    (htop : (match top with | .DictState _ _ => true | .ArrayState _ => true | _ => false) = true)
    (h : stackNested (top :: below) = true) :
    ∃ parent rest, below = parent :: rest ∧ parent.awaitsValue = true ∧
      stackNested (parent :: rest) = true := by
  cases below with
  | nil =>
    cases top with
    | InitState n => cases htop
    | ValueState n => cases htop
    | DictState n k => cases h
    | ArrayState n => cases h
  | cons parent rest =>
    refine ⟨parent, rest, rfl, ?_⟩
    cases top with
    | InitState n => cases htop
    | ValueState n => cases htop
    | DictState n k =>
      rw [stackNested_cons_dict, Bool.and_eq_true] at h
      exact h
    | ArrayState n =>
      rw [stackNested_cons_array, Bool.and_eq_true] at h
      exact h

/-- `ProcessBackNode` of a state that awaits a value, with the closed container on the
node stack: it returns, and the stack keeps its shape. -/
theorem BuilderState.ProcessBackNode_awaits (root : Option Node) (back : Node)
    (nodes : List Node) (parent : BuilderState) (rest : List BuilderState)
    (ht : parent.typed = true) (ha : parent.awaitsValue = true)
    (hn : stackNested (parent :: rest) = true) :
    ∃ b₁, parent.ProcessBackNode ⟨root, back :: nodes, parent :: rest⟩ = .ok () b₁ ∧
      stackNested b₁.state_stack = true := by
  cases parent with
  | InitState n => exact ⟨_, rfl, hn⟩
  | ValueState n => cases ha
  | DictState n key =>
    cases key with
    | none => cases ha
    | some k =>
      cases n with
      | dict m => exact ⟨_, rfl, (stackNested_dict _ _ _ _ _).trans hn⟩
      | _ => cases ht
  | ArrayState n =>
    cases n with
    | array a => exact ⟨_, rfl, (stackNested_array _ _ _).trans hn⟩
    | _ => cases ht

theorem Builder.EndDict_nested (root : Option Node) (nodes : List Node) (n : Node)
    (key : Option (List Char)) (below : List BuilderState)
    (ht : Builder.typed ⟨root, nodes, .DictState n key :: below⟩ = true)
    (hn : stackNested (.DictState n key :: below) = true) :
    ∃ b₁, Builder.EndDict ⟨root, nodes, .DictState n key :: below⟩ = .ok () b₁ ∧
      stackNested b₁.state_stack = true := by
  obtain ⟨parent, rest, rfl, ha, hr⟩ := stackNested_pop _ below rfl hn
  have ht' := (Builder.typed_iff _ _ _ _).1 ht
  have htp : parent.typed = true := by
    have := ht'.2
    simp only [List.all_cons, Bool.and_eq_true] at this
    exact this.1
  obtain ⟨b₁, h₁, h₂⟩ := BuilderState.ProcessBackNode_awaits root n nodes parent rest htp ha hr
  exact ⟨b₁, h₁, h₂⟩

theorem Builder.EndArray_nested (root : Option Node) (nodes : List Node) (n : Node)
    (below : List BuilderState)
    (ht : Builder.typed ⟨root, nodes, .ArrayState n :: below⟩ = true)
    (hn : stackNested (.ArrayState n :: below) = true) :
    ∃ b₁, Builder.EndArray ⟨root, nodes, .ArrayState n :: below⟩ = .ok () b₁ ∧
      stackNested b₁.state_stack = true := by
  obtain ⟨parent, rest, rfl, ha, hr⟩ := stackNested_pop _ below rfl hn
  have ht' := (Builder.typed_iff _ _ _ _).1 ht
  have htp : parent.typed = true := by
    have := ht'.2
    simp only [List.all_cons, Bool.and_eq_true] at this
    exact this.1
  obtain ⟨b₁, h₁, h₂⟩ := BuilderState.ProcessBackNode_awaits root n nodes parent rest htp ha hr
  exact ⟨b₁, h₁, h₂⟩

/-! ## Builder: the stack shape is kept by every call -/

theorem stackNested_init (n : Node) (below : List BuilderState)
    (h : stackNested (.InitState n :: below) = true) : below = [] := by
  cases below with
  | nil => rfl
  | cons x xs => cases h

theorem Builder.nested_call (b b₁ : Builder) (c : Call) (ht : b.typed = true)
    (hn : stackNested b.state_stack = true)
    (hc : (b.call c).builder? = some b₁) : stackNested b₁.state_stack = true := by
  obtain ⟨root, nodes, stack⟩ := b
  cases stack with
  | nil => cases hn
  | cons top below =>
    have ht' := (Builder.typed_iff _ _ _ _).1 ht
    cases c with
    | Value node =>
      cases top with
      | InitState n =>
        have hb := stackNested_init n below hn
        subst hb
        simp only [Builder.call, Builder.Value, Builder.GetState, List.head?,
          BuilderState.Value, Outcome.builder?, Option.some.injEq] at hc
        subst hc
        rfl
      | ValueState n =>
        simp only [Builder.call, Builder.Value, Builder.GetState, List.head?,
          BuilderState.Value, Outcome.builder?, Option.some.injEq] at hc
        subst hc; exact hn
      | DictState n key =>
        cases key with
        | none =>
          simp only [Builder.call, Builder.Value, Builder.GetState, List.head?,
            BuilderState.Value, Outcome.builder?, Option.some.injEq] at hc
          subst hc; exact hn
        | some k =>
          cases n <;> simp only [BuilderState.typed, Bool.false_eq_true, false_and] at ht'
          simp only [Builder.call, Builder.Value, Builder.GetState, List.head?,
            BuilderState.Value, Outcome.builder?, Option.some.injEq] at hc
          subst hc
          exact (stackNested_dict _ _ _ _ _).trans hn
      | ArrayState n =>
        cases n <;> simp only [BuilderState.typed, Bool.false_eq_true, false_and] at ht'
        simp only [Builder.call, Builder.Value, Builder.GetState, List.head?,
          BuilderState.Value, Outcome.builder?, Option.some.injEq] at hc
        subst hc
        exact (stackNested_array _ _ _).trans hn
    | StartDict =>
      cases top with
      | InitState n =>
        simp only [Builder.call, Builder.StartDict, Builder.GetState, List.head?,
          BuilderState.StartDict, Outcome.builder?, Option.some.injEq] at hc
        subst hc
        exact (stackNested_cons_dict _ _ _ _).trans (by rw [hn]; rfl)
      | ValueState n =>
        simp only [Builder.call, Builder.StartDict, Builder.GetState, List.head?,
          BuilderState.StartDict, Outcome.builder?, Option.some.injEq] at hc
        subst hc; exact hn
      | DictState n key =>
        cases key with
        | none =>
          simp only [Builder.call, Builder.StartDict, Builder.GetState, List.head?,
            BuilderState.StartDict, Outcome.builder?, Option.some.injEq] at hc
          subst hc; exact hn
        | some k =>
          simp only [Builder.call, Builder.StartDict, Builder.GetState, List.head?,
            BuilderState.StartDict, Outcome.builder?, Option.some.injEq] at hc
          subst hc
          exact (stackNested_cons_dict _ _ _ _).trans (by rw [hn]; rfl)
      | ArrayState n =>
        simp only [Builder.call, Builder.StartDict, Builder.GetState, List.head?,
          BuilderState.StartDict, Outcome.builder?, Option.some.injEq] at hc
        subst hc
        exact (stackNested_cons_dict _ _ _ _).trans (by rw [hn]; rfl)
    | StartArray =>
      cases top with
      | InitState n =>
        simp only [Builder.call, Builder.StartArray, Builder.GetState, List.head?,
          BuilderState.StartArray, Outcome.builder?, Option.some.injEq] at hc
        subst hc
        exact (stackNested_cons_array _ _ _).trans (by rw [hn]; rfl)
      | ValueState n =>
        simp only [Builder.call, Builder.StartArray, Builder.GetState, List.head?,
          BuilderState.StartArray, Outcome.builder?, Option.some.injEq] at hc
        subst hc; exact hn
      | DictState n key =>
        cases key with
        | none =>
          simp only [Builder.call, Builder.StartArray, Builder.GetState, List.head?,
            BuilderState.StartArray, Outcome.builder?, Option.some.injEq] at hc
          subst hc; exact hn
        | some k =>
          simp only [Builder.call, Builder.StartArray, Builder.GetState, List.head?,
            BuilderState.StartArray, Outcome.builder?, Option.some.injEq] at hc
          subst hc
          exact (stackNested_cons_array _ _ _).trans (by rw [hn]; rfl)
      | ArrayState n =>
        simp only [Builder.call, Builder.StartArray, Builder.GetState, List.head?,
          BuilderState.StartArray, Outcome.builder?, Option.some.injEq] at hc
        subst hc
        exact (stackNested_cons_array _ _ _).trans (by rw [hn]; rfl)
    | EndDict =>
      cases top with
      | DictState n key =>
        obtain ⟨b₂, h₂, hn₂⟩ := Builder.EndDict_nested root nodes n key below ht hn
        simp only [Builder.call, h₂, Outcome.builder?, Option.some.injEq] at hc
        subst hc; exact hn₂
      | _ =>
        simp only [Builder.call, Builder.EndDict, Builder.GetState, List.head?,
          BuilderState.EndDict, Outcome.builder?, Option.some.injEq] at hc
        subst hc; exact hn
    | EndArray =>
      cases top with
      | ArrayState n =>
        obtain ⟨b₂, h₂, hn₂⟩ := Builder.EndArray_nested root nodes n below ht hn
        simp only [Builder.call, h₂, Outcome.builder?, Option.some.injEq] at hc
        subst hc; exact hn₂
      | _ =>
        simp only [Builder.call, Builder.EndArray, Builder.GetState, List.head?,
          BuilderState.EndArray, Outcome.builder?, Option.some.injEq] at hc
        subst hc; exact hn
    | Key key =>
      cases top with
      | DictState n ck =>
        cases ck with
        | none =>
          simp only [Builder.call, Builder.Key, Builder.GetState, List.head?,
            BuilderState.Key, Outcome.builder?, Option.some.injEq] at hc
          subst hc
          exact (stackNested_dict _ _ _ _ _).trans hn
        | some k =>
          simp only [Builder.call, Builder.Key, Builder.GetState, List.head?,
            BuilderState.Key, Outcome.builder?, Option.some.injEq] at hc
          subst hc; exact hn
      | _ =>
        simp only [Builder.call, Builder.Key, Builder.GetState, List.head?,
          BuilderState.Key, Outcome.builder?, Option.some.injEq] at hc
        subst hc; exact hn

theorem Builder.nested_Build (b b₁ : Builder) (hn : stackNested b.state_stack = true)
    (hc : b.Build.builder? = some b₁) : stackNested b₁.state_stack = true := by
  obtain ⟨root, nodes, stack⟩ := b
  cases stack with
  | nil => cases hn
  | cons top below =>
    cases top with
    | InitState n =>
      cases nodes with
      | nil =>
        simp only [Builder.Build, Builder.GetState, List.head?, BuilderState.Build,
          Builder.GetNodeStackSize, List.length, ne_eq, Nat.zero_ne_one, not_false_eq_true,
          if_true, Outcome.builder?, Option.some.injEq] at hc
        subst hc; exact hn
      | cons back rest =>
        by_cases hlen : (back :: rest).length = 1
        · simp only [Builder.Build, Builder.GetState, List.head?, BuilderState.Build,
            Builder.GetNodeStackSize, hlen, ne_eq, not_true_eq_false, if_false,
            Builder.GetBackNode, Builder.PopNode, Outcome.builder?, Option.some.injEq] at hc
          subst hc; exact hn
        · simp only [Builder.Build, Builder.GetState, List.head?, BuilderState.Build,
            Builder.GetNodeStackSize, hlen, ne_eq, not_false_eq_true, if_true,
            Outcome.builder?, Option.some.injEq] at hc
          subst hc; exact hn
    | ValueState n =>
      simp only [Builder.Build, Builder.GetState, List.head?, BuilderState.Build,
        Builder.setState, Outcome.builder?, Option.some.injEq] at hc
      subst hc
      exact (stackNested_value _ _ _).trans hn
    | DictState n key =>
      simp only [Builder.Build, Builder.GetState, List.head?, BuilderState.Build,
        Outcome.builder?, Option.some.injEq] at hc
      subst hc; exact hn
    | ArrayState n =>
      simp only [Builder.Build, Builder.GetState, List.head?, BuilderState.Build,
        Outcome.builder?, Option.some.injEq] at hc
      subst hc; exact hn

theorem Reachable.nested {b : Builder} (h : Reachable b) :
    stackNested b.state_stack = true := by
  induction h with
  | new => rfl
  | call b b₁ c hb hc ih => exact Builder.nested_call b b₁ c hb.typed ih hc
  | build b b₁ _ hc ih => exact Builder.nested_Build b b₁ ih hc

/-! ## Builder: the wrappers -/

/-- In the state a wrapper stands for, every method the wrapper has returns. -/
theorem Wrapper.offered_succeeds (w : Wrapper) (b : Builder) (ht : b.typed = true)
    (hn : stackNested b.state_stack = true) (hw : w.stateOf b = true) (c : Call)
    (hc : (w.returns c).isSome = true) : (b.call c).succeeds = true := by
  obtain ⟨root, nodes, stack⟩ := b
  cases stack with
  | nil => cases hn
  | cons top below =>
    have ht' := (Builder.typed_iff _ _ _ _).1 ht
    cases top with
    | InitState n => cases w <;> cases hw
    | ValueState n => cases w <;> cases hw
    | DictState n key =>
      have hd : ∃ m, n = .dict m := by
        cases n with
        | dict m => exact ⟨m, rfl⟩
        | _ => cases ht'.1
      obtain ⟨m, rfl⟩ := hd
      obtain ⟨b₂, h₂, -⟩ := Builder.EndDict_nested root nodes (.dict m) key below ht hn
      cases key with
      | none =>
        cases w with
        | DictKeyValueResult =>
          cases c with
          | Key k => rfl
          | EndDict => simp only [Builder.call, h₂, Outcome.succeeds]
          | _ => cases hc
        | StartDictResult =>
          cases c with
          | Key k => rfl
          | EndDict => simp only [Builder.call, h₂, Outcome.succeeds]
          | _ => cases hc
        | _ => cases hw
      | some k =>
        cases w with
        | DictKeyResult =>
          cases c with
          | Value v => rfl
          | StartDict => rfl
          | StartArray => rfl
          | _ => cases hc
        | _ => cases hw
    | ArrayState n =>
      have hd : ∃ a, n = .array a := by
        cases n with
        | array a => exact ⟨a, rfl⟩
        | _ => cases ht'.1
      obtain ⟨a, rfl⟩ := hd
      obtain ⟨b₂, h₂, -⟩ := Builder.EndArray_nested root nodes (.array a) below ht hn
      cases w with
      | StartArrayResult =>
        cases c with
        | Value v => rfl
        | StartDict => rfl
        | StartArray => rfl
        | EndArray => simp only [Builder.call, h₂, Outcome.succeeds]
        | _ => cases hc
      | ArrayValueResult =>
        cases c with
        | Value v => rfl
        | StartDict => rfl
        | StartArray => rfl
        | EndArray => simp only [Builder.call, h₂, Outcome.succeeds]
        | _ => cases hc
      | _ => cases hw

/-- A call that returns a wrapper leaves the Builder in the state the wrapper stands
for, when the receiver was the Builder or a wrapper in its state. -/
theorem Receiver.returns_stateOf (r : Receiver) (b b₁ : Builder) (c : Call) (w₁ : Wrapper)
    (ht : b.typed = true)
    (hr : ∀ w, r = .wrapper w → w.stateOf b = true)
    (hret : r.returns c = some (.wrapper w₁)) (hcall : b.call c = .ok () b₁) :
    w₁.stateOf b₁ = true := by
  obtain ⟨root, nodes, stack⟩ := b
  cases stack with
  | nil => simp [Builder.typed] at ht
  | cons top below =>
    have ht' := (Builder.typed_iff _ _ _ _).1 ht
    cases c with
    | Value node =>
      cases r with
      | builder => cases hret
      | wrapper w =>
        have hw := hr w rfl
        cases top with
        | InitState n => cases w <;> cases hw
        | ValueState n => cases w <;> cases hw
        | DictState n key =>
          cases key with
          | none => cases hcall
          | some k =>
            cases n with
            | dict m =>
              simp only [Builder.call, Builder.Value, Builder.GetState, List.head?,
                BuilderState.Value, Outcome.ok.injEq, true_and] at hcall
              subst hcall
              cases w <;> first | (cases hret; rfl) | cases hw
            | _ => cases ht'.1
        | ArrayState n =>
          cases n with
          | array a =>
            simp only [Builder.call, Builder.Value, Builder.GetState, List.head?,
              BuilderState.Value, Outcome.ok.injEq, true_and] at hcall
            subst hcall
            cases w <;> first | (cases hret; rfl) | cases hw
          | _ => cases ht'.1
    | StartDict =>
      have hw₁ : w₁ = .StartDictResult := by
        cases r with
        | builder => cases hret; rfl
        | wrapper w => cases w <;> first | (cases hret; rfl) | cases hret
      subst hw₁
      cases top with
      | InitState n => cases hcall; rfl
      | ValueState n => cases hcall
      | DictState n key =>
        cases key with
        | none => cases hcall
        | some k => cases hcall; rfl
      | ArrayState n => cases hcall; rfl
    | StartArray =>
      have hw₁ : w₁ = .StartArrayResult := by
        cases r with
        | builder => cases hret; rfl
        | wrapper w => cases w <;> first | (cases hret; rfl) | cases hret
      subst hw₁
      cases top with
      | InitState n => cases hcall; rfl
      | ValueState n => cases hcall
      | DictState n key =>
        cases key with
        | none => cases hcall
        | some k => cases hcall; rfl
      | ArrayState n => cases hcall; rfl
    | EndDict =>
      cases r with
      | builder => cases hret
      | wrapper w => cases w <;> cases hret
    | EndArray =>
      cases r with
      | builder => cases hret
      | wrapper w => cases w <;> cases hret
    | Key key =>
      have hw₁ : w₁ = .DictKeyResult := by
        cases r with
        | builder => cases hret; rfl
        | wrapper w => cases w <;> first | (cases hret; rfl) | cases hret
      subst hw₁
      cases top with
      | InitState n => cases hcall
      | ValueState n => cases hcall
      | DictState n ck =>
        cases ck with
        | none => cases hcall; rfl
        | some k => cases hcall
      | ArrayState n => cases hcall

/-- Along a chained expression the Builder stays reachable, and when the last call
returned a wrapper the Builder is in the state the wrapper stands for. -/
theorem chain_sound : ∀ (cs : List Call) (r r₁ : Receiver) (b b₁ : Builder),
    Reachable b → (∀ w, r = .wrapper w → w.stateOf b = true) →
    chain r b cs = some (r₁, b₁) →
    Reachable b₁ ∧ ∀ w, r₁ = .wrapper w → w.stateOf b₁ = true
  | [], r, r₁, b, b₁, hb, hr, hc => by
    simp only [chain, Option.some.injEq, Prod.mk.injEq] at hc
    obtain ⟨rfl, rfl⟩ := hc
    exact ⟨hb, hr⟩
  | c :: cs, r, r₁, b, b₁, hb, hr, hc => by
    simp only [chain] at hc
    cases hret : r.returns c with
    | none => rw [hret] at hc; cases hc
    | some r₂ =>
      rw [hret] at hc
      cases hcall : b.call c with
      | ok u b₂ =>
        rw [hcall] at hc
        simp only [] at hc
        have hb₂ : Reachable b₂ := Reachable.call b b₂ c hb (by rw [hcall]; rfl)
        refine chain_sound cs r₂ r₁ b₂ b₁ hb₂ ?_ hc
        intro w hw
        subst hw
        exact Receiver.returns_stateOf r b b₂ c w hb.typed hr hret hcall
      | thrown what b₂ => rw [hcall] at hc; cases hc
      | undefined => rw [hcall] at hc; cases hc

/-! ## The calls on a stream, by cases -/

theorem IStream.good_eq (s : IStream) (h : s.good = true) : s = ⟨s.buf, false, false⟩ := by
  obtain ⟨b, e, f⟩ := s
  cases e <;> cases f <;> first | rfl | cases h

theorem IStream.size_good (b : List Char) : IStream.size ⟨b, false, false⟩ = b.length + 1 := rfl

theorem IStream.size_bad (s : IStream) (h : s.good = false) : s.size = 0 := by
  simp [IStream.size, h]

theorem IStream.size_pos (s : IStream) (h : 0 < s.size) : s.good = true := by
  cases hg : s.good with
  | true => rfl
  | false => rw [IStream.size_bad s hg] at h; cases h

theorem IStream.get_cases (s : IStream) :
    (∃ c t, s = ⟨c :: t, false, false⟩ ∧ s.get = (some c, ⟨t, false, false⟩)) ∨
    (s.get.1 = none ∧ s.get.2.good = false) := by
  obtain ⟨b, e, f⟩ := s
  cases e <;> cases f <;> cases b <;>
    first
      | exact Or.inl ⟨_, _, rfl, rfl⟩
      | exact Or.inr ⟨rfl, rfl⟩

theorem IStream.peek_cases (s : IStream) :
    (∃ c t, s = ⟨c :: t, false, false⟩ ∧ s.peek = (some c, ⟨c :: t, false, false⟩)) ∨
    (s.peek.1 = none ∧ s.peek.2.good = false) := by
  obtain ⟨b, e, f⟩ := s
  cases e <;> cases f <;> cases b <;>
    first
      | exact Or.inl ⟨_, _, rfl, rfl⟩
      | exact Or.inr ⟨rfl, rfl⟩

theorem skipws_cases : ∀ (b : List Char),
    (∃ ws c t, b = ws ++ c :: t ∧ allSpace ws = true ∧ isspace c = false ∧
      skipws b = c :: t) ∨
    (allSpace b = true ∧ skipws b = [])
  | [] => Or.inr ⟨rfl, rfl⟩
  | c :: t => by
    cases hc : isspace c with
    | false =>
      exact Or.inl ⟨[], c, t, rfl, rfl, hc, by simp [skipws, hc]⟩
    | true =>
      rcases skipws_cases t with ⟨ws, c', t', h₁, h₂, h₃, h₄⟩ | ⟨h₁, h₂⟩
      · refine Or.inl ⟨c :: ws, c', t', by rw [h₁]; rfl, ?_, h₃, by simp [skipws, hc, h₄]⟩
        simp only [allSpace, List.all_cons, hc, Bool.true_and] at h₂ ⊢
        exact h₂
      · refine Or.inr ⟨?_, by simp [skipws, hc, h₂]⟩
        simp only [allSpace, List.all_cons, hc, Bool.true_and] at h₁ ⊢
        exact h₁

theorem IStream.extract_cases (s : IStream) :
    (∃ ws c t, s = ⟨ws ++ c :: t, false, false⟩ ∧ allSpace ws = true ∧ isspace c = false ∧
      s.extract = (some c, ⟨t, false, false⟩)) ∨
    (s.extract.1 = none ∧ s.extract.2.good = false ∧ s.extract.2.fail = true) := by
  obtain ⟨b, e, f⟩ := s
  cases e <;> cases f
  · rcases skipws_cases b with ⟨ws, c, t, h₁, h₂, h₃, h₄⟩ | ⟨h₁, h₂⟩
    · exact Or.inl ⟨ws, c, t, by rw [h₁], h₂, h₃, by rw [h₁]; exact IStream.extract_text ws c t h₂ h₃⟩
    · refine Or.inr ?_
      simp [IStream.extract, IStream.good, h₂, IStream.fail]
  · exact Or.inr ⟨rfl, rfl, rfl⟩
  · exact Or.inr ⟨rfl, rfl, rfl⟩
  · exact Or.inr ⟨rfl, rfl, rfl⟩

theorem IStream.get_bad (s : IStream) (h : s.good = false) :
    s.get.1 = none ∧ s.get.2.good = false := by
  rcases IStream.get_cases s with ⟨c, t, rfl, _⟩ | h'
  · cases h
  · exact h'

theorem IStream.peek_bad (s : IStream) (h : s.good = false) :
    s.peek.1 = none ∧ s.peek.2.good = false := by
  rcases IStream.peek_cases s with ⟨c, t, rfl, _⟩ | h'
  · cases h
  · exact h'

theorem IStream.extract_bad (s : IStream) (h : s.good = false) :
    s.extract.1 = none ∧ s.extract.2.good = false ∧ s.extract.2.fail = true := by
  rcases IStream.extract_cases s with ⟨ws, c, t, rfl, _⟩ | h'
  · cases h
  · exact h'

theorem IStream.get_nil : IStream.get ⟨[], false, false⟩ = (none, ⟨[], true, true⟩) := rfl

theorem IStream.peek_nil : IStream.peek ⟨[], false, false⟩ = (none, ⟨[], true, false⟩) := rfl

theorem toChar_none_ne (c : Char) (h : c.toNat < 128) : toChar none ≠ c := by
  intro e
  have : (toChar none).toNat = 255 := by decide
  rw [e] at this
  omega

/-! ## `LoadString` on every stream -/

theorem IStream.get_size (s : IStream) : s.get.2.size ≤ s.size - 1 := by
  rcases IStream.get_cases s with ⟨c, t, rfl, h⟩ | ⟨_, h⟩
  · simp only [h, IStream.size_good, List.length_cons]
    omega
  · rw [IStream.size_bad _ h]; exact Nat.zero_le _

theorem IStream.peek_size (s : IStream) : s.peek.2.size ≤ s.size := by
  rcases IStream.peek_cases s with ⟨c, t, rfl, h⟩ | ⟨_, h⟩
  · simp only [h, Nat.le_refl]
  · rw [IStream.size_bad _ h]; exact Nat.zero_le _

theorem IStream.extract_size (s : IStream) : s.extract.2.size ≤ s.size - 1 := by
  rcases IStream.extract_cases s with ⟨ws, c, t, rfl, _, _, h⟩ | ⟨_, h, _⟩
  · simp only [h, IStream.size_good, List.length_cons, List.length_append]
    omega
  · rw [IStream.size_bad _ h]; exact Nat.zero_le _

theorem LoadString.escape_some (ch c v : Char) (t : List Char) (hv : escapeValue c = some v) :
    LoadString.escape ch ⟨c :: t, false, false⟩ = (v, ⟨t, false, false⟩) := by
  rcases escapeValue_cases c with ⟨rfl, h⟩ | ⟨rfl, h⟩ | ⟨rfl, h⟩ | ⟨rfl, h⟩ | ⟨rfl, h⟩ | ⟨_, h⟩
  all_goals rw [hv] at h
  all_goals first
    | (cases h; rfl)
    | cases h

theorem LoadString.escape_none (ch c : Char) (t : List Char) (hv : escapeValue c = none) :
    LoadString.escape ch ⟨c :: t, false, false⟩ = (ch, ⟨c :: t, false, false⟩) := by
  rcases escapeValue_cases c with ⟨_, h⟩ | ⟨_, h⟩ | ⟨_, h⟩ | ⟨_, h⟩ | ⟨_, h⟩ | ⟨hne, _⟩
  any_goals (rw [hv] at h; cases h)
  simp [LoadString.escape, IStream.peek_cons, toChar, hne.1, hne.2.1, hne.2.2.1, hne.2.2.2.1,
    hne.2.2.2.2]

theorem LoadString.escape_bad (ch : Char) (s : IStream) (h₁ : s.peek.1 = none)
    (h₂ : s.peek.2.good = false) :
    (LoadString.escape ch s).1 = ch ∧ (LoadString.escape ch s).2.good = false := by
  have hp : s.peek = (none, s.peek.2) := by rw [← h₁]
  have hc : toChar none ≠ 'r' ∧ toChar none ≠ 'n' ∧ toChar none ≠ '\\' ∧ toChar none ≠ 't' ∧
      toChar none ≠ '"' := by decide
  unfold LoadString.escape
  rw [hp]
  simp only [hc.1, hc.2.1, hc.2.2.1, hc.2.2.2.1, hc.2.2.2.2, if_false]
  exact ⟨trivial, h₂⟩

/-- The escape `switch` on a stream and on every extension of its text. -/
theorem LoadString.escape_frame (ch : Char) (s : IStream) :
    (LoadString.escape ch s).2.size ≤ s.size ∧
    ((LoadString.escape ch s).2.good = true → ∀ q,
      LoadString.escape ch ⟨s.buf ++ q, false, false⟩
        = ((LoadString.escape ch s).1, ⟨(LoadString.escape ch s).2.buf ++ q, false, false⟩)) := by
  rcases IStream.peek_cases s with ⟨c, t, rfl, _⟩ | ⟨h₁, h₂⟩
  · cases hv : escapeValue c with
    | some v =>
      rw [LoadString.escape_some ch c v t hv]
      refine ⟨by simp only [IStream.size_good, List.length_cons]; omega, fun _ q => ?_⟩
      exact LoadString.escape_some ch c v (t ++ q) hv
    | none =>
      rw [LoadString.escape_none ch c t hv]
      exact ⟨Nat.le_refl _, fun _ q => LoadString.escape_none ch c (t ++ q) hv⟩
  · have hb := LoadString.escape_bad ch s h₁ h₂
    refine ⟨by rw [IStream.size_bad _ hb.2]; exact Nat.zero_le _, fun hg => ?_⟩
    rw [hb.2] at hg
    cases hg

/-- One iteration of the loop of `LoadString`: the character stored and the stream
before the `get` that ends the iteration. -/
theorem LoadString.loop_succ (fuel : Nat) (line : List Char) (ch : Char) (s : IStream) :
    LoadString.loop (fuel + 1) line ch s
      = if (s.good && decide (ch ≠ '"')) = true then
          LoadString.loop fuel
            (line ++ [(if ch = '\\' then LoadString.escape ch s else (ch, s)).1])
            (toChar (if ch = '\\' then LoadString.escape ch s else (ch, s)).2.get.1)
            (if ch = '\\' then LoadString.escape ch s else (ch, s)).2.get.2
        else if ch ≠ '"' then
          .error (.ParsingError "string parsing error : ending '\"' required but not found")
        else .ok (.string line) s := by
  rw [LoadString.loop]

theorem LoadString.loop_mono : ∀ (fuel : Nat) (line : List Char) (ch : Char) (s : IStream),
    LoadString.loop fuel line ch s ≠ .outOfFuel →
    LoadString.loop (fuel + 1) line ch s = LoadString.loop fuel line ch s
  | 0, _, _, _, h => absurd rfl h
  | fuel + 1, line, ch, s, h => by
    rw [LoadString.loop_succ fuel line ch s] at h
    rw [LoadString.loop_succ (fuel + 1) line ch s, LoadString.loop_succ fuel line ch s]
    by_cases hc : (s.good && decide (ch ≠ '"')) = true
    · rw [if_pos hc] at h
      rw [if_pos hc, if_pos hc]
      exact LoadString.loop_mono fuel _ _ _ h
    · rw [if_neg hc, if_neg hc]

theorem LoadString.loop_total : ∀ (fuel : Nat) (line : List Char) (ch : Char) (s : IStream),
    s.size + 1 ≤ fuel → LoadString.loop fuel line ch s ≠ .outOfFuel
  | 0, _, _, _, h => by omega
  | fuel + 1, line, ch, s, h => by
    rw [LoadString.loop_succ]
    by_cases hc : (s.good && decide (ch ≠ '"')) = true
    · rw [if_pos hc]
      simp only [Bool.and_eq_true] at hc
      have hs : 1 ≤ s.size := by
        rw [IStream.good_eq s hc.1, IStream.size_good]; omega
      apply LoadString.loop_total
      have h₁ := IStream.get_size (if ch = '\\' then LoadString.escape ch s else (ch, s)).2
      have h₂ : (if ch = '\\' then LoadString.escape ch s else (ch, s)).2.size ≤ s.size := by
        by_cases he : ch = '\\'
        · rw [if_pos he]; exact (LoadString.escape_frame ch s).1
        · rw [if_neg he]
      omega
    · rw [if_neg hc]
      by_cases hq : ch = '"' <;> simp [hq]

/-- What the loop of `LoadString` returns, entered with the character of a `get` on a
stream: on success a string node and a good stream, and the same on every extension of
the text; an exception is a ParsingError. -/
theorem LoadString.loop_spec : ∀ (fuel : Nat) (line : List Char) (ch : Char) (s : IStream),
    (ch = '"' → s.good = true) →
    (∀ x s', LoadString.loop fuel line ch s = .ok x s' →
      s.good = true ∧ s'.good = true ∧ x.IsString = true ∧ s'.size ≤ s.size ∧
      ∀ q, LoadString.loop fuel line ch ⟨s.buf ++ q, false, false⟩
        = .ok x ⟨s'.buf ++ q, false, false⟩) ∧
    (∀ e, LoadString.loop fuel line ch s = .error e → ∃ w, e = .ParsingError w)
  | 0, _, _, _, _ => ⟨fun _ _ h => (by cases h), fun _ h => (by cases h)⟩
  | fuel + 1, line, ch, s, hch => by
    by_cases hc : (s.good && decide (ch ≠ '"')) = true
    · have hc' := hc
      simp only [Bool.and_eq_true, decide_eq_true_eq] at hc'
      obtain ⟨hg, hq⟩ := hc'
      -- the stream and character after the escape
      have hstep : ∃ ch₁ s₁, (∀ s₀ : IStream, s₀ = s →
            (if ch = '\\' then LoadString.escape ch s₀ else (ch, s₀)) = (ch₁, s₁)) ∧
          s₁.size ≤ s.size ∧
          (s₁.good = true → ∀ q,
            (if ch = '\\' then LoadString.escape ch ⟨s.buf ++ q, false, false⟩
              else (ch, (⟨s.buf ++ q, false, false⟩ : IStream)))
            = (ch₁, ⟨s₁.buf ++ q, false, false⟩)) := by
        by_cases he : ch = '\\'
        · refine ⟨(LoadString.escape ch s).1, (LoadString.escape ch s).2, ?_,
            (LoadString.escape_frame ch s).1, ?_⟩
          · intro s₀ hs₀; rw [if_pos he, hs₀]
          · intro hg₁ q; rw [if_pos he]; exact (LoadString.escape_frame ch s).2 hg₁ q
        · refine ⟨ch, s, ?_, Nat.le_refl _, ?_⟩
          · intro s₀ hs₀; rw [if_neg he, hs₀]
          · intro _ q; rw [if_neg he]
      obtain ⟨ch₁, s₁, hst, hsz, hfr⟩ := hstep
      have ih := LoadString.loop_spec fuel (line ++ [ch₁]) (toChar s₁.get.1) s₁.get.2 (by
        intro hq'
        rcases IStream.get_cases s₁ with ⟨c, t, _, h⟩ | ⟨h₁, _⟩
        · rw [h]; rfl
        · rw [h₁] at hq'
          exact absurd hq' (by decide))
      have hunf : LoadString.loop (fuel + 1) line ch s
          = LoadString.loop fuel (line ++ [ch₁]) (toChar s₁.get.1) s₁.get.2 := by
        rw [LoadString.loop_succ, if_pos hc, hst s rfl]
      refine ⟨?_, ?_⟩
      · intro x s' hx
        rw [hunf] at hx
        obtain ⟨hg₂, hg', hstr, hsz', hfr'⟩ := ih.1 x s' hx
        have hgs := IStream.get_size s₁
        refine ⟨hg, hg', hstr, by omega, ?_⟩
        intro q
        rcases IStream.get_cases s₁ with ⟨c, t, h₁, h⟩ | ⟨_, hbad⟩
        · have hfr₁ := hfr (by rw [h₁]; rfl) q
          have hc₂ : ((⟨s.buf ++ q, false, false⟩ : IStream).good && decide (ch ≠ '"')) = true := by
            simp [IStream.good, hq]
          rw [LoadString.loop_succ, if_pos hc₂, hfr₁]
          have hb : s₁.buf ++ q = c :: (t ++ q) := by rw [h₁]; rfl
          rw [hb, IStream.get_cons]
          have := hfr' q
          rw [h] at this
          exact this
        · rw [hbad] at hg₂; cases hg₂
      · intro e he
        rw [hunf] at he
        exact ih.2 e he
    · have hunf : ∀ s₀ : IStream, s₀.good = s.good → LoadString.loop (fuel + 1) line ch s₀
          = if ch ≠ '"' then
              .error (.ParsingError "string parsing error : ending '\"' required but not found")
            else .ok (.string line) s₀ := by
        intro s₀ hs₀
        rw [LoadString.loop_succ, if_neg (by rw [hs₀]; exact hc)]
      by_cases hq : ch = '"'
      · have hg := hch hq
        rw [hunf s rfl, if_neg (not_not.2 hq)]
        refine ⟨?_, fun e he => by cases he⟩
        intro x s' hx
        cases hx
        refine ⟨hg, hg, rfl, Nat.le_refl _, ?_⟩
        intro q
        rw [hunf _ (by rw [hg]; rfl), if_neg (not_not.2 hq)]
      · rw [hunf s rfl, if_pos hq]
        exact ⟨fun x s' hx => (by cases hx), fun e he => (by cases he; exact ⟨_, rfl⟩)⟩

/-! ## The calls on a stream and on every extension of its text -/

theorem IStream.get_ext (s : IStream) (h : s.get.2.good = true) :
    s.good = true ∧ ∀ q, IStream.get ⟨s.buf ++ q, false, false⟩
      = (s.get.1, ⟨s.get.2.buf ++ q, false, false⟩) := by
  rcases IStream.get_cases s with ⟨c, t, rfl, h₁⟩ | ⟨_, hbad⟩
  · exact ⟨rfl, fun q => by rw [h₁]; rfl⟩
  · rw [hbad] at h; cases h

theorem IStream.peek_ext (s : IStream) (h : s.peek.2.good = true) :
    s.good = true ∧ ∀ q, IStream.peek ⟨s.buf ++ q, false, false⟩
      = (s.peek.1, ⟨s.peek.2.buf ++ q, false, false⟩) := by
  rcases IStream.peek_cases s with ⟨c, t, rfl, h₁⟩ | ⟨_, hbad⟩
  · exact ⟨rfl, fun q => by rw [h₁]; rfl⟩
  · rw [hbad] at h; cases h

theorem IStream.extract_ext (s : IStream) (h : s.extract.2.good = true) :
    s.good = true ∧ ∀ q, IStream.extract ⟨s.buf ++ q, false, false⟩
      = (s.extract.1, ⟨s.extract.2.buf ++ q, false, false⟩) := by
  rcases IStream.extract_cases s with ⟨ws, c, t, rfl, hws, hc, h₁⟩ | ⟨_, hbad, _⟩
  · refine ⟨rfl, fun q => ?_⟩
    rw [h₁]
    have : (ws ++ c :: t) ++ q = ws ++ c :: (t ++ q) := by simp
    simp only [this]
    exact IStream.extract_text ws c (t ++ q) hws hc
  · rw [hbad] at h; cases h

theorem IStream.peek_good (s : IStream) (h : s.peek.2.good = true) : s.peek.2 = s := by
  rcases IStream.peek_cases s with ⟨c, t, rfl, h₁⟩ | ⟨_, hbad⟩
  · rw [h₁]
  · rw [hbad] at h; cases h

/-! ## `LoadNumber` on every stream -/

theorem LoadNumber.digits_succ (fuel : Nat) (result : Int) (s : IStream) :
    LoadNumber.digits (fuel + 1) result s
      = if isdigitInt s.peek.1 = true then
          LoadNumber.digits fuel
            (wrapInt (wrapInt (result * 10) + ((toChar s.peek.2.get.1).toNat - 48 : Int)))
            s.peek.2.get.2
        else some (result, s.peek.2) := by
  rw [LoadNumber.digits]

theorem LoadNumber.fraction_succ (fuel : Nat) (digits : List Char) (s : IStream) :
    LoadNumber.fraction (fuel + 1) digits s
      = if isdigitInt s.peek.1 = true then
          LoadNumber.fraction fuel (digits ++ [toChar s.peek.2.get.1]) s.peek.2.get.2
        else some (digits, s.peek.2) := by
  rw [LoadNumber.fraction]

theorem LoadNumber.digits_mono : ∀ (fuel : Nat) (result : Int) (s : IStream),
    LoadNumber.digits fuel result s ≠ none →
    LoadNumber.digits (fuel + 1) result s = LoadNumber.digits fuel result s
  | 0, _, _, h => absurd rfl h
  | fuel + 1, result, s, h => by
    rw [LoadNumber.digits_succ fuel result s] at h
    rw [LoadNumber.digits_succ (fuel + 1) result s, LoadNumber.digits_succ fuel result s]
    by_cases hc : isdigitInt s.peek.1 = true
    · rw [if_pos hc] at h
      rw [if_pos hc, if_pos hc]
      exact LoadNumber.digits_mono fuel _ _ h
    · rw [if_neg hc, if_neg hc]

theorem LoadNumber.fraction_mono : ∀ (fuel : Nat) (digits : List Char) (s : IStream),
    LoadNumber.fraction fuel digits s ≠ none →
    LoadNumber.fraction (fuel + 1) digits s = LoadNumber.fraction fuel digits s
  | 0, _, _, h => absurd rfl h
  | fuel + 1, digits, s, h => by
    rw [LoadNumber.fraction_succ fuel digits s] at h
    rw [LoadNumber.fraction_succ (fuel + 1) digits s, LoadNumber.fraction_succ fuel digits s]
    by_cases hc : isdigitInt s.peek.1 = true
    · rw [if_pos hc] at h
      rw [if_pos hc, if_pos hc]
      exact LoadNumber.fraction_mono fuel _ _ h
    · rw [if_neg hc, if_neg hc]

/-- The digit loop on a stream and on every extension of its text. -/
theorem LoadNumber.digits_ext : ∀ (fuel : Nat) (result : Int) (s : IStream) (r : Int)
    (s' : IStream), LoadNumber.digits fuel result s = some (r, s') →
    s'.size ≤ s.size ∧
    (s'.good = true → s.good = true ∧ ∀ q,
      LoadNumber.digits fuel result ⟨s.buf ++ q, false, false⟩
        = some (r, ⟨s'.buf ++ q, false, false⟩))
  | 0, _, _, _, _, h => by cases h
  | fuel + 1, result, s, r, s', h => by
    rw [LoadNumber.digits_succ] at h
    by_cases hc : isdigitInt s.peek.1 = true
    · rw [if_pos hc] at h
      obtain ⟨c, cs, rfl, hd⟩ := IStream.peek_digit s hc
      rw [IStream.peek_cons, IStream.get_cons] at h
      obtain ⟨h₁, h₂⟩ := LoadNumber.digits_ext fuel _ _ r s' h
      refine ⟨by simp only [IStream.size_good, List.length_cons] at h₁ ⊢; omega, ?_⟩
      intro hg
      refine ⟨rfl, fun q => ?_⟩
      have hb : (c :: cs) ++ q = c :: (cs ++ q) := rfl
      simp only [hb]
      rw [LoadNumber.digits_succ, IStream.peek_cons, if_pos (by simpa [isdigitInt] using hd),
        IStream.get_cons]
      exact (h₂ hg).2 q
    · rw [if_neg hc] at h
      simp only [Option.some.injEq, Prod.mk.injEq] at h
      obtain ⟨rfl, rfl⟩ := h
      refine ⟨IStream.peek_size s, ?_⟩
      intro hg
      obtain ⟨hgs, hq⟩ := IStream.peek_ext s hg
      refine ⟨hgs, fun q => ?_⟩
      rw [LoadNumber.digits_succ, hq q, if_neg hc]

/-- The loop of the fractional digits on a stream and on every extension of its text. -/
theorem LoadNumber.fraction_ext : ∀ (fuel : Nat) (digits : List Char) (s : IStream)
    (r : List Char) (s' : IStream), LoadNumber.fraction fuel digits s = some (r, s') →
    s'.size ≤ s.size ∧
    (s'.good = true → s.good = true ∧ ∀ q,
      LoadNumber.fraction fuel digits ⟨s.buf ++ q, false, false⟩
        = some (r, ⟨s'.buf ++ q, false, false⟩))
  | 0, _, _, _, _, h => by cases h
  | fuel + 1, digits, s, r, s', h => by
    rw [LoadNumber.fraction_succ] at h
    by_cases hc : isdigitInt s.peek.1 = true
    · rw [if_pos hc] at h
      obtain ⟨c, cs, rfl, hd⟩ := IStream.peek_digit s hc
      rw [IStream.peek_cons, IStream.get_cons] at h
      obtain ⟨h₁, h₂⟩ := LoadNumber.fraction_ext fuel _ _ r s' h
      refine ⟨by simp only [IStream.size_good, List.length_cons] at h₁ ⊢; omega, ?_⟩
      intro hg
      refine ⟨rfl, fun q => ?_⟩
      have hb : (c :: cs) ++ q = c :: (cs ++ q) := rfl
      simp only [hb]
      rw [LoadNumber.fraction_succ, IStream.peek_cons,
        if_pos (by simpa [isdigitInt] using hd), IStream.get_cons]
      exact (h₂ hg).2 q
    · rw [if_neg hc] at h
      simp only [Option.some.injEq, Prod.mk.injEq] at h
      obtain ⟨rfl, rfl⟩ := h
      refine ⟨IStream.peek_size s, ?_⟩
      intro hg
      obtain ⟨hgs, hq⟩ := IStream.peek_ext s hg
      refine ⟨hgs, fun q => ?_⟩
      rw [LoadNumber.fraction_succ, hq q, if_neg hc]

theorem LoadNumber.exponent_eq (fuel : Nat) (result_double : Double) (ch : Char)
    (s : IStream) :
    LoadNumber.exponent fuel result_double ch s
      = if ch = 'e' ∨ ch = 'E' then
          match LoadNumber.digits fuel 0 (LoadNumber.exponentSign s).2 with
          | none => .outOfFuel
          | some (result, input₄) =>
            .ok (.double (result_double.mulPow10
              (wrapInt (result * (LoadNumber.exponentSign s).1)))) input₄
        else .ok (.double result_double) s := rfl

theorem LoadNumber_eq (fuel : Nat) (s : IStream) :
    LoadNumber fuel s
      = match LoadNumber.digits fuel 0 (LoadNumber.sign s).2 with
        | none => .outOfFuel
        | some (result, input₃) =>
          LoadNumber.afterDigits fuel (LoadNumber.sign s).1 result input₃ := rfl

theorem LoadNumber.sign_ext (s : IStream) :
    (LoadNumber.sign s).2.size ≤ s.size ∧
    (LoadNumber.sign s).2.buf.length ≤ s.buf.length ∧
    ((LoadNumber.sign s).2.good = true → s.good = true ∧ ∀ q,
      LoadNumber.sign ⟨s.buf ++ q, false, false⟩
        = ((LoadNumber.sign s).1, ⟨(LoadNumber.sign s).2.buf ++ q, false, false⟩)) := by
  unfold LoadNumber.sign
  by_cases hc : s.peek.1 = some '-'
  · simp only [if_pos hc]
    have h₁ := IStream.get_size s.peek.2
    have h₂ := IStream.peek_size s
    have h₃ := IStream.get_length s.peek.2
    have h₄ := IStream.peek_length s
    refine ⟨by omega, by omega, fun hg => ?_⟩
    obtain ⟨hg₁, e₁⟩ := IStream.get_ext s.peek.2 hg
    obtain ⟨hg₂, e₂⟩ := IStream.peek_ext s hg₁
    refine ⟨hg₂, fun q => ?_⟩
    rw [e₂ q]
    simp only [if_pos hc]
    rw [e₁ q]
  · simp only [if_neg hc]
    refine ⟨IStream.peek_size s, IStream.peek_length s, fun hg => ?_⟩
    obtain ⟨hg₂, e₂⟩ := IStream.peek_ext s hg
    refine ⟨hg₂, fun q => ?_⟩
    rw [e₂ q]
    simp only [if_neg hc]

theorem LoadNumber.exponentSign_ext (s : IStream) :
    (LoadNumber.exponentSign s).2.size ≤ s.size ∧
    (LoadNumber.exponentSign s).2.buf.length ≤ s.buf.length ∧
    ((LoadNumber.exponentSign s).2.good = true → s.good = true ∧ ∀ q,
      LoadNumber.exponentSign ⟨s.buf ++ q, false, false⟩
        = ((LoadNumber.exponentSign s).1,
            ⟨(LoadNumber.exponentSign s).2.buf ++ q, false, false⟩)) := by
  unfold LoadNumber.exponentSign
  have h₁ := IStream.get_size s
  have h₂ := IStream.peek_size s.get.2
  have h₃ := IStream.get_size s.get.2.peek.2
  have l₁ := IStream.get_length s
  have l₂ := IStream.peek_length s.get.2
  have l₃ := IStream.get_length s.get.2.peek.2
  by_cases hc : toChar s.get.2.peek.1 = '+' ∨ toChar s.get.2.peek.1 = '-'
  · simp only [if_pos hc]
    refine ⟨by omega, by omega, fun hg => ?_⟩
    obtain ⟨hg₁, e₁⟩ := IStream.get_ext s.get.2.peek.2 hg
    obtain ⟨hg₂, e₂⟩ := IStream.peek_ext s.get.2 hg₁
    obtain ⟨hg₃, e₃⟩ := IStream.get_ext s hg₂
    refine ⟨hg₃, fun q => ?_⟩
    rw [e₃ q]
    simp only []
    rw [e₂ q]
    simp only [if_pos hc]
    rw [e₁ q]
  · simp only [if_neg hc]
    refine ⟨by omega, by omega, fun hg => ?_⟩
    obtain ⟨hg₂, e₂⟩ := IStream.peek_ext s.get.2 hg
    obtain ⟨hg₃, e₃⟩ := IStream.get_ext s hg₂
    refine ⟨hg₃, fun q => ?_⟩
    rw [e₃ q]
    simp only []
    rw [e₂ q]
    simp only [if_neg hc]

/-- What the exponent block returns: a Double node, and the same on every extension of
the text when the stream it leaves is good; it never throws. -/
theorem LoadNumber.exponent_spec (fuel : Nat) (rd : Double) (ch : Char) (s : IStream) :
    (∀ x s', LoadNumber.exponent fuel rd ch s = .ok x s' →
      x.IsPureDouble = true ∧ s'.size ≤ s.size ∧
      (s'.good = true → s.good = true ∧ ∀ q,
        LoadNumber.exponent fuel rd ch ⟨s.buf ++ q, false, false⟩
          = .ok x ⟨s'.buf ++ q, false, false⟩)) ∧
    (∀ e, LoadNumber.exponent fuel rd ch s ≠ .error e) := by
  by_cases hc : ch = 'e' ∨ ch = 'E'
  · obtain ⟨hs₁, -, hs₂⟩ := LoadNumber.exponentSign_ext s
    cases hd : LoadNumber.digits fuel 0 (LoadNumber.exponentSign s).2 with
    | none =>
      have hr : LoadNumber.exponent fuel rd ch s = .outOfFuel := by
        rw [LoadNumber.exponent_eq, if_pos hc, hd]
      rw [hr]
      exact ⟨fun x s' h => (by cases h), fun e h => (by cases h)⟩
    | some p =>
      obtain ⟨result, s₄⟩ := p
      have hr : LoadNumber.exponent fuel rd ch s
          = .ok (.double (rd.mulPow10 (wrapInt (result * (LoadNumber.exponentSign s).1)))) s₄ := by
        rw [LoadNumber.exponent_eq, if_pos hc, hd]
      obtain ⟨hd₁, hd₂⟩ := LoadNumber.digits_ext fuel 0 _ result s₄ hd
      rw [hr]
      refine ⟨?_, fun e h => (by cases h)⟩
      intro x s' h
      simp only [ParseResult.ok.injEq] at h
      obtain ⟨rfl, rfl⟩ := h
      refine ⟨rfl, by omega, fun hg => ?_⟩
      obtain ⟨hg₁, e₁⟩ := hd₂ hg
      obtain ⟨hg₂, e₂⟩ := hs₂ hg₁
      refine ⟨hg₂, fun q => ?_⟩
      rw [LoadNumber.exponent_eq, if_pos hc, e₂ q]
      simp only []
      rw [e₁ q]
  · have hr : ∀ s₀, LoadNumber.exponent fuel rd ch s₀ = .ok (.double rd) s₀ := by
      intro s₀
      rw [LoadNumber.exponent_eq, if_neg hc]
    rw [hr]
    refine ⟨?_, fun e h => (by cases h)⟩
    intro x s' h
    simp only [ParseResult.ok.injEq] at h
    obtain ⟨rfl, rfl⟩ := h
    refine ⟨rfl, Nat.le_refl _, fun hg => ⟨hg, fun q => ?_⟩⟩
    rw [hr]

theorem LoadNumber.exponent_mono (fuel : Nat) (rd : Double) (ch : Char) (s : IStream)
    (h : LoadNumber.exponent fuel rd ch s ≠ .outOfFuel) :
    LoadNumber.exponent (fuel + 1) rd ch s = LoadNumber.exponent fuel rd ch s := by
  rw [LoadNumber.exponent_eq] at h
  rw [LoadNumber.exponent_eq, LoadNumber.exponent_eq fuel]
  by_cases hc : ch = 'e' ∨ ch = 'E'
  · rw [if_pos hc] at h
    rw [if_pos hc, if_pos hc]
    cases hd : LoadNumber.digits fuel 0 (LoadNumber.exponentSign s).2 with
    | none => rw [hd] at h; exact absurd rfl h
    | some p => rw [LoadNumber.digits_mono fuel 0 _ (by rw [hd]; exact fun e => by cases e), hd]
  · rw [if_neg hc, if_neg hc]

theorem LoadNumber.exponent_total (fuel : Nat) (rd : Double) (ch : Char) (s : IStream)
    (h : s.buf.length < fuel) : LoadNumber.exponent fuel rd ch s ≠ .outOfFuel := by
  obtain ⟨v, s', hv⟩ := LoadNumber.exponent_double fuel rd ch s h
  rw [hv]
  exact fun e => by cases e

/-- What `LoadNumber` returns after the integer digits: an Int or a Double node, and the
same on every extension of the text when the stream it leaves is good; an exception is
a ParsingError or the `std::out_of_range` of `std::stod`. -/
theorem LoadNumber.afterDigits_spec (fuel : Nat) (sign result : Int) (s : IStream) :
    (∀ x s', LoadNumber.afterDigits fuel sign result s = .ok x s' →
      (x.IsInt = true ∨ x.IsPureDouble = true) ∧ s'.size ≤ s.size ∧
      (s'.good = true → s.good = true ∧ ∀ q,
        LoadNumber.afterDigits fuel sign result ⟨s.buf ++ q, false, false⟩
          = .ok x ⟨s'.buf ++ q, false, false⟩)) ∧
    (∀ e, LoadNumber.afterDigits fuel sign result s = .error e → e.fromLoad = true) := by
  have hp := IStream.peek_size s
  by_cases hc : toChar s.peek.1 = '.' ∨ toChar s.peek.1 = 'e' ∨ toChar s.peek.1 = 'E'
  · by_cases hdot : toChar s.peek.1 = '.'
    · have hg₀ := IStream.get_size s.peek.2
      cases hf : LoadNumber.fraction fuel [] s.peek.2.get.2 with
      | none =>
        have hr : LoadNumber.afterDigits fuel sign result s = .outOfFuel := by
          unfold LoadNumber.afterDigits
          rw [if_pos hc, if_pos hdot, hf]
        rw [hr]
        exact ⟨fun x s' h => (by cases h), fun e h => (by cases h)⟩
      | some p =>
        obtain ⟨digits, s₆⟩ := p
        obtain ⟨hf₁, hf₂⟩ := LoadNumber.fraction_ext fuel [] _ digits s₆ hf
        by_cases hlen : digits.length > 0
        · rcases stodFraction_cases digits with ⟨-, hst⟩ | ⟨-, hst⟩
          · have hr : LoadNumber.afterDigits fuel sign result s
                = .error (.out_of_range "stod") := by
              unfold LoadNumber.afterDigits
              rw [if_pos hc, if_pos hdot, hf]
              simp only [if_pos hlen, hst]
            rw [hr]
            exact ⟨fun x s' h => (by cases h), fun e h => (by cases h; rfl)⟩
          · have hr : LoadNumber.afterDigits fuel sign result s
                = LoadNumber.exponent fuel
                    (if sign > 0 then (Double.ofInt (sign * result)).add (fractionValue digits)
                      else (Double.ofInt (sign * result)).sub (fractionValue digits))
                    (toChar s₆.peek.1) s₆.peek.2 := by
              unfold LoadNumber.afterDigits
              rw [if_pos hc, if_pos hdot, hf]
              simp only [if_pos hlen, hst]
            obtain ⟨he₁, he₂⟩ := LoadNumber.exponent_spec fuel
              (if sign > 0 then (Double.ofInt (sign * result)).add (fractionValue digits)
                else (Double.ofInt (sign * result)).sub (fractionValue digits))
              (toChar s₆.peek.1) s₆.peek.2
            rw [hr]
            refine ⟨?_, fun e h => absurd h (he₂ e)⟩
            intro x s' h
            obtain ⟨hk, hsz, hfr⟩ := he₁ x s' h
            have hp₆ := IStream.peek_size s₆
            refine ⟨Or.inr hk, by omega, fun hg => ?_⟩
            obtain ⟨g₁, e₁⟩ := hfr hg
            obtain ⟨g₂, e₂⟩ := IStream.peek_ext s₆ g₁
            obtain ⟨g₃, e₃⟩ := hf₂ g₂
            obtain ⟨g₄, e₄⟩ := IStream.get_ext s.peek.2 g₃
            obtain ⟨g₅, e₅⟩ := IStream.peek_ext s g₄
            refine ⟨g₅, fun q => ?_⟩
            unfold LoadNumber.afterDigits
            rw [e₅ q]
            simp only []
            rw [if_pos hc, if_pos hdot, e₄ q]
            simp only []
            rw [e₃ q]
            simp only [if_pos hlen, hst]
            rw [e₂ q]
            exact e₁ q
        · have hr : LoadNumber.afterDigits fuel sign result s
              = .error (.ParsingError
                " number parsing error : empty fractional part in number  after '.' ") := by
            unfold LoadNumber.afterDigits
            rw [if_pos hc, if_pos hdot, hf]
            simp only [if_neg hlen]
          rw [hr]
          exact ⟨fun x s' h => (by cases h), fun e h => (by cases h; rfl)⟩
    · have hr : LoadNumber.afterDigits fuel sign result s
          = LoadNumber.exponent fuel (Double.ofInt (sign * result)) (toChar s.peek.1)
              s.peek.2 := by
        unfold LoadNumber.afterDigits
        rw [if_pos hc, if_neg hdot]
      obtain ⟨he₁, he₂⟩ := LoadNumber.exponent_spec fuel (Double.ofInt (sign * result))
        (toChar s.peek.1) s.peek.2
      rw [hr]
      refine ⟨?_, fun e h => absurd h (he₂ e)⟩
      intro x s' h
      obtain ⟨hk, hsz, hfr⟩ := he₁ x s' h
      refine ⟨Or.inr hk, by omega, fun hg => ?_⟩
      obtain ⟨g₁, e₁⟩ := hfr hg
      obtain ⟨g₅, e₅⟩ := IStream.peek_ext s g₁
      refine ⟨g₅, fun q => ?_⟩
      unfold LoadNumber.afterDigits
      rw [e₅ q]
      simp only []
      rw [if_pos hc, if_neg hdot]
      exact e₁ q
  · have hr : LoadNumber.afterDigits fuel sign result s
        = .ok (.int (wrapInt (sign * result))) s.peek.2 := by
      unfold LoadNumber.afterDigits
      rw [if_neg hc]
    rw [hr]
    refine ⟨?_, fun e h => (by cases h)⟩
    intro x s' h
    simp only [ParseResult.ok.injEq] at h
    obtain ⟨rfl, rfl⟩ := h
    refine ⟨Or.inl rfl, hp, fun hg => ?_⟩
    obtain ⟨g₅, e₅⟩ := IStream.peek_ext s hg
    refine ⟨g₅, fun q => ?_⟩
    unfold LoadNumber.afterDigits
    rw [e₅ q]
    simp only []
    rw [if_neg hc]

theorem LoadNumber.afterDigits_mono (fuel : Nat) (sign result : Int) (s : IStream)
    (h : LoadNumber.afterDigits fuel sign result s ≠ .outOfFuel) :
    LoadNumber.afterDigits (fuel + 1) sign result s
      = LoadNumber.afterDigits fuel sign result s := by
  unfold LoadNumber.afterDigits at h ⊢
  by_cases hc : toChar s.peek.1 = '.' ∨ toChar s.peek.1 = 'e' ∨ toChar s.peek.1 = 'E'
  · rw [if_pos hc] at h
    rw [if_pos hc, if_pos hc]
    by_cases hdot : toChar s.peek.1 = '.'
    · rw [if_pos hdot] at h
      rw [if_pos hdot, if_pos hdot]
      cases hf : LoadNumber.fraction fuel [] s.peek.2.get.2 with
      | none => rw [hf] at h; exact absurd rfl h
      | some p =>
        obtain ⟨digits, s₆⟩ := p
        rw [hf] at h
        rw [LoadNumber.fraction_mono fuel [] _ (by rw [hf]; exact fun e => by cases e), hf]
        simp only [] at h ⊢
        by_cases hlen : digits.length > 0
        · rw [if_pos hlen] at h
          rw [if_pos hlen, if_pos hlen]
          cases hst : stodFraction digits with
          | error e => rfl
          | ok fraction =>
            rw [hst] at h
            exact LoadNumber.exponent_mono fuel _ _ _ h
        · rw [if_neg hlen, if_neg hlen]
    · rw [if_neg hdot] at h
      rw [if_neg hdot, if_neg hdot]
      exact LoadNumber.exponent_mono fuel _ _ _ h
  · rw [if_neg hc, if_neg hc]

theorem LoadNumber.afterDigits_total (fuel : Nat) (sign result : Int) (s : IStream)
    (h : s.buf.length < fuel) : LoadNumber.afterDigits fuel sign result s ≠ .outOfFuel := by
  have l₁ := IStream.peek_length s
  have l₂ := IStream.get_length s.peek.2
  unfold LoadNumber.afterDigits
  by_cases hc : toChar s.peek.1 = '.' ∨ toChar s.peek.1 = 'e' ∨ toChar s.peek.1 = 'E'
  · rw [if_pos hc]
    by_cases hdot : toChar s.peek.1 = '.'
    · rw [if_pos hdot]
      obtain ⟨digits, s₆, hf, -, l₃⟩ := LoadNumber.fraction_total fuel [] s.peek.2.get.2
        (by omega)
      rw [hf]
      simp only []
      by_cases hlen : digits.length > 0
      · rw [if_pos hlen]
        have l₄ := IStream.peek_length s₆
        cases stodFraction digits with
        | error e => exact fun e => by cases e
        | ok fraction => exact LoadNumber.exponent_total fuel _ _ _ (by omega)
      · rw [if_neg hlen]
        exact fun e => by cases e
    · rw [if_neg hdot]
      exact LoadNumber.exponent_total fuel _ _ _ (by omega)
  · rw [if_neg hc]
    exact fun e => by cases e

/-- What `LoadNumber` returns: an Int or a Double node, and the same on every extension
of the text when the stream it leaves is good; an exception is a ParsingError or the
`std::out_of_range` of `std::stod`. -/
theorem LoadNumber_spec (fuel : Nat) (s : IStream) :
    (∀ x s', LoadNumber fuel s = .ok x s' →
      (x.IsInt = true ∨ x.IsPureDouble = true) ∧ s'.size ≤ s.size ∧
      (s'.good = true → s.good = true ∧ ∀ q,
        LoadNumber fuel ⟨s.buf ++ q, false, false⟩ = .ok x ⟨s'.buf ++ q, false, false⟩)) ∧
    (∀ e, LoadNumber fuel s = .error e → e.fromLoad = true) := by
  obtain ⟨hs₁, -, hs₂⟩ := LoadNumber.sign_ext s
  cases hd : LoadNumber.digits fuel 0 (LoadNumber.sign s).2 with
  | none =>
    have hr : LoadNumber fuel s = .outOfFuel := by rw [LoadNumber_eq, hd]
    rw [hr]
    exact ⟨fun x s' h => (by cases h), fun e h => (by cases h)⟩
  | some p =>
    obtain ⟨result, s₃⟩ := p
    have hr : LoadNumber fuel s
        = LoadNumber.afterDigits fuel (LoadNumber.sign s).1 result s₃ := by
      rw [LoadNumber_eq, hd]
    obtain ⟨hd₁, hd₂⟩ := LoadNumber.digits_ext fuel 0 _ result s₃ hd
    obtain ⟨ha₁, ha₂⟩ := LoadNumber.afterDigits_spec fuel (LoadNumber.sign s).1 result s₃
    rw [hr]
    refine ⟨?_, ha₂⟩
    intro x s' h
    obtain ⟨hk, hsz, hfr⟩ := ha₁ x s' h
    refine ⟨hk, by omega, fun hg => ?_⟩
    obtain ⟨g₁, e₁⟩ := hfr hg
    obtain ⟨g₂, e₂⟩ := hd₂ g₁
    obtain ⟨g₃, e₃⟩ := hs₂ g₂
    refine ⟨g₃, fun q => ?_⟩
    rw [LoadNumber_eq, e₃ q]
    simp only []
    rw [e₂ q]
    exact e₁ q

theorem LoadNumber_mono (fuel : Nat) (s : IStream) (h : LoadNumber fuel s ≠ .outOfFuel) :
    LoadNumber (fuel + 1) s = LoadNumber fuel s := by
  rw [LoadNumber_eq] at h
  rw [LoadNumber_eq, LoadNumber_eq fuel]
  cases hd : LoadNumber.digits fuel 0 (LoadNumber.sign s).2 with
  | none => rw [hd] at h; exact absurd rfl h
  | some p =>
    obtain ⟨result, s₃⟩ := p
    rw [hd] at h
    rw [LoadNumber.digits_mono fuel 0 _ (by rw [hd]; exact fun e => by cases e), hd]
    exact LoadNumber.afterDigits_mono fuel _ _ _ h

theorem LoadNumber_total (fuel : Nat) (s : IStream) (h : s.buf.length < fuel) :
    LoadNumber fuel s ≠ .outOfFuel := by
  obtain ⟨-, l₁, -⟩ := LoadNumber.sign_ext s
  obtain ⟨result, s₃, hd, l₂⟩ := LoadNumber.digits_total fuel 0 (LoadNumber.sign s).2 (by omega)
  rw [LoadNumber_eq, hd]
  exact LoadNumber.afterDigits_total fuel _ _ _ (by omega)

/-- `LoadNumber` on a text that starts with `-` or a digit consumes that character. -/
theorem LoadNumber_consumes (fuel : Nat) (c : Char) (t : List Char) (x : Node) (s' : IStream)
    (hc : c = '-' ∨ isdigit c = true)
    (h : LoadNumber fuel ⟨c :: t, false, false⟩ = .ok x s') : s'.size ≤ t.length + 1 := by
  rw [LoadNumber_eq] at h
  cases hd : LoadNumber.digits fuel 0 (LoadNumber.sign ⟨c :: t, false, false⟩).2 with
  | none => rw [hd] at h; cases h
  | some p =>
    obtain ⟨result, s₃⟩ := p
    rw [hd] at h
    obtain ⟨-, hsz, -⟩ := (LoadNumber.afterDigits_spec fuel _ result s₃).1 x s' h
    have h₃ : s₃.size ≤ t.length + 1 := by
      by_cases hm : c = '-'
      · subst hm
        have hs : LoadNumber.sign ⟨'-' :: t, false, false⟩ = (-1, ⟨t, false, false⟩) := rfl
        rw [hs] at hd
        exact (LoadNumber.digits_ext fuel 0 _ result s₃ hd).1
      · have hdg : isdigit c = true := by
          rcases hc with h' | h'
          · exact absurd h' hm
          · exact h'
        have hs : LoadNumber.sign ⟨c :: t, false, false⟩ = (1, ⟨c :: t, false, false⟩) := by
          unfold LoadNumber.sign
          rw [IStream.peek_cons]
          simp [hm]
        rw [hs] at hd
        cases fuel with
        | zero => cases hd
        | succ f =>
          rw [LoadNumber.digits_succ, IStream.peek_cons,
            if_pos (by simpa [isdigitInt] using hdg), IStream.get_cons] at hd
          exact (LoadNumber.digits_ext f _ _ result s₃ hd).1
    omega

/-! ## `LoadString` and the literals on every stream -/

theorem LoadString_eq (fuel : Nat) (s : IStream) :
    LoadString fuel s = LoadString.loop fuel [] (toChar s.get.1) s.get.2 := rfl

/-- What `LoadString` returns: a string node and a good stream, and the same on every
extension of the text; an exception is a ParsingError. -/
theorem LoadString_spec (fuel : Nat) (s : IStream) :
    (∀ x s', LoadString fuel s = .ok x s' →
      s.good = true ∧ s'.good = true ∧ x.IsString = true ∧ s'.size + 1 ≤ s.size ∧
      ∀ q, LoadString fuel ⟨s.buf ++ q, false, false⟩ = .ok x ⟨s'.buf ++ q, false, false⟩) ∧
    (∀ e, LoadString fuel s = .error e → ∃ w, e = .ParsingError w) := by
  have hch : toChar s.get.1 = '"' → s.get.2.good = true := by
    intro hq
    rcases IStream.get_cases s with ⟨c, t, _, h⟩ | ⟨h₁, _⟩
    · rw [h]; rfl
    · rw [h₁] at hq
      exact absurd hq (by decide)
  obtain ⟨h₁, h₂⟩ := LoadString.loop_spec fuel [] (toChar s.get.1) s.get.2 hch
  rw [LoadString_eq]
  refine ⟨?_, h₂⟩
  intro x s' h
  obtain ⟨g₁, g', hk, hsz, hfr⟩ := h₁ x s' h
  obtain ⟨g₂, e₂⟩ := IStream.get_ext s g₁
  have hgs := IStream.get_size s
  have hpos : 1 ≤ s.size := by
    rw [IStream.good_eq s g₂, IStream.size_good]; omega
  refine ⟨g₂, g', hk, by omega, fun q => ?_⟩
  rw [LoadString_eq, e₂ q]
  exact hfr q

theorem LoadString_mono (fuel : Nat) (s : IStream) (h : LoadString fuel s ≠ .outOfFuel) :
    LoadString (fuel + 1) s = LoadString fuel s := by
  rw [LoadString_eq] at h
  rw [LoadString_eq, LoadString_eq fuel]
  exact LoadString.loop_mono fuel _ _ _ h

theorem LoadString_total (fuel : Nat) (s : IStream) (h : s.size + 1 ≤ fuel) :
    LoadString fuel s ≠ .outOfFuel := by
  rw [LoadString_eq]
  have := IStream.get_size s
  exact LoadString.loop_total fuel _ _ _ (by omega)

theorem readWord_succ (n : Nat) (line : List Char) (s : IStream) :
    readWord (n + 1) line s
      = match s.extract with
        | (some ch, s₁) => readWord n (line ++ [ch]) s₁
        | (none, s₁) => (line, s₁) := rfl

/-- The loop of the literals on a stream and on every extension of its text. -/
theorem readWord_ext : ∀ (n : Nat) (line : List Char) (s : IStream),
    (readWord n line s).2.good = true →
    s.good = true ∧ (readWord n line s).2.size + n ≤ s.size ∧
    ∀ q, readWord n line ⟨s.buf ++ q, false, false⟩
      = ((readWord n line s).1, ⟨(readWord n line s).2.buf ++ q, false, false⟩)
  | 0, line, s, h => by
    have hr : ∀ s₀, readWord 0 line s₀ = (line, s₀) := fun _ => rfl
    rw [hr] at h ⊢
    exact ⟨h, Nat.le_refl _, fun q => hr _⟩
  | n + 1, line, s, h => by
    rcases IStream.extract_cases s with ⟨ws, c, t, rfl, hws, hc, he⟩ | ⟨h₁, hbad, _⟩
    · have hr : readWord (n + 1) line ⟨ws ++ c :: t, false, false⟩
          = readWord n (line ++ [c]) ⟨t, false, false⟩ := by
        rw [readWord_succ, he]
      rw [hr] at h ⊢
      obtain ⟨-, hsz, hfr⟩ := readWord_ext n (line ++ [c]) ⟨t, false, false⟩ h
      refine ⟨rfl, ?_, fun q => ?_⟩
      · simp only [IStream.size_good, List.length_append, List.length_cons] at hsz ⊢
        omega
      · have hb : (ws ++ c :: t) ++ q = ws ++ c :: (t ++ q) := by simp
        simp only [hb]
        rw [readWord_succ, IStream.extract_text ws c (t ++ q) hws hc]
        exact hfr q
    · have hr : readWord (n + 1) line s = (line, s.extract.2) := by
        have : s.extract = (none, s.extract.2) := by rw [← h₁]
        rw [readWord_succ, this]
      rw [hr] at h
      rw [hbad] at h
      cases h

/-- What `LoadNull` returns: the Null node and a good stream, and the same on every
extension of the text; an exception is a ParsingError. -/
theorem LoadNull_spec (s : IStream) :
    (∀ x s', LoadNull s = .ok x s' →
      x = .null ∧ s.good = true ∧ s'.good = true ∧ s'.size + 1 ≤ s.size ∧
      ∀ q, LoadNull ⟨s.buf ++ q, false, false⟩ = .ok x ⟨s'.buf ++ q, false, false⟩) ∧
    (∀ e, LoadNull s = .error e → ∃ w, e = .ParsingError w) := by
  have hr : ∀ s₀, LoadNull s₀
      = if (readWord 4 [] s₀).1 ≠ ['n', 'u', 'l', 'l'] ∨ (!(readWord 4 [] s₀).2.good) = true then
          .error (.ParsingError "n char is not null Node")
        else .ok .null (readWord 4 [] s₀).2 := fun _ => rfl
  rw [hr]
  by_cases hc : (readWord 4 [] s).1 ≠ ['n', 'u', 'l', 'l'] ∨ (!(readWord 4 [] s).2.good) = true
  · rw [if_pos hc]
    exact ⟨fun x s' h => (by cases h), fun e h => (by cases h; exact ⟨_, rfl⟩)⟩
  · rw [if_neg hc]
    refine ⟨?_, fun e h => (by cases h)⟩
    intro x s' h
    simp only [ParseResult.ok.injEq] at h
    obtain ⟨rfl, rfl⟩ := h
    have hg : (readWord 4 [] s).2.good = true := by
      cases hgood : (readWord 4 [] s).2.good with
      | true => rfl
      | false => exact absurd (Or.inr (by rw [hgood]; rfl)) hc
    obtain ⟨g, hsz, hfr⟩ := readWord_ext 4 [] s hg
    refine ⟨rfl, g, hg, by omega, fun q => ?_⟩
    rw [hr, hfr q]
    refine if_neg ?_
    intro h
    rcases h with h | h
    · exact hc (Or.inl h)
    · simp [IStream.good] at h

/-- What `LoadBoolTrue` returns: a Bool node and a good stream, and the same on every
extension of the text; an exception is a ParsingError. -/
theorem LoadBoolTrue_spec (s : IStream) :
    (∀ x s', LoadBoolTrue s = .ok x s' →
      x = .bool true ∧ s.good = true ∧ s'.good = true ∧ s'.size + 1 ≤ s.size ∧
      ∀ q, LoadBoolTrue ⟨s.buf ++ q, false, false⟩ = .ok x ⟨s'.buf ++ q, false, false⟩) ∧
    (∀ e, LoadBoolTrue s = .error e → ∃ w, e = .ParsingError w) := by
  have hr : ∀ s₀, LoadBoolTrue s₀
      = if (readWord 4 [] s₀).1 ≠ ['t', 'r', 'u', 'e'] ∨ (!(readWord 4 [] s₀).2.good) = true then
          .error (.ParsingError "t char is not true bool Node")
        else .ok (.bool true) (readWord 4 [] s₀).2 := fun _ => rfl
  rw [hr]
  by_cases hc : (readWord 4 [] s).1 ≠ ['t', 'r', 'u', 'e'] ∨ (!(readWord 4 [] s).2.good) = true
  · rw [if_pos hc]
    exact ⟨fun x s' h => (by cases h), fun e h => (by cases h; exact ⟨_, rfl⟩)⟩
  · rw [if_neg hc]
    refine ⟨?_, fun e h => (by cases h)⟩
    intro x s' h
    simp only [ParseResult.ok.injEq] at h
    obtain ⟨rfl, rfl⟩ := h
    have hg : (readWord 4 [] s).2.good = true := by
      cases hgood : (readWord 4 [] s).2.good with
      | true => rfl
      | false => exact absurd (Or.inr (by rw [hgood]; rfl)) hc
    obtain ⟨g, hsz, hfr⟩ := readWord_ext 4 [] s hg
    refine ⟨rfl, g, hg, by omega, fun q => ?_⟩
    rw [hr, hfr q]
    refine if_neg ?_
    intro h
    rcases h with h | h
    · exact hc (Or.inl h)
    · simp [IStream.good] at h

/-- What `LoadBoolFalse` returns: a Bool node and a good stream, and the same on every
extension of the text; an exception is a ParsingError. -/
theorem LoadBoolFalse_spec (s : IStream) :
    (∀ x s', LoadBoolFalse s = .ok x s' →
      x = .bool false ∧ s.good = true ∧ s'.good = true ∧ s'.size + 1 ≤ s.size ∧
      ∀ q, LoadBoolFalse ⟨s.buf ++ q, false, false⟩ = .ok x ⟨s'.buf ++ q, false, false⟩) ∧
    (∀ e, LoadBoolFalse s = .error e → ∃ w, e = .ParsingError w) := by
  have hr : ∀ s₀, LoadBoolFalse s₀
      = if (readWord 5 [] s₀).1 ≠ ['f', 'a', 'l', 's', 'e'] ∨
            (!(readWord 5 [] s₀).2.good) = true then
          .error (.ParsingError "f char is not false bool Node")
        else .ok (.bool false) (readWord 5 [] s₀).2 := fun _ => rfl
  rw [hr]
  by_cases hc : (readWord 5 [] s).1 ≠ ['f', 'a', 'l', 's', 'e'] ∨
      (!(readWord 5 [] s).2.good) = true
  · rw [if_pos hc]
    exact ⟨fun x s' h => (by cases h), fun e h => (by cases h; exact ⟨_, rfl⟩)⟩
  · rw [if_neg hc]
    refine ⟨?_, fun e h => (by cases h)⟩
    intro x s' h
    simp only [ParseResult.ok.injEq] at h
    obtain ⟨rfl, rfl⟩ := h
    have hg : (readWord 5 [] s).2.good = true := by
      cases hgood : (readWord 5 [] s).2.good with
      | true => rfl
      | false => exact absurd (Or.inr (by rw [hgood]; rfl)) hc
    obtain ⟨g, hsz, hfr⟩ := readWord_ext 5 [] s hg
    refine ⟨rfl, g, hg, by omega, fun q => ?_⟩
    rw [hr, hfr q]
    refine if_neg ?_
    intro h
    rcases h with h | h
    · exact hc (Or.inl h)
    · simp [IStream.good] at h

/-! ## The four mutually recursive loaders, one step at a time -/

theorem LoadNode_succ (fuel : Nat) (s : IStream) :
    LoadNode (fuel + 1) s
      = if s.extract.2.eof = true then
          .error (.ParsingError "unexpected input end or input stream error")
        else if s.extract.1.getD (Char.ofNat 0) = '[' then LoadArray fuel s.extract.2
        else if s.extract.1.getD (Char.ofNat 0) = '{' then LoadDict.loop fuel [] s.extract.2
        else if s.extract.1.getD (Char.ofNat 0) = '"' then LoadString fuel s.extract.2
        else if s.extract.1.getD (Char.ofNat 0) = 'n' then
          LoadNull (s.extract.2.putback (s.extract.1.getD (Char.ofNat 0)))
        else if s.extract.1.getD (Char.ofNat 0) = 't' then
          LoadBoolTrue (s.extract.2.putback (s.extract.1.getD (Char.ofNat 0)))
        else if s.extract.1.getD (Char.ofNat 0) = 'f' then
          LoadBoolFalse (s.extract.2.putback (s.extract.1.getD (Char.ofNat 0)))
        else if s.extract.1.getD (Char.ofNat 0) = '-' ∨
            isdigit (s.extract.1.getD (Char.ofNat 0)) = true then
          LoadNumber fuel (s.extract.2.putback (s.extract.1.getD (Char.ofNat 0)))
        else .error (.ParsingError "Wrong input") := by
  rw [LoadNode]

theorem LoadArray_succ (fuel : Nat) (s : IStream) :
    LoadArray (fuel + 1) s
      = if toChar s.peek.1 = ',' then
          .error (.ParsingError "array parsing error : unexpected ',' after '['")
        else
          LoadArray.loop fuel [] (s.peek.2.extract.1.getD (toChar s.peek.1))
            s.peek.2.extract.2 := by
  rw [LoadArray]

theorem LoadArray_loop_succ (fuel : Nat) (result : List Node) (ch : Char) (s : IStream) :
    LoadArray.loop (fuel + 1) result ch s
      = if (s.good && decide (ch ≠ ']')) = true then
          match LoadNode fuel (if ch ≠ ',' then s.putback ch else s) with
          | .ok node input₂ =>
            LoadArray.loop fuel (result ++ [node]) (input₂.extract.1.getD ch) input₂.extract.2
          | .error e => .error e
          | .outOfFuel => .outOfFuel
        else if ch ≠ ']' then
          .error (.ParsingError "array parsing error : end ']' required but not found")
        else .ok (.array result) s := by
  rw [LoadArray.loop]

/-- One iteration of the loop of `LoadDict`; after a `,` the next character is extracted
before `LoadString` is called. -/
theorem LoadDict_loop_succ (fuel : Nat) (result : Dict) (s : IStream) :
    LoadDict.loop (fuel + 1) result s
      = if (!s.extract.2.fail && decide (s.extract.1.getD (Char.ofNat 0) ≠ '}')) = true then
          match LoadString fuel
              (if s.extract.1.getD (Char.ofNat 0) = ',' then s.extract.2.extract.2
                else s.extract.2) with
          | .ok keyNode input₃ =>
            match keyNode.AsString with
            | .ok key =>
              if input₃.extract.1.getD
                  (if s.extract.1.getD (Char.ofNat 0) = ',' then
                    s.extract.2.extract.1.getD (s.extract.1.getD (Char.ofNat 0))
                    else s.extract.1.getD (Char.ofNat 0)) ≠ ':' then
                .error (.ParsingError "Map parsing error : ':' required but not found")
              else
                match LoadNode fuel input₃.extract.2 with
                | .ok node input₅ => LoadDict.loop fuel (Dict.insert result key node) input₅
                | .error e => .error e
                | .outOfFuel => .outOfFuel
            | .error e => .error e
          | .error e => .error e
          | .outOfFuel => .outOfFuel
        else if s.extract.1.getD (Char.ofNat 0) ≠ '}' then
          .error (.ParsingError "Map parsing error : '\x7d' required but not found")
        else .ok (.dict result) s.extract.2 := by
  rw [LoadDict.loop]
  by_cases h : s.extract.1.getD (Char.ofNat 0) = ','
  · simp only [h, if_true]
  · simp only [h, if_false]

/-! ## More fuel does not change a result -/

theorem Load_mono_step (fuel : Nat)
    (ihN : ∀ s, LoadNode fuel s ≠ .outOfFuel → LoadNode (fuel + 1) s = LoadNode fuel s)
    (ihA : ∀ s, LoadArray fuel s ≠ .outOfFuel → LoadArray (fuel + 1) s = LoadArray fuel s)
    (ihL : ∀ result ch s, LoadArray.loop fuel result ch s ≠ .outOfFuel →
      LoadArray.loop (fuel + 1) result ch s = LoadArray.loop fuel result ch s)
    (ihD : ∀ result s, LoadDict.loop fuel result s ≠ .outOfFuel →
      LoadDict.loop (fuel + 1) result s = LoadDict.loop fuel result s) :
    (∀ s, LoadNode (fuel + 1) s ≠ .outOfFuel →
      LoadNode (fuel + 1 + 1) s = LoadNode (fuel + 1) s) ∧
    (∀ s, LoadArray (fuel + 1) s ≠ .outOfFuel →
      LoadArray (fuel + 1 + 1) s = LoadArray (fuel + 1) s) ∧
    (∀ result ch s, LoadArray.loop (fuel + 1) result ch s ≠ .outOfFuel →
      LoadArray.loop (fuel + 1 + 1) result ch s = LoadArray.loop (fuel + 1) result ch s) ∧
    (∀ result s, LoadDict.loop (fuel + 1) result s ≠ .outOfFuel →
      LoadDict.loop (fuel + 1 + 1) result s = LoadDict.loop (fuel + 1) result s) := by
  refine ⟨?_, ?_, ?_, ?_⟩
  · intro s h
    rw [LoadNode_succ fuel s] at h
    rw [LoadNode_succ (fuel + 1) s, LoadNode_succ fuel s]
    split_ifs at h ⊢
    · rfl
    · exact ihA _ h
    · exact ihD _ _ h
    · exact LoadString_mono _ _ h
    · rfl
    · rfl
    · rfl
    · exact LoadNumber_mono _ _ h
    · rfl
  · intro s h
    rw [LoadArray_succ fuel s] at h
    rw [LoadArray_succ (fuel + 1) s, LoadArray_succ fuel s]
    split_ifs at h ⊢
    · rfl
    · exact ihL _ _ _ h
  · intro result ch s h
    rw [LoadArray_loop_succ fuel result ch s] at h
    rw [LoadArray_loop_succ (fuel + 1) result ch s, LoadArray_loop_succ fuel result ch s]
    by_cases hc : (s.good && decide (ch ≠ ']')) = true
    · rw [if_pos hc] at h
      rw [if_pos hc, if_pos hc]
      cases hN : LoadNode fuel (if ch ≠ ',' then s.putback ch else s) with
      | ok node s₂ =>
        rw [hN] at h
        rw [ihN _ (by rw [hN]; exact fun e => by cases e), hN]
        exact ihL _ _ _ h
      | error e =>
        rw [ihN _ (by rw [hN]; exact fun e => by cases e), hN]
      | outOfFuel =>
        rw [hN] at h
        exact absurd rfl h
    · rw [if_neg hc, if_neg hc]
  · intro result s h
    rw [LoadDict_loop_succ fuel result s] at h
    rw [LoadDict_loop_succ (fuel + 1) result s, LoadDict_loop_succ fuel result s]
    by_cases hc : (!s.extract.2.fail &&
        decide (s.extract.1.getD (Char.ofNat 0) ≠ '}')) = true
    · rw [if_pos hc] at h
      rw [if_pos hc, if_pos hc]
      cases hS : LoadString fuel
          (if s.extract.1.getD (Char.ofNat 0) = ',' then s.extract.2.extract.2
            else s.extract.2) with
      | ok keyNode s₃ =>
        rw [hS] at h
        rw [LoadString_mono _ _ (by rw [hS]; exact fun e => by cases e), hS]
        simp only [] at h ⊢
        cases hK : keyNode.AsString with
        | ok key =>
          rw [hK] at h
          simp only [] at h ⊢
          by_cases hcol : s₃.extract.1.getD
              (if s.extract.1.getD (Char.ofNat 0) = ',' then
                s.extract.2.extract.1.getD (s.extract.1.getD (Char.ofNat 0))
                else s.extract.1.getD (Char.ofNat 0)) ≠ ':'
          · rw [if_pos hcol, if_pos hcol]
          · rw [if_neg hcol] at h
            rw [if_neg hcol, if_neg hcol]
            cases hN : LoadNode fuel s₃.extract.2 with
            | ok node s₅ =>
              rw [hN] at h
              rw [ihN _ (by rw [hN]; exact fun e => by cases e), hN]
              exact ihD _ _ h
            | error e =>
              rw [ihN _ (by rw [hN]; exact fun e => by cases e), hN]
            | outOfFuel =>
              rw [hN] at h
              exact absurd rfl h
        | error e => rfl
      | error e =>
        rw [LoadString_mono _ _ (by rw [hS]; exact fun e => by cases e), hS]
      | outOfFuel =>
        rw [hS] at h
        exact absurd rfl h
    · rw [if_neg hc, if_neg hc]

theorem Load_mono : ∀ (fuel : Nat),
    (∀ s, LoadNode fuel s ≠ .outOfFuel → LoadNode (fuel + 1) s = LoadNode fuel s) ∧
    (∀ s, LoadArray fuel s ≠ .outOfFuel → LoadArray (fuel + 1) s = LoadArray fuel s) ∧
    (∀ result ch s, LoadArray.loop fuel result ch s ≠ .outOfFuel →
      LoadArray.loop (fuel + 1) result ch s = LoadArray.loop fuel result ch s) ∧
    (∀ result s, LoadDict.loop fuel result s ≠ .outOfFuel →
      LoadDict.loop (fuel + 1) result s = LoadDict.loop fuel result s)
  | 0 => by
    refine ⟨fun s h => ?_, fun s h => ?_, fun r c s h => ?_, fun r s h => ?_⟩
    · rw [LoadNode] at h; exact absurd rfl h
    · rw [LoadArray] at h; exact absurd rfl h
    · rw [LoadArray.loop] at h; exact absurd rfl h
    · rw [LoadDict.loop] at h; exact absurd rfl h
  | fuel + 1 => by
    obtain ⟨ihN, ihA, ihL, ihD⟩ := Load_mono fuel
    exact Load_mono_step fuel ihN ihA ihL ihD

/-- A result of `LoadNode` that is not the exhaustion of the budget is its result under
every larger budget. -/
theorem LoadNode_mono (fuel : Nat) (s : IStream) (h : LoadNode fuel s ≠ .outOfFuel) :
    ∀ extra, LoadNode (fuel + extra) s = LoadNode fuel s
  | 0 => rfl
  | extra + 1 => by
    have ih := LoadNode_mono fuel s h extra
    have := (Load_mono (fuel + extra)).1 s (by rw [ih]; exact h)
    rw [← ih, ← this]
    rfl

/-! ## What the loaders return, on a text and on its extensions -/

theorem IStream.extract_none (c : Char) (t : List Char)
    (h : (IStream.extract ⟨c :: t, false, false⟩).1 = none) : isspace c = true := by
  cases hc : isspace c with
  | true => rfl
  | false =>
    rw [IStream.extract_head c t hc] at h
    cases h

theorem IStream.putback_text (b : List Char) (c : Char) :
    IStream.putback ⟨b, false, false⟩ c = ⟨c :: b, false, false⟩ := rfl

theorem Error.fromLoad_of_ParsingError (e : Error) (h : ∃ w, e = .ParsingError w) :
    e.fromLoad = true := by
  obtain ⟨w, rfl⟩ := h
  rfl

theorem LoadNode_extract_fails (fuel : Nat) (s : IStream) (h₁ : s.extract.1 = none) :
    LoadNode (fuel + 1) s = .error (.ParsingError "unexpected input end or input stream error") ∨
    LoadNode (fuel + 1) s = .error (.ParsingError "Wrong input") := by
  rw [LoadNode_succ]
  by_cases he : s.extract.2.eof = true
  · rw [if_pos he]; exact Or.inl rfl
  · rw [if_neg he, h₁]
    exact Or.inr rfl

theorem LoadNode_spec_step (fuel : Nat) (ihA : LoadArray.Spec fuel)
    (ihD : LoadDict.loop.Spec fuel) : LoadNode.Spec (fuel + 1) := by
  intro s
  rcases IStream.extract_cases s with ⟨ws, c, t, rfl, hws, hc, he⟩ | ⟨h₁, -, -⟩
  · have hsz : IStream.size ⟨ws ++ c :: t, false, false⟩ = ws.length + t.length + 2 := by
      simp only [IStream.size_good, List.length_append, List.length_cons]; omega
    have hb : ∀ q, (ws ++ c :: t) ++ q = ws ++ c :: (t ++ q) := by
      intro q; simp
    simp only [hb]
    have hd := fun q => LoadNode_dispatch fuel ws c (t ++ q) hws hc
    have hd₀ := LoadNode_dispatch fuel ws c t hws hc
    rw [hd₀, hsz]
    by_cases c₁ : c = '['
    · simp only [hd, if_pos c₁]
      obtain ⟨h₁, h₂⟩ := ihA ⟨t, false, false⟩
      refine ⟨?_, h₂⟩
      intro x s' h
      obtain ⟨-, g', -, hs, hfr⟩ := h₁ x s' h
      rw [IStream.size_good] at hs
      exact ⟨rfl, by omega, fun _ q => hfr q⟩
    by_cases c₂ : c = '{'
    · simp only [hd, if_neg c₁, if_pos c₂]
      obtain ⟨h₁, h₂⟩ := ihD [] ⟨t, false, false⟩
      refine ⟨?_, h₂⟩
      intro x s' h
      obtain ⟨-, g', -, hs, hfr⟩ := h₁ x s' h
      rw [IStream.size_good] at hs
      exact ⟨rfl, by omega, fun _ q => hfr q⟩
    by_cases c₃ : c = '"'
    · simp only [hd, if_neg c₁, if_neg c₂, if_pos c₃]
      obtain ⟨h₁, h₂⟩ := LoadString_spec fuel ⟨t, false, false⟩
      refine ⟨?_, fun e h => Error.fromLoad_of_ParsingError e (h₂ e h)⟩
      intro x s' h
      obtain ⟨-, g', -, hs, hfr⟩ := h₁ x s' h
      rw [IStream.size_good] at hs
      exact ⟨rfl, by omega, fun _ q => hfr q⟩
    by_cases c₄ : c = 'n'
    · simp only [hd, if_neg c₁, if_neg c₂, if_neg c₃, if_pos c₄]
      obtain ⟨h₁, h₂⟩ := LoadNull_spec ⟨c :: t, false, false⟩
      refine ⟨?_, fun e h => Error.fromLoad_of_ParsingError e (h₂ e h)⟩
      intro x s' h
      obtain ⟨-, -, g', hs, hfr⟩ := h₁ x s' h
      simp only [IStream.size_good, List.length_cons] at hs
      exact ⟨rfl, by omega, fun _ q => hfr q⟩
    by_cases c₅ : c = 't'
    · simp only [hd, if_neg c₁, if_neg c₂, if_neg c₃, if_neg c₄, if_pos c₅]
      obtain ⟨h₁, h₂⟩ := LoadBoolTrue_spec ⟨c :: t, false, false⟩
      refine ⟨?_, fun e h => Error.fromLoad_of_ParsingError e (h₂ e h)⟩
      intro x s' h
      obtain ⟨-, -, g', hs, hfr⟩ := h₁ x s' h
      simp only [IStream.size_good, List.length_cons] at hs
      exact ⟨rfl, by omega, fun _ q => hfr q⟩
    by_cases c₆ : c = 'f'
    · simp only [hd, if_neg c₁, if_neg c₂, if_neg c₃, if_neg c₄, if_neg c₅, if_pos c₆]
      obtain ⟨h₁, h₂⟩ := LoadBoolFalse_spec ⟨c :: t, false, false⟩
      refine ⟨?_, fun e h => Error.fromLoad_of_ParsingError e (h₂ e h)⟩
      intro x s' h
      obtain ⟨-, -, g', hs, hfr⟩ := h₁ x s' h
      simp only [IStream.size_good, List.length_cons] at hs
      exact ⟨rfl, by omega, fun _ q => hfr q⟩
    by_cases c₇ : c = '-' ∨ isdigit c = true
    · simp only [hd, if_neg c₁, if_neg c₂, if_neg c₃, if_neg c₄, if_neg c₅, if_neg c₆, if_pos c₇]
      obtain ⟨h₁, h₂⟩ := LoadNumber_spec fuel ⟨c :: t, false, false⟩
      refine ⟨?_, h₂⟩
      intro x s' h
      obtain ⟨-, -, hfr⟩ := h₁ x s' h
      have hs := LoadNumber_consumes fuel c t x s' c₇ h
      exact ⟨rfl, by omega, fun g q => (hfr g).2 q⟩
    · simp only [if_neg c₁, if_neg c₂, if_neg c₃, if_neg c₄, if_neg c₅, if_neg c₆, if_neg c₇]
      exact ⟨fun x s' h => (by cases h), fun e h => (by cases h; rfl)⟩
  · rcases LoadNode_extract_fails fuel s h₁ with h | h
    · rw [h]
      exact ⟨fun x s' h => (by cases h), fun e h => (by cases h; rfl)⟩
    · rw [h]
      exact ⟨fun x s' h => (by cases h), fun e h => (by cases h; rfl)⟩

theorem LoadArray_spec_step (fuel : Nat) (ihL : LoadArray.loop.Spec fuel) :
    LoadArray.Spec (fuel + 1) := by
  intro s
  by_cases hc : toChar s.peek.1 = ','
  · have hr : LoadArray (fuel + 1) s
        = .error (.ParsingError "array parsing error : unexpected ',' after '['") := by
      rw [LoadArray_succ, if_pos hc]
    rw [hr]
    exact ⟨fun x s' h => (by cases h), fun e h => (by cases h; rfl)⟩
  · have hr : LoadArray (fuel + 1) s
        = LoadArray.loop fuel [] (s.peek.2.extract.1.getD (toChar s.peek.1))
            s.peek.2.extract.2 := by
      rw [LoadArray_succ, if_neg hc]
    have hpre : s.peek.2.extract.1.getD (toChar s.peek.1) = ']' →
        s.peek.2.extract.2.good = true := by
      intro hch
      rcases IStream.extract_cases s.peek.2 with ⟨ws, c, t, _, _, _, he⟩ | ⟨h₁, _, _⟩
      · rw [he]; rfl
      · rw [h₁] at hch
        simp only [Option.getD] at hch
        rcases IStream.peek_cases s with ⟨c, t, hs, hp⟩ | ⟨hp₁, _⟩
        · rw [hp] at h₁ hch
          have hsp := IStream.extract_none c t h₁
          simp only [toChar] at hch
          exact absurd hch (isspace_not_number c hsp).2.2.2.2.2.1
        · rw [hp₁] at hch
          exact absurd hch (by decide)
    obtain ⟨h₁, h₂⟩ := ihL [] (s.peek.2.extract.1.getD (toChar s.peek.1)) s.peek.2.extract.2
      hpre
    rw [hr]
    refine ⟨?_, h₂⟩
    intro x s' h
    obtain ⟨g₁, g', hk, hs, hfr⟩ := h₁ x s' h
    obtain ⟨g₂, e₂⟩ := IStream.extract_ext s.peek.2 g₁
    obtain ⟨g₃, e₃⟩ := IStream.peek_ext s g₂
    have hs₁ := IStream.extract_size s.peek.2
    have hs₂ := IStream.peek_size s
    refine ⟨g₃, g', hk, by omega, fun q => ?_⟩
    rw [LoadArray_succ, e₃ q]
    simp only []
    rw [if_neg hc, e₂ q]
    exact hfr q

theorem LoadArray_loop_spec_step (fuel : Nat) (ihN : LoadNode.Spec fuel)
    (ihL : LoadArray.loop.Spec fuel) : LoadArray.loop.Spec (fuel + 1) := by
  intro result ch s hpre
  by_cases hc : (s.good && decide (ch ≠ ']')) = true
  · have hc' := hc
    simp only [Bool.and_eq_true, decide_eq_true_eq] at hc'
    obtain ⟨hg, hch⟩ := hc'
    have hs := IStream.good_eq s hg
    -- the stream handed to `LoadNode`
    have hput : ∃ s₁ : IStream, (if ch ≠ ',' then s.putback ch else s) = s₁ ∧
        s₁.size ≤ s.size + 1 ∧
        ∀ q, (if ch ≠ ',' then IStream.putback ⟨s.buf ++ q, false, false⟩ ch
            else (⟨s.buf ++ q, false, false⟩ : IStream)) = ⟨s₁.buf ++ q, false, false⟩ := by
      by_cases hcm : ch ≠ ','
      · refine ⟨⟨ch :: s.buf, false, false⟩, ?_, ?_, fun q => ?_⟩
        · rw [if_pos hcm]
          conv => lhs; rw [hs]
          rfl
        · conv => rhs; rw [hs]
          simp only [IStream.size_good, List.length_cons]
          omega
        · rw [if_pos hcm]; rfl
      · refine ⟨s, by rw [if_neg hcm], by omega, fun q => ?_⟩
        rw [if_neg hcm]
    obtain ⟨s₁, hs₁, hsz₁, hq₁⟩ := hput
    obtain ⟨hN₁, hN₂⟩ := ihN s₁
    have hunf : ∀ (s₀ s₀' : IStream), (s₀.good && decide (ch ≠ ']')) = true →
        (if ch ≠ ',' then s₀.putback ch else s₀) = s₀' →
        LoadArray.loop (fuel + 1) result ch s₀
          = match LoadNode fuel s₀' with
            | .ok node input₂ =>
              LoadArray.loop fuel (result ++ [node]) (input₂.extract.1.getD ch)
                input₂.extract.2
            | .error e => .error e
            | .outOfFuel => .outOfFuel := by
      intro s₀ s₀' h₀ h₀'
      rw [LoadArray_loop_succ, if_pos h₀, h₀']
      try rfl
    rw [hunf s s₁ hc hs₁]
    cases hR : LoadNode fuel s₁ with
    | ok node s₂ =>
      simp only []
      obtain ⟨-, hsz₂, hfrN⟩ := hN₁ node s₂ hR
      have hpre₂ : s₂.extract.1.getD ch = ']' → s₂.extract.2.good = true := by
        intro h
        rcases IStream.extract_cases s₂ with ⟨ws, c, t, _, _, _, he⟩ | ⟨h₁, _, _⟩
        · rw [he]; rfl
        · rw [h₁] at h
          exact absurd h hch
      obtain ⟨hL₁, hL₂⟩ := ihL (result ++ [node]) (s₂.extract.1.getD ch) s₂.extract.2 hpre₂
      refine ⟨?_, hL₂⟩
      intro x s' h
      obtain ⟨g₃, g', hk, hsz₃, hfrL⟩ := hL₁ x s' h
      obtain ⟨g₂, e₂⟩ := IStream.extract_ext s₂ g₃
      have hes := IStream.extract_size s₂
      refine ⟨hg, g', hk, by omega, fun q => ?_⟩
      rw [hunf ⟨s.buf ++ q, false, false⟩ ⟨s₁.buf ++ q, false, false⟩
        (by simp [IStream.good, hch]) (hq₁ q), hfrN g₂ q]
      simp only []
      rw [e₂ q]
      exact hfrL q
    | error e =>
      simp only []
      refine ⟨fun x s' h => (by cases h), ?_⟩
      intro e' h
      cases h
      exact hN₂ e hR
    | outOfFuel =>
      exact ⟨fun x s' h => (by cases h), fun e h => (by cases h)⟩
  · have hunf : ∀ s₀ : IStream, (s₀.good && decide (ch ≠ ']')) = (s.good && decide (ch ≠ ']')) →
        LoadArray.loop (fuel + 1) result ch s₀
          = if ch ≠ ']' then
              .error (.ParsingError "array parsing error : end ']' required but not found")
            else .ok (.array result) s₀ := by
      intro s₀ h₀
      rw [LoadArray_loop_succ, if_neg (by rw [h₀]; exact hc)]
    rw [hunf s rfl]
    by_cases hch : ch = ']'
    · have hg := hpre hch
      rw [if_neg (not_not.2 hch)]
      refine ⟨?_, fun e h => (by cases h)⟩
      intro x s' h
      cases h
      refine ⟨hg, hg, rfl, Nat.le_refl _, fun q => ?_⟩
      rw [hunf _ (by simp [IStream.good, hch]), if_neg (not_not.2 hch)]
    · rw [if_pos hch]
      exact ⟨fun x s' h => (by cases h), fun e h => (by cases h; rfl)⟩

theorem Node.AsString_of_IsString (x : Node) (h : x.IsString = true) :
    ∃ key, x.AsString = .ok key := by
  cases x with
  | string v => exact ⟨v, rfl⟩
  | _ => cases h

theorem LoadDict_loop_spec_step (fuel : Nat) (ihN : LoadNode.Spec fuel)
    (ihD : LoadDict.loop.Spec fuel) : LoadDict.loop.Spec (fuel + 1) := by
  intro result s
  rcases IStream.extract_cases s with ⟨ws, c, t, rfl, hws, hc, he⟩ | ⟨h₁, -, hfail⟩
  · have hsz : IStream.size ⟨ws ++ c :: t, false, false⟩ = ws.length + t.length + 2 := by
      simp only [IStream.size_good, List.length_append, List.length_cons]; omega
    have hb : ∀ q, (ws ++ c :: t) ++ q = ws ++ c :: (t ++ q) := by
      intro q; simp
    have heq := fun q => IStream.extract_text ws c (t ++ q) hws hc
    simp only [hb]
    by_cases hclose : c = '}'
    · have hunf : ∀ t₀ : List Char, LoadDict.loop (fuel + 1) result ⟨ws ++ c :: t₀, false, false⟩
          = .ok (.dict result) ⟨t₀, false, false⟩ := by
        intro t₀
        rw [LoadDict_loop_succ, IStream.extract_text ws c t₀ hws hc]
        simp [hclose, IStream.fail]
      rw [hunf t]
      refine ⟨?_, fun e h => (by cases h)⟩
      intro x s' h
      cases h
      refine ⟨rfl, rfl, rfl,
        ?_, fun q => hunf (t ++ q)⟩
      rw [hsz, IStream.size_good]
      omega
    · -- the character before the key and the stream handed to `LoadString`
      have hkey : ∃ (c₁ : Char) (s₂ : IStream),
          (if c = ',' then (IStream.extract ⟨t, false, false⟩).2 else ⟨t, false, false⟩) = s₂ ∧
          (if c = ',' then (IStream.extract ⟨t, false, false⟩).1.getD c else c) = c₁ ∧
          s₂.size ≤ t.length + 1 ∧
          (s₂.good = true → ∀ q,
            (if c = ',' then (IStream.extract ⟨t ++ q, false, false⟩).2
              else (⟨t ++ q, false, false⟩ : IStream)) = ⟨s₂.buf ++ q, false, false⟩ ∧
            (if c = ',' then (IStream.extract ⟨t ++ q, false, false⟩).1.getD c else c) = c₁) := by
        by_cases hcm : c = ','
        · refine ⟨_, _, rfl, rfl, ?_, ?_⟩
          · rw [if_pos hcm]
            have := IStream.extract_size ⟨t, false, false⟩
            rw [IStream.size_good] at this
            omega
          · intro g q
            rw [if_pos hcm] at g
            obtain ⟨-, e⟩ := IStream.extract_ext ⟨t, false, false⟩ g
            rw [if_pos hcm, if_pos hcm, if_pos hcm, if_pos hcm, e q]
            exact ⟨rfl, rfl⟩
        · refine ⟨_, _, rfl, rfl, ?_, ?_⟩
          · rw [if_neg hcm, IStream.size_good]
          · intro g q
            rw [if_neg hcm, if_neg hcm, if_neg hcm, if_neg hcm]
            exact ⟨rfl, rfl⟩
      obtain ⟨c₁, s₂, hs₂, hc₁, hsz₂, hq₂⟩ := hkey
      have hunf : ∀ (t₀ : List Char) (s₀ : IStream),
          (if c = ',' then (IStream.extract ⟨t₀, false, false⟩).2 else ⟨t₀, false, false⟩) = s₀ →
          (if c = ',' then (IStream.extract ⟨t₀, false, false⟩).1.getD c else c) = c₁ →
          LoadDict.loop (fuel + 1) result ⟨ws ++ c :: t₀, false, false⟩
            = match LoadString fuel s₀ with
              | .ok keyNode input₃ =>
                match keyNode.AsString with
                | .ok key =>
                  if input₃.extract.1.getD c₁ ≠ ':' then
                    .error (.ParsingError "Map parsing error : ':' required but not found")
                  else
                    match LoadNode fuel input₃.extract.2 with
                    | .ok node input₅ =>
                      LoadDict.loop fuel (Dict.insert result key node) input₅
                    | .error e => .error e
                    | .outOfFuel => .outOfFuel
                | .error e => .error e
              | .error e => .error e
              | .outOfFuel => .outOfFuel := by
        intro t₀ s₀ h₀ h₀'
        rw [LoadDict_loop_succ, IStream.extract_text ws c t₀ hws hc]
        simp only [Option.getD_some]
        rw [if_pos (by simp [hclose, IStream.fail]), h₀, h₀']
        try rfl
      rw [hunf t s₂ hs₂ hc₁, hsz]
      obtain ⟨hS₁, hS₂⟩ := LoadString_spec fuel s₂
      cases hS : LoadString fuel s₂ with
      | ok keyNode s₃ =>
        simp only []
        obtain ⟨g₂, g₃, hk, hsz₃, hfrS⟩ := hS₁ keyNode s₃ hS
        obtain ⟨key, hkey⟩ := Node.AsString_of_IsString keyNode hk
        rw [hkey]
        simp only []
        by_cases hcol : s₃.extract.1.getD c₁ ≠ ':'
        · rw [if_pos hcol]
          exact ⟨fun x s' h => (by cases h), fun e h => (by cases h; rfl)⟩
        · rw [if_neg hcol]
          obtain ⟨hN₁, hN₂⟩ := ihN s₃.extract.2
          cases hR : LoadNode fuel s₃.extract.2 with
          | ok node s₅ =>
            simp only []
            obtain ⟨g₄, hsz₅, hfrN⟩ := hN₁ node s₅ hR
            obtain ⟨hD₁, hD₂⟩ := ihD (Dict.insert result key node) s₅
            refine ⟨?_, hD₂⟩
            intro x s' h
            obtain ⟨g₅, g', hkd, hsz', hfrD⟩ := hD₁ x s' h
            obtain ⟨-, e₃⟩ := IStream.extract_ext s₃ g₄
            have hes := IStream.extract_size s₃
            refine ⟨rfl, g', hkd, by omega, fun q => ?_⟩
            obtain ⟨q₁, q₂⟩ := hq₂ g₂ q
            rw [hunf (t ++ q) ⟨s₂.buf ++ q, false, false⟩ q₁ q₂, hfrS q]
            simp only []
            rw [hkey]
            simp only []
            rw [e₃ q]
            simp only []
            rw [if_neg hcol, hfrN g₅ q]
            exact hfrD q
          | error e =>
            simp only []
            refine ⟨fun x s' h => (by cases h), ?_⟩
            intro e' h
            cases h
            exact hN₂ e hR
          | outOfFuel =>
            exact ⟨fun x s' h => (by cases h), fun e h => (by cases h)⟩
      | error e =>
        simp only []
        refine ⟨fun x s' h => (by cases h), ?_⟩
        intro e' h
        cases h
        exact Error.fromLoad_of_ParsingError e (hS₂ e hS)
      | outOfFuel =>
        exact ⟨fun x s' h => (by cases h), fun e h => (by cases h)⟩
  · have hr : LoadDict.loop (fuel + 1) result s
        = .error (.ParsingError "Map parsing error : '\x7d' required but not found") := by
      rw [LoadDict_loop_succ, hfail, h₁]
      rfl
    rw [hr]
    exact ⟨fun x s' h => (by cases h), fun e h => (by cases h; rfl)⟩

/-- The guarantees hold under every budget. -/
theorem Load_spec : ∀ (fuel : Nat),
    LoadNode.Spec fuel ∧ LoadArray.Spec fuel ∧ LoadArray.loop.Spec fuel ∧
      LoadDict.loop.Spec fuel
  | 0 => by
    refine ⟨fun s => ?_, fun s => ?_, fun r c s _ => ?_, fun r s => ?_⟩
    · rw [LoadNode]
      exact ⟨fun x s' h => (by cases h), fun e h => (by cases h)⟩
    · rw [LoadArray]
      exact ⟨fun x s' h => (by cases h), fun e h => (by cases h)⟩
    · rw [LoadArray.loop]
      exact ⟨fun x s' h => (by cases h), fun e h => (by cases h)⟩
    · rw [LoadDict.loop]
      exact ⟨fun x s' h => (by cases h), fun e h => (by cases h)⟩
  | fuel + 1 => by
    obtain ⟨ihN, ihA, ihL, ihD⟩ := Load_spec fuel
    exact ⟨LoadNode_spec_step fuel ihA ihD, LoadArray_spec_step fuel ihL,
      LoadArray_loop_spec_step fuel ihN ihL, LoadDict_loop_spec_step fuel ihN ihD⟩

/-! ## The budget of `Load` is enough on every text -/

theorem LoadNull_returns (s : IStream) : LoadNull s ≠ .outOfFuel := by
  unfold LoadNull
  split
  split <;> exact fun e => by cases e

theorem LoadBoolTrue_returns (s : IStream) : LoadBoolTrue s ≠ .outOfFuel := by
  unfold LoadBoolTrue
  split
  split <;> exact fun e => by cases e

theorem LoadBoolFalse_returns (s : IStream) : LoadBoolFalse s ≠ .outOfFuel := by
  unfold LoadBoolFalse
  split
  split <;> exact fun e => by cases e

theorem LoadNode_total_step (fuel : Nat)
    (ihA : ∀ s : IStream, 3 * s.size + 3 ≤ fuel → LoadArray fuel s ≠ .outOfFuel)
    (ihD : ∀ (result : Dict) (s : IStream), 3 * s.size + 1 ≤ fuel →
      LoadDict.loop fuel result s ≠ .outOfFuel)
    (s : IStream) (h : 3 * s.size + 1 ≤ fuel + 1) : LoadNode (fuel + 1) s ≠ .outOfFuel := by
  rcases IStream.extract_cases s with ⟨ws, c, t, rfl, hws, hc, he⟩ | ⟨h₁, -, -⟩
  · have hsz : IStream.size ⟨ws ++ c :: t, false, false⟩ = ws.length + t.length + 2 := by
      simp only [IStream.size_good, List.length_append, List.length_cons]; omega
    rw [hsz] at h
    rw [LoadNode_dispatch fuel ws c t hws hc]
    split_ifs
    · exact ihA _ (by rw [IStream.size_good]; omega)
    · exact ihD _ _ (by rw [IStream.size_good]; omega)
    · exact LoadString_total _ _ (by rw [IStream.size_good]; omega)
    · exact LoadNull_returns _
    · exact LoadBoolTrue_returns _
    · exact LoadBoolFalse_returns _
    · exact LoadNumber_total _ _ (by simp only [List.length_cons]; omega)
    · exact fun e => by cases e
  · rcases LoadNode_extract_fails fuel s h₁ with h' | h' <;> rw [h'] <;>
      exact fun e => by cases e

theorem LoadArray_total_step (fuel : Nat)
    (ihL : ∀ (result : List Node) (ch : Char) (s : IStream), (s.good = false → 1 ≤ fuel) →
      (s.good = true → 3 * s.size + 5 ≤ fuel) → LoadArray.loop fuel result ch s ≠ .outOfFuel)
    (s : IStream) (h : 3 * s.size + 3 ≤ fuel + 1) : LoadArray (fuel + 1) s ≠ .outOfFuel := by
  rw [LoadArray_succ]
  split_ifs
  · exact fun e => by cases e
  · have h₁ := IStream.extract_size s.peek.2
    have h₂ := IStream.peek_size s
    refine ihL _ _ _ (fun _ => by omega) (fun hg => ?_)
    have hpos : 1 ≤ s.peek.2.extract.2.size := by
      rw [IStream.good_eq _ hg, IStream.size_good]; omega
    omega

theorem LoadArray_loop_total_step (fuel : Nat)
    (ihN : ∀ s : IStream, 3 * s.size + 1 ≤ fuel → LoadNode fuel s ≠ .outOfFuel)
    (ihL : ∀ (result : List Node) (ch : Char) (s : IStream), (s.good = false → 1 ≤ fuel) →
      (s.good = true → 3 * s.size + 5 ≤ fuel) → LoadArray.loop fuel result ch s ≠ .outOfFuel)
    (result : List Node) (ch : Char) (s : IStream)
    (h₂ : s.good = true → 3 * s.size + 5 ≤ fuel + 1) :
    LoadArray.loop (fuel + 1) result ch s ≠ .outOfFuel := by
  rw [LoadArray_loop_succ]
  by_cases hc : (s.good && decide (ch ≠ ']')) = true
  · rw [if_pos hc]
    have hc' := hc
    simp only [Bool.and_eq_true, decide_eq_true_eq] at hc'
    obtain ⟨hg, hch⟩ := hc'
    have hf := h₂ hg
    have hs := IStream.good_eq s hg
    have hsz₁ : (if ch ≠ ',' then s.putback ch else s).size ≤ s.size + 1 := by
      by_cases hcm : ch ≠ ','
      · rw [if_pos hcm]
        have : s.putback ch = ⟨ch :: s.buf, false, false⟩ := by
          conv => lhs; rw [hs]
          rfl
        rw [this]
        conv => rhs; rw [hs]
        simp only [IStream.size_good, List.length_cons]
        omega
      · rw [if_neg hcm]; omega
    have hN := ihN (if ch ≠ ',' then s.putback ch else s) (by omega)
    cases hR : LoadNode fuel (if ch ≠ ',' then s.putback ch else s) with
    | ok node s₂ =>
      simp only []
      obtain ⟨-, hsz₂, -⟩ := ((Load_spec fuel).1 _).1 node s₂ hR
      have hes := IStream.extract_size s₂
      have hpos : 1 ≤ s.size := by
        rw [hs, IStream.size_good]; omega
      exact ihL _ _ _ (fun _ => by omega) (fun _ => by omega)
    | error e => exact fun e => by cases e
    | outOfFuel => exact absurd hR hN
  · rw [if_neg hc]
    split_ifs <;> exact fun e => by cases e

theorem LoadDict_loop_total_step (fuel : Nat)
    (ihN : ∀ s : IStream, 3 * s.size + 1 ≤ fuel → LoadNode fuel s ≠ .outOfFuel)
    (ihD : ∀ (result : Dict) (s : IStream), 3 * s.size + 1 ≤ fuel →
      LoadDict.loop fuel result s ≠ .outOfFuel)
    (result : Dict) (s : IStream) (h : 3 * s.size + 1 ≤ fuel + 1) :
    LoadDict.loop (fuel + 1) result s ≠ .outOfFuel := by
  rw [LoadDict_loop_succ]
  by_cases hc : (!s.extract.2.fail &&
      decide (s.extract.1.getD (Char.ofNat 0) ≠ '}')) = true
  · rw [if_pos hc]
    have he₁ := IStream.extract_size s
    have he₂ := IStream.extract_size s.extract.2
    have hpos : 1 ≤ s.size := by
      rcases IStream.extract_cases s with ⟨ws, c, t, rfl, _, _, _⟩ | ⟨_, _, hfail⟩
      · rw [IStream.size_good]; omega
      · rw [hfail] at hc
        cases hc
    have hsz₂ : (if s.extract.1.getD (Char.ofNat 0) = ',' then s.extract.2.extract.2
        else s.extract.2).size + 1 ≤ s.size := by
      split_ifs <;> omega
    have hS := LoadString_total fuel (if s.extract.1.getD (Char.ofNat 0) = ','
      then s.extract.2.extract.2 else s.extract.2) (by omega)
    cases hR : LoadString fuel (if s.extract.1.getD (Char.ofNat 0) = ','
        then s.extract.2.extract.2 else s.extract.2) with
    | ok keyNode s₃ =>
      simp only []
      obtain ⟨-, -, -, hsz₃, -⟩ := (LoadString_spec fuel _).1 keyNode s₃ hR
      cases hK : keyNode.AsString with
      | ok key =>
        simp only []
        split_ifs
        · exact fun e => by cases e
        · have he₃ := IStream.extract_size s₃
          have hN := ihN s₃.extract.2 (by omega)
          cases hR₂ : LoadNode fuel s₃.extract.2 with
          | ok node s₅ =>
            simp only []
            obtain ⟨-, hsz₅, -⟩ := ((Load_spec fuel).1 _).1 node s₅ hR₂
            exact ihD _ _ (by omega)
          | error e => exact fun e => by cases e
          | outOfFuel => exact absurd hR₂ hN
        · exact fun e => by cases e
        · have he₃ := IStream.extract_size s₃
          have hN := ihN s₃.extract.2 (by omega)
          cases hR₂ : LoadNode fuel s₃.extract.2 with
          | ok node s₅ =>
            simp only []
            obtain ⟨-, hsz₅, -⟩ := ((Load_spec fuel).1 _).1 node s₅ hR₂
            exact ihD _ _ (by omega)
          | error e => exact fun e => by cases e
          | outOfFuel => exact absurd hR₂ hN
      | error e => exact fun e => by cases e
    | error e => exact fun e => by cases e
    | outOfFuel => exact absurd hR hS
  · rw [if_neg hc]
    split_ifs <;> exact fun e => by cases e

/-- Under a budget of three units for each character left, and one more, `LoadNode`
returns or throws. -/
theorem Load_total : ∀ (fuel : Nat),
    (∀ s : IStream, 3 * s.size + 1 ≤ fuel → LoadNode fuel s ≠ .outOfFuel) ∧
    (∀ s : IStream, 3 * s.size + 3 ≤ fuel → LoadArray fuel s ≠ .outOfFuel) ∧
    (∀ (result : List Node) (ch : Char) (s : IStream), (s.good = false → 1 ≤ fuel) →
      (s.good = true → 3 * s.size + 5 ≤ fuel) → LoadArray.loop fuel result ch s ≠ .outOfFuel) ∧
    (∀ (result : Dict) (s : IStream), 3 * s.size + 1 ≤ fuel →
      LoadDict.loop fuel result s ≠ .outOfFuel)
  | 0 => by
    refine ⟨fun s h => by omega, fun s h => by omega, fun r c s h₁ h₂ => ?_,
      fun r s h => by omega⟩
    cases hg : s.good with
    | true => have := h₂ hg; omega
    | false => have := h₁ hg; omega
  | fuel + 1 => by
    obtain ⟨ihN, ihA, ihL, ihD⟩ := Load_total fuel
    exact ⟨LoadNode_total_step fuel ihA ihD, LoadArray_total_step fuel ihL,
      fun r c s _ h₂ => LoadArray_loop_total_step fuel ihN ihL r c s h₂,
      LoadDict_loop_total_step fuel ihN ihD⟩

/-- `Load` returns or throws on every text. -/
theorem LoadText_total (text : List Char) : LoadText text ≠ .outOfFuel := by
  unfold LoadText Load IStream.ofText
  exact (Load_total _).1 _ (by simp only [IStream.size_good]; omega)

/-! ## `Load` on a text and on its prefixes -/

theorem LoadText_eq (text : List Char) :
    LoadText text = LoadNode (3 * text.length + 4) ⟨text, false, false⟩ := rfl

/-- A value read from a prefix with the stream left good is read from every extension,
the rest of the text left in the stream. -/
theorem LoadText_extend (p q : List Char) (x : Node) (s : IStream)
    (hp : LoadText p = .ok x s) (hg : s.good = true) :
    LoadText (p ++ q) = .ok x ⟨s.buf ++ q, false, false⟩ := by
  rw [LoadText_eq] at hp
  obtain ⟨-, -, hframe⟩ := ((Load_spec (3 * p.length + 4)).1 _).1 x s hp
  have hq := hframe hg q
  have hne : LoadNode (3 * p.length + 4) ⟨p ++ q, false, false⟩ ≠ .outOfFuel := by
    rw [show (⟨p ++ q, false, false⟩ : IStream) = ⟨(⟨p, false, false⟩ : IStream).buf ++ q,
      false, false⟩ from rfl, hq]
    exact fun e => by cases e
  have hm := LoadNode_mono _ _ hne (3 * q.length)
  have hlen : 3 * (p ++ q).length + 4 = 3 * p.length + 4 + 3 * q.length := by
    rw [List.length_append]; omega
  rw [LoadText_eq, hlen, hm]
  exact hq

/-- Only `[`, `{` and `"` start an Array, a Dict or a String. -/
theorem LoadNode_opener (fuel : Nat) (ws : List Char) (c : Char) (t : List Char)
    (hws : allSpace ws = true) (hc : isspace c = false) (x : Node) (s : IStream)
    (h : LoadNode (fuel + 1) ⟨ws ++ c :: t, false, false⟩ = .ok x s)
    (hx : x.IsArray = true ∨ x.IsDict = true ∨ x.IsString = true) :
    c = '[' ∨ c = '{' ∨ c = '"' := by
  rw [LoadNode_dispatch fuel ws c t hws hc] at h
  by_cases h₁ : c = '['
  · exact Or.inl h₁
  by_cases h₂ : c = '{'
  · exact Or.inr (Or.inl h₂)
  by_cases h₃ : c = '"'
  · exact Or.inr (Or.inr h₃)
  exfalso
  rw [if_neg h₁, if_neg h₂, if_neg h₃] at h
  have hnot : ∀ y : Node, y = .null ∨ y = .bool true ∨ y = .bool false ∨ y.IsInt = true ∨
      y.IsPureDouble = true → y = x → False := by
    intro y hy hyx
    subst hyx
    rcases hy with rfl | rfl | rfl | hy | hy
    · rcases hx with hx | hx | hx <;> cases hx
    · rcases hx with hx | hx | hx <;> cases hx
    · rcases hx with hx | hx | hx <;> cases hx
    · cases y <;> simp [Node.IsInt, Node.IsArray, Node.IsDict, Node.IsString] at hy hx
    · cases y <;> simp [Node.IsPureDouble, Node.IsArray, Node.IsDict, Node.IsString] at hy hx
  split_ifs at h
  · exact hnot x (Or.inl ((LoadNull_spec _).1 x s h).1) rfl
  · exact hnot x (Or.inr (Or.inl ((LoadBoolTrue_spec _).1 x s h).1)) rfl
  · exact hnot x (Or.inr (Or.inr (Or.inl ((LoadBoolFalse_spec _).1 x s h).1))) rfl
  · exact hnot x (Or.inr (Or.inr (Or.inr ((LoadNumber_spec _ _).1 x s h).1))) rfl

/-- After an Array, a Dict or a String has been read the stream is good. -/
theorem LoadNode_opener_good (fuel : Nat) (ws : List Char) (c : Char) (t : List Char)
    (hws : allSpace ws = true) (hc : isspace c = false) (x : Node) (s : IStream)
    (h : LoadNode (fuel + 1) ⟨ws ++ c :: t, false, false⟩ = .ok x s)
    (ho : c = '[' ∨ c = '{' ∨ c = '"') : s.good = true := by
  rw [LoadNode_dispatch fuel ws c t hws hc] at h
  rcases ho with rfl | rfl | rfl
  · rw [if_pos rfl] at h
    exact (((Load_spec fuel).2.1 _).1 x s h).2.1
  · rw [if_neg (by decide), if_pos rfl] at h
    exact (((Load_spec fuel).2.2.2 _ _).1 x s h).2.1
  · rw [if_neg (by decide), if_neg (by decide), if_pos rfl] at h
    exact ((LoadString_spec fuel _).1 x s h).2.1

/-- A text is white space only, or it has a first character that is not white space. -/
theorem allSpace_cases (text : List Char) :
    allSpace text = true ∨
    ∃ ws c t, text = ws ++ c :: t ∧ allSpace ws = true ∧ isspace c = false := by
  rcases IStream.extract_cases ⟨text, false, false⟩ with ⟨ws, c, t, h, hws, hc, -⟩ | ⟨h, -, -⟩
  · exact Or.inr ⟨ws, c, t, congrArg IStream.buf h, hws, hc⟩
  · cases ha : allSpace text with
    | true => exact Or.inl rfl
    | false =>
      rcases skipws_cases text with ⟨ws, c, t, h₁, h₂, h₃, -⟩ | ⟨h₁, -⟩
      · rw [h₁, IStream.extract_text ws c t h₂ h₃] at h
        cases h
      · rw [h₁] at ha
        cases ha

/-- Whitespace in front of a text does not change what `LoadNode` does with it. -/
theorem LoadNode_leading_space (fuel : Nat) (w t : List Char) (hw : allSpace w = true) :
    LoadNode fuel ⟨w ++ t, false, false⟩ = LoadNode fuel ⟨t, false, false⟩ := by
  cases fuel with
  | zero => rfl
  | succ f =>
    rcases allSpace_cases t with ht | ⟨ws, c, t₁, rfl, hws, hc⟩
    · rw [LoadNode_allSpace f t ht, LoadNode_allSpace f (w ++ t) (allSpace_append w t hw ht)]
    · rw [LoadNode_dispatch f ws c t₁ hws hc, ← List.append_assoc,
        LoadNode_dispatch f (w ++ ws) c t₁ (allSpace_append w ws hw hws) hc]

/-- After an Array, a Dict or a String has been read from a text the stream is good. -/
theorem LoadText_container_good (t : List Char) (x : Node) (s : IStream)
    (ht : LoadText t = .ok x s)
    (hx : x.IsArray = true ∨ x.IsDict = true ∨ x.IsString = true) : s.good = true := by
  rw [LoadText_eq] at ht
  rcases allSpace_cases t with hsp | ⟨ws, c, t₁, rfl, hws, hc⟩
  · rw [LoadNode_allSpace _ t hsp] at ht
    cases ht
  · exact LoadNode_opener_good _ ws c t₁ hws hc x s ht
      (LoadNode_opener _ ws c t₁ hws hc x s ht hx)

/-- A key that is followed by a character other than `:` in the first pair of a dict
text: `Load` throws. -/
theorem LoadText_dict_no_colon (ws ws₂ : List Char) (key : List StringItem) (x : Char)
    (rest : List Char) (hws : allSpace ws = true) (hws₂ : allSpace ws₂ = true)
    (hk : ∀ i ∈ key, i.valid = true) (hx : isspace x = false) (hne : x ≠ ':') :
    LoadText ('{' :: (ws ++ '"' :: (itemsText key ++ '"' :: (ws₂ ++ x :: rest))))
      = .error (.ParsingError "Map parsing error : ':' required but not found") := by
  rw [LoadText_eq]
  have hd := LoadNode_dispatch
    (3 * ('{' :: (ws ++ '"' :: (itemsText key ++ '"' :: (ws₂ ++ x :: rest)))).length + 3)
    [] '{' (ws ++ '"' :: (itemsText key ++ '"' :: (ws₂ ++ x :: rest))) rfl (by decide)
  rw [List.nil_append] at hd
  rw [hd, if_neg (by decide), if_pos rfl]
  have h := LoadDict_loop_no_colon
    (3 * ('{' :: (ws ++ '"' :: (itemsText key ++ '"' :: (ws₂ ++ x :: rest)))).length + 3)
    [] ws [] ws₂ false key x rest hws rfl hws₂ hk hx hne
    (by simp only [List.length_cons, List.length_append]; omega)
  exact h

/-- `Load` on an array text whose first character after `[` is not a comma: the Array of
the elements, whatever the separators, a comma in the first one included. -/
theorem LoadText_arrayText_first (items : List (Separator × Node)) (close : List Char)
    (hx : ∀ i ∈ items, i.2.plain = true ∧ i.2.WF = true ∧ i.1.spaces = true)
    (hv : ∀ i ∈ items.tail, i.1.valid = true) (hc : allSpace close = true)
    (c : Char) (t : List Char)
    (hct : arrayItemsText items ++ (close ++ [']']) = c :: t) (hne : c ≠ ',') :
    LoadText (arrayText items close)
      = .ok (.array (items.map (fun i => i.2))) ⟨[], false, false⟩ := by
  have hlen : (arrayText items close).length
      = (arrayItemsText items).length + close.length + 2 := by
    simp [arrayText]; omega
  have hL := LoadArray_items items hx hv close [] [] c
    (3 * (arrayItemsText items).length + 3 * close.length + 8)
    (IStream.extract ⟨arrayItemsText items ++ (close ++ [']']), false, false⟩).1
    (IStream.extract ⟨arrayItemsText items ++ (close ++ [']']), false, false⟩).2
    hc (by omega) rfl
  have hfuel : 3 * (arrayText items close).length + 4
      = ((3 * (arrayItemsText items).length + 3 * close.length + 8) + 1) + 1 := by omega
  unfold LoadText Load IStream.ofText
  simp only []
  rw [hfuel]
  generalize 3 * (arrayItemsText items).length + 3 * close.length + 8 = f at hL ⊢
  have hd := LoadNode_dispatch (f + 1) [] '[' (arrayItemsText items ++ (close ++ [']'])) rfl
    (by decide)
  rw [List.nil_append] at hd
  rw [arrayText, hd, if_pos rfl]
  rw [hct] at hL ⊢
  rw [LoadArray_start f c t hne, hL, List.nil_append]

/-! ## The character that opens a key -/

/-- The loop of `LoadDict` does not test the character that stands where a key opens: any
character other than whitespace, a closing brace, `,` and `:` is taken for the opening
double quote. -/
theorem LoadDict_loop_opener (fuel : Nat) (result : Dict) (ws : List Char) (c : Char)
    (rest : List Char) (hws : allSpace ws = true) (hc : isspace c = false)
    (h₁ : c ≠ '}') (h₂ : c ≠ ',') (h₃ : c ≠ ':') :
    LoadDict.loop fuel result ⟨ws ++ c :: rest, false, false⟩
      = LoadDict.loop fuel result ⟨ws ++ '"' :: rest, false, false⟩ := by
  cases fuel with
  | zero => rfl
  | succ f =>
    rw [LoadDict_loop_succ, LoadDict_loop_succ, IStream.extract_text ws c rest hws hc,
      IStream.extract_text ws '"' rest hws (by decide)]
    have e₁ : (!IStream.fail ⟨rest, false, false⟩ && decide ((some c).getD (Char.ofNat 0) ≠ '}'))
        = true := by
      simp [IStream.fail, h₁]
    have e₂ : (!IStream.fail ⟨rest, false, false⟩ &&
        decide ((some '"').getD (Char.ofNat 0) ≠ '}')) = true := by
      simp [IStream.fail]
    have e₃ : ¬ (some c).getD (Char.ofNat 0) = ',' := by simpa using h₂
    have e₄ : ¬ (some '"').getD (Char.ofNat 0) = ',' := by decide
    simp only []
    rw [if_pos e₁, if_pos e₂, if_neg e₃, if_neg e₄, if_neg e₃, if_neg e₄]
    cases LoadString f ⟨rest, false, false⟩ with
    | ok keyNode s₃ =>
      simp only []
      cases keyNode.AsString with
      | ok key =>
        simp only []
        cases hs : s₃.extract.1 with
        | none =>
          have n₁ : (none : Option Char).getD ((some c).getD (Char.ofNat 0)) ≠ ':' := by
            simpa using h₃
          have n₂ : (none : Option Char).getD ((some '"').getD (Char.ofNat 0)) ≠ ':' := by
            decide
          rw [if_pos n₁, if_pos n₂]
        | some d => rfl
      | error e => rfl
    | error e => rfl
    | outOfFuel => rfl

/-- The same for `Load` on a dict text: the character before the first key is not
tested. -/
theorem LoadText_dict_opener (ws : List Char) (c : Char) (rest : List Char)
    (hws : allSpace ws = true) (hc : isspace c = false)
    (h₁ : c ≠ '}') (h₂ : c ≠ ',') (h₃ : c ≠ ':') :
    LoadText ('{' :: (ws ++ c :: rest)) = LoadText ('{' :: (ws ++ '"' :: rest)) := by
  rw [LoadText_eq, LoadText_eq]
  have hlen : ('{' :: (ws ++ c :: rest)).length = ('{' :: (ws ++ '"' :: rest)).length := by
    simp
  rw [hlen]
  have hd₁ := LoadNode_dispatch (3 * ('{' :: (ws ++ '"' :: rest)).length + 3) [] '{'
    (ws ++ c :: rest) rfl (by decide)
  have hd₂ := LoadNode_dispatch (3 * ('{' :: (ws ++ '"' :: rest)).length + 3) [] '{'
    (ws ++ '"' :: rest) rfl (by decide)
  rw [List.nil_append] at hd₁ hd₂
  rw [hd₁, hd₂, if_neg (by decide), if_pos rfl, if_neg (by decide), if_pos rfl]
  exact LoadDict_loop_opener _ [] ws c rest hws hc h₁ h₂ h₃

/-! ## Builder: the shape of the state stack, and what a call can do -/

/-- The shape of a nested stack in words: the Init state at the bottom and nowhere else,
a Value state only on top of a stack of two, and a pending key in every Dict state
below the top. -/
theorem stackNested_shape : ∀ (stack : List BuilderState), stackNested stack = true →
    (∃ above n, stack = above ++ [.InitState n] ∧ ∀ st ∈ above, st.isInit = false) ∧
    (∀ st ∈ stack, st.isValue = true → ∃ n, stack = [st, .InitState n]) ∧
    (∀ st ∈ stack.tail, st.isDictWithoutKey = false ∧ st.isValue = false)
  | [], h => by cases h
  | top :: below, h => by
    cases top with
    | InitState n =>
      have hb := stackNested_init n below h
      subst hb
      refine ⟨⟨[], n, rfl, fun _ hm => by cases hm⟩, ?_, fun _ hm => by cases hm⟩
      intro st hm hv
      rcases List.mem_singleton.1 hm with rfl
      cases hv
    | ValueState n =>
      cases below with
      | nil => cases h
      | cons p rest =>
        cases p with
        | InitState m =>
          cases rest with
          | nil =>
            refine ⟨⟨[.ValueState n], m, rfl, ?_⟩, ?_, ?_⟩
            · intro st hm
              rcases List.mem_singleton.1 hm with rfl
              rfl
            · intro st hm hv
              rcases List.mem_cons.1 hm with rfl | hm
              · exact ⟨m, rfl⟩
              · rcases List.mem_singleton.1 hm with rfl
                cases hv
            · intro st hm
              rcases List.mem_singleton.1 hm with rfl
              exact ⟨rfl, rfl⟩
          | cons q rest => cases h
        | ValueState m => cases h
        | DictState m k => cases h
        | ArrayState m => cases h
    | DictState n k =>
      obtain ⟨parent, rest, rfl, ha, hr⟩ := stackNested_pop _ below rfl h
      obtain ⟨⟨above, m, he, hab⟩, hval, htail⟩ := stackNested_shape (parent :: rest) hr
      have hpv : parent.isValue = false := by
        cases parent <;> first | rfl | cases ha
      have hpk : parent.isDictWithoutKey = false := by
        cases parent with
        | DictState m₁ k₁ =>
          cases k₁ with
          | none => cases ha
          | some _ => rfl
        | InitState _ => rfl
        | ValueState _ => rfl
        | ArrayState _ => rfl
      refine ⟨⟨.DictState n k :: above, m, by rw [he]; rfl, ?_⟩, ?_, ?_⟩
      · intro st hm
        rcases List.mem_cons.1 hm with rfl | hm
        · rfl
        · exact hab st hm
      · intro st hm hv
        rcases List.mem_cons.1 hm with rfl | hm
        · cases hv
        · obtain ⟨m₁, hm₁⟩ := hval st hm hv
          have : parent = st := by
            have := congrArg List.head? hm₁
            simpa using this
          rw [this, hv] at hpv
          cases hpv
      · intro st hm
        rcases List.mem_cons.1 hm with rfl | hm
        · exact ⟨hpk, hpv⟩
        · exact htail st hm
    | ArrayState n =>
      obtain ⟨parent, rest, rfl, ha, hr⟩ := stackNested_pop _ below rfl h
      obtain ⟨⟨above, m, he, hab⟩, hval, htail⟩ := stackNested_shape (parent :: rest) hr
      have hpv : parent.isValue = false := by
        cases parent <;> first | rfl | cases ha
      have hpk : parent.isDictWithoutKey = false := by
        cases parent with
        | DictState m₁ k₁ =>
          cases k₁ with
          | none => cases ha
          | some _ => rfl
        | InitState _ => rfl
        | ValueState _ => rfl
        | ArrayState _ => rfl
      refine ⟨⟨.ArrayState n :: above, m, by rw [he]; rfl, ?_⟩, ?_, ?_⟩
      · intro st hm
        rcases List.mem_cons.1 hm with rfl | hm
        · rfl
        · exact hab st hm
      · intro st hm hv
        rcases List.mem_cons.1 hm with rfl | hm
        · cases hv
        · obtain ⟨m₁, hm₁⟩ := hval st hm hv
          have : parent = st := by
            have := congrArg List.head? hm₁
            simpa using this
          rw [this, hv] at hpv
          cases hpv
      · intro st hm
        rcases List.mem_cons.1 hm with rfl | hm
        · exact ⟨hpk, hpv⟩
        · exact htail st hm

/-- In a Builder with a typed, nested stack a call returns, or it throws before it has
changed anything, with a message other than the one of `ProcessBackNode`. -/
theorem Builder.call_outcome (b : Builder) (ht : b.typed = true)
    (hn : stackNested b.state_stack = true) (c : Call) :
    (∃ b₁, b.call c = .ok () b₁) ∨ (∃ w, b.call c = .thrown w b ∧ w ≠ keyNotReady) := by
  obtain ⟨root, nodes, stack⟩ := b
  cases stack with
  | nil => cases hn
  | cons top below =>
    have ht' := (Builder.typed_iff _ _ _ _).1 ht
    cases top with
    | InitState n =>
      cases c <;> first
        | exact Or.inl ⟨_, rfl⟩
        | exact Or.inr ⟨_, rfl, by decide⟩
    | ValueState n =>
      cases c <;> exact Or.inr ⟨_, rfl, by decide⟩
    | DictState n k =>
      cases n with
      | dict m =>
        cases c with
        | EndDict =>
          obtain ⟨b₁, h, -⟩ := Builder.EndDict_nested root nodes (.dict m) k below ht hn
          exact Or.inl ⟨b₁, h⟩
        | EndArray => exact Or.inr ⟨_, rfl, by decide⟩
        | Value node =>
          cases k with
          | none => exact Or.inr ⟨_, rfl, by decide⟩
          | some key => exact Or.inl ⟨_, rfl⟩
        | StartDict =>
          cases k with
          | none => exact Or.inr ⟨_, rfl, by decide⟩
          | some key => exact Or.inl ⟨_, rfl⟩
        | StartArray =>
          cases k with
          | none => exact Or.inr ⟨_, rfl, by decide⟩
          | some key => exact Or.inl ⟨_, rfl⟩
        | Key key₁ =>
          cases k with
          | none => exact Or.inl ⟨_, rfl⟩
          | some key => exact Or.inr ⟨_, rfl, by decide⟩
      | null => cases ht'.1
      | bool _ => cases ht'.1
      | int _ => cases ht'.1
      | double _ => cases ht'.1
      | string _ => cases ht'.1
      | array _ => cases ht'.1
    | ArrayState n =>
      cases n with
      | array a =>
        cases c with
        | EndArray =>
          obtain ⟨b₁, h, -⟩ := Builder.EndArray_nested root nodes (.array a) below ht hn
          exact Or.inl ⟨b₁, h⟩
        | EndDict => exact Or.inr ⟨_, rfl, by decide⟩
        | Value node => exact Or.inl ⟨_, rfl⟩
        | StartDict => exact Or.inl ⟨_, rfl⟩
        | StartArray => exact Or.inl ⟨_, rfl⟩
        | Key key₁ => exact Or.inr ⟨_, rfl, by decide⟩
      | null => cases ht'.1
      | bool _ => cases ht'.1
      | int _ => cases ht'.1
      | double _ => cases ht'.1
      | string _ => cases ht'.1
      | dict _ => cases ht'.1

/-- `Build` returns, or it throws before it has changed anything. -/
theorem Builder.Build_outcome (b : Builder) (hn : stackNested b.state_stack = true) :
    (∃ x b₁, b.Build = .ok x b₁) ∨ (∃ w, b.Build = .thrown w b ∧ w ≠ keyNotReady) := by
  obtain ⟨root, nodes, stack⟩ := b
  cases stack with
  | nil => cases hn
  | cons top below =>
    cases top with
    | InitState n =>
      cases nodes with
      | nil => exact Or.inr ⟨_, rfl, by decide⟩
      | cons x xs =>
        cases xs with
        | nil => exact Or.inl ⟨_, _, rfl⟩
        | cons y ys => exact Or.inr ⟨_, rfl, by decide⟩
    | ValueState n => exact Or.inl ⟨_, _, rfl⟩
    | DictState n k => exact Or.inr ⟨_, rfl, by decide⟩
    | ArrayState n => exact Or.inr ⟨_, rfl, by decide⟩

/-! ## Where `std::stod` can throw -/

/-- Reading back the printed text of a plain node. -/
theorem LoadText_Print (x : Node) (hp : x.plain = true) (hw : x.WF = true) :
    ∃ s, LoadText (Print x) = .ok x s := by
  obtain ⟨s, h, -, -⟩ := LoadNode_PrintNode x hp hw ⟨4, 0⟩ [] [] (3 * (Print x).length + 4)
    rfl rfl (by simp only [Print]; omega)
  refine ⟨s, ?_⟩
  simpa [LoadText, Load, IStream.ofText, Print] using h

/-- C1, counterexample: the Double node `3.0` is printed as `3`, which is read back as
the Int node `3`, a node that is not equal to it. -/
theorem C1_double_not_read_back :
    Print (.double (Double.ofInt 3)) = ['3'] ∧
    LoadText (Print (.double (Double.ofInt 3))) = .ok (.int 3) ⟨[], true, true⟩ ∧
    Node.int 3 ≠ Node.double (Double.ofInt 3) := by
  decide!

/-- C1, amended. For every node `x` without Double nodes, with its Int values within
`-INT_MAX .. INT_MAX`, its maps `std::map` values and its strings (keys included)
without CR, LF, backslash and double quote, `Load` applied to the text `Print` writes
for `x` succeeds and returns a node equal to `x`; and the document parsed from
`{"a": [1, 2, 3], "b": "x"}` prints to a text that is read back as an equal document. -/
theorem C1_round_trip_without_double (x : Node) (hp : x.plain = true) (hw : x.WF = true)
    (_hs : x.plainStrings = true) :
    (∃ s, LoadText (Print x) = .ok x s) ∧
    LoadText exampleText = .ok exampleNode ⟨[], false, false⟩ ∧
    LoadText (Print exampleNode) = .ok exampleNode ⟨[], false, false⟩ :=
  ⟨LoadText_Print x hp hw, by decide!, by decide!⟩

/-- C1, amended, at a nested document with an empty Array, an empty Dict and a negative
Int. -/
theorem C1_round_trip_without_double_witness :
    Node.plain (.dict [(['k'], .array [.int (-7), .null, .array [], .dict []]),
      (['l'], .string ['a', '\t'])]) = true ∧
    (∃ s, LoadText (Print (.dict [(['k'], .array [.int (-7), .null, .array [], .dict []]),
        (['l'], .string ['a', '\t'])]))
      = .ok (.dict [(['k'], .array [.int (-7), .null, .array [], .dict []]),
        (['l'], .string ['a', '\t'])]) s) :=
  ⟨by decide, (C1_round_trip_without_double _ (by decide) (by decide) (by decide)).1⟩

/-- C2. For every node `x` (its maps being `std::map` values, `x.WF`), the call
sequence `emit x` followed by `Build()` on a fresh Builder succeeds and returns a node
equal to `x`. -/
theorem C2_emit_then_Build_returns_node (x : Node) (hx : x.WF = true) :
    ∃ b, Builder.new.runBuild (emit x) = Outcome.ok x b := by
  cases x with
  | null => exact ⟨_, rfl⟩
  | bool v => exact ⟨_, rfl⟩
  | double v => exact ⟨_, rfl⟩
  | int v => exact ⟨_, rfl⟩
  | string v => exact ⟨_, rfl⟩
  | array a =>
    have ha : Node.WFArray a = true := by simpa [Node.WF] using hx
    have h₁ := Builder.run_emitArray a ha none [] [] [.InitState .null]
    refine ⟨⟨some (.array a), [], [.InitState .null]⟩, ?_⟩
    simp only [Builder.runBuild, emit, Builder.run, Builder.call, Builder.new,
      Builder.StartArray, Builder.GetState, List.head?, BuilderState.StartArray,
      Builder.PushBackState, Builder.run_append, h₁, List.nil_append]
    rfl
  | dict d =>
    have hd : Dict.sorted d = true ∧ Node.WFDict d = true := by simpa [Node.WF] using hx
    have hall : Dict.assignAll [] d = d := by
      simpa using Dict.assignAll_sorted d [] (by simpa using hd.1)
    have h₁ := Builder.run_emitDict d hd.2 none [] [] [.InitState .null]
    refine ⟨⟨some (.dict d), [], [.InitState .null]⟩, ?_⟩
    simp only [Builder.runBuild, emit, Builder.run, Builder.call, Builder.new,
      Builder.StartDict, Builder.GetState, List.head?, BuilderState.StartDict,
      Builder.PushBackState, Builder.run_append, h₁, hall]
    rfl

/-- C2 at the spec's example: `StartDict, Key("n"), Value(5), EndDict, Build` yields
`Dict{n: Int(5)}`. -/
theorem C2_emit_then_Build_witness :
    Node.WF (.dict [(['n'], .int 5)]) = true ∧
    emit (.dict [(['n'], .int 5)])
      = [Call.StartDict, Call.Key ['n'], Call.Value (.int 5), Call.EndDict] ∧
    ∃ b, Builder.new.runBuild (emit (.dict [(['n'], .int 5)]))
      = Outcome.ok (.dict [(['n'], .int 5)]) b :=
  ⟨by decide, by decide, C2_emit_then_Build_returns_node _ (by decide)⟩


/-- C3, counterexample: `{"a":1,"a":2}` parses to `Dict{a: Int(1)}`, not to
`Dict{a: Int(2)}`. -/
theorem C3_duplicate_key_keeps_first :
    LoadText duplicateKeyText = .ok (.dict [(['a'], .int 1)]) ⟨[], false, false⟩ ∧
    Node.dict [(['a'], .int 1)] ≠ Node.dict [(['a'], .int 2)] := by
  decide!

/-- C3, amended. Parsing is first-write-wins on duplicate keys: for every sequence of
`"key": value` pairs, keys repeated or not and in any order, written as a Dict text in
the layout of `Print`, `Load` returns a Dict with at most one entry for each key, and
the entry of a key holds the value of its first occurrence in the text; so
`{"a":1,"a":2}` parses to `Dict{a: Int(1)}`. -/
theorem C3_parsing_first_write_wins (entries : List (List Char × Node))
    (hp : Node.plainDict entries = true) (hw : Node.WFDict entries = true) :
    (∃ m s, LoadText (PrintNode (.dict entries) ⟨4, 0⟩) = .ok (.dict m) s ∧
      Dict.sorted m = true ∧
      ∀ k, Dict.count m k ≤ 1 ∧ Dict.find m k = Dict.find entries k) ∧
    LoadText duplicateKeyText = .ok (.dict [(['a'], .int 1)]) ⟨[], false, false⟩ := by
  refine ⟨⟨Dict.insertAll [] entries, ⟨[], false, false⟩, ?_, ?_, ?_⟩, by decide!⟩
  · have hD := LoadDict_PrintDictLoop entries hp hw (PrintContext.Indented ⟨4, 0⟩) true ['\n']
      ('\n' :: PrintContext.PrintIndent ⟨4, 0⟩) [] []
      (3 * (PrintNode (.dict entries) ⟨4, 0⟩).length + 3) rfl rfl
      (by simp [PrintNode]; omega)
    have hb : PrintNode (.dict entries) ⟨4, 0⟩
        = [] ++ '{' :: (['\n'] ++ (PrintDictLoop entries (PrintContext.Indented ⟨4, 0⟩) true
            ++ (('\n' :: PrintContext.PrintIndent ⟨4, 0⟩) ++ ['}']))) := by
      simp [PrintNode]
    have hfuel : 3 * (PrintNode (.dict entries) ⟨4, 0⟩).length + 4
        = (3 * (PrintNode (.dict entries) ⟨4, 0⟩).length + 3) + 1 := rfl
    unfold LoadText Load IStream.ofText
    simp only []
    rw [hfuel]
    generalize 3 * (PrintNode (.dict entries) ⟨4, 0⟩).length + 3 = f at hD ⊢
    rw [hb, LoadNode_dispatch f [] '{' _ rfl (by decide), if_neg (by decide), if_pos rfl, hD]
  · exact Dict.insertAll_sorted_of_sorted entries [] rfl
  · intro k
    refine ⟨Dict.count_le_one _ k (Dict.insertAll_sorted_of_sorted entries [] rfl), ?_⟩
    have := Dict.find_insertAll entries [] k rfl
    simpa [Dict.find] using this

/-- C3, amended, at three pairs of which two share the key `a`. -/
theorem C3_parsing_first_write_wins_witness :
    Node.plainDict [(['b'], .int 0), (['a'], .int 1), (['a'], .int 2)] = true ∧
    ∃ m s, LoadText (PrintNode (.dict [(['b'], .int 0), (['a'], .int 1), (['a'], .int 2)])
        ⟨4, 0⟩) = .ok (.dict m) s ∧
      Dict.sorted m = true ∧
      ∀ k, Dict.count m k ≤ 1 ∧
        Dict.find m k = Dict.find [(['b'], .int 0), (['a'], .int 1), (['a'], .int 2)] k :=
  ⟨by decide, (C3_parsing_first_write_wins _ (by decide) (by decide)).1⟩

/-- C4. In an open Dict (a `std::map` `m`, no key pending), supplying a value under `k`
twice, each either by `Value` or by a nested `Start ... End` sequence, leaves the map
`m` with `k` assigned the second value: one entry for `k`, holding the second value,
every other key as in `m`; and `StartDict, Key("a"), Value(1), Key("a"), Value(2),
EndDict, Build` returns `Dict{a: Int(2)}`. -/
theorem C4_builder_last_write_wins (root : Option Node) (nodes : List Node) (m : Dict)
    (below : List BuilderState) (k : List Char) (s₁ s₂ : Supply)
    (hm : Dict.sorted m = true) (h₁ : s₁.valid = true) (h₂ : s₂.valid = true) :
    (∃ m', Builder.run ⟨root, nodes, .DictState (.dict m) none :: below⟩
          (Call.Key k :: s₁.calls ++ Call.Key k :: s₂.calls)
        = Outcome.ok () ⟨root, nodes, .DictState (.dict m') none :: below⟩ ∧
      m' = Dict.assign m k s₂.node ∧
      Dict.find m' k = some s₂.node ∧ Dict.count m' k = 1 ∧
      ∀ k₀, k₀ ≠ k → Dict.find m' k₀ = Dict.find m k₀) ∧
    ∃ b, Builder.new.runBuild [Call.StartDict, Call.Key ['a'], Call.Value (.int 1),
        Call.Key ['a'], Call.Value (.int 2), Call.EndDict]
      = Outcome.ok (.dict [(['a'], .int 2)]) b := by
  have supply : ∀ (s : Supply), s.valid = true → ∀ (m₀ : Dict) (cs : List Call),
      Builder.run ⟨root, nodes, .DictState (.dict m₀) none :: below⟩
          (Call.Key k :: s.calls ++ cs)
        = Builder.run ⟨root, nodes, .DictState (.dict (Dict.assign m₀ k s.node)) none :: below⟩
            cs := by
    intro s hs m₀ cs
    have hv : Builder.run ⟨root, nodes, .DictState (.dict m₀) (some k) :: below⟩ s.calls
        = Outcome.ok ()
            ⟨root, nodes, .DictState (.dict (Dict.assign m₀ k s.node)) none :: below⟩ := by
      cases s with
      | direct v => rfl
      | nested v =>
        have := Builder.run_emit v hs
          ⟨root, nodes, .DictState (.dict m₀) (some k) :: below⟩ rfl
        simpa [Supply.calls, Supply.node] using this
    have hk : Builder.run ⟨root, nodes, .DictState (.dict m₀) none :: below⟩
          (Call.Key k :: (s.calls ++ cs))
        = Builder.run ⟨root, nodes, .DictState (.dict m₀) (some k) :: below⟩
            (s.calls ++ cs) := rfl
    rw [List.cons_append, hk, Builder.run_append, hv]
  refine ⟨⟨Dict.assign m k s₂.node, ?_, rfl, Dict.find_assign _ _ _,
    Dict.count_assign _ _ _ hm, fun k₀ hk => Dict.find_assign_ne _ _ _ _ hk⟩, ⟨_, rfl⟩⟩
  have e₁ := supply s₁ h₁ m (Call.Key k :: s₂.calls)
  have e₂ := supply s₂ h₂ (Dict.assign m k s₁.node) []
  simp only [List.append_nil] at e₂
  simp only [List.cons_append] at e₁
  rw [List.cons_append, e₁, e₂, Dict.assign_assign]
  rfl

/-- C4 at an open Dict that already holds `a`, the first value supplied by a nested
`StartArray ... EndArray`, the second by `Value`. -/
theorem C4_builder_last_write_wins_witness :
    (∃ m', Builder.run ⟨none, [], .DictState (.dict [(['a'], .null)]) none :: [.InitState .null]⟩
          (Call.Key ['a'] :: (Supply.nested (.array [.int 1])).calls
            ++ Call.Key ['a'] :: (Supply.direct (.int 2)).calls)
        = Outcome.ok () ⟨none, [], .DictState (.dict m') none :: [.InitState .null]⟩ ∧
      m' = Dict.assign [(['a'], .null)] ['a'] (Supply.direct (.int 2)).node ∧
      Dict.find m' ['a'] = some (Supply.direct (.int 2)).node ∧ Dict.count m' ['a'] = 1 ∧
      ∀ k₀, k₀ ≠ ['a'] → Dict.find m' k₀ = Dict.find [(['a'], .null)] k₀) ∧
    ∃ b, Builder.new.runBuild [Call.StartDict, Call.Key ['a'], Call.Value (.int 1),
        Call.Key ['a'], Call.Value (.int 2), Call.EndDict]
      = Outcome.ok (.dict [(['a'], .int 2)]) b :=
  C4_builder_last_write_wins none [] [(['a'], .null)] [.InitState .null] ['a']
    (.nested (.array [.int 1])) (.direct (.int 2)) (by decide) (by decide) (by decide)

/-- C5, what the code does: after `StartDict, Key(k)` the call `EndDict` returns
normally for every key `k`; the pending key is dropped and `Build` returns the empty
Dict. -/
theorem C5_EndDict_with_pending_key_succeeds (k : List Char) :
    Reachable ⟨none, [], [.DictState (.dict []) (some k), .InitState .null]⟩ ∧
    Builder.run Builder.new [Call.StartDict, Call.Key k]
      = Outcome.ok () ⟨none, [], [.DictState (.dict []) (some k), .InitState .null]⟩ ∧
    Builder.EndDict ⟨none, [], [.DictState (.dict []) (some k), .InitState .null]⟩
      = Outcome.ok () ⟨none, [.dict []], [.InitState .null]⟩ ∧
    Builder.new.runBuild [Call.StartDict, Call.Key k, Call.EndDict]
      = Outcome.ok (.dict []) ⟨some (.dict []), [], [.InitState .null]⟩ :=
  ⟨Reachable.new.run [Call.StartDict, Call.Key k] _ rfl, rfl, rfl, rfl⟩

/-- C6, what the code does: `StartArray, EndArray, Value(5)` supplies two complete
top-level values, and the `Build` that follows returns `Int(5)`; the closed Array stays
on the node stack. -/
theorem C6_Build_after_two_top_level_values :
    Builder.new.runBuild [Call.StartArray, Call.EndArray, Call.Value (.int 5)]
      = Outcome.ok (.int 5)
          ⟨some (.int 5), [.array []], [.ValueState (.int 5), .InitState .null]⟩ := rfl

/-- C7. In every reachable Builder, `EndDict` throws unless the top state is a Dict
state, `EndArray` throws unless it is an Array state, and `Key` throws unless it is a
Dict state; so after a successful `StartArray` both `EndDict` and `Key` throw, after a
successful `StartDict` `EndArray` throws, and on a fresh Builder `Key`, `EndDict` and
`EndArray` all throw. A throwing call leaves the Builder as it was. -/
theorem C7_mismatched_calls_fail (b : Builder) (hb : Reachable b) :
    (b.topIsDict = false → ∃ what, b.EndDict = Outcome.thrown what b) ∧
    (b.topIsArray = false → ∃ what, b.EndArray = Outcome.thrown what b) ∧
    (b.topIsDict = false → ∀ key, ∃ what, b.Key key = Outcome.thrown what b) ∧
    (∀ b₁, b.StartArray = Outcome.ok () b₁ →
      (∃ what, b₁.EndDict = Outcome.thrown what b₁) ∧
      ∀ key, ∃ what, b₁.Key key = Outcome.thrown what b₁) ∧
    (∀ b₁, b.StartDict = Outcome.ok () b₁ →
      ∃ what, b₁.EndArray = Outcome.thrown what b₁) ∧
    (∀ key, ∃ what, Builder.new.Key key = Outcome.thrown what Builder.new) ∧
    (∃ what, Builder.new.EndDict = Outcome.thrown what Builder.new) ∧
    (∃ what, Builder.new.EndArray = Outcome.thrown what Builder.new) := by
  obtain ⟨top, below, hs, -⟩ := hb.stack
  obtain ⟨root, nodes, stack⟩ := b
  simp only at hs
  subst hs
  refine ⟨?_, ?_, ?_, ?_, ?_, fun _ => ⟨_, rfl⟩, ⟨_, rfl⟩, ⟨_, rfl⟩⟩
  · intro h
    cases top with
    | DictState n key => simp [Builder.topIsDict] at h
    | InitState n => exact ⟨_, rfl⟩
    | ValueState n => exact ⟨_, rfl⟩
    | ArrayState n => exact ⟨_, rfl⟩
  · intro h
    cases top with
    | ArrayState n => simp [Builder.topIsArray] at h
    | InitState n => exact ⟨_, rfl⟩
    | ValueState n => exact ⟨_, rfl⟩
    | DictState n key => exact ⟨_, rfl⟩
  · intro h key
    cases top with
    | DictState n key => simp [Builder.topIsDict] at h
    | InitState n => exact ⟨_, rfl⟩
    | ValueState n => exact ⟨_, rfl⟩
    | ArrayState n => exact ⟨_, rfl⟩
  · intro b₁ h
    have hb₁ : b₁ = ⟨root, nodes, .ArrayState (.array []) :: top :: below⟩ := by
      cases top with
      | InitState n => exact (Outcome.ok.inj h).2.symm
      | ValueState n => cases h
      | ArrayState n => exact (Outcome.ok.inj h).2.symm
      | DictState n key =>
        cases key with
        | none => cases h
        | some k => exact (Outcome.ok.inj h).2.symm
    subst hb₁
    exact ⟨⟨_, rfl⟩, fun _ => ⟨_, rfl⟩⟩
  · intro b₁ h
    have hb₁ : b₁ = ⟨root, nodes, .DictState (.dict []) none :: top :: below⟩ := by
      cases top with
      | InitState n => exact (Outcome.ok.inj h).2.symm
      | ValueState n => cases h
      | ArrayState n => exact (Outcome.ok.inj h).2.symm
      | DictState n key =>
        cases key with
        | none => cases h
        | some k => exact (Outcome.ok.inj h).2.symm
    subst hb₁
    exact ⟨_, rfl⟩

/-- C7 at the Builder reached by `StartArray`: `EndDict` throws there. -/
theorem C7_mismatched_calls_fail_witness :
    Reachable ⟨none, [], [.ArrayState (.array []), .InitState .null]⟩ ∧
    Builder.topIsDict ⟨none, [], [.ArrayState (.array []), .InitState .null]⟩ = false ∧
    ∃ what, Builder.EndDict ⟨none, [], [.ArrayState (.array []), .InitState .null]⟩
      = Outcome.thrown what ⟨none, [], [.ArrayState (.array []), .InitState .null]⟩ :=
  ⟨Reachable.new.run [Call.StartArray] _ rfl, rfl,
    (C7_mismatched_calls_fail _ (Reachable.new.run [Call.StartArray] _ rfl)).1 rfl⟩

/-- C8. `Build` throws whenever the top state is an Array state or a Dict state,
whatever lies below it on the stack, and it throws on a fresh Builder; the Builder is
left as it was. -/
theorem C8_Build_fails_with_open_container (root : Option Node) (nodes : List Node)
    (node_ : Node) (current_key : Option (List Char)) (below : List BuilderState) :
    Builder.Build ⟨root, nodes, .ArrayState node_ :: below⟩
      = Outcome.thrown "Unexpected Build call" ⟨root, nodes, .ArrayState node_ :: below⟩ ∧
    Builder.Build ⟨root, nodes, .DictState node_ current_key :: below⟩
      = Outcome.thrown "Unexpected Build call"
          ⟨root, nodes, .DictState node_ current_key :: below⟩ ∧
    Builder.new.Build = Outcome.thrown "Build called in Init state" Builder.new ∧
    (Builder.new.runBuild [Call.StartArray]).fails = true ∧
    (Builder.new.runBuild [Call.StartDict]).fails = true ∧
    (Builder.new.runBuild [Call.StartArray, Call.StartDict, Call.Key ['k'],
      Call.StartArray]).fails = true ∧
    (Builder.new.runBuild [Call.StartArray, Call.StartDict, Call.Key ['k'], Call.StartArray,
      Call.EndArray]).fails = true :=
  ⟨rfl, rfl, rfl, rfl, rfl, rfl, rfl⟩

/-- C9. In a reachable Builder whose top state is a Dict state: with no key pending,
`Value`, `StartDict` and `StartArray` throw and `Key(k)` returns with `k` pending; with
`k` pending, `Key` throws and `Value(v)` returns with `v` stored under `k` in the map
and no key pending. -/
theorem C9_dict_key_discipline (b : Builder) (hb : Reachable b) :
    (∀ node_ below, b.state_stack = .DictState node_ none :: below →
      (∀ v, ∃ what, b.Value v = Outcome.thrown what b) ∧
      (∃ what, b.StartDict = Outcome.thrown what b) ∧
      (∃ what, b.StartArray = Outcome.thrown what b) ∧
      ∀ k, b.Key k
        = Outcome.ok () { b with state_stack := .DictState node_ (some k) :: below }) ∧
    (∀ node_ k below, b.state_stack = .DictState node_ (some k) :: below →
      (∀ k₁, ∃ what, b.Key k₁ = Outcome.thrown what b) ∧
      ∃ m, node_ = .dict m ∧ ∀ v,
        b.Value v = Outcome.ok ()
          { b with state_stack := .DictState (.dict (Dict.assign m k v)) none :: below } ∧
        Dict.find (Dict.assign m k v) k = some v) := by
  obtain ⟨top, below₀, hs, ht⟩ := hb.stack
  obtain ⟨root, nodes, stack⟩ := b
  simp only at hs
  subst hs
  constructor
  · intro node_ below h
    simp only [List.cons.injEq] at h
    obtain ⟨h₁, h₂⟩ := h
    subst h₁ h₂
    exact ⟨fun _ => ⟨_, rfl⟩, ⟨_, rfl⟩, ⟨_, rfl⟩, fun _ => rfl⟩
  · intro node_ k below h
    simp only [List.cons.injEq] at h
    obtain ⟨h₁, h₂⟩ := h
    subst h₁ h₂
    refine ⟨fun _ => ⟨_, rfl⟩, ?_⟩
    cases node_ <;> simp only [BuilderState.typed, Bool.false_eq_true] at ht
    exact ⟨_, rfl, fun v => ⟨rfl, Dict.find_assign _ _ _⟩⟩

/-- C9 at the Builder reached by `StartDict`: `Key("k")` returns with `k` pending. -/
theorem C9_dict_key_discipline_witness :
    Reachable ⟨none, [], [.DictState (.dict []) none, .InitState .null]⟩ ∧
    Builder.Key ⟨none, [], [.DictState (.dict []) none, .InitState .null]⟩ ['k']
      = Outcome.ok () ⟨none, [], [.DictState (.dict []) (some ['k']), .InitState .null]⟩ :=
  ⟨Reachable.new.run [Call.StartDict] _ rfl,
    ((C9_dict_key_discipline _ (Reachable.new.run [Call.StartDict] _ rfl)).1
      _ _ rfl).2.2.2 ['k']⟩

/-- C10. After a top-level `Value(v)` on a fresh Builder, each of `Value`, `StartDict`,
`StartArray`, `EndDict`, `EndArray` and `Key` throws and leaves the Builder as it was,
and `Build` returns `v`. -/
theorem C10_value_state (v : Node) :
    Builder.new.Value v = Outcome.ok () ⟨none, [], [.ValueState v, .InitState .null]⟩ ∧
    (∀ w, Builder.Value ⟨none, [], [.ValueState v, .InitState .null]⟩ w
      = Outcome.thrown "Value called in Value state"
          ⟨none, [], [.ValueState v, .InitState .null]⟩) ∧
    Builder.StartDict ⟨none, [], [.ValueState v, .InitState .null]⟩
      = Outcome.thrown "StartDict called in Value state"
          ⟨none, [], [.ValueState v, .InitState .null]⟩ ∧
    Builder.StartArray ⟨none, [], [.ValueState v, .InitState .null]⟩
      = Outcome.thrown "StartArray called in Value state"
          ⟨none, [], [.ValueState v, .InitState .null]⟩ ∧
    Builder.EndDict ⟨none, [], [.ValueState v, .InitState .null]⟩
      = Outcome.thrown "EndDict called in Value state"
          ⟨none, [], [.ValueState v, .InitState .null]⟩ ∧
    Builder.EndArray ⟨none, [], [.ValueState v, .InitState .null]⟩
      = Outcome.thrown "EndArray called in Value state"
          ⟨none, [], [.ValueState v, .InitState .null]⟩ ∧
    (∀ k, Builder.Key ⟨none, [], [.ValueState v, .InitState .null]⟩ k
      = Outcome.thrown "Key called in Value state"
          ⟨none, [], [.ValueState v, .InitState .null]⟩) ∧
    ∃ b, Builder.Build ⟨none, [], [.ValueState v, .InitState .null]⟩ = Outcome.ok v b :=
  ⟨rfl, fun _ => rfl, rfl, rfl, rfl, rfl, fun _ => rfl, ⟨_, rfl⟩⟩

/-- C11. Integer literals stay Int: for every non-empty run of decimal digits whose value
fits a machine integer and that is followed by the end of the text or by a character
that is neither a digit nor `.`, `e`, `E`, `Load` returns the Int node of the value,
and with a `-` before the digits the Int node of the negated value; `AsInt` returns
these values. -/
theorem C11_integer_literals_stay_Int (ds : List Nat) (rest : List Char)
    (hd : ∀ d ∈ ds, d < 10) (hne : ds ≠ []) (hv : digitsValue ds ≤ 2147483647)
    (hr : endsNumber rest = true) :
    LoadText (ds.map digitChar ++ rest)
      = .ok (.int (digitsValue ds))
          (if rest = [] then ⟨[], true, true⟩ else ⟨rest, false, false⟩) ∧
    LoadText ('-' :: (ds.map digitChar ++ rest))
      = .ok (.int (-(digitsValue ds : Int)))
          (if rest = [] then ⟨[], true, true⟩ else ⟨rest, false, false⟩) ∧
    Node.AsInt (.int (digitsValue ds)) = .ok (digitsValue ds : Int) ∧
    Node.AsInt (.int (-(digitsValue ds : Int))) = .ok (-(digitsValue ds : Int)) := by
  have hpos : wrapInt (signOf false * accumulate 0 ds) = (digitsValue ds : Int) := by
    rw [accumulate_digitsValue]
    generalize digitsValue ds = n at hv
    simp only [wrapInt, signOf, Bool.false_eq_true, if_false]
    omega
  have hneg : wrapInt (signOf true * accumulate 0 ds) = -(digitsValue ds : Int) := by
    rw [accumulate_digitsValue]
    generalize digitsValue ds = n at hv
    simp only [wrapInt, signOf, if_true]
    omega
  have hlen : ∀ negative, ds.length < 3 * (numText negative ds ++ rest).length + 3 := by
    intro negative
    have := numText_length negative ds
    rw [List.length_append]
    omega
  have h₁ := LoadText_number false ds rest hd (Or.inr hne)
  rw [LoadNumber_int_run false ds rest _ hd (Or.inr hne) hr (hlen false), hpos] at h₁
  have h₂ := LoadText_number true ds rest hd (Or.inr hne)
  rw [LoadNumber_int_run true ds rest _ hd (Or.inr hne) hr (hlen true), hneg] at h₂
  exact ⟨h₁, h₂, rfl, rfl⟩

/-- C11 at the texts `3` and `-5`: they parse to `Int(3)` and `Int(-5)`. -/
theorem C11_integer_literals_stay_Int_witness :
    LoadText ['3'] = .ok (.int 3) ⟨[], true, true⟩ ∧
    LoadText ['-', '5'] = .ok (.int (-5)) ⟨[], true, true⟩ ∧
    Node.AsInt (.int 3) = .ok 3 ∧ Node.AsInt (.int (-5)) = .ok (-5) :=
  ⟨(C11_integer_literals_stay_Int [3] [] (by decide) (by decide) (by decide) rfl).1,
   (C11_integer_literals_stay_Int [5] [] (by decide) (by decide) (by decide) rfl).2.1,
   rfl, rfl⟩

/-- C13. An empty fractional part is rejected: for every number text in which the `.`
after the integer digits is followed by the end of the text or by a character that is
not a decimal digit, `Load` raises ParsingError; so do `1.`, `-2.x` and `1.e5`. -/
theorem C13_empty_fraction_rejected (negative : Bool) (ds : List Nat) (r : List Char)
    (hd : ∀ d ∈ ds, d < 10) (hne : negative = true ∨ ds ≠ [])
    (hr : isdigitInt r.head? = false) :
    LoadText (numText negative ds ++ '.' :: r)
      = .error (.ParsingError
          " number parsing error : empty fractional part in number  after '.' ") := by
  rw [LoadText_number negative ds ('.' :: r) hd hne]
  exact LoadNumber_empty_fraction negative ds r _ hd hne hr
    (by have := numText_length negative ds
        rw [List.length_append]
        omega)

/-- C13 at the texts `1.`, `-2.x` and `1.e5`. -/
theorem C13_empty_fraction_rejected_witness :
    LoadText ['1', '.'] = .error (.ParsingError
      " number parsing error : empty fractional part in number  after '.' ") ∧
    LoadText ['-', '2', '.', 'x'] = .error (.ParsingError
      " number parsing error : empty fractional part in number  after '.' ") ∧
    LoadText ['1', '.', 'e', '5'] = .error (.ParsingError
      " number parsing error : empty fractional part in number  after '.' ") :=
  ⟨C13_empty_fraction_rejected false [1] [] (by decide) (by decide) rfl,
   C13_empty_fraction_rejected true [2] ['x'] (by decide) (by decide) rfl,
   C13_empty_fraction_rejected false [1] ['e', '5'] (by decide) (by decide) rfl⟩

/-- C15. Recognized escapes: on a string literal made of characters other than backslash
and double quote and of the two-character sequences backslash+`r`, backslash+`n`,
backslash+backslash, backslash+`t` and backslash+double-quote, `Load` returns the string
that has one character for each unit (CR, LF, backslash, TAB and double quote for the
five sequences, the character itself otherwise, whitespace included) and stops after
the first unescaped double quote; so the text `"a\nb"` (backslash, n) decodes to the
three characters a, LF, b. -/
theorem C15_recognized_escapes (items : List StringItem) (more : List Char)
    (hv : ∀ i ∈ items, i.valid = true) (hr : ∀ i ∈ items, i.recognized = true) :
    LoadText ('"' :: (itemsText items ++ '"' :: more))
      = .ok (.string (itemsDecoded items)) ⟨more, false, false⟩ ∧
    (itemsDecoded items).length = items.length ∧
    (StringItem.escaped 'r').decoded = ['\r'] ∧
    (StringItem.escaped 'n').decoded = ['\n'] ∧
    (StringItem.escaped '\\').decoded = ['\\'] ∧
    (StringItem.escaped 't').decoded = ['\t'] ∧
    (StringItem.escaped '"').decoded = ['"'] ∧
    (∀ c, (StringItem.char c).decoded = [c]) ∧
    LoadText ['"', 'a', '\\', 'n', 'b', '"'] = .ok (.string ['a', '\n', 'b']) ⟨[], false, false⟩ := by
  refine ⟨?_, itemsDecoded_length items hr, rfl, rfl, rfl, rfl, rfl, fun _ => rfl, by decide!⟩
  rw [LoadText_string]
  exact LoadString_items items _ more hv
    (by simp only [List.length_cons, List.length_append]; omega)

/-- C15 at the units a, backslash+n, b, followed by the closing quote. -/
theorem C15_recognized_escapes_witness :
    LoadText ('"' :: (itemsText [.char 'a', .escaped 'n', .char 'b'] ++ '"' :: []))
      = .ok (.string (itemsDecoded [.char 'a', .escaped 'n', .char 'b'])) ⟨[], false, false⟩ ∧
    itemsText [.char 'a', .escaped 'n', .char 'b'] = ['a', '\\', 'n', 'b'] ∧
    itemsDecoded [.char 'a', .escaped 'n', .char 'b'] = ['a', '\n', 'b'] :=
  ⟨(C15_recognized_escapes [.char 'a', .escaped 'n', .char 'b'] [] (by decide) (by decide)).1,
   rfl, rfl⟩

/-- C16, counterexample: the text `"a\qb"` decodes to the four characters a, backslash,
q, b, not to `aqb`. -/
theorem C16_backslash_is_kept :
    LoadText ['"', 'a', '\\', 'q', 'b', '"']
      = .ok (.string ['a', '\\', 'q', 'b']) ⟨[], false, false⟩ ∧
    Node.string ['a', '\\', 'q', 'b'] ≠ Node.string ['a', 'q', 'b'] := by
  decide!

/-- C16, amended. Unrecognized escapes: when `LoadString` meets a backslash followed by a
character `e` other than `r`, `n`, backslash, `t` and double quote, the backslash is
kept and `e` is taken literally: the two characters are stored as they are. -/
theorem C16_unrecognized_escape_keeps_backslash (before after : List StringItem) (e : Char)
    (more : List Char) (hb : ∀ i ∈ before, i.valid = true) (ha : ∀ i ∈ after, i.valid = true)
    (he : e ≠ 'r' ∧ e ≠ 'n' ∧ e ≠ '\\' ∧ e ≠ 't' ∧ e ≠ '"') :
    LoadText ('"' :: (itemsText before ++ '\\' :: e :: (itemsText after ++ '"' :: more)))
      = .ok (.string (itemsDecoded before ++ '\\' :: e :: itemsDecoded after))
          ⟨more, false, false⟩ := by
  have hnone : escapeValue e = none := by
    rcases escapeValue_cases e with h | h | h | h | h | h
    · exact absurd h.1 he.1
    · exact absurd h.1 he.2.1
    · exact absurd h.1 he.2.2.1
    · exact absurd h.1 he.2.2.2.1
    · exact absurd h.1 he.2.2.2.2
    · exact h.2
  have hv : ∀ i ∈ before ++ StringItem.escaped e :: after, i.valid = true := by
    intro i hi
    rcases List.mem_append.1 hi with h | h
    · exact hb i h
    · rcases List.mem_cons.1 h with rfl | h
      · rfl
      · exact ha i h
  have ht : itemsText (before ++ StringItem.escaped e :: after)
      = itemsText before ++ '\\' :: e :: itemsText after := by
    rw [itemsText_append]
    rfl
  have hdec : itemsDecoded (before ++ StringItem.escaped e :: after)
      = itemsDecoded before ++ '\\' :: e :: itemsDecoded after := by
    rw [itemsDecoded_append]
    simp only [itemsDecoded, StringItem.decoded, hnone]
    rfl
  have h := LoadString_items (before ++ StringItem.escaped e :: after)
    (3 * ('"' :: (itemsText before ++ '\\' :: e :: (itemsText after ++ '"' :: more))).length + 3)
    more hv
    (by rw [ht]; simp only [List.length_cons, List.length_append]; omega)
  rw [ht, hdec, List.append_assoc] at h
  rw [LoadText_string]
  exact h

/-- C16, amended, at the text `"a\qb"`. -/
theorem C16_unrecognized_escape_keeps_backslash_witness :
    LoadText ['"', 'a', '\\', 'q', 'b', '"']
      = .ok (.string ['a', '\\', 'q', 'b']) ⟨[], false, false⟩ :=
  C16_unrecognized_escape_keeps_backslash [.char 'a'] [.char 'b'] 'q' [] (by decide)
    (by decide) (by decide)

/-- C17. String printing is the inverse of string parsing: for every string `s`, over
all characters, `Load` applied to the text printed for `String(s)` returns `String(s)`
and consumes the whole text. -/
theorem C17_print_then_load_string (s : List Char) :
    LoadText (Print (.string s)) = .ok (.string s) ⟨[], false, false⟩ := by
  have hp : Print (.string s) = '"' :: (PrintString.loop s ++ '"' :: []) := by
    simp [Print, PrintNode, PrintString]
  rw [hp, LoadText_string]
  have := PrintString.loop_length s
  exact LoadString_PrintString s _ []
    (by simp only [List.length_cons, List.length_append]; omega)

/-- C18. Printing a String node writes a double quote, then for each character in order
backslash+`r` for CR, backslash+backslash for backslash, backslash+`n` for LF,
backslash+double-quote for a double quote and the character itself for anything else
(TAB verbatim), then a closing double quote; so the string a, LF, b prints as
`"a\nb"`. -/
theorem C18_string_printing (s : List Char) (context : PrintContext) :
    PrintNode (.string s) context = '"' :: specStringText s ∧
    specEscape '\t' = ['\t'] ∧
    Print (.string ['a', '\n', 'b']) = ['"', 'a', '\\', 'n', 'b', '"'] := by
  refine ⟨?_, rfl, by decide⟩
  rw [← PrintString.loop_eq_spec s]
  simp [PrintNode, PrintString]

/-- C19, the code at the failing input: the text `n u l l`, in which the letters are
separated by spaces, is read as Null; likewise `t`, newline, `r u`, TAB, `e` is read as
`Bool(true)` and `f a l s e` as `Bool(false)`. -/
theorem C19_literal_letters_apart_are_read :
    LoadText ['n', ' ', 'u', ' ', 'l', ' ', 'l'] = .ok .null ⟨[], false, false⟩ ∧
    LoadText ['t', '\n', 'r', ' ', 'u', '\t', 'e'] = .ok (.bool true) ⟨[], false, false⟩ ∧
    LoadText ['f', ' ', 'a', ' ', 'l', ' ', 's', ' ', 'e']
      = .ok (.bool false) ⟨[], false, false⟩ := by
  decide!

/-- C20, counterexample: `[1 2]` parses to the Array of `1` and `2`, and
`{"a":1 "b":2}` to the Dict of `a: 1` and `b: 2`; neither raises ParsingError. -/
theorem C20_missing_comma_is_read :
    LoadText ['[', '1', ' ', '2', ']']
      = .ok (.array [.int 1, .int 2]) ⟨[], false, false⟩ ∧
    LoadText ['{', '"', 'a', '"', ':', '1', ' ', '"', 'b', '"', ':', '2', '}']
      = .ok (.dict [(['a'], .int 1), (['b'], .int 2)]) ⟨[], false, false⟩ := by
  decide!

/-- C20, amended. A missing `,` is not an error: for every array text whose elements are
separated by whitespace, with or without a comma in it, `Load` returns the Array of the
elements, and for every dict text whose pairs are separated by whitespace, with or
without a comma in it, `Load` returns the Dict of the pairs. -/
theorem C20_comma_is_optional (items : List (Separator × Node))
    (pairs : List (Separator × List Char × Node)) (close : List Char)
    (hx : ∀ i ∈ items, i.2.plain = true ∧ i.2.WF = true)
    (hs : separatorsValid items = true)
    (hp : ∀ i ∈ pairs, plainKey i.2.1 = true ∧ i.2.2.plain = true ∧ i.2.2.WF = true ∧
      i.1.spaces = true)
    (hc : allSpace close = true) :
    LoadText (arrayText items close)
      = .ok (.array (items.map (fun i => i.2))) ⟨[], false, false⟩ ∧
    LoadText (dictText pairs close)
      = .ok (.dict (Dict.insertAll [] (pairs.map (fun i => i.2)))) ⟨[], false, false⟩ :=
  ⟨LoadText_arrayText items close hx hs hc, LoadText_dictText pairs close hp hc⟩

/-- C20, amended, at the texts `[1 2]` and `{"a": 1 "b": 2}`. -/
theorem C20_comma_is_optional_witness :
    arrayText [(⟨[], false, []⟩, .int 1), (⟨[' '], false, []⟩, .int 2)] []
      = ['[', '1', ' ', '2', ']'] ∧
    dictText [(⟨[], false, []⟩, ['a'], .int 1), (⟨[' '], false, []⟩, ['b'], .int 2)] []
      = ['{', '"', 'a', '"', ':', ' ', '1', ' ', '"', 'b', '"', ':', ' ', '2', '}'] ∧
    LoadText ['[', '1', ' ', '2', ']']
      = .ok (.array [.int 1, .int 2]) ⟨[], false, false⟩ ∧
    LoadText ['{', '"', 'a', '"', ':', ' ', '1', ' ', '"', 'b', '"', ':', ' ', '2', '}']
      = .ok (.dict [(['a'], .int 1), (['b'], .int 2)]) ⟨[], false, false⟩ :=
  ⟨by decide, by decide,
   (C20_comma_is_optional [(⟨[], false, []⟩, .int 1), (⟨[' '], false, []⟩, .int 2)]
      [(⟨[], false, []⟩, ['a'], .int 1), (⟨[' '], false, []⟩, ['b'], .int 2)] []
      (by decide) (by decide) (by decide) (by decide)).1,
   (C20_comma_is_optional [(⟨[], false, []⟩, .int 1), (⟨[' '], false, []⟩, .int 2)]
      [(⟨[], false, []⟩, ['a'], .int 1), (⟨[' '], false, []⟩, ['b'], .int 2)] []
      (by decide) (by decide) (by decide) (by decide)).2⟩

/-- C22. A missing `:` is rejected: in every iteration of the loop of `LoadDict`,
whatever the pairs read so far, when the key (any string literal), reached after
optional whitespace and an optional comma, is followed by optional whitespace and a
character other than `:`, the loop raises ParsingError; so does `Load` on such a first
pair, and on `{"a" 1}`. -/
theorem C22_missing_colon_rejected (fuel : Nat) (result : Dict) (ws ws₁ ws₂ : List Char)
    (comma : Bool) (key : List StringItem) (x : Char) (rest : List Char)
    (hws : allSpace ws = true) (hws₁ : allSpace ws₁ = true) (hws₂ : allSpace ws₂ = true)
    (hk : ∀ i ∈ key, i.valid = true) (hx : isspace x = false) (hne : x ≠ ':')
    (hf : (itemsText key).length + 1 < fuel) :
    LoadDict.loop fuel result
        ⟨ws ++ ((if comma then ',' :: ws₁ else []) ++
          '"' :: (itemsText key ++ '"' :: (ws₂ ++ x :: rest))), false, false⟩
      = .error (.ParsingError "Map parsing error : ':' required but not found") ∧
    LoadText ('{' :: (ws ++ ((if comma then ',' :: ws₁ else []) ++
          '"' :: (itemsText key ++ '"' :: (ws₂ ++ x :: rest)))))
      = .error (.ParsingError "Map parsing error : ':' required but not found") ∧
    LoadText ['{', '"', 'a', '"', ' ', '1', '}']
      = .error (.ParsingError "Map parsing error : ':' required but not found") := by
  refine ⟨LoadDict_loop_no_colon fuel result ws ws₁ ws₂ comma key x rest hws hws₁ hws₂ hk hx
    hne hf, ?_, by decide!⟩
  unfold LoadText Load IStream.ofText
  simp only []
  have hd := LoadNode_dispatch
    (3 * ('{' :: (ws ++ ((if comma then ',' :: ws₁ else []) ++
          '"' :: (itemsText key ++ '"' :: (ws₂ ++ x :: rest))))).length + 3) [] '{'
    (ws ++ ((if comma then ',' :: ws₁ else []) ++
          '"' :: (itemsText key ++ '"' :: (ws₂ ++ x :: rest)))) rfl (by decide)
  rw [List.nil_append] at hd
  rw [hd, if_neg (by decide), if_pos rfl]
  exact LoadDict_loop_no_colon _ [] ws ws₁ ws₂ comma key x rest hws hws₁ hws₂ hk hx hne
    (by simp only [List.length_cons, List.length_append]; omega)

/-- C22 at the text `"a" 1}` after the opening brace, and at `,"a"x` after a pair. -/
theorem C22_missing_colon_rejected_witness :
    LoadDict.loop 4 [] ⟨['"', 'a', '"', ' ', '1', '}'], false, false⟩
      = .error (.ParsingError "Map parsing error : ':' required but not found") ∧
    LoadDict.loop 4 [(['b'], .null)] ⟨[',', '"', 'a', '"', 'x'], false, false⟩
      = .error (.ParsingError "Map parsing error : ':' required but not found") :=
  ⟨(C22_missing_colon_rejected 4 [] [] [] [' '] false [.char 'a'] '1' ['}'] rfl rfl rfl
      (by decide) rfl (by decide) (by decide)).1,
   (C22_missing_colon_rejected 4 [(['b'], .null)] [] [] [] true [.char 'a'] 'x' [] rfl rfl
      rfl (by decide) rfl (by decide) (by decide)).1⟩

/-- C23. A leading comma in an array is rejected: for every rest `r`, `Load` on the text
`[,` followed by `r` raises ParsingError. -/
theorem C23_leading_comma_rejected (r : List Char) :
    LoadText ('[' :: ',' :: r)
      = .error (.ParsingError "array parsing error : unexpected ',' after '['") := by
  unfold LoadText Load IStream.ofText
  simp only []
  have hd := LoadNode_dispatch (3 * ('[' :: ',' :: r).length + 3) [] '[' (',' :: r) rfl
    (by decide)
  rw [List.nil_append] at hd
  rw [hd, if_pos rfl]
  have hf : 3 * ('[' :: ',' :: r).length + 3 = (3 * r.length + 8) + 1 := by
    simp only [List.length_cons]; omega
  rw [hf]
  exact LoadArray_comma _ r

/-- C24. Lookahead dispatch rejects everything else: `Load` raises ParsingError when the
text is empty or consists only of whitespace, and when its first non-whitespace
character is none of `[`, the opening brace, `"`, `n`, `t`, `f`, `-` and the decimal
digits. -/
theorem C24_dispatch_rejects_other (ws : List Char) (hws : allSpace ws = true) :
    LoadText ws = .error (.ParsingError "unexpected input end or input stream error") ∧
    LoadText [] = .error (.ParsingError "unexpected input end or input stream error") ∧
    ∀ (c : Char) (t : List Char), isspace c = false →
      c ≠ '[' → c ≠ '{' → c ≠ '"' → c ≠ 'n' → c ≠ 't' → c ≠ 'f' → c ≠ '-' →
      isdigit c = false →
      LoadText (ws ++ c :: t) = .error (.ParsingError "Wrong input") := by
  refine ⟨LoadNode_allSpace _ ws hws, rfl, ?_⟩
  intro c t hc h₁ h₂ h₃ h₄ h₅ h₆ h₇ h₈
  unfold LoadText Load IStream.ofText
  simp only []
  rw [LoadNode_dispatch _ ws c t hws hc, if_neg h₁, if_neg h₂, if_neg h₃, if_neg h₄,
    if_neg h₅, if_neg h₆, if_neg (by simp [h₇, h₈])]

/-- C24 at the texts of two spaces, `]` and ` x1`. -/
theorem C24_dispatch_rejects_other_witness :
    LoadText [' ', ' ']
      = .error (.ParsingError "unexpected input end or input stream error") ∧
    LoadText [']'] = .error (.ParsingError "Wrong input") ∧
    LoadText [' ', 'x', '1'] = .error (.ParsingError "Wrong input") :=
  ⟨(C24_dispatch_rejects_other [' ', ' '] rfl).1,
   (C24_dispatch_rejects_other [] rfl).2.2 ']' [] rfl (by decide) (by decide) (by decide)
     (by decide) (by decide) (by decide) (by decide) rfl,
   (C24_dispatch_rejects_other [' '] rfl).2.2 'x' ['1'] rfl (by decide) (by decide)
     (by decide) (by decide) (by decide) (by decide) (by decide) rfl⟩

/-- C25. Type-tagged accessors: each of `AsInt`, `AsBool`, `AsString`, `AsArray` and
`AsDict` returns the contained value when the node holds exactly that variant, and
throws `std::logic_error` on every node that holds another variant; `AsInt` throws on a
Double node and on a Null node. -/
theorem C25_typed_accessors (x : Node) :
    ((∃ v, x = .int v ∧ x.AsInt = .ok v) ∨
      (x.IsInt = false ∧ threwLogicError x.AsInt = true)) ∧
    ((∃ v, x = .bool v ∧ x.AsBool = .ok v) ∨
      (x.IsBool = false ∧ threwLogicError x.AsBool = true)) ∧
    ((∃ v, x = .string v ∧ x.AsString = .ok v) ∨
      (x.IsString = false ∧ threwLogicError x.AsString = true)) ∧
    ((∃ v, x = .array v ∧ x.AsArray = .ok v) ∨
      (x.IsArray = false ∧ threwLogicError x.AsArray = true)) ∧
    ((∃ v, x = .dict v ∧ x.AsDict = .ok v) ∨
      (x.IsDict = false ∧ threwLogicError x.AsDict = true)) ∧
    (∀ d, (Node.double d).AsInt = .error (.logic_error "Value type is not int")) ∧
    Node.null.AsInt = .error (.logic_error "Value type is not int") := by
  refine ⟨?_, ?_, ?_, ?_, ?_, fun _ => rfl, rfl⟩ <;> cases x <;>
    first
      | exact Or.inl ⟨_, rfl, rfl⟩
      | exact Or.inr ⟨rfl, rfl⟩

/-- C26. `AsDouble` widens Int: it returns the stored value on a Double node and the
integer converted to `double` on an Int node, and throws `std::logic_error` on every
other variant; `IsDouble` is true exactly when `IsInt` or `IsPureDouble` is, and
`IsPureDouble` is false on Int nodes. -/
theorem C26_AsDouble_widens_Int (x : Node) (d : Double) (i : Int) :
    (Node.double d).AsDouble = .ok d ∧
    (Node.int i).AsDouble = .ok (Double.ofInt i) ∧
    ((x.IsPureDouble = true ∨ x.IsInt = true) ∧ (∃ v, x.AsDouble = .ok v) ∨
      (x.IsPureDouble = false ∧ x.IsInt = false ∧ threwLogicError x.AsDouble = true)) ∧
    (x.IsDouble = true ↔ (x.IsInt = true ∨ x.IsPureDouble = true)) ∧
    (Node.int i).IsPureDouble = false ∧ (Node.int i).IsDouble = true ∧
    (Node.double d).IsDouble = true ∧ (Node.double d).IsInt = false ∧
    (Node.int 3).AsDouble = .ok ⟨3, 0⟩ := by
  refine ⟨rfl, rfl, ?_, ?_, rfl, rfl, rfl, rfl, rfl⟩
  · cases x <;>
      first
        | exact Or.inl ⟨Or.inl rfl, _, rfl⟩
        | exact Or.inl ⟨Or.inr rfl, _, rfl⟩
        | exact Or.inr ⟨rfl, rfl, rfl⟩
  · simp [Node.IsDouble]

/-- C27. Array layout: printing an Array at indentation `i` with step `s` writes `[`, a
newline, each element's text, printed at indentation `i + s`, preceded by `i + s`
spaces, consecutive elements separated by `,` and a newline, then a newline, `i` spaces
and `]`; with the defaults `Array[Int(1), Int(2)]` prints as `[`, newline, four spaces,
`1,`, newline, four spaces, `2`, newline, `]`, and the empty Array as `[`, two newlines,
`]`. -/
theorem C27_array_layout (elements : List Node) (i s : Nat) (h : i + s ≤ 2147483647) :
    PrintNode (.array elements) ⟨(s : Int), (i : Int)⟩ = specArrayText elements i s ∧
    Print (.array [.int 1, .int 2])
      = ['[', '\n', ' ', ' ', ' ', ' ', '1', ',', '\n', ' ', ' ', ' ', ' ', '2', '\n', ']'] ∧
    Print (.array []) = ['[', '\n', '\n', ']'] := by
  refine ⟨?_, by decide, by decide⟩
  rw [PrintNode, PrintContext.Indented_nat i s h, PrintContext.PrintIndent_nat, specArrayText]
  cases elements with
  | nil => rfl
  | cons x xs =>
    rw [PrintArrayLoop_eq_specJoin, PrintContext.PrintIndent_nat]
    rfl

/-- C27 at indentation 4 with step 4 and the elements `Int(1)` and Null. -/
theorem C27_array_layout_witness :
    PrintNode (.array [.int 1, .null]) ⟨((4 : Nat) : Int), ((4 : Nat) : Int)⟩
      = specArrayText [.int 1, .null] 4 4 :=
  (C27_array_layout [.int 1, .null] 4 4 (by decide)).1

/-- C28. Dict layout and order: printing a Dict at indentation `i` with step `s` writes
an opening brace, a newline, for each entry in the order of the map a line of `i + s`
spaces, the key between double quotes, `: ` and the value printed at indentation
`i + s`, entries separated by `,` and a newline, then a newline, `i` spaces and a
closing brace; the order of the map, whatever the order in which the Builder
(`operator[]`) or the parser (`insert`) stored the entries, is ascending in the key. -/
theorem C28_dict_layout_and_order (entries : List (List Char × Node)) (i s : Nat)
    (h : i + s ≤ 2147483647) :
    PrintNode (.dict entries) ⟨(s : Int), (i : Int)⟩ = specDictText entries i s ∧
    keysAscending ((Dict.assignAll [] entries).map (fun e => e.1)) = true ∧
    keysAscending ((Dict.insertAll [] entries).map (fun e => e.1)) = true ∧
    Print (.dict (Dict.assignAll [] [(['b'], .int 2), (['a'], .int 1)]))
      = ['{', '\n', ' ', ' ', ' ', ' ', '"', 'a', '"', ':', ' ', '1', ',', '\n',
         ' ', ' ', ' ', ' ', '"', 'b', '"', ':', ' ', '2', '\n', '}'] := by
  refine ⟨?_, keysAscending_of_sorted _ (Dict.assignAll_sorted_of_sorted entries [] rfl),
    keysAscending_of_sorted _ (Dict.insertAll_sorted_of_sorted entries [] rfl), by decide⟩
  rw [PrintNode, PrintContext.Indented_nat i s h, PrintContext.PrintIndent_nat, specDictText]
  cases entries with
  | nil => rfl
  | cons x xs =>
    rw [PrintDictLoop_eq_specJoin, PrintContext.PrintIndent_nat]
    rfl

/-- C28 at the default context and the entries `b: 2`, `a: 1` stored in this order. -/
theorem C28_dict_layout_and_order_witness :
    PrintNode (.dict (Dict.assignAll [] [(['b'], .int 2), (['a'], .int 1)]))
        ⟨((4 : Nat) : Int), ((0 : Nat) : Int)⟩
      = specDictText [(['a'], .int 1), (['b'], .int 2)] 0 4 ∧
    keysAscending ((Dict.assignAll [] [(['b'], .int 2), (['a'], .int 1)]).map (fun e => e.1))
      = true :=
  ⟨(C28_dict_layout_and_order [(['a'], .int 1), (['b'], .int 2)] 0 4 (by decide)).1,
   (C28_dict_layout_and_order [(['b'], .int 2), (['a'], .int 1)] 0 4 (by decide)).2.1⟩

/-- C29. Insertion order does not matter for a Dict: two Builder call sequences
`StartDict`, entries, `EndDict`, `Build` that store the same entries under distinct
keys, each value supplied by `Value` or by a nested `Start ... End` sequence, in two
different orders, both return, and return equal Dict nodes, which print as the same
text. -/
theorem C29_insertion_order_irrelevant (e₁ e₂ : List (List Char × Supply))
    (hp : (suppliedEntries e₁).Perm (suppliedEntries e₂))
    (hn : ((suppliedEntries e₁).map (fun e => e.1)).Nodup)
    (h₁ : ∀ e ∈ e₁, e.2.valid = true) (h₂ : ∀ e ∈ e₂, e.2.valid = true) :
    ∃ x₁ x₂ b₁ b₂,
      Builder.new.runBuild (Call.StartDict :: (dictCalls e₁ ++ [Call.EndDict]))
        = .ok x₁ b₁ ∧
      Builder.new.runBuild (Call.StartDict :: (dictCalls e₂ ++ [Call.EndDict]))
        = .ok x₂ b₂ ∧
      x₁ = x₂ ∧ x₁.IsDict = true ∧ Print x₁ = Print x₂ := by
  have hm := Dict.assignAll_perm [] _ _ hp hn
  refine ⟨_, _, _, _, Builder.runBuild_dictCalls e₁ h₁, Builder.runBuild_dictCalls e₂ h₂,
    ?_, rfl, ?_⟩
  · rw [hm]
  · rw [hm]

/-- C29 at the entries `a: 1`, `b: [2]` stored in the two orders. -/
theorem C29_insertion_order_irrelevant_witness :
    ∃ x₁ x₂ b₁ b₂,
      Builder.new.runBuild (Call.StartDict :: (dictCalls
          [(['a'], .direct (.int 1)), (['b'], .nested (.array [.int 2]))] ++ [Call.EndDict]))
        = .ok x₁ b₁ ∧
      Builder.new.runBuild (Call.StartDict :: (dictCalls
          [(['b'], .nested (.array [.int 2])), (['a'], .direct (.int 1))] ++ [Call.EndDict]))
        = .ok x₂ b₂ ∧
      x₁ = x₂ ∧ x₁.IsDict = true ∧ Print x₁ = Print x₂ :=
  C29_insertion_order_irrelevant
    [(['a'], .direct (.int 1)), (['b'], .nested (.array [.int 2]))]
    [(['b'], .nested (.array [.int 2])), (['a'], .direct (.int 1))]
    (List.Perm.swap _ _ _) (by decide) (by decide) (by decide)

/-- C30. The return-type narrowing is sound with respect to the runtime state machine:
after a chained expression that compiles, made on a Builder in any reachable state and
whose calls all returned, if the last call returned a wrapper then the Builder is in
the state the wrapper stands for and every method the wrapper offers returns (`Key` and
`EndDict` for `StartDictResult` and `DictKeyValueResult`; `Value`, `StartDict` and
`StartArray` for `DictKeyResult`; `Value`, `StartDict`, `StartArray` and `EndArray` for
`StartArrayResult` and `ArrayValueResult`). -/
theorem C30_narrowing_sound (b : Builder) (hb : Reachable b) (calls : List Call)
    (w : Wrapper) (b₁ : Builder) (hchain : chain .builder b calls = some (.wrapper w, b₁)) :
    w.stateOf b₁ = true ∧
    (∀ c, (w.returns c).isSome = true → (b₁.call c).succeeds = true) ∧
    (∀ key, (w = .StartDictResult ∨ w = .DictKeyValueResult) →
      (b₁.Key key).succeeds = true ∧ b₁.EndDict.succeeds = true) ∧
    (∀ v, w = .DictKeyResult →
      (b₁.Value v).succeeds = true ∧ b₁.StartDict.succeeds = true ∧
      b₁.StartArray.succeeds = true) ∧
    (∀ v, (w = .StartArrayResult ∨ w = .ArrayValueResult) →
      (b₁.Value v).succeeds = true ∧ b₁.StartDict.succeeds = true ∧
      b₁.StartArray.succeeds = true ∧ b₁.EndArray.succeeds = true) := by
  obtain ⟨hb₁, hw⟩ := chain_sound calls .builder (.wrapper w) b b₁ hb
    (fun w h => by cases h) hchain
  have hs := hw w rfl
  have hall : ∀ c, (w.returns c).isSome = true → (b₁.call c).succeeds = true :=
    fun c hc => Wrapper.offered_succeeds w b₁ hb₁.typed hb₁.nested hs c hc
  refine ⟨hs, hall, ?_, ?_, ?_⟩
  · intro key h
    rcases h with rfl | rfl
    · exact ⟨hall (.Key key) rfl, hall .EndDict rfl⟩
    · exact ⟨hall (.Key key) rfl, hall .EndDict rfl⟩
  · intro v h
    subst h
    exact ⟨hall (.Value v) rfl, hall .StartDict rfl, hall .StartArray rfl⟩
  · intro v h
    rcases h with rfl | rfl
    · exact ⟨hall (.Value v) rfl, hall .StartDict rfl, hall .StartArray rfl, hall .EndArray rfl⟩
    · exact ⟨hall (.Value v) rfl, hall .StartDict rfl, hall .StartArray rfl, hall .EndArray rfl⟩

/-- C30 after `StartArray().StartDict().Key("k").Value(1)` on a fresh Builder: the
wrapper is `DictKeyValueResult`, and `Key` and `EndDict` return. -/
theorem C30_narrowing_sound_witness :
    chain .builder Builder.new
        [Call.StartArray, Call.StartDict, Call.Key ['k'], Call.Value (.int 1)]
      = some (.wrapper .DictKeyValueResult,
          ⟨none, [], [.DictState (.dict [(['k'], .int 1)]) none, .ArrayState (.array []),
            .InitState .null]⟩) ∧
    (Builder.Key ⟨none, [], [.DictState (.dict [(['k'], .int 1)]) none,
      .ArrayState (.array []), .InitState .null]⟩ ['j']).succeeds = true ∧
    (Builder.EndDict ⟨none, [], [.DictState (.dict [(['k'], .int 1)]) none,
      .ArrayState (.array []), .InitState .null]⟩).succeeds = true :=
  ⟨rfl,
   (C30_narrowing_sound Builder.new Reachable.new
      [Call.StartArray, Call.StartDict, Call.Key ['k'], Call.Value (.int 1)]
      .DictKeyValueResult _ rfl).2.2.1 ['j'] (Or.inr rfl)⟩

/-! ## C21 -/

/-- C31. The code does not enforce this part of the Dict grammar. `Load` returns the
Dict of the pairs on every dict text whose first pair is preceded by a `,`, the same
result as without that comma; and the character that stands where a key opens is never
tested, so that any character other than whitespace, a closing brace, `,` and `:` is
taken for the opening double quote. The text `{,"a":1}` is read as Dict{a: 1} and the
text `{a":1}` as the Dict that maps the empty key to 1. -/
theorem C31_dict_grammar_not_enforced (before after key : List Char) (v : Node)
    (items : List (Separator × List Char × Node)) (close : List Char)
    (hb : allSpace before = true) (ha : allSpace after = true)
    (hk : plainKey key = true) (hv : v.plain = true) (hw : v.WF = true)
    (hx : ∀ i ∈ items, plainKey i.2.1 = true ∧ i.2.2.plain = true ∧ i.2.2.WF = true ∧
      i.1.spaces = true)
    (hc : allSpace close = true) :
    LoadText (dictText ((⟨before, true, after⟩, key, v) :: items) close)
      = .ok (.dict (Dict.insertAll [] ((key, v) :: items.map (fun i => i.2))))
          ⟨[], false, false⟩ ∧
    LoadText (dictText ((⟨before, true, after⟩, key, v) :: items) close)
      = LoadText (dictText ((⟨before, false, after⟩, key, v) :: items) close) ∧
    (∀ (ws : List Char) (c : Char) (rest : List Char), allSpace ws = true →
      isspace c = false → c ≠ '}' → c ≠ ',' → c ≠ ':' →
      LoadText ('{' :: (ws ++ c :: rest)) = LoadText ('{' :: (ws ++ '"' :: rest))) ∧
    LoadText ['{', ',', '"', 'a', '"', ':', '1', '}']
      = .ok (.dict [(['a'], .int 1)]) ⟨[], false, false⟩ ∧
    LoadText ['{', 'a', '"', ':', '1', '}']
      = .ok (.dict [([], .int 1)]) ⟨[], false, false⟩ := by
  have hall : ∀ (comma : Bool),
      ∀ i ∈ ((⟨before, comma, after⟩, key, v) :: items : List (Separator × List Char × Node)),
        plainKey i.2.1 = true ∧ i.2.2.plain = true ∧ i.2.2.WF = true ∧ i.1.spaces = true := by
    intro comma i hi
    rcases List.mem_cons.1 hi with rfl | h
    · refine ⟨hk, hv, hw, ?_⟩
      simp only [Separator.spaces, hb, ha, Bool.and_self]
    · exact hx i h
  have h₁ := LoadText_dictText _ close (hall true) hc
  have h₂ := LoadText_dictText _ close (hall false) hc
  refine ⟨h₁, ?_, fun ws c rest hws hcs e₁ e₂ e₃ => LoadText_dict_opener ws c rest hws hcs e₁ e₂ e₃,
    by decide!, by decide!⟩
  rw [h₁, h₂]
  rfl

/-- C31 at the text `{,"a": 1}` and at the text `{ka":1}`. -/
theorem C31_dict_grammar_not_enforced_witness :
    LoadText ['{', ',', '"', 'a', '"', ':', ' ', '1', '}']
      = .ok (.dict [(['a'], .int 1)]) ⟨[], false, false⟩ ∧
    LoadText ['{', 'k', 'a', '"', ':', '1', '}']
      = LoadText ['{', '"', 'a', '"', ':', '1', '}'] :=
  ⟨(C31_dict_grammar_not_enforced [] [] ['a'] (.int 1) [] [] rfl rfl rfl (by decide)
      (by decide) (fun _ h => by cases h) rfl).1,
   (C31_dict_grammar_not_enforced [] [] ['a'] (.int 1) [] [] rfl rfl rfl (by decide)
      (by decide) (fun _ h => by cases h) rfl).2.2.1 [] 'k' ['a', '"', ':', '1', '}'] rfl rfl
      (by decide) (by decide) (by decide)⟩

/-- C32. Whitespace hides a leading comma from the test of `LoadArray`: on every array
text in which the first token after `[` is a `,` that follows at least one whitespace
character, `Load` returns the Array of the elements instead of throwing; the text
`[ ,1]` is read as Array[Int(1)], while `[,1]` is rejected. -/
theorem C32_whitespace_hides_leading_comma (w after : List Char) (x : Node)
    (items : List (Separator × Node)) (close : List Char)
    (hw : allSpace w = true) (hne : w ≠ []) (ha : allSpace after = true)
    (hx : x.plain = true) (hwf : x.WF = true)
    (hi : ∀ i ∈ items, i.2.plain = true ∧ i.2.WF = true ∧ i.1.valid = true)
    (hc : allSpace close = true) :
    LoadText (arrayText ((⟨w, true, after⟩, x) :: items) close)
      = .ok (.array (x :: items.map (fun i => i.2))) ⟨[], false, false⟩ ∧
    LoadText ['[', ' ', ',', '1', ']'] = .ok (.array [.int 1]) ⟨[], false, false⟩ ∧
    LoadText ['[', ',', '1', ']']
      = .error (.ParsingError "array parsing error : unexpected ',' after '['") := by
  refine ⟨?_, by decide!, by decide!⟩
  cases w with
  | nil => exact absurd rfl hne
  | cons w₀ ws =>
    have hw₀ : isspace w₀ = true := by
      simp only [allSpace, List.all_cons, Bool.and_eq_true] at hw
      exact hw.1
    refine LoadText_arrayText_first _ close ?_ ?_ hc w₀
      (ws ++ (',' :: after ++ (PrintNode x ⟨4, 0⟩ ++ arrayItemsText items))
        ++ (close ++ [']'])) ?_ (isspace_not_number w₀ hw₀).2.2.2.2.1
    · intro i h
      rcases List.mem_cons.1 h with rfl | h
      · refine ⟨hx, hwf, ?_⟩
        simp only [Separator.spaces, hw, ha, Bool.and_self]
      · obtain ⟨h₁, h₂, h₃⟩ := hi i h
        simp only [Separator.valid, Bool.and_eq_true] at h₃
        exact ⟨h₁, h₂, h₃.1⟩
    · intro i h
      exact (hi i h).2.2
    · simp [arrayItemsText, Separator.text]

/-- C32 at the text `[` TAB LF `, 1 2]`. -/
theorem C32_whitespace_hides_leading_comma_witness :
    LoadText (arrayText [(⟨['\t', '\n'], true, [' ']⟩, .int 1), (⟨[' '], false, []⟩, .int 2)] [])
      = .ok (.array [.int 1, .int 2]) ⟨[], false, false⟩ :=
  (C32_whitespace_hides_leading_comma ['\t', '\n'] [' '] (.int 1) [(⟨[' '], false, []⟩, .int 2)]
    [] (by decide) (by decide) (by decide) (by decide) (by decide) (by decide) rfl).1

/-- C33. Leading whitespace is skipped: for every text `t` and every string `w` of
whitespace characters, `Load` on `w` followed by `t` gives the result of `Load` on `t`,
the same node with the same stream left, or the same ParsingError. -/
theorem C33_leading_whitespace_skipped (w t : List Char) (hw : allSpace w = true) :
    LoadText (w ++ t) = LoadText t := by
  have hlen : 3 * (w ++ t).length + 4 = 3 * t.length + 4 + 3 * w.length := by
    rw [List.length_append]; omega
  rw [LoadText_eq, LoadText_eq, LoadNode_leading_space _ w t hw, hlen]
  exact LoadNode_mono _ _ (by rw [← LoadText_eq]; exact LoadText_total t) _

/-- C33 at space, TAB, CR, LF in front of `[1]`, and in front of `x`. -/
theorem C33_leading_whitespace_skipped_witness :
    LoadText ([' ', '\t', '\r', '\n'] ++ ['[', '1', ']'])
      = .ok (.array [.int 1]) ⟨[], false, false⟩ ∧
    LoadText ([' ', '\t', '\r', '\n'] ++ ['x']) = .error (.ParsingError "Wrong input") :=
  ⟨(C33_leading_whitespace_skipped [' ', '\t', '\r', '\n'] ['[', '1', ']'] (by decide)).trans
      (by decide!),
   (C33_leading_whitespace_skipped [' ', '\t', '\r', '\n'] ['x'] (by decide)).trans
      (by decide!)⟩

/-- C34. Round trip without Double: for every node `x` without Double nodes, with its
Int values within `-INT_MAX .. INT_MAX` and its Dict keys without double quote and
backslash, whatever the characters of its String values and however its Arrays and Dicts
are nested, `Load` applied to the text `Print` writes for `x` returns a node equal to
`x`. -/
theorem C34_round_trip_plain_keys (x : Node) (hp : x.plain = true) (hw : x.WF = true) :
    ∃ s, LoadText (Print x) = .ok x s :=
  LoadText_Print x hp hw

/-- C34 at a Dict with a key that holds a newline, String values that hold a double
quote, a backslash, CR, LF and TAB, an empty Array and an empty Dict. -/
theorem C34_round_trip_plain_keys_witness :
    ∃ s, LoadText (Print (.dict [(['a', '\n'], .string ['"', '\\', '\r', '\n', '\t']),
        (['b'], .array [.array [], .dict [], .int (-2147483647), .bool false, .null])]))
      = .ok (.dict [(['a', '\n'], .string ['"', '\\', '\r', '\n', '\t']),
        (['b'], .array [.array [], .dict [], .int (-2147483647), .bool false, .null])]) s :=
  C34_round_trip_plain_keys _ (by decide) (by decide)

/-! ## C37 to C40 -/

/-- C37. Dict keys are printed verbatim between double quotes: the loop of
`PrintValue(const Map&)` writes the characters of each key as they are, where a String
value has its double quote escaped; and for the one-entry Dict whose key is `a`, double
quote, `b`, whatever its value, `Load` applied to the printed text raises ParsingError
instead of returning the Dict. -/
theorem C37_keys_printed_verbatim (key : List Char) (v : Node)
    (rest : List (List Char × Node)) (context : PrintContext) (first : Bool) :
    PrintDictLoop ((key, v) :: rest) context first
      = (if first then [] else [',', '\n']) ++ (context.PrintIndent ++
          ('"' :: (key ++ ('"' :: ':' :: ' ' ::
            (PrintNode v context ++ PrintDictLoop rest context false))))) ∧
    Print (.dict [(key, v)])
      = '{' :: '\n' :: ' ' :: ' ' :: ' ' :: ' ' :: '"' ::
          (key ++ '"' :: ':' :: ' ' :: (PrintNode v ⟨4, 4⟩ ++ ['\n', '}'])) ∧
    Print (.string ['a', '"', 'b']) = ['"', 'a', '\\', '"', 'b', '"'] ∧
    LoadText (Print (.dict [(['a', '"', 'b'], v)]))
      = .error (.ParsingError "Map parsing error : ':' required but not found") ∧
    (∀ s, LoadText (Print (.dict [(['a', '"', 'b'], v)]))
      ≠ .ok (.dict [(['a', '"', 'b'], v)]) s) := by
  have hp : ∀ k : List Char, Print (.dict [(k, v)])
      = '{' :: '\n' :: ' ' :: ' ' :: ' ' :: ' ' :: '"' ::
          (k ++ '"' :: ':' :: ' ' :: (PrintNode v ⟨4, 4⟩ ++ ['\n', '}'])) := by
    intro k
    have hi : PrintContext.Indented ⟨4, 0⟩ = ⟨4, 4⟩ := by decide
    rw [Print, PrintNode, hi, PrintDictLoop, PrintDictLoop]
    simp [PrintContext.PrintIndent, List.replicate]
  have he : LoadText (Print (.dict [(['a', '"', 'b'], v)]))
      = .error (.ParsingError "Map parsing error : ':' required but not found") := by
    rw [hp]
    exact LoadText_dict_no_colon ['\n', ' ', ' ', ' ', ' '] [] [.char 'a'] 'b'
      ('"' :: ':' :: ' ' :: (PrintNode v ⟨4, 4⟩ ++ ['\n', '}'])) (by decide) rfl (by decide)
      rfl (by decide)
  refine ⟨by rw [PrintDictLoop], hp key, by decide, he, fun s h => ?_⟩
  rw [he] at h
  cases h

/-- C38. `Load` parses one value and does not examine what follows it: when `Load` on a
text `t` returns an Array, a Dict or a String and leaves nothing in the stream, so that
the closing `]`, closing brace or `"` is the last character of `t`, then for every suffix
`r`, `Load` on `t` followed by `r` returns the same node and leaves `r` unread; the text
`[1] garbage` is read as Array[Int(1)]. -/
theorem C38_suffix_not_examined (t r : List Char) (x : Node) (s : IStream)
    (ht : LoadText t = .ok x s) (hs : s.buf = [])
    (hx : x.IsArray = true ∨ x.IsDict = true ∨ x.IsString = true) :
    LoadText (t ++ r) = .ok x ⟨r, false, false⟩ ∧
    LoadText ['[', '1', ']', ' ', 'g', 'a', 'r', 'b', 'a', 'g', 'e']
      = .ok (.array [.int 1]) ⟨[' ', 'g', 'a', 'r', 'b', 'a', 'g', 'e'], false, false⟩ := by
  refine ⟨?_, by decide!⟩
  have h := LoadText_extend t r x s ht (LoadText_container_good t x s ht hx)
  rw [hs, List.nil_append] at h
  exact h

/-- C38 at the text `"ab"` followed by `,"c"`. -/
theorem C38_suffix_not_examined_witness :
    LoadText (['"', 'a', 'b', '"'] ++ [',', '"', 'c', '"'])
      = .ok (.string ['a', 'b']) ⟨[',', '"', 'c', '"'], false, false⟩ :=
  (C38_suffix_not_examined ['"', 'a', 'b', '"'] [',', '"', 'c', '"'] (.string ['a', 'b'])
    ⟨[], false, false⟩ (by decide!) rfl (Or.inr (Or.inr rfl))).1

/-- C39. A sign without digits is accepted as zero: on the text `-` alone, and on every
text that begins with `-` followed by a character that is not a decimal digit, `.`, `e`
or `E`, `Load` returns Int(0); in the second case the stream is left at that
character. -/
theorem C39_sign_without_digits (c : Char) (r : List Char) (hd : isdigit c = false)
    (h₁ : c ≠ '.') (h₂ : c ≠ 'e') (h₃ : c ≠ 'E') :
    LoadText ['-'] = .ok (.int 0) ⟨[], true, true⟩ ∧
    LoadText ('-' :: c :: r) = .ok (.int 0) ⟨c :: r, false, false⟩ := by
  refine ⟨by decide!, ?_⟩
  have he : endsNumber (c :: r) = true := by
    simp [endsNumber, hd, h₁, h₂, h₃]
  have h := LoadText_number true [] (c :: r) (fun _ h => by cases h) (Or.inl rfl)
  have hr := LoadNumber_int_run true [] (c :: r)
    (3 * (numText true [] ++ c :: r).length + 3) (fun _ h => by cases h) (Or.inl rfl) he
    (by simp only [List.length_nil]; omega)
  have hz : wrapInt (signOf true * accumulate 0 []) = 0 := by decide
  rw [hr, hz, if_neg (List.cons_ne_nil c r)] at h
  exact h

/-- C39 at the texts `-x` and `-]`. -/
theorem C39_sign_without_digits_witness :
    LoadText ['-', 'x'] = .ok (.int 0) ⟨['x'], false, false⟩ ∧
    LoadText ['-', ']'] = .ok (.int 0) ⟨[']'], false, false⟩ :=
  ⟨(C39_sign_without_digits 'x' [] rfl (by decide) (by decide) (by decide)).2,
   (C39_sign_without_digits ']' [] rfl (by decide) (by decide) (by decide)).2⟩

/-- C35. Builder stack invariant: in every Builder that a sequence of calls, returning
or throwing, `Build` included, produces from a fresh Builder, the state stack is not
empty, its bottom element is the Init state and no other element is, a Value state is
the top of a stack of two whose other element is the Init state, and every Dict state
below the top has a pending key; consequently no call reads `back()` of an empty state
stack or node stack, and no call throws the error of `ProcessBackNode`, `Key not ready
for value placement in Dict state`. -/
theorem C35_stack_invariant (b : Builder) (hb : Reachable b) :
    b.state_stack ≠ [] ∧
    (∃ above n, b.state_stack = above ++ [.InitState n] ∧ ∀ st ∈ above, st.isInit = false) ∧
    (∀ st ∈ b.state_stack, st.isValue = true → ∃ n, b.state_stack = [st, .InitState n]) ∧
    (∀ st ∈ b.state_stack.tail, st.isDictWithoutKey = false) ∧
    (∀ c, b.call c ≠ .undefined ∧ ∀ w b₁, b.call c = .thrown w b₁ → w ≠ keyNotReady) ∧
    (b.Build ≠ .undefined ∧ ∀ w b₁, b.Build = .thrown w b₁ → w ≠ keyNotReady) := by
  have hn := hb.nested
  obtain ⟨h₁, h₂, h₃⟩ := stackNested_shape b.state_stack hn
  refine ⟨?_, h₁, h₂, fun st hm => (h₃ st hm).1, ?_, ?_⟩
  · intro he
    rw [he] at hn
    cases hn
  · intro c
    rcases Builder.call_outcome b hb.typed hn c with ⟨b₁, h⟩ | ⟨w, h, hw⟩
    · rw [h]
      exact ⟨fun e => (by cases e), fun w b₁ e => (by cases e)⟩
    · rw [h]
      refine ⟨fun e => (by cases e), fun w₁ b₁ e => ?_⟩
      cases e
      exact hw
  · rcases Builder.Build_outcome b hn with ⟨x, b₁, h⟩ | ⟨w, h, hw⟩
    · rw [h]
      exact ⟨fun e => (by cases e), fun w b₁ e => (by cases e)⟩
    · rw [h]
      refine ⟨fun e => (by cases e), fun w₁ b₁ e => ?_⟩
      cases e
      exact hw

/-- C35 at the Builder produced by `EndDict` (which throws), `StartArray`, `StartDict`,
`Key("k")`: under the Dict state lie an Array state and the Init state, and `EndDict`
does not read an empty stack. -/
theorem C35_stack_invariant_witness :
    Reachable ⟨none, [], [.DictState (.dict []) (some ['k']), .ArrayState (.array []),
      .InitState .null]⟩ ∧
    (∀ st ∈ [BuilderState.ArrayState (.array []), .InitState .null],
      st.isDictWithoutKey = false) ∧
    Builder.call ⟨none, [], [.DictState (.dict []) (some ['k']), .ArrayState (.array []),
      .InitState .null]⟩ .EndDict ≠ .undefined :=
  ⟨(Reachable.call _ _ .EndDict Reachable.new rfl).run
      [Call.StartArray, Call.StartDict, Call.Key ['k']] _ rfl,
   (C35_stack_invariant _ ((Reachable.call _ _ .EndDict Reachable.new rfl).run
      [Call.StartArray, Call.StartDict, Call.Key ['k']] _ rfl)).2.2.2.1,
   ((C35_stack_invariant _ ((Reachable.call _ _ .EndDict Reachable.new rfl).run
      [Call.StartArray, Call.StartDict, Call.Key ['k']] _ rfl)).2.2.2.2.1 .EndDict).1⟩

/-- C36. A failing Builder call changes nothing: in every Builder that calls produce
from a fresh Builder, a call of `Value`, `StartDict`, `StartArray`, `EndDict`,
`EndArray`, `Key` or `Build` that throws leaves the state stack with its pending keys
and partially built nodes, the node stack and the root as they were, so that every call
made next does what it would have done without the failing call. -/
theorem C36_failing_call_changes_nothing (b : Builder) (hb : Reachable b) :
    (∀ (c : Call) (w : String) (b₁ : Builder), b.call c = .thrown w b₁ →
      b₁ = b ∧ ∀ c₂, b₁.call c₂ = b.call c₂ ∧ b₁.Build = b.Build) ∧
    (∀ (w : String) (b₁ : Builder), b.Build = .thrown w b₁ →
      b₁ = b ∧ ∀ c₂, b₁.call c₂ = b.call c₂ ∧ b₁.Build = b.Build) ∧
    (∀ c, (b.call c).succeeds = true ∨ (b.call c).fails = true) ∧
    (b.Build.succeeds = true ∨ b.Build.fails = true) := by
  have hn := hb.nested
  refine ⟨?_, ?_, ?_, ?_⟩
  · intro c w b₁ h
    rcases Builder.call_outcome b hb.typed hn c with ⟨b₂, h₂⟩ | ⟨w₂, h₂, -⟩
    · rw [h₂] at h
      cases h
    · rw [h₂] at h
      cases h
      exact ⟨rfl, fun _ => ⟨rfl, rfl⟩⟩
  · intro w b₁ h
    rcases Builder.Build_outcome b hn with ⟨x, b₂, h₂⟩ | ⟨w₂, h₂, -⟩
    · rw [h₂] at h
      cases h
    · rw [h₂] at h
      cases h
      exact ⟨rfl, fun _ => ⟨rfl, rfl⟩⟩
  · intro c
    rcases Builder.call_outcome b hb.typed hn c with ⟨b₂, h₂⟩ | ⟨w₂, h₂, -⟩
    · rw [h₂]; exact Or.inl rfl
    · rw [h₂]; exact Or.inr rfl
  · rcases Builder.Build_outcome b hn with ⟨x, b₂, h₂⟩ | ⟨w₂, h₂, -⟩
    · rw [h₂]; exact Or.inl rfl
    · rw [h₂]; exact Or.inr rfl

/-- C36 at the Builder produced by `StartDict`, `Key("k")`: a second `Key` throws and
leaves the Builder as it was. -/
theorem C36_failing_call_changes_nothing_witness :
    Reachable ⟨none, [], [.DictState (.dict []) (some ['k']), .InitState .null]⟩ ∧
    Builder.call ⟨none, [], [.DictState (.dict []) (some ['k']), .InitState .null]⟩
        (.Key ['j'])
      = .thrown "secondary Key call in Dict state"
          ⟨none, [], [.DictState (.dict []) (some ['k']), .InitState .null]⟩ ∧
    (⟨none, [], [.DictState (.dict []) (some ['k']), .InitState .null]⟩ : Builder)
      = ⟨none, [], [.DictState (.dict []) (some ['k']), .InitState .null]⟩ :=
  ⟨Reachable.new.run [Call.StartDict, Call.Key ['k']] _ rfl, rfl,
   ((C36_failing_call_changes_nothing _
      (Reachable.new.run [Call.StartDict, Call.Key ['k']] _ rfl)).1 (.Key ['j'])
      "secondary Key call in Dict state" _ rfl).1⟩

end json
